import Mathlib

/-!
# Pando network protocol: edge-tier votes, engine, stake pool, sampling and rewards

A shallow embedding of the Go sources

* `core/rametronenterprise.go` (aggregated votes: `Merge`, `Abs`, `Pick`, `Validate`, `Copy`),
* `consensus/rametronenterprise.go` (the vote-aggregation engine),
* `ledger/state/rametronenterprise_pool.go` (stake pool and weight sampling),
* `consensus/rametronenterprise_vote_bookkeeper.go` (the record of recently seen votes),
* `ledger/types/coin.go` (coin arithmetic, `ParseCoinAmount`) and `common/heights.go` (height
  milestones, `LastCheckPointHeight`),
* `ledger/execution/tx_coinbase.go` (reward calculation and the coinbase executor),
* `ledger/execution/tx_deposit_stake.go` (the checks of a stake deposit),

followed by the theorems proved about them.

Conventions of the embedding:

* a Go call ends in one of three ways, see `GoResult`: it returns a value, it returns a non-nil
  `error`, or it panics;
* `common.Address` (20 bytes) and `common.Hash` (32 bytes) are the natural numbers their bytes
  spell in big-endian order, so `bytes.Compare` on two of them is the order of `Nat`;
* `uint32` and `uint64` values are natural numbers, the wrap-around written out with `%`;
* `*big.Int` values are integers (`Int`), `Div` being Euclidean division;
* a Go `string` passed to a parser is the list of its bytes.
-/

/-! ## Definitions -/

/-- Outcome of a Go call: a returned value, a returned non-nil `error`, or a run-time panic. -/
inductive GoResult (α : Type) where
  | ok (val : α)
  | error (msg : String)
  | panic (msg : String)
  deriving Repr, DecidableEq

namespace GoResult

/-- The call returned a non-nil `error`. -/
def isError {α : Type} : GoResult α → Bool
  | .error _ => true
  | _ => false

/-- The call panicked. -/
def isPanic {α : Type} : GoResult α → Bool
  | .panic _ => true
  | _ => false

/-- The call returned normally with a nil `error`. -/
def isOk {α : Type} : GoResult α → Bool
  | .ok _ => true
  | _ => false

/-- Apply a function to the returned value; errors and panics pass through. -/
def map {α β : Type} (f : α → β) : GoResult α → GoResult β
  | .ok v => .ok (f v)
  | .error msg => .error msg
  | .panic msg => .panic msg

end GoResult

namespace common

/-- A 20-byte address, read as a big-endian number. -/
abbrev Address := Nat

/-- A 32-byte hash, read as a big-endian number. -/
abbrev Hash := Nat

/-- Modelled from the spec: `Hash.IsEmpty` (package `common`, not among the sources); the hash of
an engine that has no in-flight block yet is the all-zero hash. -/
def HashIsEmpty (h : Hash) : Bool := h == 0

/-- Modulus of `uint32` arithmetic. -/
def uint32Mod : Nat := 2 ^ 32

/-- Modulus of `uint64` arithmetic. -/
def uint64Mod : Nat := 2 ^ 64

end common

namespace bls

/-- A BLS signature value. Package `crypto/bls` is not among the sources: signatures and public
keys are opaque identifiers, and every operation on them is taken as a parameter (`Scheme`). -/
abbrev Signature := Nat

/-- A BLS public key value (opaque, see `Signature`). -/
abbrev PublicKey := Nat

/-- The operations of `crypto/bls` that the embedded code calls, taken as parameters.
`none` stands for a nil `*bls.Signature`. -/
structure Scheme where
  /-- The pair `newSig := a.Copy(); newSig.Aggregate(b)`. -/
  CopyAggregate : Option Signature → Option Signature → Option Signature
  /-- The check `sig.Verify(signBytes(block), pubkey)` of a single vote. -/
  Verify : Signature → common.Hash → PublicKey → Bool
  /-- The check `sig.Verify(signBytes(block), AggregatePublicKeysVec(pubkeys, multiplies))`. -/
  VerifyAggregated : Signature → common.Hash → List PublicKey → List Nat → Bool

/-- A concrete scheme for evaluating the code on examples: signatures are numbers, aggregation
adds them (nil aggregates to nil), and every check succeeds. -/
def exampleScheme : Scheme where
  CopyAggregate := fun a b =>
    match a, b with
    | some x, some y => some (x + y)
    | _, _ => none
  Verify := fun _ _ _ => true
  VerifyAggregated := fun _ _ _ _ => true

end bls

namespace core

open common

/-- The Go struct `RametronenterpriseVote`; `Signature = none` is a nil pointer. -/
structure RametronenterpriseVote where
  Block : Hash
  Height : Nat
  Address : Address
  Signature : Option bls.Signature
  Timestamp : Int
  deriving Repr, DecidableEq

/-- The Go struct `AggregatedRametronenterpriseVotes`; `Signature = none` is a nil pointer. -/
structure AggregatedRametronenterpriseVotes where
  Block : Hash
  Multiplies : List Nat
  Addresses : List Address
  Signature : Option bls.Signature
  deriving Repr, DecidableEq

/-- The Go interface `RametronenterprisePool`, restricted to the methods that the aggregate-vote
validation and the engine call on a pool snapshot. -/
structure RametronenterprisePool where
  GetPubKeys : List Address → List bls.PublicKey
  RandomRewardWeight : Hash → Address → Int

/-- The Go method `RametronenterpriseVote.Validate`; `true` is `result.OK`. -/
def RametronenterpriseVote.Validate (s : bls.Scheme) (e : RametronenterpriseVote)
    (pubkey : bls.PublicKey) : Bool :=
  match e.Signature with
  | none => false
  | some sig => s.Verify sig e.Block pubkey

/-- The lockstep walk of `Merge` (the `for` loop and the two trailing `append`s) over what is
left of the four slices: `a.Addresses[i:]`, `a.Multiplies[i:]`, `b.Addresses[j:]`,
`b.Multiplies[j:]`. It yields `(newMultiplies, newAddresses, isSubset)`; indexing a too short
`Multiplies` slice panics, an overflowing `uint32` sum is the error of the source. -/
def mergeLoop : List Address → List Nat → List Address → List Nat →
    GoResult (List Nat × List Address × Bool)
  | [], _, [], _ => .ok ([], [], true)
  | x :: xs, aM, [], _ => .ok (aM, x :: xs, true)
  | [], _, y :: ys, bM => .ok (bM, y :: ys, false)
  | x :: xs, aM, y :: ys, bM =>
    if x = y then
      match aM, bM with
      | m :: ms, n :: ns =>
        if (m + n) % uint32Mod < m ∨ (m + n) % uint32Mod < n then
          .error "Signiature multipliers overflowed"
        else
          (mergeLoop xs ms ys ns).map
            (fun r => ((m + n) % uint32Mod :: r.1, x :: r.2.1, r.2.2))
      | _, _ => .panic "index out of range"
    else if x < y then
      match aM with
      | m :: ms => (mergeLoop xs ms (y :: ys) bM).map (fun r => (m :: r.1, x :: r.2.1, r.2.2))
      | [] => .panic "index out of range"
    else
      match bM with
      | n :: ns => (mergeLoop (x :: xs) aM ys ns).map (fun r => (n :: r.1, y :: r.2.1, false))
      | [] => .panic "index out of range"
termination_by aA _ bA _ => aA.length + bA.length

/-- The Go method `AggregatedRametronenterpriseVotes.Merge`. `ok none` is the return `nil, nil`
(the other vote is a subset), `ok (some r)` the fresh aggregate, `error` the non-nil error. -/
def AggregatedRametronenterpriseVotes.Merge (s : bls.Scheme)
    (a b : AggregatedRametronenterpriseVotes) :
    GoResult (Option AggregatedRametronenterpriseVotes) :=
  if a.Block ≠ b.Block then
    .error "Cannot merge incompatible votes"
  else
    match mergeLoop a.Addresses a.Multiplies b.Addresses b.Multiplies with
    | .error msg => .error msg
    | .panic msg => .panic msg
    | .ok (newMultiplies, newAddresses, isSubset) =>
      if isSubset then
        .ok none
      else
        .ok (some
          { Block := a.Block
            Multiplies := newMultiplies
            Addresses := newAddresses
            Signature := s.CopyAggregate a.Signature b.Signature })

/-- The Go method `Abs`: the number of non-zero multiplicities. -/
def AggregatedRametronenterpriseVotes.Abs (a : AggregatedRametronenterpriseVotes) : Nat :=
  (a.Multiplies.filter (fun m => m != 0)).length

/-- The Go method `Pick`. -/
def AggregatedRametronenterpriseVotes.Pick (a b : AggregatedRametronenterpriseVotes) :
    GoResult AggregatedRametronenterpriseVotes :=
  if a.Block ≠ b.Block then
    .error "Cannot compare incompatible votes"
  else if b.Abs > a.Abs then .ok b
  else .ok a

/-- The loop of `Validate` over adjacent addresses: `false` as soon as
`bytes.Compare(Addresses[i], Addresses[i+1]) >= 0`. -/
def addressesSorted : List Address → Bool
  | x :: y :: rest => if x ≥ y then false else addressesSorted (y :: rest)
  | _ => true

/-- The Go method `AggregatedRametronenterpriseVotes.Validate`; `ok ()` is `result.OK`, an
`error` carries the message of the source. The pool is `none` for a nil interface value. -/
def AggregatedRametronenterpriseVotes.Validate (s : bls.Scheme)
    (a : AggregatedRametronenterpriseVotes) (rametronenterprisep : Option RametronenterprisePool) :
    GoResult Unit :=
  match rametronenterprisep with
  | none => .error "empty rametronenterprisep"
  | some pool =>
    match a.Signature with
    | none => .error "signature cannot be nil"
    | some sig =>
      if a.Addresses.length = 0 then
        .error "aggregated vote is empty"
      else if a.Addresses.length ≠ a.Multiplies.length then
        .error "aggregate vote lengths are inconsisent"
      else if !addressesSorted a.Addresses then
        .error "aggregate vote addresses must be sorted"
      else if a.Addresses.any (fun addr => pool.RandomRewardWeight a.Block addr == 0) then
        .error "aggregate vote contains rametronenterprise that are not selected for checkpoint reward"
      else if !s.VerifyAggregated sig a.Block (pool.GetPubKeys a.Addresses) a.Multiplies then
        .error "signature verification failed rm"
      else
        .ok ()

/-- The Go method `Copy`: a deep clone, which is the same value. -/
def AggregatedRametronenterpriseVotes.Copy (a : AggregatedRametronenterpriseVotes) :
    AggregatedRametronenterpriseVotes :=
  { Block := a.Block, Multiplies := a.Multiplies, Addresses := a.Addresses,
    Signature := a.Signature }

/-- The constant `MinRametronenterpriseStakeDeposit`: 35000 * 10^18. -/
def MinRametronenterpriseStakeDeposit : Int := 35000 * 10 ^ 18

/-- The constant `MinRametronproStakeDeposit`: 10000 * 10^18. -/
def MinRametronproStakeDeposit : Int := 10000 * 10 ^ 18

/-- The constant `MinRametronliteStakeDeposit`: 1000 * 10^18. -/
def MinRametronliteStakeDeposit : Int := 1000 * 10 ^ 18

/-- The constant `MinRametronmobileStakeDeposit`: 250 * 10^18. -/
def MinRametronmobileStakeDeposit : Int := 250 * 10 ^ 18

/-- The multiplicity an aggregate with the given parallel slices gives to an address: the entry
of `Multiplies` at the first position holding the address, 0 for an absent address. -/
def multiplicityIn : List Address → List Nat → Address → Nat
  | x :: xs, m :: ms, k => if x = k then m else multiplicityIn xs ms k
  | _, _, _ => 0

/-- The multiplicity an aggregate gives to an address (0 when absent). -/
def AggregatedRametronenterpriseVotes.multiplicity (a : AggregatedRametronenterpriseVotes)
    (k : Address) : Nat :=
  multiplicityIn a.Addresses a.Multiplies k

/-- Well-formedness of an aggregate as a value of its Go type and of the data model: addresses
strictly ascending, `Multiplies` parallel to `Addresses`, every multiplicity a `uint32`. -/
def AggregatedRametronenterpriseVotes.WellFormed (a : AggregatedRametronenterpriseVotes) : Prop :=
  a.Addresses.Sorted (· < ·) ∧ a.Addresses.length = a.Multiplies.length ∧
    ∀ m ∈ a.Multiplies, m < uint32Mod

/-- The outcome relation of the commutativity property: both calls return nil, or both return an
aggregate and the two have the same address sequence and give every address the same
multiplicity. -/
def sameMergeOutcome (p q : GoResult (Option AggregatedRametronenterpriseVotes)) : Prop :=
  (p = .ok none ∧ q = .ok none) ∨
    ∃ r t, p = .ok (some r) ∧ q = .ok (some t) ∧ r.Addresses = t.Addresses ∧
      ∀ z, r.multiplicity z = t.multiplicity z

end core


namespace consensus

open common core

/-- The constant `maxRametronenterpriseLogNeighbors`. -/
def maxRametronenterpriseLogNeighbors : Nat := 3

/-- The constant `maxRametronenterpriseRound`. -/
def maxRametronenterpriseRound : Nat := 20

/-- The constant `sampleResultCacheSize`. -/
def sampleResultCacheSize : Nat := 1000000

/-- The sample-result cache (`lru.Cache` of the external library golang-lru): the entries, most
recently used first. -/
abbrev SampleCache := List (Address × Bool)

/-- The call `cache.Contains(key)`: membership, without touching recency. -/
def SampleCache.Contains (c : SampleCache) (key : Address) : Bool :=
  c.any (fun e => e.1 == key)

/-- The call `cache.Add(key, value)`: the entry becomes the most recent one, and the oldest entry
is evicted when the cache holds more than `sampleResultCacheSize` entries. -/
def SampleCache.Add (c : SampleCache) (key : Address) (value : Bool) : SampleCache :=
  ((key, value) :: c.filter (fun e => e.1 != key)).take sampleResultCacheSize

/-- The call `cache.Get(key)`: the value, if present, and the cache with that entry moved to the
front. -/
def SampleCache.Get (c : SampleCache) (key : Address) : Option Bool × SampleCache :=
  match c.find? (fun e => e.1 == key) with
  | none => (none, c)
  | some e => (some e.2, e :: c.filter (fun e => e.1 != key))

/-- The per-block state of the Go struct `RametronenterpriseEngine`. The two channels are the
lists of queued items, oldest first, and `queueSize` is their configured capacity. The logger,
the private key and the mutex take no part in the functions embedded here; the vote bookkeeper
is the separate value `RametronenterpriseVoteBookkeeper` that `HandleVote` takes and returns.
Every method body runs under the engine mutex, so a call is one atomic step; aggregates are
values, the sharing of a stored vote with its sender is not represented. -/
structure RametronenterpriseEngine where
  block : Hash
  round : Nat
  currVote : Option AggregatedRametronenterpriseVotes
  nextVote : Option AggregatedRametronenterpriseVotes
  rametronenterprisep : Option RametronenterprisePool
  rametronenterpriseSampleResult : SampleCache
  evIncoming : List RametronenterpriseVote
  aevIncoming : List AggregatedRametronenterpriseVotes
  queueSize : Nat

/-- The Go function `NewRametronenterpriseEngine`: every state field has its zero value. -/
def NewRametronenterpriseEngine (queueSize : Nat) : RametronenterpriseEngine :=
  { block := 0, round := 0, currVote := none, nextVote := none, rametronenterprisep := none,
    rametronenterpriseSampleResult := [], evIncoming := [], aevIncoming := [],
    queueSize := queueSize }

/-- The Go method `StartNewBlock`. The answer of
`e.engine.GetLedger().GetRametronenterprisePoolOfLastCheckpoint(block)` is the argument
`ledgerPool`; an error there panics after the votes were reset. The debug logging is left out. -/
def RametronenterpriseEngine.StartNewBlock (e : RametronenterpriseEngine) (block : Hash)
    (ledgerPool : GoResult (Option RametronenterprisePool)) :
    GoResult RametronenterpriseEngine :=
  match ledgerPool with
  | .ok pool =>
    .ok { e with
      block := block, nextVote := none, currVote := none, round := 1,
      rametronenterprisep := pool, rametronenterpriseSampleResult := [] }
  | .error msg => .panic msg
  | .panic msg => .panic msg

/-- The Go method `StartNewRound`. -/
def RametronenterpriseEngine.StartNewRound (e : RametronenterpriseEngine) :
    RametronenterpriseEngine :=
  if e.round < maxRametronenterpriseRound then
    match e.nextVote with
    | some v => { e with round := (e.round + 1) % uint32Mod, currVote := some v.Copy }
    | none => { e with round := (e.round + 1) % uint32Mod }
  else e

/-- The Go method `GetVoteToBroadcast`. -/
def RametronenterpriseEngine.GetVoteToBroadcast (e : RametronenterpriseEngine) :
    Option AggregatedRametronenterpriseVotes := e.currVote

/-- The Go method `GetBestVote`. -/
def RametronenterpriseEngine.GetBestVote (e : RametronenterpriseEngine) :
    Option AggregatedRametronenterpriseVotes := e.nextVote

/-- The Go method `maxMultiply` (a `uint32` shift). -/
def RametronenterpriseEngine.maxMultiply (k : Nat) : Nat :=
  (1 <<< ((k * maxRametronenterpriseLogNeighbors) % uint32Mod)) % uint32Mod

/-- The Go method `checkMultipliesForRound`: its loop is commented out, it returns `true`. -/
def RametronenterpriseEngine.checkMultipliesForRound (_e : RametronenterpriseEngine)
    (_vote : AggregatedRametronenterpriseVotes) (_k : Nat) : Bool := true

/-- The Go method `convertVote`. -/
def RametronenterpriseEngine.convertVote (_e : RametronenterpriseEngine)
    (ev : RametronenterpriseVote) : GoResult AggregatedRametronenterpriseVotes :=
  .ok { Block := ev.Block, Multiplies := [1], Addresses := [ev.Address],
        Signature := ev.Signature }

/-- The Go method `validateVote`, returning the verdict together with the sample cache, which
the method may have filled. Indexing `pubkeys[0]` on an empty slice and the type assertion on a
missing cache entry panic. -/
def RametronenterpriseEngine.validateVote (s : bls.Scheme) (e : RametronenterpriseEngine)
    (vote : RametronenterpriseVote) : GoResult (Bool × SampleCache) :=
  match e.rametronenterprisep with
  | none => .ok (false, e.rametronenterpriseSampleResult)
  | some pool =>
    if HashIsEmpty e.block then .ok (false, e.rametronenterpriseSampleResult)
    else if vote.Block ≠ e.block then .ok (false, e.rametronenterpriseSampleResult)
    else
      let cache1 :=
        if e.rametronenterpriseSampleResult.Contains vote.Address then
          e.rametronenterpriseSampleResult
        else if pool.RandomRewardWeight vote.Block vote.Address = 0 then
          e.rametronenterpriseSampleResult.Add vote.Address false
        else
          e.rametronenterpriseSampleResult.Add vote.Address true
      match cache1.Get vote.Address with
      | (none, _) => .panic "interface conversion: interface is nil, not bool"
      | (some selected, cache2) =>
        if !selected then .ok (false, cache2)
        else
          match pool.GetPubKeys [vote.Address] with
          | [] => .panic "index out of range"
          | pubkey :: _ =>
            if !vote.Validate s pubkey then .ok (false, cache2)
            else .ok (true, cache2)

/-- The Go method `validateAggregatedVote`. -/
def RametronenterpriseEngine.validateAggregatedVote (s : bls.Scheme)
    (e : RametronenterpriseEngine) (vote : AggregatedRametronenterpriseVotes) : Bool :=
  if HashIsEmpty e.block then false
  else if vote.Block ≠ e.block then false
  else if !e.checkMultipliesForRound vote e.round then false
  else if (vote.Validate s e.rametronenterprisep).isError then false
  else true

/-- The Go method `processVote`. The closing send `e.aevIncoming <- aggregatedVote` is a blocking
send made while the engine mutex is held: on a full channel it never completes and the engine
takes no further step, which is reported here as a panic outcome. -/
def RametronenterpriseEngine.processVote (s : bls.Scheme) (e : RametronenterpriseEngine)
    (vote : RametronenterpriseVote) : GoResult RametronenterpriseEngine :=
  match e.validateVote s vote with
  | .error msg => .error msg
  | .panic msg => .panic msg
  | .ok (false, cache) => .ok { e with rametronenterpriseSampleResult := cache }
  | .ok (true, cache) =>
    match e.convertVote vote with
    | .error _ => .ok { e with rametronenterpriseSampleResult := cache }
    | .panic msg => .panic msg
    | .ok aggregatedVote =>
      if e.aevIncoming.length < e.queueSize then
        .ok { e with
          rametronenterpriseSampleResult := cache
          aevIncoming := e.aevIncoming ++ [aggregatedVote] }
      else
        .panic "send on the full channel aevIncoming never completes"

/-- The Go method `processAggregatedVote`. -/
def RametronenterpriseEngine.processAggregatedVote (s : bls.Scheme)
    (e : RametronenterpriseEngine) (vote : AggregatedRametronenterpriseVotes) :
    GoResult RametronenterpriseEngine :=
  if !e.validateAggregatedVote s vote then .ok e
  else
    match e.nextVote with
    | none => .ok { e with nextVote := some vote }
    | some nextVote =>
      match nextVote.Merge s vote with
      | .panic msg => .panic msg
      | .error _ => .ok e
      | .ok none => .ok e
      | .ok (some candidate) =>
        if !e.checkMultipliesForRound candidate ((e.round + 1) % uint32Mod) then .ok e
        else .ok { e with nextVote := some candidate }

/-- The Go method `HandleAggregatedVote`: a non-blocking send, the vote is dropped when the
channel is full. -/
def RametronenterpriseEngine.HandleAggregatedVote (e : RametronenterpriseEngine)
    (vote : AggregatedRametronenterpriseVotes) : RametronenterpriseEngine :=
  if e.aevIncoming.length < e.queueSize then { e with aevIncoming := e.aevIncoming ++ [vote] }
  else e

/-- The engine states reachable from a fresh engine through `StartNewBlock`, `StartNewRound`,
`processVote` and `processAggregatedVote`, each called with arbitrary arguments and returning
normally. -/
inductive Reachable (s : bls.Scheme) (queueSize : Nat) : RametronenterpriseEngine → Prop where
  | init : Reachable s queueSize (NewRametronenterpriseEngine queueSize)
  | startNewBlock (e e2 : RametronenterpriseEngine) (block : Hash)
      (ledgerPool : GoResult (Option RametronenterprisePool)) :
      Reachable s queueSize e → e.StartNewBlock block ledgerPool = .ok e2 →
      Reachable s queueSize e2
  | startNewRound (e : RametronenterpriseEngine) :
      Reachable s queueSize e → Reachable s queueSize e.StartNewRound
  | processVote (e e2 : RametronenterpriseEngine) (vote : RametronenterpriseVote) :
      Reachable s queueSize e → e.processVote s vote = .ok e2 → Reachable s queueSize e2
  | processAggregatedVote (e e2 : RametronenterpriseEngine)
      (vote : AggregatedRametronenterpriseVotes) :
      Reachable s queueSize e → e.processAggregatedVote s vote = .ok e2 →
      Reachable s queueSize e2

/-- Well-formedness of an aggregate held by the engine: it is for the in-flight block, its
addresses are non-empty and strictly ascending, and `Multiplies` is parallel to `Addresses`. -/
def VoteWellFormed (e : RametronenterpriseEngine) (v : AggregatedRametronenterpriseVotes) :
    Prop :=
  v.Block = e.block ∧ v.Addresses ≠ [] ∧ v.Addresses.Sorted (· < ·) ∧
    v.Addresses.length = v.Multiplies.length

/-- A pool snapshot for evaluating the engine on examples: every address has weight 1 and the
public key 0. -/
def examplePool : RametronenterprisePool where
  GetPubKeys := fun addrs => addrs.map (fun _ => 0)
  RandomRewardWeight := fun _ _ => 1

/-- An engine state for examples: a fresh engine with queue capacity 4, after
`StartNewBlock(7)`. -/
def exampleEngine : RametronenterpriseEngine :=
  { block := 7, round := 1, currVote := none, nextVote := none,
    rametronenterprisep := some examplePool, rametronenterpriseSampleResult := [],
    evIncoming := [], aevIncoming := [], queueSize := 4 }

/-- The example engine after it accepted the aggregate `{[A,B],[1,1]}` (`A = 10`, `B = 20`). -/
def exampleEngineVoted : RametronenterpriseEngine :=
  { exampleEngine with nextVote := some ⟨7, [1, 1], [10, 20], some 3⟩ }

end consensus

namespace core

open common

/-- The Go struct `Stake` as the data model of the spec gives it: source, amount, withdrawn flag,
return height and holder. -/
structure Stake where
  Source : Address
  Amount : Int
  Withdrawn : Bool
  ReturnHeight : Nat
  Holder : Address
  deriving Repr, DecidableEq

/-- The Go struct `Rametronenterprise`: the embedded `StakeHolder` (`Holder`, `Stakes`) and the
BLS public key (`none` for a nil pointer). -/
structure Rametronenterprise where
  Holder : Address
  Stakes : List Stake
  Pubkey : Option bls.PublicKey
  deriving Repr, DecidableEq

/-- The constants of `core/stake.go`, which is not among the sources, taken as parameters: the
release period added to the current height by a withdrawal, and the return height of a newly
created stake. -/
structure StakeConfig where
  ReturnLockingPeriod : Nat
  NewStakeReturnHeight : Nat

/-- Modelled from the spec: `NewStake` of `core/stake.go`, which is not among the sources. A
stake is created by a deposit, not withdrawn; the call `core.NewStake(source, amount)` names no
holder, which therefore has the zero value. -/
def NewStake (cfg : StakeConfig) (source : Address) (amount : Int) : Stake :=
  { Source := source, Amount := amount, Withdrawn := false,
    ReturnHeight := cfg.NewStakeReturnHeight, Holder := 0 }

/-- Modelled from the spec: `StakeHolder.depositStake` of `core/stake.go`, which is not among the
sources. "Same-source stakes to the same holder accumulate"; a new source gets a new stake at
the end of the sequence. By the lifecycle of a stake (created by deposit, flagged withdrawn by
withdraw, destroyed by return) a stake flagged withdrawn takes no further deposit: that is the
error which the pool's `DepositStake` passes on. -/
def depositStakeList (cfg : StakeConfig) (source : Address) (amount : Int) :
    List Stake → GoResult (List Stake)
  | [] => .ok [NewStake cfg source amount]
  | st :: rest =>
    if st.Source = source then
      if st.Withdrawn then .error "Cannot deposit during stake withdrawal"
      else .ok ({ st with Amount := st.Amount + amount } :: rest)
    else (depositStakeList cfg source amount rest).map (fun l => st :: l)

/-- Modelled from the spec: `StakeHolder.withdrawStake` of `core/stake.go`, which is not among
the sources. It "marks the matched source's stake withdrawn=true, sets returnHeight =
currentHeight + releasePeriod" (a `uint64` sum) and returns that stake; "double-withdraw of a
stake is fatal"; an unmatched source is an error. -/
def withdrawStakeList (cfg : StakeConfig) (source : Address) (currentHeight : Nat) :
    List Stake → GoResult (Stake × List Stake)
  | [] => .error "Cannot withdraw, no matched stake source address found"
  | st :: rest =>
    if st.Source = source then
      if st.Withdrawn then .panic "Already withdrawn"
      else
        .ok ({ st with Withdrawn := true,
                       ReturnHeight := (currentHeight + cfg.ReturnLockingPeriod) % uint64Mod },
             { st with Withdrawn := true,
                       ReturnHeight := (currentHeight + cfg.ReturnLockingPeriod) % uint64Mod }
               :: rest)
    else (withdrawStakeList cfg source currentHeight rest).map (fun r => (r.1, st :: r.2))

/-- Modelled from the spec: `StakeHolder.returnStake` of `core/stake.go`, which is not among the
sources. "Return locates the stake by (source, currentHeight), removes it": the stake of that
source which is flagged withdrawn with that return height; none such is an error. -/
def returnStakeList (source : Address) (currentHeight : Nat) :
    List Stake → GoResult (Stake × List Stake)
  | [] => .error "Cannot return, no matched stake source address found"
  | st :: rest =>
    if st.Source = source ∧ st.Withdrawn = true ∧ st.ReturnHeight = currentHeight then
      .ok (st, rest)
    else (returnStakeList source currentHeight rest).map (fun r => (r.1, st :: r.2))

/-- The Go method `Rametronenterprise.DepositStake`, a call of the stake holder's method. -/
def Rametronenterprise.DepositStake (cfg : StakeConfig) (w : Rametronenterprise)
    (source : Address) (amount : Int) : GoResult Rametronenterprise :=
  (depositStakeList cfg source amount w.Stakes).map (fun l => { w with Stakes := l })

/-- The Go method `Rametronenterprise.WithdrawStake`, a call of the stake holder's method. -/
def Rametronenterprise.WithdrawStake (cfg : StakeConfig) (w : Rametronenterprise)
    (source : Address) (currentHeight : Nat) : GoResult (Stake × Rametronenterprise) :=
  (withdrawStakeList cfg source currentHeight w.Stakes).map
    (fun r => (r.1, { w with Stakes := r.2 }))

/-- The Go method `Rametronenterprise.ReturnStake`, a call of the stake holder's method. -/
def Rametronenterprise.ReturnStake (w : Rametronenterprise) (source : Address)
    (currentHeight : Nat) : GoResult (Stake × Rametronenterprise) :=
  (returnStakeList source currentHeight w.Stakes).map
    (fun r => (r.1, { w with Stakes := r.2 }))

/-- The sum of the amounts of the non-withdrawn stakes of a sequence of stakes. -/
def activeStake (stakes : List Stake) : Int :=
  ((stakes.filter (fun st => !st.Withdrawn)).map (fun st => st.Amount)).sum

/-- The amount of the first stake of the given source in a sequence of stakes, 0 if there is
none. -/
def stakeOfSource (source : Address) : List Stake → Int
  | [] => 0
  | st :: rest => if st.Source = source then st.Amount else stakeOfSource source rest

end core

namespace state

open common core

/-- The constant `rametronenterprisepRewardN`. -/
def rametronenterprisepRewardN : Int := 800

/-- The part of the Go type `StoreView` that the pool reads and writes: the entries under the
key prefix of `RametronenterpriseKey`, one per holder address, most recently written first, and
the total stake stored under `RametronenterprisesTotalActiveStakeKey`. The byte encoding of an
entry (`types.ToBytes`, `types.FromBytes`) is taken to give back the value it was given. -/
structure StoreView where
  rametronenterprises : List (Address × Rametronenterprise)
  totalRametronenterpriseStake : Int
  deriving Repr, DecidableEq

/-- The store read `sv.Get(RametronenterpriseKey(addr))`. -/
def StoreView.Get (sv : StoreView) (addr : Address) : Option Rametronenterprise :=
  (sv.rametronenterprises.find? (fun e => e.1 == addr)).map (fun e => e.2)

/-- The store write `sv.Set(RametronenterpriseKey(addr), data)`. -/
def StoreView.Set (sv : StoreView) (addr : Address) (w : Rametronenterprise) : StoreView :=
  { sv with
    rametronenterprises := (addr, w) :: sv.rametronenterprises.filter (fun e => e.1 != addr) }

/-- The store write `sv.Delete(RametronenterpriseKey(addr))`. -/
def StoreView.Delete (sv : StoreView) (addr : Address) : StoreView :=
  { sv with rametronenterprises := sv.rametronenterprises.filter (fun e => e.1 != addr) }

/-- The Go struct `RametronenterprisePool` of package `state`. -/
structure RametronenterprisePool where
  readOnly : Bool
  sv : StoreView
  deriving Repr, DecidableEq

/-- The Go function `NewRametronenterprisePool`. -/
def NewRametronenterprisePool (sv : StoreView) (readOnly : Bool) : RametronenterprisePool :=
  { readOnly := readOnly, sv := sv }

/-- The Go method `Get`. -/
def RametronenterprisePool.Get (p : RametronenterprisePool) (addr : Address) :
    Option Rametronenterprise :=
  p.sv.Get addr

/-- The Go method `Contains`. -/
def RametronenterprisePool.Contains (p : RametronenterprisePool) (addr : Address) : Bool :=
  (p.Get addr).isSome

/-- The Go method `Upsert`: the pool after the call, and how the call ended. -/
def RametronenterprisePool.Upsert (p : RametronenterprisePool) (w : Rametronenterprise) :
    RametronenterprisePool × GoResult Unit :=
  if p.readOnly then (p, .panic "RametronenterprisePool.Upsert: the pool is read-only")
  else ({ p with sv := p.sv.Set w.Holder w }, .ok ())

/-- The Go method `Remove`: the pool after the call, and how the call ended. -/
def RametronenterprisePool.Remove (p : RametronenterprisePool) (w : Rametronenterprise) :
    RametronenterprisePool × GoResult Unit :=
  if p.readOnly then (p, .panic "RametronenterprisePool.Upsert: the pool is read-only")
  else ({ p with sv := p.sv.Delete w.Holder }, .ok ())

/-- The tail of `DepositStake` and `WithdrawStake`: `Upsert`, then the update of the stored total
stake by `delta`. -/
def RametronenterprisePool.upsertAndAddTotal (p : RametronenterprisePool)
    (w : Rametronenterprise) (delta : Int) : RametronenterprisePool × GoResult Unit :=
  match p.Upsert w with
  | (p1, .ok _) =>
    ({ p1 with sv := { p1.sv with
        totalRametronenterpriseStake := p1.sv.totalRametronenterpriseStake + delta } }, .ok ())
  | (p1, .error msg) => (p1, .error msg)
  | (p1, .panic msg) => (p1, .panic msg)

/-- The Go method `DepositStake`: the pool after the call, and how the call ended (`ok ()` is a
nil error). -/
def RametronenterprisePool.DepositStake (cfg : StakeConfig) (p : RametronenterprisePool)
    (source holder : Address) (amount : Int) (pubkey : Option bls.PublicKey)
    (_blockHeight : Nat) : RametronenterprisePool × GoResult Unit :=
  if p.readOnly then (p, .panic "RametronenterprisePool.DepositStake: the pool is read-only")
  else
    match p.Get holder with
    | none =>
      p.upsertAndAddTotal
        { Holder := holder, Stakes := [NewStake cfg source amount], Pubkey := pubkey } amount
    | some w =>
      if w.Holder ≠ holder then
        (p, .panic "RametronenterprisePool.DepositStake: holder mismatch")
      else
        match w.DepositStake cfg source amount with
        | .error msg => (p, .error msg)
        | .panic msg => (p, .panic msg)
        | .ok w2 => p.upsertAndAddTotal w2 amount

/-- The Go method `WithdrawStake`: the pool after the call, and the returned stake or error. -/
def RametronenterprisePool.WithdrawStake (cfg : StakeConfig) (p : RametronenterprisePool)
    (source holder : Address) (currentHeight : Nat) : RametronenterprisePool × GoResult Stake :=
  if p.readOnly then (p, .panic "RametronenterprisePool.WithdrawStake: the pool is read-only")
  else
    match p.Get holder with
    | none => (p, .error "No matched stake holder address found")
    | some w =>
      if w.Holder ≠ holder then
        (p, .panic "RametronenterprisePool.DepositStake: holder mismatch")
      else
        match w.WithdrawStake cfg source currentHeight with
        | .error msg => (p, .error msg)
        | .panic msg => (p, .panic msg)
        | .ok (withdrawnStake, w2) =>
          match p.upsertAndAddTotal w2 (-withdrawnStake.Amount) with
          | (p1, .ok _) => (p1, .ok withdrawnStake)
          | (p1, .error msg) => (p1, .error msg)
          | (p1, .panic msg) => (p1, .panic msg)

/-- The Go method `ReturnStake`: the pool after the call, and how the call ended. The loop runs
over the stakes in reverse order and stops at the first one of the returned stake's source. -/
def RametronenterprisePool.ReturnStake (p : RametronenterprisePool) (currentHeight : Nat)
    (holder : Address) (returnedStake : Stake) : RametronenterprisePool × GoResult Unit :=
  match p.Get holder with
  | none => (p, .error "No matched stake holder address found")
  | some w =>
    match w.Stakes.reverse.find? (fun st => st.Source == returnedStake.Source) with
    | none => (p, .ok ())
    | some stake =>
      if stake.Withdrawn = false ∨ stake.ReturnHeight ≠ currentHeight then
        (p, .panic "Returned stake mismatch")
      else
        match w.ReturnStake returnedStake.Source currentHeight with
        | .error msg => (p, .error msg)
        | .panic msg => (p, .panic msg)
        | .ok (_, w2) =>
          if w2.Stakes.length = 0 then p.Remove w2 else p.Upsert w2

/-- A call of one of the three stake operations of the pool, with its arguments. -/
inductive PoolCall where
  | deposit (source holder : Address) (amount : Int) (pubkey : Option bls.PublicKey)
      (blockHeight : Nat)
  | withdraw (source holder : Address) (currentHeight : Nat)
  | returnStake (currentHeight : Nat) (holder : Address) (returnedStake : Stake)
  deriving Repr, DecidableEq

/-- The pool after one call, however the call ended. -/
def RametronenterprisePool.call (cfg : StakeConfig) (p : RametronenterprisePool) :
    PoolCall → RametronenterprisePool
  | .deposit source holder amount pubkey blockHeight =>
    (p.DepositStake cfg source holder amount pubkey blockHeight).1
  | .withdraw source holder currentHeight => (p.WithdrawStake cfg source holder currentHeight).1
  | .returnStake currentHeight holder returnedStake =>
    (p.ReturnStake currentHeight holder returnedStake).1

/-- The empty mutable pool, with total stake 0. -/
def emptyPool : RametronenterprisePool :=
  { readOnly := false, sv := { rametronenterprises := [], totalRametronenterpriseStake := 0 } }

/-- The sum of the amounts of all non-withdrawn stakes of all workers stored in the view. -/
def StoreView.activeStake (sv : StoreView) : Int :=
  (sv.rametronenterprises.map (fun e => core.activeStake e.2.Stakes)).sum

/-- The amount of the stake that a source holds with a holder in the pool (the first stake of
that source in the holder's entry), 0 if there is none. -/
def RametronenterprisePool.stakeOfSource (p : RametronenterprisePool)
    (source holder : Address) : Int :=
  match p.Get holder with
  | none => 0
  | some w => core.stakeOfSource source w.Stakes

/-- The invariant of a pool built by the stake operations: the pool is mutable, every entry is
stored under the holder address it names, no holder is stored twice, and the stored total stake
is the sum of the non-withdrawn stakes. -/
def RametronenterprisePool.Consistent (p : RametronenterprisePool) : Prop :=
  p.readOnly = false ∧ (∀ e ∈ p.sv.rametronenterprises, e.2.Holder = e.1) ∧
    (p.sv.rametronenterprises.map (fun e => e.1)).Nodup ∧
    p.sv.totalRametronenterpriseStake = p.sv.activeStake

/-- A configuration for examples: release period 28800, new stakes carry the largest `uint64`
as return height. -/
def exampleConfig : StakeConfig :=
  { ReturnLockingPeriod := 28800, NewStakeReturnHeight := 18446744073709551615 }

/-- A pool for examples: the empty pool after source 1 deposited 100 with holder 2. -/
def examplePoolStaked : RametronenterprisePool :=
  (emptyPool.DepositStake exampleConfig 1 2 100 none 5).1

/-- The low 64 bits of a big integer as an `int64`, as `big.Int.Int64` computes it: the low word
of the absolute value reinterpreted as signed, negated (with wrap-around) for a negative
number. -/
def bigIntInt64 (x : Int) : Int :=
  let low : Int := (x.natAbs % uint64Mod : Nat)
  let v : Int := if low < 2 ^ 63 then low else low - 2 ^ 64
  if x < 0 then (if v = -(2 ^ 63) then v else -v) else v

/-- The `for` loop of `sampleRametronenterpriseWeight`: `n` iterations, each drawing the next
value of the reader with `crand.Int(reader, base)` and counting it when it is below `p`. The
reader is the list of the values that the successive draws return; a draw from an exhausted
reader is the error on which the source panics. -/
def sampleLoop (p : Int) : Nat → List Nat → GoResult Nat
  | 0, _ => .ok 0
  | _ + 1, [] => .panic "Failed to generate random number"
  | n + 1, r :: rest =>
    (sampleLoop p n rest).map (fun weight => if (r : Int) < p then weight + 1 else weight)

/-- The Go function `sampleRametronenterpriseWeight`. `big.Int.Div` panics on a zero divisor. -/
def sampleRametronenterpriseWeight (reader : List Nat) (stake totalStake : Int) :
    GoResult Nat :=
  if stake = 0 ∨ totalStake = 0 then .ok 0
  else if totalStake < 0 then .panic "Negative total stake"
  else
    let b := stake / MinRametronenterpriseStakeDeposit
    let base : Int := 10 ^ 18
    let p1 := base * rametronenterprisepRewardN * stake / totalStake
    if b = 0 then .panic "division by zero"
    else
      let p := p1 / b
      sampleLoop p (bigIntInt64 b).toNat reader

/-- All sequences of `n` draws with values in `[0, base)`. -/
def drawSequences (base : Nat) : Nat → List (List Nat)
  | 0 => [[]]
  | n + 1 => (List.range base).flatMap (fun r => (drawSequences base n).map (fun d => r :: d))

/-- The weight a call returned, 0 for a call that did not return. -/
def returnedWeight : GoResult Nat → Nat
  | .ok w => w
  | _ => 0

/-- The expected value of `sampleRametronenterpriseWeight(stake, totalStake)` when every draw is
uniform on `[0, 10^18)`: the mean of the returned weight over all sequences of as many draws as
the loop makes. -/
def expectedSampleWeight (stake totalStake : Int) : ℚ :=
  let n := (bigIntInt64 (stake / MinRametronenterpriseStakeDeposit)).toNat
  (((drawSequences (10 ^ 18) n).map
      (fun d => returnedWeight (sampleRametronenterpriseWeight d stake totalStake))).sum : ℚ) /
    ((10 : ℚ) ^ 18) ^ n

end state

namespace state
open common core

/-- The value `float64(weight)/float64(N)` of `TestSampleRametronenterpriseWeight`: the mean of
the weights that one call per reader returns. -/
def averageSampleWeight (readers : List (List Nat)) (stake totalStake : Int) : ℚ :=
  ((readers.map
      (fun d => returnedWeight (sampleRametronenterpriseWeight d stake totalStake))).sum : ℚ) /
    readers.length

end state

namespace common

/-- The lookup `v, exists := m[k]` in a Go map held as the list of its entries. -/
def mapGet {κ α : Type} [DecidableEq κ] (m : List (κ × α)) (k : κ) : Option α :=
  (m.find? (fun e => decide (e.1 = k))).map (fun e => e.2)

/-- The assignment `m[k] = v` in a Go map: the entry of `k` is replaced where it stands, a new
key is added at the end. -/
def mapSet {κ α : Type} [DecidableEq κ] : List (κ × α) → κ → α → List (κ × α)
  | [], k, v => [(k, v)]
  | e :: m, k, v => if e.1 = k then (k, v) :: m else e :: mapSet m k v

/-- The statement `delete(m, k)` on a Go map. -/
def mapDelete {κ α : Type} [DecidableEq κ] (m : List (κ × α)) (k : κ) : List (κ × α) :=
  m.filter (fun e => decide (e.1 ≠ k))

end common

namespace consensus

open common core

/-- The functions behind `getVoteHash` that are not among the sources, taken as parameters: the
text that `fmt.Sprintf("%v", ...)` gives for an address and for a block hash, and
`hex.EncodeToString` of `tcrypto.Keccak256Hash` of a text. -/
structure VoteHashScheme where
  AddressString : Address → String
  HashString : Hash → String
  Keccak256Hex : String → String

/-- The Go function `getVoteHash`. -/
def getVoteHash (k : VoteHashScheme) (vote : RametronenterpriseVote) : String :=
  let voteStr := k.AddressString vote.Address ++ ":" ++ k.HashString vote.Block
  k.Keccak256Hex voteStr

/-- The constant `DefaultMaxNumVotesCached`. -/
def DefaultMaxNumVotesCached : Nat := 5000000

/-- The constant `maxVoteLife`, 20 minutes in nanoseconds. -/
def maxVoteLife : Int := 20 * (60 * 1000000000)

/-- The Go struct `RametronenterpriseVoteRecord`; `CreatedAt` is a clock reading in
nanoseconds, `Count` a `uint`. -/
structure RametronenterpriseVoteRecord where
  Hash : String
  Count : Nat
  CreatedAt : Int
  deriving Repr, DecidableEq

/-- The Go method `IsOutdated`, with the reading `now` of the clock that `time.Since` takes. -/
def RametronenterpriseVoteRecord.IsOutdated (r : RametronenterpriseVoteRecord) (now : Int) :
    Bool :=
  decide (now - r.CreatedAt > maxVoteLife)

/-- The Go struct `RametronenterpriseVoteBookkeeper`: the map from vote hash to record and the
FIFO list of records, oldest first. Every exported method runs under the mutex and is one atomic
step at one clock reading. -/
structure RametronenterpriseVoteBookkeeper where
  voteMap : List (String × RametronenterpriseVoteRecord)
  voteList : List RametronenterpriseVoteRecord
  maxNumVotes : Nat
  deriving Repr, DecidableEq

/-- The Go function `CreateRametronenterpriseVoteBookkeeper`. -/
def CreateRametronenterpriseVoteBookkeeper (maxNumTxs : Nat) :
    RametronenterpriseVoteBookkeeper :=
  { voteMap := [], voteList := [], maxNumVotes := maxNumTxs }

/-- The loop of `removeOutdatedVotesUnsafe` on the map and the list: while the front record is
outdated, its hash is deleted from the map and the record is removed from the list. -/
def removeOutdatedVotes (now : Int) :
    List (String × RametronenterpriseVoteRecord) → List RametronenterpriseVoteRecord →
    List (String × RametronenterpriseVoteRecord) × List RametronenterpriseVoteRecord
  | m, [] => (m, [])
  | m, r :: rest =>
    if r.IsOutdated now then removeOutdatedVotes now (mapDelete m r.Hash) rest
    else (m, r :: rest)

/-- The Go method `removeOutdatedVotesUnsafe`. -/
def RametronenterpriseVoteBookkeeper.removeOutdatedVotesUnsafe
    (vb : RametronenterpriseVoteBookkeeper) (now : Int) : RametronenterpriseVoteBookkeeper :=
  { vb with
    voteMap := (removeOutdatedVotes now vb.voteMap vb.voteList).1
    voteList := (removeOutdatedVotes now vb.voteMap vb.voteList).2 }

/-- The Go method `ReceiveCount`: the count and the bookkeeper after the removal of the outdated
records. -/
def RametronenterpriseVoteBookkeeper.ReceiveCount (k : VoteHashScheme)
    (vb : RametronenterpriseVoteBookkeeper) (now : Int) (vote : RametronenterpriseVote) :
    Nat × RametronenterpriseVoteBookkeeper :=
  let vb1 := vb.removeOutdatedVotesUnsafe now
  let voteHash := getVoteHash k vote
  match mapGet vb1.voteMap voteHash with
  | none => (0, vb1)
  | some voteRecord => (voteRecord.Count, vb1)

/-- The Go method `HasSeen`. -/
def RametronenterpriseVoteBookkeeper.HasSeen (k : VoteHashScheme)
    (vb : RametronenterpriseVoteBookkeeper) (now : Int) (vote : RametronenterpriseVote) :
    Bool × RametronenterpriseVoteBookkeeper :=
  let vb1 := vb.removeOutdatedVotesUnsafe now
  let voteHash := getVoteHash k vote
  ((mapGet vb1.voteMap voteHash).isSome, vb1)

/-- The Go method `Record`. A record is one object reached from the map and from the list, so
the increment of an existing record shows in both. With the list empty and `maxNumVotes = 0`
the front element is nil and its dereference panics. -/
def RametronenterpriseVoteBookkeeper.Record (k : VoteHashScheme)
    (vb : RametronenterpriseVoteBookkeeper) (now : Int) (vote : RametronenterpriseVote) :
    GoResult (Bool × RametronenterpriseVoteBookkeeper) :=
  let voteHash := getVoteHash k vote
  let vb1 := vb.removeOutdatedVotesUnsafe now
  match mapGet vb1.voteMap voteHash with
  | some existingVoteRecord =>
    let updated := { existingVoteRecord with Count := (existingVoteRecord.Count + 1) % uint64Mod }
    .ok (true, { vb1 with
      voteMap := mapSet vb1.voteMap voteHash updated
      voteList := vb1.voteList.map (fun r => if r = existingVoteRecord then updated else r) })
  | none =>
    let record : RametronenterpriseVoteRecord :=
      { Hash := voteHash, Count := 0, CreatedAt := now }
    if vb1.voteList.length ≥ vb1.maxNumVotes then
      match vb1.voteList with
      | [] => .panic "invalid memory address or nil pointer dereference"
      | popped :: rest =>
        .ok (true, { vb1 with
          voteMap := mapSet (mapDelete vb1.voteMap popped.Hash) voteHash record
          voteList := rest ++ [record] })
    else
      .ok (true, { vb1 with
        voteMap := mapSet vb1.voteMap voteHash record
        voteList := vb1.voteList ++ [record] })

/-- The Go method `HandleVote` of the engine, on the engine state and its vote bookkeeper:
`nowSeen` and `nowRecord` are the clock readings of the calls of `HasSeen` and `Record`. The
send on `evIncoming` does not block; the vote is dropped when the channel is full. -/
def RametronenterpriseEngine.HandleVote (k : VoteHashScheme) (e : RametronenterpriseEngine)
    (vb : RametronenterpriseVoteBookkeeper) (nowSeen nowRecord : Int)
    (vote : RametronenterpriseVote) :
    GoResult (RametronenterpriseEngine × RametronenterpriseVoteBookkeeper) :=
  let seen := vb.HasSeen k nowSeen vote
  if seen.1 then .ok (e, seen.2)
  else
    (seen.2.Record k nowRecord vote).map (fun r =>
      if e.evIncoming.length < e.queueSize then
        ({ e with evIncoming := e.evIncoming ++ [vote] }, r.2)
      else (e, r.2))

/-- The bookkeeper holds no record for the hash `h`, neither in the map nor in the list. -/
def RametronenterpriseVoteBookkeeper.HasNoRecord (vb : RametronenterpriseVoteBookkeeper)
    (h : String) : Prop :=
  mapGet vb.voteMap h = none ∧ ∀ r ∈ vb.voteList, r.Hash ≠ h

/-- A vote hash scheme for the examples: the decimal texts and the identity for the digest. -/
def exampleVoteHashScheme : VoteHashScheme where
  AddressString := fun a => toString a
  HashString := fun h => toString h
  Keccak256Hex := fun s => s

/-- An example vote of address 5 for block 9. -/
def exampleVote : RametronenterpriseVote :=
  { Block := 9, Height := 100, Address := 5, Signature := some 1, Timestamp := 0 }

end consensus

namespace GoResult

/-- Continue with the returned value; errors and panics pass through. -/
def bind {α β : Type} (r : GoResult α) (f : α → GoResult β) : GoResult β :=
  match r with
  | .ok v => f v
  | .error msg => .error msg
  | .panic msg => .panic msg

end GoResult

namespace common

/-- The constant `HeightEnableValidatorReward`. -/
def HeightEnableValidatorReward : Nat := 1

/-- The constant `HeightEnablePando1`. -/
def HeightEnablePando1 : Nat := 1

/-- The constant `HeightSampleStakingReward`. -/
def HeightSampleStakingReward : Nat := 1

/-- The constant `HeightEnablePando2`. -/
def HeightEnablePando2 : Nat := 4417900

/-- The constant `CheckpointInterval`. -/
def CheckpointInterval : Int := 100

/-- The constant `CheckpointIntervalForRametron`. -/
def CheckpointIntervalForRametron : Int := 1000

/-- The Go function `IsCheckPointHeight`. -/
def IsCheckPointHeight (height : Nat) : Bool :=
  height % CheckpointInterval.toNat == 1

/-- The Go function `IsCheckPointHeightForRametron`. -/
def IsCheckPointHeightForRametron (height : Nat) : Bool :=
  height % CheckpointIntervalForRametron.toNat == 1

/-- The Go conversion `int64(x)` of a `uint` or `int` value. -/
def toInt64 (x : Nat) : Int :=
  if x % uint64Mod < 2 ^ 63 then ((x % uint64Mod : Nat) : Int)
  else ((x % uint64Mod : Nat) : Int) - 2 ^ 64

end common

namespace result

/-- The error codes of package `common/result` that the embedded executors set; the package is
not among the sources, so the codes are names without their numeric values. -/
inductive ErrorCode where
  | CodeOK
  | CodeGenericError
  | CodeInvalidFee
  | CodeInvalidStakePurpose
  | CodeInvalidStake
  | CodeInsufficientStake
  | CodeStakeExceedsCap
  deriving Repr, DecidableEq

/-- The Go struct `result.Result`: a code and a message (format arguments left out). -/
structure Result where
  Code : ErrorCode
  Message : String
  deriving Repr, DecidableEq

/-- The value `result.OK`. -/
def OK : Result := { Code := .CodeOK, Message := "" }

/-- The Go function `result.Error`: a result with the generic error code. -/
def Error (msg : String) : Result := { Code := .CodeGenericError, Message := msg }

/-- The Go method `WithErrorCode`. -/
def Result.WithErrorCode (r : Result) (code : ErrorCode) : Result := { r with Code := code }

/-- The Go method `IsError`. -/
def Result.IsError (r : Result) : Bool := decide (r.Code ≠ .CodeOK)

/-- The Go method `IsOK`. -/
def Result.IsOK (r : Result) : Bool := decide (r.Code = .CodeOK)

end result

namespace types

open common

/-- The Go struct `Coins`; a field is `none` for a nil pointer. `PandoWei` is the native coin,
`PTXWei` the utility coin. -/
structure Coins where
  PandoWei : Option Int
  PTXWei : Option Int
  deriving Repr, DecidableEq

/-- The Go method `NoNil`. -/
def Coins.NoNil (coins : Coins) : Coins :=
  { PandoWei := some (coins.PandoWei.getD 0), PTXWei := some (coins.PTXWei.getD 0) }

/-- The Go method `IsNonnegative`. -/
def Coins.IsNonnegative (coins : Coins) : Bool :=
  decide (0 ≤ coins.NoNil.PandoWei.getD 0) && decide (0 ≤ coins.NoNil.PTXWei.getD 0)

/-- The Go method `IsValid`. -/
def Coins.IsValid (coins : Coins) : Bool := coins.IsNonnegative

/-- The Go method `Plus`. -/
def Coins.Plus (coinsA coinsB : Coins) : Coins :=
  { PandoWei := some (coinsA.NoNil.PandoWei.getD 0 + coinsB.NoNil.PandoWei.getD 0)
    PTXWei := some (coinsA.NoNil.PTXWei.getD 0 + coinsB.NoNil.PTXWei.getD 0) }

/-- The Go method `Negative`. -/
def Coins.Negative (coins : Coins) : Coins :=
  { PandoWei := some (-(coins.NoNil.PandoWei.getD 0))
    PTXWei := some (-(coins.NoNil.PTXWei.getD 0)) }

/-- The Go method `Minus`. -/
def Coins.Minus (coinsA coinsB : Coins) : Coins := coinsA.Plus coinsB.Negative

/-- The Go method `IsGTE`. -/
def Coins.IsGTE (coinsA coinsB : Coins) : Bool := (coinsA.Minus coinsB).IsNonnegative

/-- The Go method `IsZero`. -/
def Coins.IsZero (coins : Coins) : Bool :=
  decide (coins.NoNil.PandoWei.getD 0 = 0) && decide (coins.NoNil.PTXWei.getD 0 = 0)

/-- The Go function `NewCoins`. -/
def NewCoins (pando ptx : Int) : Coins := { PandoWei := some pando, PTXWei := some ptx }

/-- The fields of the Go struct `Account` that the embedded executors read and write. -/
structure Account where
  Address : Address
  Sequence : Nat
  Balance : Coins
  deriving Repr, DecidableEq

/-- The Go struct `TxInput`. -/
structure TxInput where
  Address : Address
  Coins : Coins
  Sequence : Nat
  Signature : Option Nat
  deriving Repr, DecidableEq

/-- The Go struct `TxOutput`. -/
structure TxOutput where
  Address : Address
  Coins : Coins
  deriving Repr, DecidableEq

/-- The Go struct `CoinbaseTx`. -/
structure CoinbaseTx where
  Proposer : TxInput
  Outputs : List TxOutput
  BlockHeight : Nat
  deriving Repr, DecidableEq

end types

namespace core

open common

/-- The Go struct `StakeHolder`: a holder address and its stakes. -/
structure StakeHolder where
  Holder : Address
  Stakes : List Stake
  deriving Repr, DecidableEq

/-- The fields of the Go struct `AggregatedVotes` (the guardian aggregate vote) that the reward
code reads. -/
structure AggregatedVotes where
  Block : Hash
  Multiplies : List Nat
  deriving Repr, DecidableEq

/-- The Go type `ValidatorSet` as the values that its methods return: the addresses of
`Validators()` in order, and `TotalStake()`. -/
structure ValidatorSet where
  Validators : List Address
  TotalStake : Int
  deriving Repr, DecidableEq

/-- The Go struct `GuardianCandidatePool`: the guardians in sorted order. -/
structure GuardianCandidatePool where
  SortedGuardians : List StakeHolder
  deriving Repr, DecidableEq

end core

namespace state

open common core

/-- The Go struct `StakeRewardDistribution`, an entry of the stake reward distribution rule
set. -/
structure StakeRewardDistribution where
  StakeHolder : Address
  Beneficiary : Address
  SplitBasisPoint : Nat
  deriving Repr, DecidableEq

/-- The Go type `StoreView` as the executors use it: the height, the edge pool entries (`pool`,
the part described by `StoreView` above), the accounts, the coinbase-processed flag, the
guardian candidate pool, and the answers of the two lookups whose code is not among the
sources: `GetValidatorCandidatePool().FindStakeDelegate` and the `Get` of
`NewStakeRewardDistributionRuleSet(view)`. -/
structure View where
  height : Nat
  pool : StoreView
  accounts : List (Address × types.Account)
  coinbaseTransactionProcessed : Bool
  guardianCandidatePool : GuardianCandidatePool
  FindStakeDelegate : Address → Option StakeHolder
  StakeRewardDistribution : Address → Option StakeRewardDistribution

/-- The Go method `Height`. -/
def View.Height (view : View) : Nat := view.height

/-- The Go method `CoinbaseTransactinProcessed`. -/
def View.CoinbaseTransactinProcessed (view : View) : Bool := view.coinbaseTransactionProcessed

/-- The Go method `SetCoinbaseTransactionProcessed`. -/
def View.SetCoinbaseTransactionProcessed (view : View) (processed : Bool) : View :=
  { view with coinbaseTransactionProcessed := processed }

/-- The Go method `GetAccount`. -/
def View.GetAccount (view : View) (addr : Address) : Option types.Account :=
  mapGet view.accounts addr

/-- The Go method `SetAccount`. -/
def View.SetAccount (view : View) (addr : Address) (account : types.Account) : View :=
  { view with accounts := mapSet view.accounts addr account }

/-- The Go method `GetTotalRametronenterpriseStake`. -/
def View.GetTotalRametronenterpriseStake (view : View) : Int :=
  view.pool.totalRametronenterpriseStake

/-- The Go method `GetAll` of the pool: `sv.Traverse` visits the entries in the order of their
keys, that is of their addresses. -/
def RametronenterprisePool.GetAll (p : RametronenterprisePool) (withstake : Bool) :
    List Rametronenterprise :=
  ((p.sv.rametronenterprises.insertionSort (fun a b => a.1 ≤ b.1)).map (fun e => e.2)).filter
    (fun w => !withstake || w.Stakes.any (fun stake => !stake.Withdrawn))

end state

namespace execution

open common core state types

/-- The variable `weiMultiplier`. -/
def weiMultiplier : Int := 1000000000000000000

/-- The variable `ptxRewardPerBlock`. -/
def ptxRewardPerBlock : Int := 1 * 7 * weiMultiplier

/-- The variable `rametronenterprisePTXRewardPerBlock`. -/
def rametronenterprisePTXRewardPerBlock : Int := 1 * 1 * weiMultiplier

/-- The variable `ptxRewardN`. -/
def ptxRewardN : Nat := 400

/-- The address `common.HexToAddress("0x034bfe9293dc20c5d9f32a9349261c8df2f873c4")` to which
`handleSplit` credits when the holder has no rule. -/
def feeAddress : Address := 0x034bfe9293dc20c5d9f32a9349261c8df2f873c4

/-- The collaborators of the reward code that are not among the sources, taken as parameters:
`WithStake` of a guardian candidate pool, the value that
`rand.Int(util.NewHashRand(seed), max)` returns for the seed made of the view height, the
sampling index and the checkpoint hash, and the store view of the block that
`chain.FindBlock` finds for a hash (`none` when it returns an error). -/
structure Externals where
  WithStake : GuardianCandidatePool → GuardianCandidatePool
  RandInt : Nat → Nat → Hash → Int → Int
  FindBlockView : Hash → Option View

/-- The map `map[string]types.Coins` of the rewards, keyed by address. -/
abbrev RewardMap := List (Address × Coins)

/-- The Go function `addRewardToMap`. -/
def addRewardToMap (receiver : Address) (amount : Int) (accountReward : RewardMap) :
    RewardMap :=
  let rewardCoins := (Coins.mk (some 0) (some amount)).NoNil
  match mapGet accountReward receiver with
  | some existingReward =>
    mapSet accountReward receiver (existingReward.NoNil.Plus rewardCoins)
  | none => mapSet accountReward receiver rewardCoins

/-- The Go function `handleSplit`; `srdsr = none` is the nil rule set, and the empty holder is
the zero address. -/
def handleSplit (stake : Stake) (srdsr : Option (Address → Option StakeRewardDistribution))
    (reward : Int) (accountRewardMap : RewardMap) : GoResult RewardMap :=
  match srdsr with
  | none => .panic "srdsr is nil"
  | some rules =>
    if stake.Holder = 0 then .panic "stake holder is not set"
    else
      match rules stake.Holder with
      | none =>
        .ok (addRewardToMap stake.Source reward
          (addRewardToMap feeAddress (1 * 10 * weiMultiplier) accountRewardMap))
      | some rewardDistribution =>
        if rewardDistribution.SplitBasisPoint = 0 then .panic "SplitBasisPoint is 0"
        else
          let splitReward := reward * toInt64 rewardDistribution.SplitBasisPoint / 10000
          let sourceReward := reward - splitReward
          if splitReward > reward then .panic "Invalid reward redistribution metadata"
          else
            .ok (addRewardToMap rewardDistribution.Beneficiary splitReward
              (addRewardToMap stake.Source sourceReward accountRewardMap))

/-- The inner loop of the rule-set branch of `issueFixedReward`, over the stakes of a group. -/
def fixedSplitStakes (srdsr : Option (Address → Option StakeRewardDistribution))
    (totalReward totalStake : Int) : List Stake → RewardMap → GoResult RewardMap
  | [], accountReward => .ok accountReward
  | stake :: stakes, accountReward =>
    (handleSplit stake srdsr (totalReward * stake.Amount / totalStake) accountReward).bind
      (fixedSplitStakes srdsr totalReward totalStake stakes)

/-- The outer loop of the rule-set branch of `issueFixedReward`, over the groups. -/
def fixedSplitGroups (srdsr : Option (Address → Option StakeRewardDistribution))
    (totalReward totalStake : Int) : List (List Stake) → RewardMap → GoResult RewardMap
  | [], accountReward => .ok accountReward
  | stakes :: groups, accountReward =>
    (fixedSplitStakes srdsr totalReward totalStake stakes accountReward).bind
      (fixedSplitGroups srdsr totalReward totalStake groups)

/-- The loop of the branch of `issueFixedReward` without a rule set, over the groups. -/
def fixedAggregateGroups (totalReward totalStake : Int) :
    List (List Stake) → RewardMap → RewardMap
  | [], accountReward => accountReward
  | [] :: groups, accountReward =>
    fixedAggregateGroups totalReward totalStake groups accountReward
  | (first :: rest) :: groups, accountReward =>
    let totalSourceStake := ((first :: rest).map (fun stake => stake.Amount)).sum
    let rewardAmount := totalReward * totalSourceStake / totalStake
    fixedAggregateGroups totalReward totalStake groups
      (addRewardToMap first.Source rewardAmount accountReward)

/-- The Go function `issueFixedReward`. -/
def issueFixedReward (effectiveStakes : List (List Stake)) (totalStake : Int)
    (accountReward : RewardMap) (totalReward : Int)
    (srdsr : Option (Address → Option StakeRewardDistribution)) : GoResult RewardMap :=
  if totalStake = 0 then .ok accountReward
  else
    match srdsr with
    | some rules => fixedSplitGroups (some rules) totalReward totalStake effectiveStakes
        accountReward
    | none => .ok (fixedAggregateGroups totalReward totalStake effectiveStakes accountReward)

/-- The sample scan `for curr < ptxRewardN && samples[curr] >= lower && samples[curr] < upper`
on the samples from index `curr` on: the number of samples taken and the samples left. -/
def countHits (lower upper : Int) : List Int → Nat × List Int
  | [] => (0, [])
  | sample :: rest =>
    if lower ≤ sample ∧ sample < upper then
      ((countHits lower upper rest).1 + 1, (countHits lower upper rest).2)
    else (0, sample :: rest)

/-- The loop state of `issueRandomizedReward`: the samples from index `curr` on, the running
sum `currSum` and the reward map. -/
structure ScanState where
  samples : List Int
  currSum : Int
  accountReward : RewardMap
  deriving Repr, DecidableEq

/-- The inner loop of the rule-set branch of `issueRandomizedReward`, over the stakes of a
group; `curr >= ptxRewardN` is the case of no samples left, where the loop breaks. -/
def randomizedSplitStakes (srdsr : Option (Address → Option StakeRewardDistribution))
    (totalReward : Int) : List Stake → ScanState → GoResult ScanState
  | [], s => .ok s
  | stake :: stakes, s =>
    if s.samples = [] then .ok s
    else
      let lower := s.currSum
      let upper := s.currSum + stake.Amount
      let hits := countHits lower upper s.samples
      if hits.1 > 0 then
        (handleSplit stake srdsr (totalReward * toInt64 hits.1 / toInt64 ptxRewardN)
            s.accountReward).bind
          (fun m => randomizedSplitStakes srdsr totalReward stakes
            { samples := hits.2, currSum := upper, accountReward := m })
      else
        randomizedSplitStakes srdsr totalReward stakes
          { samples := hits.2, currSum := upper, accountReward := s.accountReward }

/-- The outer loop of the rule-set branch of `issueRandomizedReward`. -/
def randomizedSplitGroups (srdsr : Option (Address → Option StakeRewardDistribution))
    (totalReward : Int) : List (List Stake) → ScanState → GoResult ScanState
  | [], s => .ok s
  | stakes :: groups, s =>
    (randomizedSplitStakes srdsr totalReward stakes s).bind
      (randomizedSplitGroups srdsr totalReward groups)

/-- The loop of the branch of `issueRandomizedReward` without a rule set: empty groups are
skipped, and the loop is left once no samples remain. -/
def randomizedAggregateGroups (totalReward : Int) : List (List Stake) → ScanState → ScanState
  | [], s => s
  | [] :: groups, s => randomizedAggregateGroups totalReward groups s
  | (first :: rest) :: groups, s =>
    let stakeAmountSum := ((first :: rest).map (fun stake => stake.Amount)).sum
    if s.samples = [] then s
    else
      let lower := s.currSum
      let upper := s.currSum + stakeAmountSum
      let hits := countHits lower upper s.samples
      randomizedAggregateGroups totalReward groups
        { samples := hits.2, currSum := upper,
          accountReward :=
            if hits.1 > 0 then
              addRewardToMap first.Source (totalReward * toInt64 hits.1 / toInt64 ptxRewardN)
                s.accountReward
            else s.accountReward }

/-- The samples of `issueRandomizedReward` before sorting: `ptxRewardN` draws below
`totalStake`, one per sampling index. -/
def rewardSamples (x : Externals) (height : Nat) (block : Hash) (totalStake : Int) :
    List Int :=
  (List.range ptxRewardN).map (fun i => x.RandInt height i block totalStake)

/-- The Go function `issueRandomizedReward`. `rand.Int` panics on a bound that is not positive;
`sort.Sort(BigIntSort(samples))` puts the samples in ascending order. -/
def issueRandomizedReward (x : Externals) (guardianVotes : Option AggregatedVotes)
    (view : View) (effectiveStakes : List (List Stake)) (totalStake : Int)
    (accountReward : RewardMap) (totalReward : Int)
    (srdsr : Option (Address → Option StakeRewardDistribution)) : GoResult RewardMap :=
  match guardianVotes with
  | none => .panic "guardianVotes == nil"
  | some votes =>
    if totalStake ≤ 0 then .panic "crypto/rand: argument to Int is <= 0"
    else
      let samples :=
        (rewardSamples x view.Height votes.Block totalStake).insertionSort (fun a b => a ≤ b)
      let start : ScanState :=
        { samples := samples, currSum := 0, accountReward := accountReward }
      match srdsr with
      | some rules =>
        (randomizedSplitGroups (some rules) totalReward effectiveStakes start).map
          (fun s => s.accountReward)
      | none => .ok (randomizedAggregateGroups totalReward effectiveStakes start).accountReward

end execution

namespace execution

open common core state types

/-- The utility amount (`PTXWei`, 0 for nil) that a reward map holds for an address, 0 when the
address has no entry. -/
def utilityOf (accountReward : RewardMap) (addr : Address) : Int :=
  match mapGet accountReward addr with
  | some coins => coins.PTXWei.getD 0
  | none => 0

/-- The native amount (`PandoWei`, 0 for nil) that a reward map holds for an address. -/
def nativeOf (accountReward : RewardMap) (addr : Address) : Int :=
  match mapGet accountReward addr with
  | some coins => coins.PandoWei.getD 0
  | none => 0

/-- The sum of the utility amounts of all entries of a reward map. -/
def totalUtility (accountReward : RewardMap) : Int :=
  (accountReward.map (fun e => e.2.PTXWei.getD 0)).sum

/-- An example stake of source 7 held by holder 8. -/
def exampleStake : Stake :=
  { Source := 7, Amount := 1000, Withdrawn := false, ReturnHeight := 0, Holder := 8 }

/-- An example rule set: holder 8 gives 25 percent (2500 basis points) to beneficiary 9. -/
def exampleRules : Address → Option StakeRewardDistribution :=
  fun holder =>
    if holder = 8 then some { StakeHolder := 8, Beneficiary := 9, SplitBasisPoint := 2500 }
    else none

end execution

namespace execution

open common core state types

/-- The sum of the amounts of a group of stakes. -/
def groupAmount (stakes : List Stake) : Int := (stakes.map (fun stake => stake.Amount)).sum

/-- The source that a group of stakes is credited under: the source of its first stake. -/
def groupSource (stakes : List Stake) : Option Address := stakes.head?.map (fun s => s.Source)

/-- The utility amount that the groups credited under the address `addr` receive when every
non-empty group gets `floor(totalReward * groupAmount / totalStake)`. -/
def aggregateCredit (totalReward totalStake : Int) (addr : Address)
    (effectiveStakes : List (List Stake)) : Int :=
  (effectiveStakes.map (fun stakes =>
    if groupSource stakes = some addr then totalReward * groupAmount stakes / totalStake
    else 0)).sum

/-- Two stakes of source 7 with amount 2 each and one stake of source 6 with amount 5. -/
def exampleGroups : List (List Stake) :=
  [[{ Source := 7, Amount := 2, Withdrawn := false, ReturnHeight := 0, Holder := 8 },
    { Source := 7, Amount := 2, Withdrawn := false, ReturnHeight := 0, Holder := 8 }],
   [{ Source := 6, Amount := 5, Withdrawn := false, ReturnHeight := 0, Holder := 8 }]]

end execution

namespace execution

open common core state types

/-- The number of samples that fall in the half-open interval `[lower, upper)`. -/
def hitsIn (samples : List Int) (lower upper : Int) : Nat :=
  samples.countP (fun s => decide (lower ≤ s ∧ s < upper))

/-- The utility amount that the groups credited under the address `addr` receive when each
group gets `floor(totalReward * hits / 400)` for the hits in its interval
`[cumulative, cumulative + groupAmount)` of the running sum taken in group order. -/
def randomizedCredit (totalReward : Int) (samples : List Int) (addr : Address) :
    List (List Stake) → Int → Int
  | [], _ => 0
  | stakes :: groups, cumulative =>
    (if groupSource stakes = some addr then
        totalReward * (hitsIn samples cumulative (cumulative + groupAmount stakes) : Int) / 400
      else 0) +
      randomizedCredit totalReward samples addr groups (cumulative + groupAmount stakes)

/-- The hits of all groups together, each in its interval of the running sum. -/
def totalHits (samples : List Int) : List (List Stake) → Int → Nat
  | [], _ => 0
  | stakes :: groups, cumulative =>
    hitsIn samples cumulative (cumulative + groupAmount stakes) +
      totalHits samples groups (cumulative + groupAmount stakes)

/-- The self-staked validator of scenario S5: address 1 with `200000 * 10^18`. -/
def exampleValidatorStake : Stake :=
  { Source := 1, Amount := 200000 * 10 ^ 18, Withdrawn := false, ReturnHeight := 0,
    Holder := 1 }

/-- Example collaborators: `WithStake` keeps the pool, every draw is 0, no block is found. -/
def exampleExternals : Externals where
  WithStake := fun pool => pool
  RandInt := fun _ _ _ _ => 0
  FindBlockView := fun _ => none

/-- An example view at height 4418000 (the parent of an edge checkpoint) without entries. -/
def exampleView : View where
  height := 4418000
  pool := { rametronenterprises := [], totalRametronenterpriseStake := 0 }
  accounts := []
  coinbaseTransactionProcessed := false
  guardianCandidatePool := { SortedGuardians := [] }
  FindStakeDelegate := fun _ => none
  StakeRewardDistribution := fun _ => none

end execution

namespace execution

open common core state types

/-- The pair of `stakeGroupMap` and `effectiveStakes`: the groups in the order of their
creation, each with the source address under which the map indexes it. -/
abbrev StakeGroups := List (Address × List Stake)

/-- The group bookkeeping of the grant functions for one stake: a new empty group is appended
for a source that has none, then the stake is appended to the group of its source. -/
def appendToGroup : StakeGroups → Stake → StakeGroups
  | [], stake => [(stake.Source, [stake])]
  | g :: groups, stake =>
    if g.1 = stake.Source then (g.1, g.2 ++ [stake]) :: groups
    else g :: appendToGroup groups stake

/-- The slice `effectiveStakes` of the groups. -/
def StakeGroups.effectiveStakes (groups : StakeGroups) : List (List Stake) :=
  groups.map (fun g => g.2)

/-- The Go function `grantValidatorsWithZeroReward`. -/
def grantValidatorsWithZeroReward (validatorSet : ValidatorSet) (accountReward : RewardMap) :
    RewardMap :=
  validatorSet.Validators.foldl
    (fun m v => mapSet m v (Coins.mk none none).NoNil) accountReward

/-- The validator loop of `grantValidatorReward`: the non-withdrawn stakes of every validator's
stake delegate, summed by source in `stakeSourceMap`. -/
def validatorStakeSums (view : View) :
    List Address → List (Address × Int) → GoResult (List (Address × Int))
  | [], stakeSourceMap => .ok stakeSourceMap
  | validatorAddr :: validators, stakeSourceMap =>
    match view.FindStakeDelegate validatorAddr with
    | none => .panic "Failed to find stake delegate in the VCP"
    | some stakeDelegate =>
      validatorStakeSums view validators
        ((stakeDelegate.Stakes.filter (fun stake => !stake.Withdrawn)).foldl
          (fun m stake =>
            match mapGet m stake.Source with
            | some stakeAmountSum => mapSet m stake.Source (stakeAmountSum + stake.Amount)
            | none => mapSet m stake.Source stake.Amount)
          stakeSourceMap)

/-- The Go function `grantValidatorReward`. The final loop ranges over a Go map, whose order is
not fixed; every key is assigned once, so the resulting map does not depend on it, and the
entries are taken here in the order of their creation. -/
def grantValidatorReward (view : View) (validatorSet : ValidatorSet)
    (accountReward : RewardMap) (blockHeight : Nat) : GoResult RewardMap :=
  if !IsCheckPointHeight blockHeight then .ok accountReward
  else
    let totalStake := validatorSet.TotalStake
    if totalStake = 0 then .ok accountReward
    else
      (validatorStakeSums view validatorSet.Validators []).map (fun stakeSourceMap =>
        let totalReward := 1 * ptxRewardPerBlock * CheckpointInterval
        stakeSourceMap.foldl
          (fun m e =>
            mapSet m e.1 (Coins.mk (some 0) (some (totalReward * e.2 / totalStake))).NoNil)
          accountReward)

/-- The validator loop of `grantValidatorAndGuardianReward`: the non-withdrawn stakes of every
validator's stake delegate are grouped by source, their holder set to the delegate's. -/
def groupValidatorStakes (view : View) : List Address → StakeGroups → GoResult StakeGroups
  | [], groups => .ok groups
  | validatorAddr :: validators, groups =>
    match view.FindStakeDelegate validatorAddr with
    | none => .panic "Failed to find stake delegate in the VCP"
    | some stakeDelegate =>
      groupValidatorStakes view validators
        ((stakeDelegate.Stakes.filter (fun stake => !stake.Withdrawn)).foldl
          (fun gs stake => appendToGroup gs { stake with Holder := stakeDelegate.Holder })
          groups)

/-- The guardian loop of `grantValidatorAndGuardianReward`, from guardian index `i` on: the
non-withdrawn stakes of every guardian with a non-zero multiplicity are added to the total stake
and grouped by source. The index expression `guardianVotes.Multiplies[i]` panics out of
range. -/
def groupGuardianStakes (multiplies : List Nat) :
    List StakeHolder → Nat → Int × StakeGroups → GoResult (Int × StakeGroups)
  | [], _, acc => .ok acc
  | g :: guardians, i, acc =>
    match multiplies[i]? with
    | none => .panic "index out of range"
    | some multiply =>
      if multiply = 0 then groupGuardianStakes multiplies guardians (i + 1) acc
      else
        groupGuardianStakes multiplies guardians (i + 1)
          ((g.Stakes.filter (fun stake => !stake.Withdrawn)).foldl
            (fun a stake =>
              (a.1 + stake.Amount, appendToGroup a.2 { stake with Holder := g.Holder }))
            acc)

/-- The rule set of a grant function: `state.NewStakeRewardDistributionRuleSet(view)` from
`HeightEnablePando2` on, nil before. -/
def ruleSetAt (view : View) (blockHeight : Nat) :
    Option (Address → Option StakeRewardDistribution) :=
  if blockHeight ≥ HeightEnablePando2 then some view.StakeRewardDistribution else none

/-- The Go function `grantValidatorAndGuardianReward`. -/
def grantValidatorAndGuardianReward (x : Externals) (view : View) (validatorSet : ValidatorSet)
    (guardianVotes : Option AggregatedVotes) (guardianPool : Option GuardianCandidatePool)
    (accountReward : RewardMap) (blockHeight : Nat) : GoResult RewardMap :=
  if !IsCheckPointHeight blockHeight then .ok accountReward
  else
    match guardianPool, guardianVotes with
    | some pool, some votes =>
      let withStake := x.WithStake pool
      if validatorSet.TotalStake = 0 then .ok accountReward
      else
        (groupValidatorStakes view validatorSet.Validators []).bind (fun groups =>
          (groupGuardianStakes votes.Multiplies withStake.SortedGuardians 0
              (validatorSet.TotalStake, groups)).bind (fun acc =>
            let totalReward := 1 * ptxRewardPerBlock * CheckpointInterval
            let srdsr := ruleSetAt view blockHeight
            if blockHeight < HeightSampleStakingReward then
              issueFixedReward acc.2.effectiveStakes acc.1 accountReward totalReward srdsr
            else
              issueRandomizedReward x (some votes) view acc.2.effectiveStakes acc.1
                accountReward totalReward srdsr))
    | _, _ => .panic "guardianPool == nil || guardianVotes == nil"

/-- The worker loop of `grantRametronenterpriseReward`: with weight 1 for every worker, each
non-withdrawn stake gives an effective stake of `10^18 * amount / total` held by the worker,
grouped by source and added to the total effective stake. A worker is skipped when the total
edge stake of the view is 0. -/
def groupRametronenterpriseStakes (rametronenterpriseTotalStake : Int) :
    List Rametronenterprise → Int × StakeGroups → Int × StakeGroups
  | [], acc => acc
  | rametronenterpriseAddr :: rest, acc =>
    if rametronenterpriseTotalStake = 0 then
      groupRametronenterpriseStakes rametronenterpriseTotalStake rest acc
    else
      let weight : Int := 1
      let amplifiedWeight := 1000000000000000000 * weight
      groupRametronenterpriseStakes rametronenterpriseTotalStake rest
        ((rametronenterpriseAddr.Stakes.filter (fun stake => !stake.Withdrawn)).foldl
          (fun a stake =>
            let effectiveStakeAmount :=
              amplifiedWeight * stake.Amount / rametronenterpriseTotalStake
            let effectiveStake : Stake :=
              { Holder := rametronenterpriseAddr.Holder, Source := stake.Source,
                Amount := effectiveStakeAmount, Withdrawn := false, ReturnHeight := 0 }
            (a.1 + effectiveStakeAmount, appendToGroup a.2 effectiveStake))
          acc)

/-- The Go function `grantRametronenterpriseReward`. The workers and the total are read from
the view; the parameters `rametronenterpriseVotes` and `rametronenterprisePool` are not read
by the body. -/
def grantRametronenterpriseReward (view : View) (guardianVotes : Option AggregatedVotes)
    (_rametronenterpriseVotes : Option AggregatedRametronenterpriseVotes)
    (_rametronenterprisePool : Option state.RametronenterprisePool)
    (accountReward : RewardMap) (blockHeight : Nat) : GoResult RewardMap :=
  if !IsCheckPointHeight blockHeight then .ok accountReward
  else if !IsCheckPointHeightForRametron blockHeight then .ok accountReward
  else
    let Rametronenterprisep := state.NewRametronenterprisePool view.pool true
    let Rametronenterprises := Rametronenterprisep.GetAll false
    match guardianVotes with
    | none => .panic "guardianVotes == nil"
    | some _ =>
      let acc := groupRametronenterpriseStakes view.GetTotalRametronenterpriseStake
        Rametronenterprises (0, [])
      let totalReward := 1 * rametronenterprisePTXRewardPerBlock * CheckpointIntervalForRametron
      let srdsr := ruleSetAt view blockHeight
      issueFixedReward acc.2.effectiveStakes acc.1 accountReward totalReward srdsr

/-- The Go function `RetrievePools`. The store view of the guardian vote's block holds the
guardian candidate pool and the edge pool entries; a block that is not found panics. -/
def RetrievePools (x : Externals) (blockHeight : Nat) (guardianVotes : Option AggregatedVotes)
    (rametronenterpriseVotes : Option AggregatedRametronenterpriseVotes) :
    GoResult (Option GuardianCandidatePool × Option state.RametronenterprisePool) :=
  if blockHeight < HeightEnablePando1 then .ok (none, none)
  else if blockHeight < HeightEnablePando2 then
    match guardianVotes with
    | none => .ok (none, none)
    | some votes =>
      match x.FindBlockView votes.Block with
      | none => .panic "block not found"
      | some storeView => .ok (some storeView.guardianCandidatePool, none)
  else
    match guardianVotes with
    | none => .ok (none, none)
    | some votes =>
      match x.FindBlockView votes.Block with
      | none => .panic "block not found"
      | some storeView =>
        match rametronenterpriseVotes with
        | none => .ok (some storeView.guardianCandidatePool, none)
        | some edgeVotes =>
          if edgeVotes.Block = votes.Block then
            .ok (some storeView.guardianCandidatePool,
              some (state.NewRametronenterprisePool storeView.pool true))
          else .ok (some storeView.guardianCandidatePool, none)

/-- The Go function `CalculateReward`; the block height is a `uint64`. -/
def CalculateReward (x : Externals) (view : View) (validatorSet : ValidatorSet)
    (guardianVotes : Option AggregatedVotes) (guardianPool : Option GuardianCandidatePool)
    (rametronenterpriseVotes : Option AggregatedRametronenterpriseVotes)
    (rametronenterprisePool : Option state.RametronenterprisePool) : GoResult RewardMap :=
  let accountReward : RewardMap := []
  let blockHeight := (view.Height + 1) % uint64Mod
  if blockHeight < HeightEnableValidatorReward then
    .ok (grantValidatorsWithZeroReward validatorSet accountReward)
  else if blockHeight < HeightEnablePando1 ∨ guardianVotes = none ∨ guardianPool = none then
    grantValidatorReward view validatorSet accountReward blockHeight
  else if blockHeight < HeightEnablePando2 then
    grantValidatorAndGuardianReward x view validatorSet guardianVotes guardianPool
      accountReward blockHeight
  else
    (grantValidatorAndGuardianReward x view validatorSet guardianVotes guardianPool
      accountReward blockHeight).bind (fun m =>
        grantRametronenterpriseReward view guardianVotes rametronenterpriseVotes
          rametronenterprisePool m blockHeight)

/-- The view of the counterexample to scenario S6, at height 4418000 (the parent of the edge
checkpoint 4418001): validator 1 is its own stake delegate with `200000 * 10^18`, the edge
worker 5 holds one stake of `35000 * 10^18` from source 6, there are no guardians and no
reward distribution rules. -/
def exampleRewardView : View where
  height := 4418000
  pool :=
    { rametronenterprises :=
        [(5, { Holder := 5, Pubkey := some 1,
               Stakes := [{ Source := 6, Amount := 35000 * 10 ^ 18, Withdrawn := false,
                            ReturnHeight := 0, Holder := 5 }] })]
      totalRametronenterpriseStake := 35000 * 10 ^ 18 }
  accounts := []
  coinbaseTransactionProcessed := false
  guardianCandidatePool := { SortedGuardians := [] }
  FindStakeDelegate := fun addr =>
    if addr = 1 then some { Holder := 1, Stakes := [exampleValidatorStake] } else none
  StakeRewardDistribution := fun _ => none

/-- Example collaborators with a chain on which every block is found with the example view;
every draw is 0. -/
def exampleChain : Externals where
  WithStake := fun pool => pool
  RandInt := fun _ _ _ _ => 0
  FindBlockView := fun _ => some exampleRewardView

/-- The validator set of the example: validator 1 with `200000 * 10^18`. -/
def exampleValidatorSet : ValidatorSet :=
  { Validators := [1], TotalStake := 200000 * 10 ^ 18 }

/-- The guardian aggregate vote of the example, for block 9. -/
def exampleGuardianVotes : AggregatedVotes := { Block := 9, Multiplies := [] }

/-- An edge aggregate vote for block 8, which is not the guardians' block. -/
def exampleEdgeVotes : AggregatedRametronenterpriseVotes :=
  { Block := 8, Multiplies := [1], Addresses := [5], Signature := some 1 }

end execution

namespace execution

open common core state types

/-- The helpers of the coinbase executor that are not among the sources, taken as parameters:
`tx.Proposer.ValidateBasic()`, `isAValidator`, `getOrMakeInput` (the account is `none` for a
nil pointer), the check `tx.Proposer.Signature.Verify(tx.SignBytes(chainID), address)`,
`getOrMakeOutputs` and `types.TxID`. -/
structure CoinbaseHelpers where
  ValidateBasic : TxInput → result.Result
  isAValidator : Address → List Address → result.Result
  getOrMakeInput : View → TxInput → Option Account × result.Result
  VerifySignature : String → CoinbaseTx → Address → Bool
  getOrMakeOutputs : View → List (Address × Account) → List TxOutput →
    List (Address × Account) × result.Result
  TxID : String → CoinbaseTx → Hash

/-- The Go struct `CoinbaseTxExecutor` as the values that `sanityCheck` reads through it: the
height of the ledger state, the validator set of `getValidatorSet`, and the two aggregate votes
of the current block. -/
structure CoinbaseTxExecutor where
  stateHeight : Nat
  validatorSet : ValidatorSet
  GuardianVotes : Option AggregatedVotes
  RametronenterpriseVotes : Option AggregatedRametronenterpriseVotes

/-- The Go method `CoinbaseTxExecutor.sanityCheck`. The body of the last `if` holds only a
commented-out `return`, so the comparison of the expected rewards with the outputs has no
effect. -/
def CoinbaseTxExecutor.sanityCheck (h : CoinbaseHelpers) (x : Externals)
    (exec : CoinbaseTxExecutor) (chainID : String) (view : View) (tx : CoinbaseTx) :
    GoResult result.Result :=
  let validatorSet := exec.validatorSet
  let validatorAddresses := validatorSet.Validators
  let res := h.ValidateBasic tx.Proposer
  if res.IsError then .ok res
  else if view.CoinbaseTransactinProcessed then
    .ok (result.Error "Another coinbase transaction has been processed for the current block")
  else
    let res := h.isAValidator tx.Proposer.Address validatorAddresses
    if res.IsError then .ok res
    else
      let input := h.getOrMakeInput view tx.Proposer
      if input.2.IsError then .ok input.2
      else
        match input.1 with
        | none => .panic "invalid memory address or nil pointer dereference"
        | some proposerAccount =>
          if !h.VerifySignature chainID tx proposerAccount.Address then
            .ok (result.Error "SignBytes")
          else
            let outputs := h.getOrMakeOutputs view [] tx.Outputs
            if outputs.2.IsError then .ok outputs.2
            else if tx.BlockHeight ≠ exec.stateHeight then
              .ok (result.Error "invalid block height for the coinbase transaction")
            else
              let guardianVotes := exec.GuardianVotes
              let rametronenterpriseVotes := exec.RametronenterpriseVotes
              (RetrievePools x tx.BlockHeight guardianVotes rametronenterpriseVotes).bind
                (fun pools =>
                  (CalculateReward x view validatorSet guardianVotes pools.1
                    rametronenterpriseVotes pools.2).bind (fun expectedRewards =>
                      if expectedRewards.length ≠ tx.Outputs.length then .ok result.OK
                      else .ok result.OK))

/-- The loop of `CoinbaseTxExecutor.process` over the outputs: the account found in `accounts`
is a pointer, so the new balance shows in the map as well as in the view. -/
def creditOutputs : List TxOutput → List (Address × Account) × View →
    List (Address × Account) × View
  | [], s => s
  | output :: outputs, s =>
    match mapGet s.1 output.Address with
    | some account =>
      let credited := { account with Balance := account.Balance.Plus output.Coins }
      creditOutputs outputs
        (mapSet s.1 output.Address credited, s.2.SetAccount output.Address credited)
    | none => creditOutputs outputs s

/-- The Go method `CoinbaseTxExecutor.process`: the view after the call, the returned hash
(`common.Hash{}` is 0) and the result. -/
def CoinbaseTxExecutor.process (h : CoinbaseHelpers) (chainID : String) (view : View)
    (tx : CoinbaseTx) : View × Hash × result.Result :=
  if view.CoinbaseTransactinProcessed then
    (view, 0,
      result.Error "Another coinbase transaction has been processed for the current block")
  else
    let outputs := h.getOrMakeOutputs view [] tx.Outputs
    if outputs.2.IsError then (view, 0, outputs.2)
    else
      let credited := creditOutputs tx.Outputs (outputs.1, view)
      (credited.2.SetCoinbaseTransactionProcessed true, h.TxID chainID tx, result.OK)

/-- The balance of an account after every output of the list that names its address has been
added to it, in order. -/
def creditedBalance (outputs : List TxOutput) (addr : Address) (balance : Coins) : Coins :=
  (outputs.filter (fun output => decide (output.Address = addr))).foldl
    (fun b output => b.Plus output.Coins) balance

/-- Example helpers: every check passes, the proposer account is the address with an empty
balance, and `getOrMakeOutputs` loads every output account from the view or makes a new one
with an empty balance. -/
def exampleCoinbaseHelpers : CoinbaseHelpers where
  ValidateBasic := fun _ => result.OK
  isAValidator := fun _ _ => result.OK
  getOrMakeInput := fun _ input =>
    (some { Address := input.Address, Sequence := 0, Balance := NewCoins 0 0 }, result.OK)
  VerifySignature := fun _ _ _ => true
  getOrMakeOutputs := fun view accounts outputs =>
    (outputs.foldl (fun m output =>
        mapSet m output.Address
          ((view.GetAccount output.Address).getD
            { Address := output.Address, Sequence := 0, Balance := NewCoins 0 0 }))
      accounts, result.OK)
  TxID := fun _ _ => 0

/-- The executor of the example at the edge checkpoint 4418001. -/
def exampleCoinbaseExecutor : CoinbaseTxExecutor where
  stateHeight := 4418001
  validatorSet := exampleValidatorSet
  GuardianVotes := some exampleGuardianVotes
  RametronenterpriseVotes := some exampleEdgeVotes

/-- A coinbase transaction of proposer 1 for block 4418001 whose only output mints
`10^30` utility wei to address 99. -/
def exampleMintTx : CoinbaseTx :=
  { Proposer := { Address := 1, Coins := NewCoins 0 0, Sequence := 0, Signature := some 1 }
    Outputs := [{ Address := 99, Coins := NewCoins 0 (10 ^ 30) }]
    BlockHeight := 4418001 }

end execution

namespace core

/-- The values of the `uint8` field `Purpose` of a stake transaction: the six constants of
`core/stake.go` that `sanityCheck` names (the file is not among the sources, so they stand here
without their numeric values) and any other value. -/
inductive StakePurpose where
  | StakeForValidator
  | StakeForGuardian
  | StakeForRametronenterprise
  | StakeForRametronpro
  | StakeForRametronlite
  | StakeForRametronmobile
  | other (code : Nat)
  deriving Repr, DecidableEq

/-- The purpose is one of the four edge tiers. -/
def StakePurpose.isEdgeTier : StakePurpose → Bool
  | .StakeForRametronenterprise => true
  | .StakeForRametronpro => true
  | .StakeForRametronlite => true
  | .StakeForRametronmobile => true
  | _ => false

/-- The minimum deposit that the constants of `core/rametronenterprise.go` name for an edge
tier. -/
def tierMinimum : StakePurpose → Int
  | .StakeForRametronenterprise => MinRametronenterpriseStakeDeposit
  | .StakeForRametronpro => MinRametronproStakeDeposit
  | .StakeForRametronlite => MinRametronliteStakeDeposit
  | _ => MinRametronmobileStakeDeposit

end core

namespace types

open common

/-- The fields of the Go structs `DepositStakeTx` and `DepositStakeTxV2` that `sanityCheck`
reads; `isV2` tells the two types apart. -/
structure DepositStakeTx where
  Fee : Coins
  Source : TxInput
  Holder : TxOutput
  Purpose : core.StakePurpose
  isV2 : Bool
  deriving Repr, DecidableEq

end types

namespace execution

open common core state types

/-- The helpers of the deposit executor and the two constants of `core/stake.go` that are not
among the sources, taken as parameters: `tx.Source.ValidateBasic()`, `getInput` (`none` when
the returned result is an error), `validateInputAdvanced` for the sign bytes of the
transaction, `sanityCheckForFee`, `MinValidatorStakeDeposit` and `MinGuardianStakeDeposit`. -/
structure DepositStakeHelpers where
  ValidateBasic : TxInput → result.Result
  getInput : View → TxInput → Option Account
  validateInputAdvanced : Account → String → DepositStakeTx → Nat → result.Result
  sanityCheckForFee : Coins → Nat → Int × Bool
  MinValidatorStakeDeposit : Int
  MinGuardianStakeDeposit : Int

/-- The block of `sanityCheck` that all four edge tiers share, each under its own `if`: the
height gate, the check that no native coin is deposited, and the comparison of the amount with
`core.MinRametronmobileStakeDeposit`, to which every tier's local minimum is set. `none` when
the block does not return. -/
def edgeTierCheck (tierName : String) (blockHeight : Nat) (stake : Coins) :
    Option result.Result :=
  if blockHeight < HeightEnablePando2 then
    some ((result.Error (tierName ++ " staking not enabled yet")).WithErrorCode
      .CodeGenericError)
  else
    let minStake := MinRametronmobileStakeDeposit
    if stake.PandoWei.getD 0 > 0 then
      some ((result.Error ("Only PTX can be deposited for " ++ tierName)).WithErrorCode
        .CodeStakeExceedsCap)
    else if stake.PTXWei.getD 0 < minStake then
      some ((result.Error "Insufficient amount of stake").WithErrorCode
        .CodeInsufficientStake)
    else none

/-- The Go method `DepositStakeExecutor.sanityCheck`. -/
def DepositStakeExecutor.sanityCheck (h : DepositStakeHelpers) (chainID : String)
    (view : View) (tx : DepositStakeTx) : result.Result :=
  let blockHeight := (view.Height + 1) % uint64Mod
  if tx.isV2 ∧ blockHeight < HeightEnablePando1 then
    result.Error "Feature guardian is not active yet"
  else
    let res := h.ValidateBasic tx.Source
    if res.IsError then res
    else
      match h.getInput view tx.Source with
      | none => result.Error "Failed to get the source account"
      | some sourceAccount =>
        let res := h.validateInputAdvanced sourceAccount chainID tx blockHeight
        if res.IsError then res
        else if !(h.sanityCheckForFee tx.Fee blockHeight).2 then
          (result.Error "Insufficient fee").WithErrorCode .CodeInvalidFee
        else if !(tx.Purpose = .StakeForValidator ∨ tx.Purpose = .StakeForGuardian ∨
            tx.Purpose = .StakeForRametronenterprise ∨ tx.Purpose = .StakeForRametronpro ∨
            tx.Purpose = .StakeForRametronlite ∨ tx.Purpose = .StakeForRametronmobile) then
          (result.Error "Invalid stake purpose!").WithErrorCode .CodeInvalidStakePurpose
        else
          let stake := tx.Source.Coins.NoNil
          if !stake.IsValid || !stake.IsNonnegative then
            (result.Error "Invalid stake for stake deposit!").WithErrorCode .CodeInvalidStake
          else if (tx.Purpose = .StakeForValidator ∨ tx.Purpose = .StakeForGuardian) ∧
              stake.PandoWei.getD 0 ≠ 0 then
            (result.Error "pando has to be zero for validator or guardian stake deposit!"
              ).WithErrorCode .CodeInvalidStake
          else if tx.Purpose.isEdgeTier ∧ stake.PandoWei.getD 0 ≠ 0 then
            (result.Error "Pando has to be zero for rametronenterprise stake deposit!"
              ).WithErrorCode .CodeInvalidStake
          else if tx.Purpose = .StakeForValidator ∧
              stake.PTXWei.getD 0 < h.MinValidatorStakeDeposit then
            (result.Error "Insufficient amount of stake").WithErrorCode .CodeInsufficientStake
          else if tx.Purpose = .StakeForGuardian ∧
              stake.PTXWei.getD 0 < h.MinGuardianStakeDeposit then
            (result.Error "Insufficient amount of stake").WithErrorCode .CodeInsufficientStake
          else
            let tierResult :=
              match tx.Purpose with
              | .StakeForRametronenterprise =>
                edgeTierCheck "Rametronenterprise" blockHeight stake
              | .StakeForRametronpro => edgeTierCheck "Rametronpro" blockHeight stake
              | .StakeForRametronlite => edgeTierCheck "Rametronlite" blockHeight stake
              | .StakeForRametronmobile => edgeTierCheck "Rametronmobile" blockHeight stake
              | _ => none
            match tierResult with
            | some res => res
            | none =>
              let minimalBalance := stake.Plus tx.Fee
              if !sourceAccount.Balance.IsGTE minimalBalance then
                (result.Error "DepositStake: Source balance is below the required minimal balance"
                  ).WithErrorCode .CodeInsufficientStake
              else result.OK

/-- Example helpers: the source checks pass, the source account is read from the view, and a
fee is accepted from `10^15` utility wei on. -/
def exampleDepositHelpers : DepositStakeHelpers where
  ValidateBasic := fun _ => result.OK
  getInput := fun view input => view.GetAccount input.Address
  validateInputAdvanced := fun _ _ _ _ => result.OK
  sanityCheckForFee := fun fee _ => (10 ^ 15, decide (10 ^ 15 ≤ fee.PTXWei.getD 0))
  MinValidatorStakeDeposit := 200000 * 10 ^ 18
  MinGuardianStakeDeposit := 10000 * 10 ^ 18

/-- The example view with one account: address 7 with a balance of `balance` utility wei. -/
def exampleDepositView (balance : Int) : View :=
  { exampleRewardView with
    accounts := [(7, { Address := 7, Sequence := 0, Balance := NewCoins 0 balance })] }

/-- A deposit of `amount` utility wei from source 7 to holder 5 for the given purpose, with a
fee of `10^15`. -/
def exampleDepositTx (purpose : StakePurpose) (amount : Int) : DepositStakeTx :=
  { Fee := NewCoins 0 (10 ^ 15)
    Source := { Address := 7, Coins := NewCoins 0 amount, Sequence := 1, Signature := some 1 }
    Holder := { Address := 5, Coins := NewCoins 0 0 }
    Purpose := purpose
    isV2 := true }

end execution

namespace common

/-- The Go function `LastCheckPointHeight`, on `uint64` values. -/
def LastCheckPointHeight (height : Nat) : Nat :=
  let multiple := height / (CheckpointInterval.toNat % uint64Mod)
  let lastCheckpointHeight := ((CheckpointInterval.toNat % uint64Mod) * multiple + 1) % uint64Mod
  lastCheckpointHeight

end common

namespace types

/-- The Go method `IsEqual`. -/
def Coins.IsEqual (coinsA coinsB : Coins) : Bool :=
  decide (coinsA.NoNil.PandoWei.getD 0 = coinsB.NoNil.PandoWei.getD 0) &&
    decide (coinsA.NoNil.PTXWei.getD 0 = coinsB.NoNil.PTXWei.getD 0)

end types

namespace consensus

open common core

/-- The engine states inside a block: reached from a returned `StartNewBlock` through
`StartNewBlock`, `StartNewRound`, `processVote` and `processAggregatedVote`, each called with
arbitrary arguments and returning normally. -/
inductive ReachableInBlock (s : bls.Scheme) : RametronenterpriseEngine → Prop where
  | startNewBlock (e e2 : RametronenterpriseEngine) (block : Hash)
      (ledgerPool : GoResult (Option RametronenterprisePool)) :
      e.StartNewBlock block ledgerPool = .ok e2 → ReachableInBlock s e2
  | startNewRound (e : RametronenterpriseEngine) :
      ReachableInBlock s e → ReachableInBlock s e.StartNewRound
  | processVote (e e2 : RametronenterpriseEngine) (vote : RametronenterpriseVote) :
      ReachableInBlock s e → e.processVote s vote = .ok e2 → ReachableInBlock s e2
  | processAggregatedVote (e e2 : RametronenterpriseEngine)
      (vote : AggregatedRametronenterpriseVotes) :
      ReachableInBlock s e → e.processAggregatedVote s vote = .ok e2 →
      ReachableInBlock s e2

end consensus

namespace consensus

open common core

/-- The example vote again with another reported height, timestamp and signature. -/
def exampleVoteResent : RametronenterpriseVote :=
  { exampleVote with Height := 7, Timestamp := 99, Signature := some 2 }

/-- One minute of the clock, in nanoseconds. -/
def minute : Int := 60 * 1000000000

end consensus

namespace common

/-- The keys of a Go map held as the list of its entries. -/
def mapKeys {κ α : Type} (m : List (κ × α)) : List κ := m.map (fun e => e.1)

end common

namespace consensus

open common core

/-- A call of one of the three exported methods of the bookkeeper, with its argument. -/
inductive BookkeeperCall where
  | Record (vote : RametronenterpriseVote)
  | HasSeen (vote : RametronenterpriseVote)
  | ReceiveCount (vote : RametronenterpriseVote)

/-- The bookkeeper after a call made at the clock reading `now`. -/
def RametronenterpriseVoteBookkeeper.call (k : VoteHashScheme)
    (vb : RametronenterpriseVoteBookkeeper) (now : Int) :
    BookkeeperCall → GoResult RametronenterpriseVoteBookkeeper
  | .Record vote => (vb.Record k now vote).map (fun r => r.2)
  | .HasSeen vote => .ok (vb.HasSeen k now vote).2
  | .ReceiveCount vote => .ok (vb.ReceiveCount k now vote).2

/-- The bookkeeper states reachable under a non-decreasing clock: the bookkeeper created with
`maxNumVotes`, and every state that a returning `Record`, `HasSeen` or `ReceiveCount` call
leaves behind, paired with the clock reading of that last call. -/
inductive BookkeeperReachable (k : VoteHashScheme) (maxNumVotes : Nat) :
    RametronenterpriseVoteBookkeeper → Int → Prop where
  | create (t : Int) :
      BookkeeperReachable k maxNumVotes (CreateRametronenterpriseVoteBookkeeper maxNumVotes) t
  | call (vb vb2 : RametronenterpriseVoteBookkeeper) (t now : Int) (c : BookkeeperCall) :
      BookkeeperReachable k maxNumVotes vb t → t ≤ now → vb.call k now c = .ok vb2 →
      BookkeeperReachable k maxNumVotes vb2 now

/-- The map and the list hold the same records: the hashes of the list are distinct, every
record of the list is the map's entry for its hash, the keys of the map are the hashes of the
list, and the list is ordered by creation time. -/
def SameRecords (m : List (String × RametronenterpriseVoteRecord))
    (l : List RametronenterpriseVoteRecord) : Prop :=
  (l.map (fun r => r.Hash)).Nodup ∧
  (∀ r ∈ l, mapGet m r.Hash = some r) ∧
  (mapKeys m).Perm (l.map (fun r => r.Hash)) ∧
  l.Pairwise (fun a b => a.CreatedAt ≤ b.CreatedAt)

end consensus

namespace consensus

open common core

/-- The state of a bookkeeper right after a call at the clock reading `now`: the map and the
list hold the same records, at most `maxNumVotes` of them, none created after `now` and none
older than `maxVoteLife`. -/
def RametronenterpriseVoteBookkeeper.Tidy (vb : RametronenterpriseVoteBookkeeper) (now : Int) :
    Prop :=
  SameRecords vb.voteMap vb.voteList ∧ vb.voteList.length ≤ vb.maxNumVotes ∧
  (∀ r ∈ vb.voteList, r.CreatedAt ≤ now) ∧
  (∀ r ∈ vb.voteList, now - r.CreatedAt ≤ maxVoteLife)

end consensus

namespace consensus

open common core

/-- A bookkeeper for one record that holds the record of the example vote, made at clock
reading 0. -/
def exampleBookkeeper : RametronenterpriseVoteBookkeeper :=
  { voteMap := [("5:9", { Hash := "5:9", Count := 0, CreatedAt := 0 })]
    voteList := [{ Hash := "5:9", Count := 0, CreatedAt := 0 }]
    maxNumVotes := 1 }

/-- A vote of address 6 for block 9. -/
def exampleVoteOther : RametronenterpriseVote :=
  { Block := 9, Height := 100, Address := 6, Signature := some 4, Timestamp := 0 }

end consensus

namespace bls

/-- Modelled from the spec: the multi-public-key `Σᵢ multiplies[i] · pubkeys[i]` that
`bls.AggregatePublicKeysVec` builds from parallel slices, as a formal sum of keys: the multiset
that holds `pubkeys[i]` exactly `multiplies[i]` times. Package `crypto/bls` is not among the
sources. -/
def AggregatePublicKeysVec : List PublicKey → List Nat → Multiset PublicKey
  | p :: ps, m :: ms => Multiset.replicate m p + AggregatePublicKeysVec ps ms
  | _, _ => 0

/-- Modelled from the spec: what the spec says of the BLS operations that `Merge` and `Validate`
call. The check of an aggregate succeeds exactly on parallel slices whose multi-public-key
`Σᵢ multiplies[i] · pubkeys[i]` the signature verifies against (`verify`) over the payload of
the block; the aggregate `x ⊕ y` of two signatures is a signature; and `x ⊕ y` verifies against
the sum of two multi-public-keys over a payload when `x` and `y` verify against one each over
that payload. -/
structure Scheme.Linear (s : Scheme)
    (verify : Signature → common.Hash → Multiset PublicKey → Bool) : Prop where
  verifyAggregated : ∀ sig block pubkeys multiplies,
    s.VerifyAggregated sig block pubkeys multiplies = true ↔
      pubkeys.length = multiplies.length ∧
        verify sig block (AggregatePublicKeysVec pubkeys multiplies) = true
  aggregate : ∀ x y, ∃ z, s.CopyAggregate (some x) (some y) = some z
  linear : ∀ x y z block k1 k2, s.CopyAggregate (some x) (some y) = some z →
    verify x block k1 = true → verify y block k2 = true → verify z block (k1 + k2) = true

/-- A toy verification for evaluating the code on examples: keys and signatures are numbers, the
signature of the key `p` over the block `b` is `p * (b + 1)`, and a signature verifies against a
multi-public-key when it is the signature of the sum of its keys. -/
def exampleVerify (sig : Signature) (block : common.Hash) (key : Multiset PublicKey) : Bool :=
  decide (sig = key.sum * (block + 1))

/-- The scheme of `exampleVerify`: aggregation adds signatures (nil aggregates to nil). -/
def exampleLinearScheme : Scheme where
  CopyAggregate := fun a b =>
    match a, b with
    | some x, some y => some (x + y)
    | _, _ => none
  Verify := fun sig block pubkey => exampleVerify sig block {pubkey}
  VerifyAggregated := fun sig block pubkeys multiplies =>
    decide (pubkeys.length = multiplies.length) &&
      exampleVerify sig block (AggregatePublicKeysVec pubkeys multiplies)

end bls

namespace state

open common core

/-- The loop of the Go method `GetPubKeys` of the state pool over the lookup `get` of the key of
a worker (`none` when `Get` returns nil): the keys of the addresses in order, `none` for the
`return nil` at the first missing worker. -/
def getPubKeysLoop (get : Address → Option bls.PublicKey) :
    List Address → Option (List bls.PublicKey)
  | [] => some []
  | addr :: rest =>
    match get addr with
    | none => none
    | some pubkey => (getPubKeysLoop get rest).map (fun ret => pubkey :: ret)

/-- The Go method `GetPubKeys` of the state pool over the lookup `get`; the nil slice it returns
for a missing worker is the empty slice. -/
def GetPubKeys (get : Address → Option bls.PublicKey) (addrs : List Address) :
    List bls.PublicKey :=
  (getPubKeysLoop get addrs).getD []

end state

namespace core

open common

/-- The signature check that ends `Validate`:
`a.Signature.Verify(a.signBytes(), bls.AggregatePublicKeysVec(pool.GetPubKeys(a.Addresses),
a.Multiplies))`; a nil signature does not verify. -/
def AggregatedRametronenterpriseVotes.signatureVerifies (s : bls.Scheme)
    (a : AggregatedRametronenterpriseVotes) (pool : RametronenterprisePool) : Bool :=
  match a.Signature with
  | none => false
  | some sig => s.VerifyAggregated sig a.Block (pool.GetPubKeys a.Addresses) a.Multiplies

/-- A pool for `bls.exampleLinearScheme`: the worker of address `x` holds the key `x + 10`, and
the workers of the addresses from 100 on are missing. -/
def exampleKeyPool : RametronenterprisePool where
  GetPubKeys := state.GetPubKeys (fun x => if x < 100 then some (x + 10) else none)
  RandomRewardWeight := fun _ _ => 1

/-- The vote of address 5 for block 9 as an aggregate, signed with the key 15. -/
def exampleAggregateA : AggregatedRametronenterpriseVotes :=
  { Block := 9, Multiplies := [1], Addresses := [5], Signature := some 150 }

/-- Two votes of address 6 for block 9 as an aggregate, each signed with the key 16. -/
def exampleAggregateB : AggregatedRametronenterpriseVotes :=
  { Block := 9, Multiplies := [2], Addresses := [6], Signature := some 320 }

end core

namespace big

/-- A value of the Go standard library type `big.Float`, by its sign, an integer mantissa and a
binary exponent: `(-1)^neg × mant × 2^exp` (a zero when `mant = 0`), or an infinity. -/
inductive Float where
  | finite (neg : Bool) (mant : Nat) (exp : Int)
  | inf (neg : Bool)
  deriving Repr, DecidableEq

/-- The largest exponent of a `big.Float` (`math.MaxInt32`). -/
def MaxExp : Int := 2147483647

/-- The smallest exponent of a `big.Float` (`math.MinInt32`). -/
def MinExp : Int := -2147483648

/-- The Go method `Sign`: -1, 0 or +1; a zero of either sign gives 0. -/
def Float.Sign : Float → Int
  | .finite neg mant _ => if mant = 0 then 0 else if neg then -1 else 1
  | .inf neg => if neg then -1 else 1

/-- The library routine `setExpAndRound` on `(-1)^neg × mant × 2^exp`: underflow to zero and
overflow to an infinity on the exponent `exp + bits(mant)` of the normalised mantissa, then
rounding of the mantissa to `prec` bits to nearest even (the rounding mode of a fresh
`big.Float`), where a carry can overflow the exponent once more. -/
def Float.setExpAndRound (prec : Nat) (neg : Bool) (mant : Nat) (exp : Int) : Float :=
  if mant = 0 then .finite neg 0 0
  else if exp + mant.size < MinExp then .finite neg 0 0
  else if exp + mant.size > MaxExp then .inf neg
  else
    let shift := mant.size - prec
    let q := mant / 2 ^ shift
    let r := mant % 2 ^ shift
    let q1 := if 2 ^ shift < 2 * r ∨ (2 * r = 2 ^ shift ∧ q % 2 = 1) then q + 1 else q
    if exp + shift + q1.size > MaxExp then .inf neg else .finite neg q1 (exp + shift)

/-- The product `f.Mul(f, new(big.Float).SetPrec(prec).SetUint64(k))` for `k > 0` that fits
`prec` bits, on a receiver of precision `prec`. -/
def Float.MulUint64 (prec : Nat) (f : Float) (k : Nat) : Float :=
  match f with
  | .finite neg mant exp => Float.setExpAndRound prec neg (mant * k) exp
  | .inf neg => .inf neg

/-- The Go call `f.Int(nil)`: the value truncated towards zero, `none` (nil) for an infinity. -/
def Float.Int : Float → Option Int
  | .finite neg mant exp =>
    let mag : Nat := if 0 ≤ exp then mant * 2 ^ exp.toNat else mant / 2 ^ (-exp).toNat
    some (if neg then -(mag : ℤ) else (mag : ℤ))
  | .inf _ => none

/-- Whether a byte string is a non-empty run of the decimal digits `0` to `9`. -/
def isDigits (s : List Nat) : Bool :=
  !s.isEmpty && s.all (fun c => decide (48 ≤ c) && decide (c ≤ 57))

/-- The number that a run of decimal digits denotes. -/
def digitsValue (s : List Nat) : Nat :=
  s.foldl (fun acc c => acc * 10 + (c - 48)) 0

/-- The Go call `new(big.Float).SetPrec(prec).SetString(s)` on a byte string, `none` when it
reports `ok == false`. For an optional sign followed by decimal digits only, the library reads
the digits exactly, fails when the number needs more than `MaxExp` bits, and rounds to `prec`
bits. What the library returns for every other string (fractions, exponents, base prefixes,
digit separators, `Inf`) is the parameter `other`. -/
def SetString (prec : Nat) (other : List Nat → Option Float) (s : List Nat) : Option Float :=
  let neg := decide (s.head? = some 45)
  let body := if s.head? = some 45 ∨ s.head? = some 43 then s.tail else s
  if isDigits body then
    let n := digitsValue body
    if n = 0 then some (.finite neg 0 0)
    else if (n.size : Int) > MaxExp then none
    else some (Float.setExpAndRound prec neg n 0)
  else other s

end big

namespace types

/-- The bytes of a string of ASCII characters, for writing examples. -/
def bytesOf (s : String) : List Nat := s.data.map Char.toNat

/-- The Go call `strings.EqualFold("wei", t)` on a string `t` of three bytes: each byte is the
letter of `wei` at its place in either case (no other rune folds to `w`, `e` or `i`). -/
def equalFoldWei (t : List Nat) : Bool :=
  match t with
  | [a, b, c] =>
    (decide (a = 119) || decide (a = 87)) && (decide (b = 101) || decide (b = 69)) &&
      (decide (c = 105) || decide (c = 73))
  | _ => false

/-- The Go function `ParseCoinAmount` on the bytes of its argument; the pair is the returned
`(*big.Int, bool)`, `none` for nil. -/
def ParseCoinAmount (other : List Nat → Option big.Float) (input : List Nat) :
    Option Int × Bool :=
  let inWei := decide (input.length > 3) && equalFoldWei (input.drop (input.length - 3))
  let input1 := if inWei then input.take (input.length - 3) else input
  match big.SetString 1024 other input1 with
  | none => (none, false)
  | some f =>
    if f.Sign < 0 then (none, false)
    else
      let f1 := if !inWei then f.MulUint64 1024 (10 ^ 18) else f
      (f1.Int, true)

/-- The decimal digits of `2^1024 + 1`. -/
def exampleHugeDigits : List Nat :=
  bytesOf ("17976931348623159077293051907890247336179769789423065727343008115773267580550096" ++
    "31327084773224075360211201138798713933576587897688144166224928474306394741243777678934" ++
    "24865485276302219601246094119453082952085005768838150682342462881473913110540827237163" ++
    "350510684586298239947245938479716304835356329624224137217")

end types

/-! ## Theorems -/

namespace GoResult
theorem map_eq_ok {α β : Type} (f : α → β) (r : GoResult α) (v : β) :
    r.map f = .ok v ↔ ∃ u, r = .ok u ∧ f u = v := by
  cases r <;> simp [map]

theorem map_eq_error {α β : Type} (f : α → β) (r : GoResult α) (msg : String) :
    r.map f = .error msg ↔ r = .error msg := by
  cases r <;> simp [map]

theorem map_eq_panic {α β : Type} (f : α → β) (r : GoResult α) (msg : String) :
    r.map f = .panic msg ↔ r = .panic msg := by
  cases r <;> simp [map]
end GoResult

namespace core
open common

theorem multiplicityIn_of_not_mem (aA : List Address) (aM : List Nat) (z : Address)
    (h : z ∉ aA) : multiplicityIn aA aM z = 0 := by
  induction aA generalizing aM with
  | nil => simp [multiplicityIn]
  | cons x xs ih =>
    cases aM with
    | nil => simp [multiplicityIn]
    | cons m ms =>
      simp only [List.mem_cons, not_or] at h
      simp [multiplicityIn, Ne.symm h.1, ih ms h.2]

set_option maxHeartbeats 1600000 in
/-- Structure of a successful walk over sorted, parallel inputs. -/
theorem mergeLoop_props (aA : List Address) (aM : List Nat) (bA : List Address) (bM : List Nat) :
    aA.Sorted (· < ·) → bA.Sorted (· < ·) → aA.length = aM.length → bA.length = bM.length →
    ∀ rM rA sub, mergeLoop aA aM bA bM = .ok (rM, rA, sub) →
      rM.length = rA.length ∧ rA.Sorted (· < ·) ∧ (∀ z, z ∈ rA ↔ z ∈ aA ∨ z ∈ bA) ∧
      (sub = true ↔ ∀ z ∈ bA, z ∈ aA) ∧ aA.length ≤ rA.length ∧
      (sub = false → aA.length < rA.length) ∧
      ∀ z, multiplicityIn aA aM z ≤ multiplicityIn rA rM z := by
  induction aA, aM, bA, bM using mergeLoop.induct with
  | case1 aM bM =>
    intro _ _ _ _ rM rA sub h
    simp [mergeLoop] at h
    obtain ⟨rfl, rfl, rfl⟩ := h
    simp [multiplicityIn]
  | case2 x xs aM bM =>
    intro ha _ hla _ rM rA sub h
    simp [mergeLoop] at h
    obtain ⟨rfl, rfl, rfl⟩ := h
    simp [ha, hla.symm]
  | case3 aM y ys bM =>
    intro _ hb _ hlb rM rA sub h
    simp [mergeLoop] at h
    obtain ⟨rfl, rfl, rfl⟩ := h
    simp [hb, hlb.symm, multiplicityIn]
    exact ⟨y, fun h => absurd rfl h⟩
  | case4 xs y ys m ms n ns hov =>
    intro _ _ _ _ rM rA sub h
    simp [mergeLoop, hov] at h
  | case5 xs y ys m ms n ns hov ih =>
    intro ha hb hla hlb rM rA sub h
    simp only [mergeLoop, if_true, hov, if_false, GoResult.map_eq_ok] at h
    obtain ⟨⟨rM', rA', sub'⟩, hrec, heq⟩ := h
    simp only [Prod.mk.injEq] at heq
    obtain ⟨rfl, rfl, rfl⟩ := heq
    rw [List.sorted_cons] at ha hb
    simp only [List.length_cons, add_left_inj] at hla hlb
    obtain ⟨h1, h2, h3, h4, h5, h6, h7⟩ := ih ha.2 hb.2 hla hlb rM' rA' sub' hrec
    simp only [not_or, not_lt] at hov
    refine ⟨by simp [h1], ?_, ?_, ?_, by simp [h5], ?_, ?_⟩
    · rw [List.sorted_cons]
      refine ⟨fun z hz => ?_, h2⟩
      rcases (h3 z).1 hz with hz | hz
      · exact ha.1 z hz
      · exact hb.1 z hz
    · intro z
      simp only [List.mem_cons, h3]
      tauto
    · rw [h4]
      constructor
      · intro hs z hz
        rcases List.mem_cons.1 hz with rfl | hz
        · exact List.mem_cons_self _ _
        · exact List.mem_cons_of_mem _ (hs z hz)
      · intro hs z hz
        rcases List.mem_cons.1 (hs z (List.mem_cons_of_mem _ hz)) with rfl | hz'
        · exact absurd (hb.1 z hz) (lt_irrefl _)
        · exact hz'
    · intro hs
      have := h6 hs
      simp only [List.length_cons]
      omega
    · intro z
      simp only [multiplicityIn]
      split
      · exact hov.1
      · exact h7 z
  | case6 xs aM y ys bM hno =>
    intro _ _ hla hlb
    cases aM with
    | nil => simp at hla
    | cons m ms =>
      cases bM with
      | nil => simp at hlb
      | cons n ns => exact absurd rfl (fun h => hno m ms n ns h rfl)
  | case7 x xs y ys bM hne hlt m ms ih =>
    intro ha hb hla hlb rM rA sub h
    obtain ⟨n, ns, rfl⟩ : ∃ n ns, bM = n :: ns := by
      cases bM with
      | nil => exact absurd hlb (Nat.succ_ne_zero _)
      | cons n ns => exact ⟨n, ns, rfl⟩
    simp only [mergeLoop, hne, if_false, hlt, if_true, GoResult.map_eq_ok] at h
    obtain ⟨⟨rM', rA', sub'⟩, hrec, heq⟩ := h
    simp only [Prod.mk.injEq] at heq
    obtain ⟨rfl, rfl, rfl⟩ := heq
    have hb' := hb
    rw [List.sorted_cons] at ha hb'
    simp only [List.length_cons, add_left_inj] at hla
    obtain ⟨h1, h2, h3, h4, h5, h6, h7⟩ := ih ha.2 hb hla hlb rM' rA' sub' hrec
    have hxb : ∀ z ∈ y :: ys, x < z := by
      intro z hz
      rcases List.mem_cons.1 hz with rfl | hz
      · exact hlt
      · exact lt_trans hlt (hb'.1 z hz)
    refine ⟨by simp [h1], ?_, ?_, ?_, by simp [h5], ?_, ?_⟩
    · rw [List.sorted_cons]
      refine ⟨fun z hz => ?_, h2⟩
      rcases (h3 z).1 hz with hz | hz
      · exact ha.1 z hz
      · exact hxb z hz
    · intro z
      simp only [List.mem_cons, h3]
      tauto
    · rw [h4]
      constructor
      · intro hs z hz
        exact List.mem_cons_of_mem _ (hs z hz)
      · intro hs z hz
        rcases List.mem_cons.1 (hs z hz) with rfl | hz'
        · exact absurd (hxb z hz) (lt_irrefl _)
        · exact hz'
    · intro hs
      have := h6 hs
      simp only [List.length_cons]
      omega
    · intro z
      simp only [multiplicityIn]
      split
      · exact le_refl _
      · exact h7 z
  | case8 x xs y ys bM hne hlt =>
    intro _ _ hla _
    exact absurd hla (Nat.succ_ne_zero _)
  | case9 x xs aM y ys hne hlt n ns ih =>
    intro ha hb hla hlb rM rA sub h
    obtain ⟨m, ms, rfl⟩ : ∃ m ms, aM = m :: ms := by
      cases aM with
      | nil => exact absurd hla (Nat.succ_ne_zero _)
      | cons m ms => exact ⟨m, ms, rfl⟩
    simp only [mergeLoop, hne, if_false, hlt, GoResult.map_eq_ok] at h
    obtain ⟨⟨rM', rA', sub'⟩, hrec, heq⟩ := h
    simp only [Prod.mk.injEq] at heq
    obtain ⟨rfl, rfl, rfl⟩ := heq
    have ha' := ha
    rw [List.sorted_cons] at ha' hb
    simp only [List.length_cons, add_left_inj] at hlb
    obtain ⟨h1, h2, h3, h4, h5, h6, h7⟩ := ih ha hb.2 hla hlb rM' rA' sub' hrec
    have hyx : y < x := lt_of_le_of_ne (not_lt.1 hlt) (Ne.symm hne)
    have hya : ∀ z ∈ x :: xs, y < z := by
      intro z hz
      rcases List.mem_cons.1 hz with rfl | hz
      · exact hyx
      · exact lt_trans hyx (ha'.1 z hz)
    refine ⟨by simp [h1], ?_, ?_, ?_, ?_, ?_, ?_⟩
    · rw [List.sorted_cons]
      refine ⟨fun z hz => ?_, h2⟩
      rcases (h3 z).1 hz with hz | hz
      · exact hya z hz
      · exact hb.1 z hz
    · intro z
      simp only [List.mem_cons, h3]
      tauto
    · simp only [Bool.false_eq_true, false_iff]
      intro hs
      exact absurd (hya y (hs y (List.mem_cons_self _ _))) (lt_irrefl _)
    · simp only [List.length_cons] at h5 ⊢
      omega
    · intro _
      simp only [List.length_cons] at h5 ⊢
      omega
    · intro z
      have hz := h7 z
      by_cases hzy : y = z
      · subst hzy
        rw [multiplicityIn_of_not_mem (x :: xs) (m :: ms) y
          (fun hmem => absurd (hya y hmem) (lt_irrefl _))]
        exact Nat.zero_le _
      · rw [multiplicityIn.eq_def (y :: rA')]
        simp only [hzy, if_false]
        exact hz
  | case10 x xs aM y ys hne hlt =>
    intro _ _ _ hlb
    exact absurd hlb (Nat.succ_ne_zero _)
end core

namespace core
open common

theorem multiplicityIn_lt (aA : List Address) (aM : List Nat) (z : Address)
    (h : ∀ m ∈ aM, m < uint32Mod) : multiplicityIn aA aM z < uint32Mod := by
  induction aA generalizing aM with
  | nil => simp [multiplicityIn, uint32Mod]
  | cons x xs ih =>
    cases aM with
    | nil => simp [multiplicityIn, uint32Mod]
    | cons m ms =>
      simp only [multiplicityIn]
      split
      · exact h m (List.mem_cons_self _ _)
      · exact ih ms (fun k hk => h k (List.mem_cons_of_mem _ hk))

theorem multiplicityIn_cons_ne (x : Address) (xs : List Address) (m : Nat) (ms : List Nat)
    (z : Address) (h : x ≠ z) :
    multiplicityIn (x :: xs) (m :: ms) z = multiplicityIn xs ms z := by
  simp [multiplicityIn, h]

theorem multiplicityIn_cons_self (x : Address) (xs : List Address) (m : Nat) (ms : List Nat) :
    multiplicityIn (x :: xs) (m :: ms) x = m := by
  simp [multiplicityIn]

theorem multiplicityIn_head_sorted (x : Address) (xs : List Address) (ms : List Nat)
    (h : (x :: xs).Sorted (· < ·)) : multiplicityIn xs ms x = 0 :=
  multiplicityIn_of_not_mem xs ms x
    (fun hmem => absurd ((List.sorted_cons.1 h).1 x hmem) (lt_irrefl _))

theorem uint32_sum_check (m n : Nat) (hm : m < uint32Mod) (hn : n < uint32Mod) :
    ((m + n) % uint32Mod < m ∨ (m + n) % uint32Mod < n) ↔ uint32Mod ≤ m + n := by
  unfold uint32Mod at *
  omega

set_option maxHeartbeats 1600000 in
/-- On sorted, parallel inputs of `uint32` multiplicities the walk either meets an address whose
two multiplicities overflow and returns the error, or returns the per-address sums. -/
theorem mergeLoop_cases (aA : List Address) (aM : List Nat) (bA : List Address) (bM : List Nat) :
    aA.Sorted (· < ·) → bA.Sorted (· < ·) → aA.length = aM.length → bA.length = bM.length →
    (∀ m ∈ aM, m < uint32Mod) → (∀ n ∈ bM, n < uint32Mod) →
    ((∃ z, uint32Mod ≤ multiplicityIn aA aM z + multiplicityIn bA bM z) ∧
        ∃ msg, mergeLoop aA aM bA bM = .error msg) ∨
      ((∀ z, multiplicityIn aA aM z + multiplicityIn bA bM z < uint32Mod) ∧
        ∃ rM rA sub, mergeLoop aA aM bA bM = .ok (rM, rA, sub) ∧
          ∀ z, multiplicityIn rA rM z = multiplicityIn aA aM z + multiplicityIn bA bM z) := by
  induction aA, aM, bA, bM using mergeLoop.induct with
  | case1 aM bM =>
    intro _ _ _ _ _ _
    right
    refine ⟨fun z => by simp [multiplicityIn, uint32Mod], [], [], true, by simp [mergeLoop], ?_⟩
    intro z
    simp [multiplicityIn]
  | case2 x xs aM bM =>
    intro _ _ _ _ hma _
    right
    refine ⟨fun z => ?_, aM, x :: xs, true, by simp [mergeLoop], fun z => ?_⟩
    · have := multiplicityIn_lt (x :: xs) aM z hma
      simpa [multiplicityIn] using this
    · simp [multiplicityIn]
  | case3 aM y ys bM =>
    intro _ _ _ _ _ hmb
    right
    refine ⟨fun z => ?_, bM, y :: ys, false, by simp [mergeLoop], fun z => ?_⟩
    · have := multiplicityIn_lt (y :: ys) bM z hmb
      simpa [multiplicityIn] using this
    · simp [multiplicityIn]
  | case4 xs y ys m ms n ns hov =>
    intro _ _ _ _ hma hmb
    left
    have hm := hma m (List.mem_cons_self _ _)
    have hn := hmb n (List.mem_cons_self _ _)
    refine ⟨⟨y, ?_⟩, "Signiature multipliers overflowed", by simp [mergeLoop, hov]⟩
    rw [multiplicityIn_cons_self, multiplicityIn_cons_self]
    exact (uint32_sum_check m n hm hn).1 hov
  | case5 xs y ys m ms n ns hov ih =>
    intro ha hb hla hlb hma hmb
    have hm := hma m (List.mem_cons_self _ _)
    have hn := hmb n (List.mem_cons_self _ _)
    have hsum : m + n < uint32Mod := by
      have := (uint32_sum_check m n hm hn).not.1 hov
      omega
    have hmod : (m + n) % uint32Mod = m + n := Nat.mod_eq_of_lt hsum
    have hya := multiplicityIn_head_sorted y xs ms ha
    have hyb := multiplicityIn_head_sorted y ys ns hb
    simp only [List.length_cons, add_left_inj] at hla hlb
    have hrec := ih (List.sorted_cons.1 ha).2 (List.sorted_cons.1 hb).2 hla hlb
      (fun k hk => hma k (List.mem_cons_of_mem _ hk))
      (fun k hk => hmb k (List.mem_cons_of_mem _ hk))
    have hne : ∀ z, uint32Mod ≤ multiplicityIn xs ms z + multiplicityIn ys ns z → y ≠ z := by
      intro z hz hyz
      subst hyz
      rw [hya, hyb] at hz
      simp [uint32Mod] at hz
    rcases hrec with ⟨⟨z, hz⟩, msg, hmsg⟩ | ⟨hall, rM, rA, sub, hok, hsums⟩
    · left
      refine ⟨⟨z, ?_⟩, msg, ?_⟩
      · rw [multiplicityIn_cons_ne _ _ _ _ _ (hne z hz), multiplicityIn_cons_ne _ _ _ _ _ (hne z hz)]
        exact hz
      · simp [mergeLoop, hov, hmsg, GoResult.map]
    · right
      refine ⟨fun z => ?_, (m + n) % uint32Mod :: rM, y :: rA, sub, ?_, fun z => ?_⟩
      · by_cases hyz : y = z
        · subst hyz
          rw [multiplicityIn_cons_self, multiplicityIn_cons_self]
          exact hsum
        · rw [multiplicityIn_cons_ne _ _ _ _ _ hyz, multiplicityIn_cons_ne _ _ _ _ _ hyz]
          exact hall z
      · simp [mergeLoop, hov, hok, GoResult.map]
      · by_cases hyz : y = z
        · subst hyz
          rw [multiplicityIn_cons_self, multiplicityIn_cons_self, multiplicityIn_cons_self]
          exact hmod
        · rw [multiplicityIn_cons_ne _ _ _ _ _ hyz, multiplicityIn_cons_ne _ _ _ _ _ hyz,
            multiplicityIn_cons_ne _ _ _ _ _ hyz]
          exact hsums z
  | case6 xs aM y ys bM hno =>
    intro _ _ hla hlb
    cases aM with
    | nil => exact absurd hla (Nat.succ_ne_zero _)
    | cons m ms =>
      cases bM with
      | nil => exact absurd hlb (Nat.succ_ne_zero _)
      | cons n ns => exact absurd rfl (fun h => hno m ms n ns h rfl)
  | case7 x xs y ys bM hne hlt m ms ih =>
    intro ha hb hla hlb hma hmb
    obtain ⟨n, ns, rfl⟩ : ∃ n ns, bM = n :: ns := by
      cases bM with
      | nil => exact absurd hlb (Nat.succ_ne_zero _)
      | cons n ns => exact ⟨n, ns, rfl⟩
    have hm := hma m (List.mem_cons_self _ _)
    have hxa := multiplicityIn_head_sorted x xs ms ha
    have hxb : multiplicityIn (y :: ys) (n :: ns) x = 0 := by
      apply multiplicityIn_of_not_mem
      intro hmem
      rcases List.mem_cons.1 hmem with h | h
      · exact hne h
      · exact absurd (lt_trans hlt ((List.sorted_cons.1 hb).1 x h)) (lt_irrefl _)
    simp only [List.length_cons, add_left_inj] at hla
    have hrec := ih (List.sorted_cons.1 ha).2 hb hla hlb
      (fun k hk => hma k (List.mem_cons_of_mem _ hk)) hmb
    rcases hrec with ⟨⟨z, hz⟩, msg, hmsg⟩ | ⟨hall, rM, rA, sub, hok, hsums⟩
    · left
      have hxz : x ≠ z := by
        intro hxz
        subst hxz
        rw [hxa, hxb] at hz
        simp [uint32Mod] at hz
      refine ⟨⟨z, ?_⟩, msg, ?_⟩
      · rw [multiplicityIn_cons_ne _ _ _ _ _ hxz]
        exact hz
      · simp [mergeLoop, hne, hlt, hmsg, GoResult.map]
    · right
      refine ⟨fun z => ?_, m :: rM, x :: rA, sub, ?_, fun z => ?_⟩
      · by_cases hxz : x = z
        · subst hxz
          rw [multiplicityIn_cons_self, hxb]
          exact hm
        · rw [multiplicityIn_cons_ne _ _ _ _ _ hxz]
          exact hall z
      · simp [mergeLoop, hne, hlt, hok, GoResult.map]
      · by_cases hxz : x = z
        · subst hxz
          rw [multiplicityIn_cons_self, multiplicityIn_cons_self, hxb, Nat.add_zero]
        · rw [multiplicityIn_cons_ne _ _ _ _ _ hxz, multiplicityIn_cons_ne _ _ _ _ _ hxz]
          exact hsums z
  | case8 x xs y ys bM hne hlt =>
    intro _ _ hla _
    exact absurd hla (Nat.succ_ne_zero _)
  | case9 x xs aM y ys hne hlt n ns ih =>
    intro ha hb hla hlb hma hmb
    obtain ⟨m, ms, rfl⟩ : ∃ m ms, aM = m :: ms := by
      cases aM with
      | nil => exact absurd hla (Nat.succ_ne_zero _)
      | cons m ms => exact ⟨m, ms, rfl⟩
    have hn := hmb n (List.mem_cons_self _ _)
    have hyx : y < x := lt_of_le_of_ne (not_lt.1 hlt) (Ne.symm hne)
    have hyb := multiplicityIn_head_sorted y ys ns hb
    have hya : multiplicityIn (x :: xs) (m :: ms) y = 0 := by
      apply multiplicityIn_of_not_mem
      intro hmem
      rcases List.mem_cons.1 hmem with h | h
      · exact hne h.symm
      · exact absurd (lt_trans hyx ((List.sorted_cons.1 ha).1 y h)) (lt_irrefl _)
    simp only [List.length_cons, add_left_inj] at hlb
    have hrec := ih ha (List.sorted_cons.1 hb).2 hla hlb hma
      (fun k hk => hmb k (List.mem_cons_of_mem _ hk))
    rcases hrec with ⟨⟨z, hz⟩, msg, hmsg⟩ | ⟨hall, rM, rA, sub, hok, hsums⟩
    · left
      have hyz : y ≠ z := by
        intro hyz
        subst hyz
        rw [hya, hyb] at hz
        simp [uint32Mod] at hz
      refine ⟨⟨z, ?_⟩, msg, ?_⟩
      · rw [multiplicityIn_cons_ne y _ _ _ _ hyz]
        exact hz
      · simp [mergeLoop, hne, hlt, hmsg, GoResult.map]
    · right
      refine ⟨fun z => ?_, n :: rM, y :: rA, false, ?_, fun z => ?_⟩
      · by_cases hyz : y = z
        · subst hyz
          rw [multiplicityIn_cons_self, hya]
          simpa using hn
        · rw [multiplicityIn_cons_ne y _ _ _ _ hyz]
          exact hall z
      · simp [mergeLoop, hne, hlt, hok, GoResult.map]
      · by_cases hyz : y = z
        · subst hyz
          rw [multiplicityIn_cons_self, multiplicityIn_cons_self, hya]
          simp
        · rw [multiplicityIn_cons_ne y _ _ _ _ hyz, multiplicityIn_cons_ne y _ _ _ _ hyz]
          exact hsums z
  | case10 x xs aM y ys hne hlt =>
    intro _ _ _ hlb
    exact absurd hlb (Nat.succ_ne_zero _)

/-- Swapping the two inputs of the walk changes at most the subset flag. -/
theorem mergeLoop_comm (aA : List Address) (aM : List Nat) (bA : List Address) (bM : List Nat) :
    (mergeLoop bA bM aA aM).map (fun r => (r.1, r.2.1)) =
      (mergeLoop aA aM bA bM).map (fun r => (r.1, r.2.1)) := by
  induction aA, aM, bA, bM using mergeLoop.induct with
  | case1 aM bM => simp [mergeLoop, GoResult.map]
  | case2 x xs aM bM => simp [mergeLoop, GoResult.map]
  | case3 aM y ys bM => simp [mergeLoop, GoResult.map]
  | case4 xs y ys m ms n ns hov =>
    have hov' : (n + m) % uint32Mod < n ∨ (n + m) % uint32Mod < m := by
      rw [Nat.add_comm n m]; exact hov.symm
    simp [mergeLoop, hov, hov', GoResult.map]
  | case5 xs y ys m ms n ns hov ih =>
    have hov' : ¬ ((n + m) % uint32Mod < n ∨ (n + m) % uint32Mod < m) := by
      rw [Nat.add_comm n m]; exact fun h => hov h.symm
    simp only [mergeLoop, if_true, hov, hov', if_false]
    cases h1 : mergeLoop xs ms ys ns <;> cases h2 : mergeLoop ys ns xs ms <;>
      simp [h1, h2, GoResult.map, Nat.add_comm] at ih ⊢ <;> simp [ih]
  | case6 xs aM y ys bM hno =>
    cases aM with
    | nil => cases bM <;> simp [mergeLoop, GoResult.map]
    | cons m ms =>
      cases bM with
      | nil => simp [mergeLoop, GoResult.map]
      | cons n ns => exact absurd rfl (fun h => hno m ms n ns h rfl)
  | case7 x xs y ys bM hne hlt m ms ih =>
    have hne' : ¬ y = x := fun h => hne h.symm
    have hlt' : ¬ y < x := not_lt.2 (le_of_lt hlt)
    cases bM with
    | nil =>
      simp only [mergeLoop, hne, hne', hlt, hlt', if_true, if_false]
      cases h1 : mergeLoop xs ms (y :: ys) [] <;> cases h2 : mergeLoop (y :: ys) [] xs ms <;>
        simp [h1, h2, GoResult.map] at ih ⊢ <;> simp [ih]
    | cons n ns =>
      simp only [mergeLoop, hne, hne', hlt, hlt', if_true, if_false]
      cases h1 : mergeLoop xs ms (y :: ys) (n :: ns) <;>
        cases h2 : mergeLoop (y :: ys) (n :: ns) xs ms <;>
        simp [h1, h2, GoResult.map] at ih ⊢ <;> simp [ih]
  | case8 x xs y ys bM hne hlt =>
    have hne' : ¬ y = x := fun h => hne h.symm
    have hlt' : ¬ y < x := not_lt.2 (le_of_lt hlt)
    cases bM <;> simp [mergeLoop, hne, hne', hlt, hlt', GoResult.map]
  | case9 x xs aM y ys hne hlt n ns ih =>
    have hne' : ¬ y = x := fun h => hne h.symm
    have hlt' : y < x := lt_of_le_of_ne (not_lt.1 hlt) hne'
    cases aM with
    | nil =>
      simp only [mergeLoop, hne, hne', hlt, hlt', if_true, if_false]
      cases h1 : mergeLoop (x :: xs) [] ys ns <;> cases h2 : mergeLoop ys ns (x :: xs) [] <;>
        simp [h1, h2, GoResult.map] at ih ⊢ <;> simp [ih]
    | cons m ms =>
      simp only [mergeLoop, hne, hne', hlt, hlt', if_true, if_false]
      cases h1 : mergeLoop (x :: xs) (m :: ms) ys ns <;>
        cases h2 : mergeLoop ys ns (x :: xs) (m :: ms) <;>
        simp [h1, h2, GoResult.map] at ih ⊢ <;> simp [ih]
  | case10 x xs aM y ys hne hlt =>
    have hne' : ¬ y = x := fun h => hne h.symm
    have hlt' : y < x := lt_of_le_of_ne (not_lt.1 hlt) hne'
    cases aM <;> simp [mergeLoop, hne, hne', hlt, hlt', GoResult.map]
end core

namespace core
open common

theorem multiplicityIn_getElem (rA : List Address) (rM : List Nat)
    (hs : rA.Sorted (· < ·)) (hl : rA.length = rM.length) (k : Nat) (hk : k < rA.length) :
    rM[k]? = some (multiplicityIn rA rM rA[k]) := by
  induction rA generalizing rM k with
  | nil => simp at hk
  | cons x xs ih =>
    cases rM with
    | nil => exact absurd hl (Nat.succ_ne_zero _)
    | cons m ms =>
      simp only [List.length_cons, add_left_inj] at hl
      cases k with
      | zero => simp [multiplicityIn]
      | succ k =>
        simp only [List.length_cons, add_lt_add_iff_right] at hk
        have hlt : x < xs[k] := (List.sorted_cons.1 hs).1 _ (List.getElem_mem _)
        simp only [List.getElem?_cons_succ, List.getElem_cons_succ]
        rw [multiplicityIn_cons_ne _ _ _ _ _ (ne_of_lt hlt)]
        exact ih ms (List.sorted_cons.1 hs).2 hl k hk

theorem merge_ok_some_iff (s : bls.Scheme) (a b r : AggregatedRametronenterpriseVotes) :
    a.Merge s b = .ok (some r) ↔
      a.Block = b.Block ∧
        mergeLoop a.Addresses a.Multiplies b.Addresses b.Multiplies =
          .ok (r.Multiplies, r.Addresses, false) ∧
        r.Block = a.Block ∧ r.Signature = s.CopyAggregate a.Signature b.Signature := by
  unfold AggregatedRametronenterpriseVotes.Merge
  by_cases hb : a.Block = b.Block
  · simp only [hb, ne_eq, not_true_eq_false, if_false, true_and]
    cases h : mergeLoop a.Addresses a.Multiplies b.Addresses b.Multiplies with
    | error msg => simp
    | panic msg => simp
    | ok v =>
      obtain ⟨rM, rA, sub⟩ := v
      cases sub with
      | true => simp
      | false =>
        obtain ⟨rb, rm, ra, rs⟩ := r
        simp only [Bool.false_eq_true, if_false, GoResult.ok.injEq, Option.some.injEq,
          AggregatedRametronenterpriseVotes.mk.injEq, Prod.mk.injEq, and_true]
        rw [← hb]
        constructor
        · rintro ⟨h1, h2, h3, h4⟩
          exact ⟨⟨h2, h3⟩, h1.symm, h4.symm⟩
        · rintro ⟨⟨h2, h3⟩, h1, h4⟩
          exact ⟨h1.symm, h2, h3, h4.symm⟩
  · simp [hb]

theorem merge_ok_none_iff (s : bls.Scheme) (a b : AggregatedRametronenterpriseVotes) :
    a.Merge s b = .ok none ↔
      a.Block = b.Block ∧
        ∃ rM rA, mergeLoop a.Addresses a.Multiplies b.Addresses b.Multiplies =
          .ok (rM, rA, true) := by
  unfold AggregatedRametronenterpriseVotes.Merge
  by_cases hb : a.Block = b.Block
  · simp only [hb, ne_eq, not_true_eq_false, if_false, true_and]
    cases h : mergeLoop a.Addresses a.Multiplies b.Addresses b.Multiplies with
    | error msg => simp
    | panic msg => simp
    | ok v =>
      obtain ⟨rM, rA, sub⟩ := v
      cases sub <;> simp
  · simp [hb]

theorem merge_isError_iff (s : bls.Scheme) (a b : AggregatedRametronenterpriseVotes) :
    (a.Merge s b).isError = true ↔
      a.Block ≠ b.Block ∨
        ∃ msg, mergeLoop a.Addresses a.Multiplies b.Addresses b.Multiplies = .error msg := by
  unfold AggregatedRametronenterpriseVotes.Merge
  by_cases hb : a.Block = b.Block
  · simp only [hb, ne_eq, not_true_eq_false, if_false, false_or]
    cases h : mergeLoop a.Addresses a.Multiplies b.Addresses b.Multiplies with
    | error msg => simp [GoResult.isError]
    | panic msg => simp [GoResult.isError]
    | ok v =>
      obtain ⟨rM, rA, sub⟩ := v
      cases sub <;> simp [GoResult.isError]
  · simp [hb, GoResult.isError]

end core

namespace core
open common

/-- C1: for aggregates `a`, `b` over the same block, with strictly ascending addresses, parallel
arrays, no common address whose multiplicities add up to more than 2^32-1, and an address of `b`
that `a` lacks, `a.Merge(b)` returns `(r, nil)` with `r.Block = a.Block`, `r.Addresses` the
strictly ascending union of both address lists, and `r.Multiplies[k]` the sum of the
multiplicities that `a` and `b` give to `r.Addresses[k]` (0 for an absent address). -/
theorem merge_disjoint_union (s : bls.Scheme) (a b : AggregatedRametronenterpriseVotes)
    (hblock : a.Block = b.Block) (ha : a.WellFormed) (hb : b.WellFormed)
    (hsum : ∀ z, z ∈ a.Addresses → z ∈ b.Addresses →
      a.multiplicity z + b.multiplicity z ≤ 2 ^ 32 - 1)
    (hnew : ∃ z, z ∈ b.Addresses ∧ z ∉ a.Addresses) :
    ∃ r, a.Merge s b = .ok (some r) ∧ r.Block = a.Block ∧
      r.Addresses.Sorted (· < ·) ∧
      (∀ z, z ∈ r.Addresses ↔ z ∈ a.Addresses ∨ z ∈ b.Addresses) ∧
      r.Addresses.length = r.Multiplies.length ∧
      ∀ (k : Nat) (hk : k < r.Addresses.length),
        r.Multiplies[k]? = some (a.multiplicity r.Addresses[k] + b.multiplicity r.Addresses[k]) := by
  obtain ⟨has, hal, ham⟩ := ha
  obtain ⟨hbs, hbl, hbm⟩ := hb
  rcases mergeLoop_cases a.Addresses a.Multiplies b.Addresses b.Multiplies has hbs hal hbl ham hbm
    with ⟨⟨z, hz⟩, _⟩ | ⟨_, rM, rA, sub, hok, hsums⟩
  · exfalso
    by_cases hza : z ∈ a.Addresses
    · by_cases hzb : z ∈ b.Addresses
      · have := hsum z hza hzb
        simp only [AggregatedRametronenterpriseVotes.multiplicity] at this
        unfold uint32Mod at hz
        omega
      · rw [multiplicityIn_of_not_mem _ _ _ hzb] at hz
        have := multiplicityIn_lt a.Addresses a.Multiplies z ham
        omega
    · rw [multiplicityIn_of_not_mem _ _ _ hza] at hz
      have := multiplicityIn_lt b.Addresses b.Multiplies z hbm
      omega
  · obtain ⟨h1, h2, h3, h4, -, -, -⟩ :=
      mergeLoop_props _ _ _ _ has hbs hal hbl rM rA sub hok
    have hsub : sub = false := by
      cases sub with
      | false => rfl
      | true =>
        obtain ⟨z, hzb, hza⟩ := hnew
        exact absurd (h4.1 rfl z hzb) hza
    subst hsub
    refine ⟨⟨a.Block, rM, rA, s.CopyAggregate a.Signature b.Signature⟩, ?_, rfl, h2, h3,
      h1.symm, ?_⟩
    · exact (merge_ok_some_iff s a b _).2 ⟨hblock, hok, rfl, rfl⟩
    · intro k hk
      rw [multiplicityIn_getElem rA rM h2 h1.symm k hk, hsums]
      rfl

/-- C1 at the inputs of the spec scenario S3: `a = {[A,B],[1,1]}`, `b = {[C],[2]}` with
`A = 10 < B = 20 < C = 30`. -/
theorem merge_disjoint_union_witness :
    (AggregatedRametronenterpriseVotes.Merge bls.exampleScheme
        ⟨7, [1, 1], [10, 20], some 3⟩ ⟨7, [2], [30], some 4⟩ =
      .ok (some ⟨7, [1, 1, 2], [10, 20, 30], some 7⟩)) ∧
    ∃ r, AggregatedRametronenterpriseVotes.Merge bls.exampleScheme
        ⟨7, [1, 1], [10, 20], some 3⟩ ⟨7, [2], [30], some 4⟩ = .ok (some r) ∧
      r.Block = 7 ∧ r.Addresses.Sorted (· < ·) ∧
      (∀ z, z ∈ r.Addresses ↔ z ∈ [10, 20] ∨ z ∈ [30]) ∧
      r.Addresses.length = r.Multiplies.length ∧
      ∀ (k : Nat) (hk : k < r.Addresses.length),
        r.Multiplies[k]? =
          some (multiplicityIn [10, 20] [1, 1] r.Addresses[k] +
            multiplicityIn [30] [2] r.Addresses[k]) :=
  ⟨by simp [AggregatedRametronenterpriseVotes.Merge, mergeLoop, GoResult.map,
      bls.exampleScheme, uint32Mod],
    merge_disjoint_union bls.exampleScheme ⟨7, [1, 1], [10, 20], some 3⟩ ⟨7, [2], [30], some 4⟩
      rfl (by simp [AggregatedRametronenterpriseVotes.WellFormed, uint32Mod])
      (by simp [AggregatedRametronenterpriseVotes.WellFormed, uint32Mod])
      (by simp) ⟨30, by simp, by simp⟩⟩

/-- C2: for well-formed aggregates `a`, `b` over the same block without multiplicity overflow,
`a.Merge(b)` returns `(nil, nil)` if and only if every address of `b` also occurs in `a`. -/
theorem merge_nil_iff_subset (s : bls.Scheme) (a b : AggregatedRametronenterpriseVotes)
    (hblock : a.Block = b.Block) (ha : a.WellFormed) (hb : b.WellFormed)
    (hsum : ∀ z, z ∈ a.Addresses → z ∈ b.Addresses →
      a.multiplicity z + b.multiplicity z < 2 ^ 32) :
    a.Merge s b = .ok none ↔ ∀ z, z ∈ b.Addresses → z ∈ a.Addresses := by
  obtain ⟨has, hal, ham⟩ := ha
  obtain ⟨hbs, hbl, hbm⟩ := hb
  rw [merge_ok_none_iff]
  constructor
  · rintro ⟨-, rM, rA, hok⟩
    exact (mergeLoop_props _ _ _ _ has hbs hal hbl rM rA true hok).2.2.2.1.1 rfl
  · intro hsubset
    refine ⟨hblock, ?_⟩
    rcases mergeLoop_cases a.Addresses a.Multiplies b.Addresses b.Multiplies has hbs hal hbl
      ham hbm with ⟨⟨z, hz⟩, _⟩ | ⟨_, rM, rA, sub, hok, _⟩
    · exfalso
      by_cases hzb : z ∈ b.Addresses
      · have := hsum z (hsubset z hzb) hzb
        simp only [AggregatedRametronenterpriseVotes.multiplicity] at this
        unfold uint32Mod at hz
        omega
      · rw [multiplicityIn_of_not_mem _ _ _ hzb] at hz
        have := multiplicityIn_lt a.Addresses a.Multiplies z ham
        omega
    · have h4 := (mergeLoop_props _ _ _ _ has hbs hal hbl rM rA sub hok).2.2.2.1
      have hsub : sub = true := h4.2 hsubset
      subst hsub
      exact ⟨rM, rA, hok⟩

/-- C2 at the inputs of the spec scenario S2: `a = {[A,B],[1,1]}`, `b = {[A],[1]}`. -/
theorem merge_nil_iff_subset_witness :
    AggregatedRametronenterpriseVotes.Merge bls.exampleScheme
        ⟨7, [1, 1], [10, 20], some 3⟩ ⟨7, [1], [10], some 4⟩ = .ok none ∧
      (AggregatedRametronenterpriseVotes.Merge bls.exampleScheme
          ⟨7, [1, 1], [10, 20], some 3⟩ ⟨7, [1], [10], some 4⟩ = .ok none ↔
        ∀ z, z ∈ [10] → z ∈ [10, 20]) :=
  ⟨by simp [AggregatedRametronenterpriseVotes.Merge, mergeLoop, GoResult.map, uint32Mod],
    merge_nil_iff_subset bls.exampleScheme ⟨7, [1, 1], [10, 20], some 3⟩ ⟨7, [1], [10], some 4⟩
      rfl (by simp [AggregatedRametronenterpriseVotes.WellFormed, uint32Mod])
      (by simp [AggregatedRametronenterpriseVotes.WellFormed, uint32Mod])
      (by
        intro z hz1 hz2
        simp only [List.mem_singleton] at hz2
        subst hz2
        simp [AggregatedRametronenterpriseVotes.multiplicity, multiplicityIn])⟩

end core

namespace core
open common

theorem mergeLoop_error_comm (aA : List Address) (aM : List Nat) (bA : List Address)
    (bM : List Nat) (msg : String) :
    mergeLoop aA aM bA bM = .error msg ↔ mergeLoop bA bM aA aM = .error msg := by
  have h := mergeLoop_comm aA aM bA bM
  cases h1 : mergeLoop aA aM bA bM <;> cases h2 : mergeLoop bA bM aA aM <;>
    simp [h1, h2, GoResult.map] at h ⊢
  rw [h]

theorem mergeLoop_ok_comm (aA : List Address) (aM : List Nat) (bA : List Address)
    (bM : List Nat) (rM tM : List Nat) (rA tA : List Address) (sub sub' : Bool)
    (h1 : mergeLoop aA aM bA bM = .ok (rM, rA, sub))
    (h2 : mergeLoop bA bM aA aM = .ok (tM, tA, sub')) : rM = tM ∧ rA = tA := by
  have h := mergeLoop_comm aA aM bA bM
  simp [h1, h2, GoResult.map] at h
  exact ⟨h.1.symm, h.2.symm⟩

theorem overflow_common (a b : AggregatedRametronenterpriseVotes)
    (ham : ∀ m ∈ a.Multiplies, m < uint32Mod) (hbm : ∀ m ∈ b.Multiplies, m < uint32Mod) :
    (∃ z, uint32Mod ≤ multiplicityIn a.Addresses a.Multiplies z +
        multiplicityIn b.Addresses b.Multiplies z) ↔
      ∃ z, z ∈ a.Addresses ∧ z ∈ b.Addresses ∧ 2 ^ 32 ≤ a.multiplicity z + b.multiplicity z := by
  constructor
  · rintro ⟨z, hz⟩
    have h1 := multiplicityIn_lt a.Addresses a.Multiplies z ham
    have h2 := multiplicityIn_lt b.Addresses b.Multiplies z hbm
    refine ⟨z, ?_, ?_, ?_⟩
    · by_contra hza
      rw [multiplicityIn_of_not_mem _ _ _ hza] at hz
      omega
    · by_contra hzb
      rw [multiplicityIn_of_not_mem _ _ _ hzb] at hz
      omega
    · simpa [AggregatedRametronenterpriseVotes.multiplicity, uint32Mod] using hz
  · rintro ⟨z, -, -, hz⟩
    exact ⟨z, by simpa [AggregatedRametronenterpriseVotes.multiplicity, uint32Mod] using hz⟩

/-- C3 as stated fails: with `a = {[A,B],[1,1]}` and `b = {[A],[1]}` over one block, both
well-formed, `a.Merge(b)` is nil while `b.Merge(a)` is the non-nil `{[A,B],[2,1]}`. -/
theorem merge_outcome_not_commutative :
    (AggregatedRametronenterpriseVotes.WellFormed ⟨7, [1, 1], [10, 20], some 3⟩) ∧
    (AggregatedRametronenterpriseVotes.WellFormed ⟨7, [1], [10], some 4⟩) ∧
    AggregatedRametronenterpriseVotes.Merge bls.exampleScheme
        ⟨7, [1, 1], [10, 20], some 3⟩ ⟨7, [1], [10], some 4⟩ = .ok none ∧
    AggregatedRametronenterpriseVotes.Merge bls.exampleScheme
        ⟨7, [1], [10], some 4⟩ ⟨7, [1, 1], [10, 20], some 3⟩ =
      .ok (some ⟨7, [2, 1], [10, 20], some 7⟩) ∧
    ¬ sameMergeOutcome
      (AggregatedRametronenterpriseVotes.Merge bls.exampleScheme
        ⟨7, [1, 1], [10, 20], some 3⟩ ⟨7, [1], [10], some 4⟩)
      (AggregatedRametronenterpriseVotes.Merge bls.exampleScheme
        ⟨7, [1], [10], some 4⟩ ⟨7, [1, 1], [10, 20], some 3⟩) := by
  have h1 : AggregatedRametronenterpriseVotes.Merge bls.exampleScheme
      ⟨7, [1, 1], [10, 20], some 3⟩ ⟨7, [1], [10], some 4⟩ = .ok none := by
    simp [AggregatedRametronenterpriseVotes.Merge, mergeLoop, GoResult.map, uint32Mod]
  have h2 : AggregatedRametronenterpriseVotes.Merge bls.exampleScheme
      ⟨7, [1], [10], some 4⟩ ⟨7, [1, 1], [10, 20], some 3⟩ =
      .ok (some ⟨7, [2, 1], [10, 20], some 7⟩) := by
    simp [AggregatedRametronenterpriseVotes.Merge, mergeLoop, GoResult.map, uint32Mod,
      bls.exampleScheme]
  refine ⟨by simp [AggregatedRametronenterpriseVotes.WellFormed, uint32Mod],
    by simp [AggregatedRametronenterpriseVotes.WellFormed, uint32Mod], h1, h2, ?_⟩
  rw [h1, h2]
  simp [sameMergeOutcome]

/-- C3, amended: for well-formed aggregates `a`, `b` over the same block, `a.Merge(b)` returns
an error exactly when `b.Merge(a)` does; when both return an aggregate, the two have the same
address sequence and the same multiplicities; and when each of `a`, `b` has an address the other
lacks and no error is returned, both calls return such aggregates. When all addresses of `b`
occur in `a` and no error is returned, `a.Merge(b)` is nil, whatever `b.Merge(a)` returns. -/
theorem merge_commutative_when_merged (s : bls.Scheme) (a b : AggregatedRametronenterpriseVotes)
    (hblock : a.Block = b.Block) (ha : a.WellFormed) (hb : b.WellFormed) :
    ((a.Merge s b).isError = (b.Merge s a).isError) ∧
    (∀ r t, a.Merge s b = .ok (some r) → b.Merge s a = .ok (some t) →
      r.Addresses = t.Addresses ∧ r.Multiplies = t.Multiplies ∧
        ∀ z, r.multiplicity z = t.multiplicity z) ∧
    ((∃ z, z ∈ a.Addresses ∧ z ∉ b.Addresses) → (∃ z, z ∈ b.Addresses ∧ z ∉ a.Addresses) →
      (a.Merge s b).isError = false → sameMergeOutcome (a.Merge s b) (b.Merge s a)) ∧
    ((∀ z, z ∈ b.Addresses → z ∈ a.Addresses) → (a.Merge s b).isError = false →
      a.Merge s b = .ok none) := by
  have hboth : ∀ r t, a.Merge s b = .ok (some r) → b.Merge s a = .ok (some t) →
      r.Addresses = t.Addresses ∧ r.Multiplies = t.Multiplies ∧
        ∀ z, r.multiplicity z = t.multiplicity z := by
    intro r t hr ht
    obtain ⟨-, hr', -, -⟩ := (merge_ok_some_iff s a b r).1 hr
    obtain ⟨-, ht', -, -⟩ := (merge_ok_some_iff s b a t).1 ht
    obtain ⟨hM, hA⟩ := mergeLoop_ok_comm _ _ _ _ _ _ _ _ _ _ hr' ht'
    refine ⟨hA, hM, fun z => ?_⟩
    simp [AggregatedRametronenterpriseVotes.multiplicity, hA, hM]
  have herr : (a.Merge s b).isError = (b.Merge s a).isError := by
    rw [Bool.eq_iff_iff, merge_isError_iff, merge_isError_iff]
    constructor
    · rintro (h | ⟨msg, h⟩)
      · exact Or.inl (fun h' => h h'.symm)
      · exact Or.inr ⟨msg, (mergeLoop_error_comm _ _ _ _ msg).1 h⟩
    · rintro (h | ⟨msg, h⟩)
      · exact Or.inl (fun h' => h h'.symm)
      · exact Or.inr ⟨msg, (mergeLoop_error_comm _ _ _ _ msg).1 h⟩
  obtain ⟨has, hal, ham⟩ := ha
  obtain ⟨hbs, hbl, hbm⟩ := hb
  refine ⟨herr, hboth, ?_, ?_⟩
  swap
  · intro hsubset hne
    rcases mergeLoop_cases a.Addresses a.Multiplies b.Addresses b.Multiplies has hbs hal hbl
      ham hbm with ⟨_, msg, hmsg⟩ | ⟨_, rM, rA, sub, hok, _⟩
    · have : (a.Merge s b).isError = true := (merge_isError_iff s a b).2 (Or.inr ⟨msg, hmsg⟩)
      rw [this] at hne
      exact absurd hne (by simp)
    · have h4 := (mergeLoop_props _ _ _ _ has hbs hal hbl rM rA sub hok).2.2.2.1
      have hsub : sub = true := h4.2 hsubset
      subst hsub
      exact (merge_ok_none_iff s a b).2 ⟨hblock, rM, rA, hok⟩
  rintro ⟨za, hza, hza'⟩ ⟨zb, hzb, hzb'⟩ hne
  have hne' : (b.Merge s a).isError = false := herr ▸ hne
  have key : ∀ (c d : AggregatedRametronenterpriseVotes), c.Block = d.Block →
      c.Addresses.Sorted (· < ·) → d.Addresses.Sorted (· < ·) →
      c.Addresses.length = c.Multiplies.length → d.Addresses.length = d.Multiplies.length →
      (∀ m ∈ c.Multiplies, m < uint32Mod) → (∀ m ∈ d.Multiplies, m < uint32Mod) →
      (∃ z, z ∈ d.Addresses ∧ z ∉ c.Addresses) → (c.Merge s d).isError = false →
      ∃ r, c.Merge s d = .ok (some r) := by
    intro c d hcd hcs hds hcl hdl hcm hdm hnew hnerr
    rcases mergeLoop_cases c.Addresses c.Multiplies d.Addresses d.Multiplies hcs hds hcl hdl
      hcm hdm with ⟨_, msg, hmsg⟩ | ⟨_, rM, rA, sub, hok, _⟩
    · have : (c.Merge s d).isError = true := (merge_isError_iff s c d).2 (Or.inr ⟨msg, hmsg⟩)
      rw [this] at hnerr
      exact absurd hnerr (by simp)
    · have h4 := (mergeLoop_props _ _ _ _ hcs hds hcl hdl rM rA sub hok).2.2.2.1
      have hsub : sub = false := by
        cases sub with
        | false => rfl
        | true =>
          obtain ⟨z, hzd, hzc⟩ := hnew
          exact absurd (h4.1 rfl z hzd) hzc
      subst hsub
      exact ⟨⟨c.Block, rM, rA, s.CopyAggregate c.Signature d.Signature⟩,
        (merge_ok_some_iff s c d _).2 ⟨hcd, hok, rfl, rfl⟩⟩
  obtain ⟨r, hr⟩ := key a b hblock has hbs hal hbl ham hbm ⟨zb, hzb, hzb'⟩ hne
  obtain ⟨t, ht⟩ := key b a hblock.symm hbs has hbl hal hbm ham ⟨za, hza, hza'⟩ hne'
  obtain ⟨hA, -, hmul⟩ := hboth r t hr ht
  exact Or.inr ⟨r, t, hr, ht, hA, hmul⟩

/-- The amended C3 at `a = {[A],[1]}`, `b = {[B],[1]}`: both orders give `{[A,B],[1,1]}`. -/
theorem merge_commutative_when_merged_witness :
    sameMergeOutcome
      (AggregatedRametronenterpriseVotes.Merge bls.exampleScheme
        ⟨7, [1], [10], some 3⟩ ⟨7, [1], [20], some 4⟩)
      (AggregatedRametronenterpriseVotes.Merge bls.exampleScheme
        ⟨7, [1], [20], some 4⟩ ⟨7, [1], [10], some 3⟩) :=
  (merge_commutative_when_merged bls.exampleScheme ⟨7, [1], [10], some 3⟩ ⟨7, [1], [20], some 4⟩
    rfl (by simp [AggregatedRametronenterpriseVotes.WellFormed, uint32Mod])
    (by simp [AggregatedRametronenterpriseVotes.WellFormed, uint32Mod])).2.2.1
    ⟨10, by simp, by simp⟩ ⟨20, by simp, by simp⟩
    (by simp [AggregatedRametronenterpriseVotes.Merge, mergeLoop, GoResult.map, uint32Mod,
      GoResult.isError])

/-- C4: for aggregates with strictly ascending addresses and parallel arrays, `a.Merge(b)`
returns a non-nil error if and only if the blocks differ, or they are equal and some address
present in both has multiplicities adding up to at least 2^32; otherwise it returns with a nil
error. -/
theorem merge_error_iff (s : bls.Scheme) (a b : AggregatedRametronenterpriseVotes)
    (ha : a.WellFormed) (hb : b.WellFormed) :
    ((a.Merge s b).isError = true ↔
      (a.Block ≠ b.Block ∨
        (a.Block = b.Block ∧ ∃ z, z ∈ a.Addresses ∧ z ∈ b.Addresses ∧
          2 ^ 32 ≤ a.multiplicity z + b.multiplicity z))) ∧
    ((a.Merge s b).isError = false → (a.Merge s b).isOk = true) := by
  obtain ⟨has, hal, ham⟩ := ha
  obtain ⟨hbs, hbl, hbm⟩ := hb
  have hcases := mergeLoop_cases a.Addresses a.Multiplies b.Addresses b.Multiplies has hbs hal
    hbl ham hbm
  have hov := overflow_common a b ham hbm
  constructor
  · rw [merge_isError_iff]
    constructor
    · rintro (h | ⟨msg, hmsg⟩)
      · exact Or.inl h
      · by_cases hblock : a.Block = b.Block
        · right
          refine ⟨hblock, hov.1 ?_⟩
          rcases hcases with ⟨hz, _⟩ | ⟨_, rM, rA, sub, hok, _⟩
          · exact hz
          · rw [hok] at hmsg
            exact absurd hmsg (by simp)
        · exact Or.inl hblock
    · rintro (h | ⟨_, hz⟩)
      · exact Or.inl h
      · right
        rcases hcases with ⟨_, hmsg⟩ | ⟨hall, _⟩
        · exact hmsg
        · obtain ⟨z, hz'⟩ := hov.2 hz
          exact absurd (hall z) (not_lt.2 hz')
  · intro hne
    unfold AggregatedRametronenterpriseVotes.Merge at hne ⊢
    by_cases hblock : a.Block = b.Block
    · rcases hcases with ⟨_, msg, hmsg⟩ | ⟨_, rM, rA, sub, hok, _⟩
      · simp [hblock, hmsg, GoResult.isError] at hne
      · cases sub <;> simp [hblock, hok, GoResult.isOk]
    · simp [hblock, GoResult.isError] at hne

/-- C4 at two overflowing aggregates: `{[A],[2^32-1]}` merged with `{[A],[1]}` is an error. -/
theorem merge_error_iff_witness :
    (AggregatedRametronenterpriseVotes.Merge bls.exampleScheme
        ⟨7, [4294967295], [10], some 3⟩ ⟨7, [1], [10], some 4⟩).isError = true :=
  ((merge_error_iff bls.exampleScheme ⟨7, [4294967295], [10], some 3⟩ ⟨7, [1], [10], some 4⟩
    (by simp [AggregatedRametronenterpriseVotes.WellFormed, uint32Mod])
    (by simp [AggregatedRametronenterpriseVotes.WellFormed, uint32Mod])).1).2
    (Or.inr ⟨rfl, 10, by simp, by simp,
      by simp [AggregatedRametronenterpriseVotes.multiplicity, multiplicityIn]⟩)

end core

namespace core
open common

theorem mergeLoop_no_panic (aA : List Address) (aM : List Nat) (bA : List Address)
    (bM : List Nat) :
    aA.length = aM.length → bA.length = bM.length →
      ∀ msg, mergeLoop aA aM bA bM ≠ .panic msg := by
  induction aA, aM, bA, bM using mergeLoop.induct with
  | case1 aM bM => intro _ _ msg; simp [mergeLoop]
  | case2 x xs aM bM => intro _ _ msg; simp [mergeLoop]
  | case3 aM y ys bM => intro _ _ msg; simp [mergeLoop]
  | case4 xs y ys m ms n ns hov => intro _ _ msg; simp [mergeLoop, hov]
  | case5 xs y ys m ms n ns hov ih =>
    intro hla hlb msg
    simp only [List.length_cons, add_left_inj] at hla hlb
    simp only [mergeLoop, if_true, hov, if_false, ne_eq, GoResult.map_eq_panic]
    exact ih hla hlb msg
  | case6 xs aM y ys bM hno =>
    intro hla hlb
    cases aM with
    | nil => exact absurd hla (Nat.succ_ne_zero _)
    | cons m ms =>
      cases bM with
      | nil => exact absurd hlb (Nat.succ_ne_zero _)
      | cons n ns => exact absurd rfl (fun h => hno m ms n ns h rfl)
  | case7 x xs y ys bM hne hlt m ms ih =>
    intro hla hlb msg
    obtain ⟨n, ns, rfl⟩ : ∃ n ns, bM = n :: ns := by
      cases bM with
      | nil => exact absurd hlb (Nat.succ_ne_zero _)
      | cons n ns => exact ⟨n, ns, rfl⟩
    simp only [List.length_cons, add_left_inj] at hla
    simp only [mergeLoop, hne, hlt, if_true, if_false, ne_eq, GoResult.map_eq_panic]
    exact ih hla hlb msg
  | case8 x xs y ys bM hne hlt =>
    intro hla _
    exact absurd hla (Nat.succ_ne_zero _)
  | case9 x xs aM y ys hne hlt n ns ih =>
    intro hla hlb msg
    obtain ⟨m, ms, rfl⟩ : ∃ m ms, aM = m :: ms := by
      cases aM with
      | nil => exact absurd hla (Nat.succ_ne_zero _)
      | cons m ms => exact ⟨m, ms, rfl⟩
    simp only [List.length_cons, add_left_inj] at hlb
    simp only [mergeLoop, hne, hlt, if_true, if_false, ne_eq, GoResult.map_eq_panic]
    exact ih hla hlb msg
  | case10 x xs aM y ys hne hlt =>
    intro _ hlb
    exact absurd hlb (Nat.succ_ne_zero _)

theorem addressesSorted_iff (l : List Address) :
    addressesSorted l = true ↔ l.Sorted (· < ·) := by
  induction l with
  | nil => simp [addressesSorted]
  | cons x xs ih =>
    cases xs with
    | nil => simp [addressesSorted]
    | cons y ys =>
      simp only [addressesSorted, ge_iff_le]
      by_cases hxy : y ≤ x
      · simp only [hxy, if_true, Bool.false_eq_true, false_iff]
        intro hs
        have := (List.sorted_cons.1 hs).1 y (List.mem_cons_self _ _)
        exact absurd this (not_lt.2 hxy)
      · have hlt : x < y := not_le.1 hxy
        simp only [hxy, if_false, ih]
        constructor
        · intro hs
          refine List.sorted_cons.2 ⟨fun z hz => ?_, hs⟩
          rcases List.mem_cons.1 hz with rfl | hz
          · exact hlt
          · exact lt_trans hlt ((List.sorted_cons.1 hs).1 z hz)
        · intro hs
          exact (List.sorted_cons.1 hs).2

theorem validate_ok_wellFormed (s : bls.Scheme) (a : AggregatedRametronenterpriseVotes)
    (pool : Option RametronenterprisePool) (h : (a.Validate s pool).isError = false) :
    a.Addresses ≠ [] ∧ a.Addresses.Sorted (· < ·) ∧ a.Addresses.length = a.Multiplies.length := by
  unfold AggregatedRametronenterpriseVotes.Validate at h
  split at h
  · simp [GoResult.isError] at h
  · split at h
    · simp [GoResult.isError] at h
    · split at h
      · simp [GoResult.isError] at h
      · rename_i h0
        split at h
        · simp [GoResult.isError] at h
        · rename_i h1
          split at h
          · simp [GoResult.isError] at h
          · rename_i h2
            refine ⟨fun hnil => h0 (by simp [hnil]), (addressesSorted_iff _).1 ?_, not_not.1 h1⟩
            simpa using h2

end core

namespace consensus
open common core

theorem validateAggregatedVote_wellFormed (s : bls.Scheme) (e : RametronenterpriseEngine)
    (vote : AggregatedRametronenterpriseVotes) (h : e.validateAggregatedVote s vote = true) :
    VoteWellFormed e vote := by
  unfold RametronenterpriseEngine.validateAggregatedVote at h
  by_cases h0 : HashIsEmpty e.block = true
  · simp [h0] at h
  · by_cases h1 : vote.Block = e.block
    · cases h2 : (vote.Validate s e.rametronenterprisep).isError with
      | true => simp [h0, h1, h2] at h
      | false =>
        obtain ⟨hne, hs, hl⟩ := validate_ok_wellFormed s vote _ h2
        exact ⟨h1, hne, hs, hl⟩
    · simp [h0, h1] at h

theorem processVote_keeps_votes (s : bls.Scheme) (e e2 : RametronenterpriseEngine)
    (vote : RametronenterpriseVote) (h : e.processVote s vote = .ok e2) :
    e2.block = e.block ∧ e2.nextVote = e.nextVote ∧ e2.currVote = e.currVote := by
  unfold RametronenterpriseEngine.processVote at h
  split at h
  · simp at h
  · simp at h
  · simp only [GoResult.ok.injEq] at h
    subst h
    simp
  · simp only [RametronenterpriseEngine.convertVote] at h
    split at h
    · simp only [GoResult.ok.injEq] at h
      subst h
      simp
    · simp at h

/-- The invariant carried through the reachable states. -/
theorem reachable_votes_wellFormed (s : bls.Scheme) (queueSize : Nat)
    (e : RametronenterpriseEngine) (h : Reachable s queueSize e) :
    (∀ v, e.nextVote = some v → VoteWellFormed e v) ∧
      (∀ v, e.currVote = some v → VoteWellFormed e v) := by
  induction h with
  | init => simp [NewRametronenterpriseEngine]
  | startNewBlock e e2 block ledgerPool _ hstep _ =>
    unfold RametronenterpriseEngine.StartNewBlock at hstep
    cases ledgerPool with
    | ok pool =>
      simp only [GoResult.ok.injEq] at hstep
      subst hstep
      simp
    | error msg => simp at hstep
    | panic msg => simp at hstep
  | startNewRound e _ ih =>
    obtain ⟨ihn, ihc⟩ := ih
    unfold RametronenterpriseEngine.StartNewRound
    split
    · cases hn : e.nextVote with
      | none =>
        simp only [hn]
        exact ⟨fun v hv => absurd hv (by simp), fun v hv => ihc v hv⟩
      | some w =>
        have hw := ihn w hn
        simp only [hn]
        refine ⟨fun v hv => ?_, fun v hv => ?_⟩
        · simp only [Option.some.injEq] at hv
          subst hv
          exact hw
        · simp only [Option.some.injEq, AggregatedRametronenterpriseVotes.Copy] at hv
          subst hv
          exact hw
    · exact ⟨ihn, ihc⟩
  | processVote e e2 vote _ hstep ih =>
    obtain ⟨h1, h2, h3⟩ := processVote_keeps_votes s e e2 vote hstep
    unfold VoteWellFormed
    rw [h1, h2, h3]
    exact ih
  | processAggregatedVote e e2 vote _ hstep ih =>
    obtain ⟨ihn, ihc⟩ := ih
    unfold RametronenterpriseEngine.processAggregatedVote at hstep
    cases hval : e.validateAggregatedVote s vote with
    | false =>
      simp only [hval, Bool.not_false, if_true, GoResult.ok.injEq] at hstep
      subst hstep
      exact ⟨ihn, ihc⟩
    | true =>
      have hvote := validateAggregatedVote_wellFormed s e vote hval
      simp only [hval, Bool.not_true, Bool.false_eq_true, if_false] at hstep
      cases hn : e.nextVote with
      | none =>
        simp only [hn, GoResult.ok.injEq] at hstep
        subst hstep
        refine ⟨fun v hv => ?_, fun v hv => ihc v hv⟩
        simp only [Option.some.injEq] at hv
        subst hv
        exact hvote
      | some prev =>
        have hprev := ihn prev hn
        simp only [hn] at hstep
        cases hm : prev.Merge s vote with
        | panic msg => simp [hm] at hstep
        | error msg =>
          simp only [hm, GoResult.ok.injEq] at hstep
          subst hstep
          exact ⟨ihn, ihc⟩
        | ok r =>
          cases r with
          | none =>
            simp only [hm, GoResult.ok.injEq] at hstep
            subst hstep
            exact ⟨ihn, ihc⟩
          | some candidate =>
            simp only [hm, RametronenterpriseEngine.checkMultipliesForRound, Bool.not_true,
              Bool.false_eq_true, if_false, GoResult.ok.injEq] at hstep
            subst hstep
            obtain ⟨-, hloop, hblock, -⟩ := (merge_ok_some_iff s prev vote candidate).1 hm
            obtain ⟨hl, hs, -, -, hlen, -, -⟩ := mergeLoop_props _ _ _ _ hprev.2.2.1
              hvote.2.2.1 hprev.2.2.2 hvote.2.2.2 _ _ _ hloop
            refine ⟨fun v hv => ?_, fun v hv => ihc v hv⟩
            simp only [Option.some.injEq] at hv
            subst hv
            refine ⟨hblock.trans hprev.1, ?_, hs, hl.symm⟩
            intro hnil
            have hpos : 0 < prev.Addresses.length := List.length_pos.2 hprev.2.1
            rw [hnil, List.length_nil] at hlen
            omega

end consensus

namespace consensus
open common core

theorem merge_no_panic (s : bls.Scheme) (a b : AggregatedRametronenterpriseVotes)
    (hla : a.Addresses.length = a.Multiplies.length)
    (hlb : b.Addresses.length = b.Multiplies.length) (msg : String) :
    a.Merge s b ≠ .panic msg := by
  unfold AggregatedRametronenterpriseVotes.Merge
  split
  · simp
  · split
    · simp
    · rename_i msg2 hloop
      exact absurd hloop (mergeLoop_no_panic _ _ _ _ hla hlb msg2)
    · split <;> simp

theorem exampleEngineVoted_reachable : Reachable bls.exampleScheme 4 exampleEngineVoted :=
  Reachable.processAggregatedVote exampleEngine exampleEngineVoted ⟨7, [1, 1], [10, 20], some 3⟩
    (Reachable.startNewBlock (NewRametronenterpriseEngine 4) exampleEngine 7
      (.ok (some examplePool)) Reachable.init rfl)
    (by
      simp [RametronenterpriseEngine.processAggregatedVote,
        RametronenterpriseEngine.validateAggregatedVote, exampleEngine, exampleEngineVoted,
        HashIsEmpty, RametronenterpriseEngine.checkMultipliesForRound,
        AggregatedRametronenterpriseVotes.Validate, addressesSorted, examplePool,
        bls.exampleScheme, GoResult.isError])

/-- C5: in a reachable engine state, a `processAggregatedVote` step returns, leaves the
in-flight block unchanged and keeps `nextVote` monotone: a previous non-nil `nextVote` is
followed by a `nextVote` that contains each of its addresses with a multiplicity at least as
large, and a replaced `nextVote` has strictly more addresses than the previous one. -/
theorem processAggregatedVote_monotone (s : bls.Scheme) (queueSize : Nat)
    (e : RametronenterpriseEngine) (vote : AggregatedRametronenterpriseVotes)
    (h : Reachable s queueSize e) :
    ∃ e2, e.processAggregatedVote s vote = .ok e2 ∧ e2.block = e.block ∧
      ∀ prev, e.nextVote = some prev →
        ∃ next, e2.nextVote = some next ∧
          (∀ z, z ∈ prev.Addresses →
            z ∈ next.Addresses ∧ prev.multiplicity z ≤ next.multiplicity z) ∧
          (e2.nextVote ≠ e.nextVote → prev.Addresses.length < next.Addresses.length) := by
  obtain ⟨ihn, -⟩ := reachable_votes_wellFormed s queueSize e h
  unfold RametronenterpriseEngine.processAggregatedVote
  cases hval : e.validateAggregatedVote s vote with
  | false =>
    refine ⟨e, by simp, rfl, fun prev hprev => ⟨prev, hprev, fun z hz => ⟨hz, le_refl _⟩, ?_⟩⟩
    intro hne
    exact absurd rfl hne
  | true =>
    have hvote := validateAggregatedVote_wellFormed s e vote hval
    cases hn : e.nextVote with
    | none =>
      exact ⟨{ e with nextVote := some vote }, by simp, rfl,
        fun prev hprev => absurd hprev (by simp)⟩
    | some prev =>
      have hprev := ihn prev hn
      cases hm : prev.Merge s vote with
      | panic msg => exact absurd hm (merge_no_panic s prev vote hprev.2.2.2 hvote.2.2.2 msg)
      | error msg =>
        refine ⟨e, by simp [hm], rfl, fun p hp => ?_⟩
        simp only [Option.some.injEq] at hp
        subst hp
        exact ⟨prev, hn, fun z hz => ⟨hz, le_refl _⟩, fun hne => absurd hn hne⟩
      | ok r =>
        cases r with
        | none =>
          refine ⟨e, by simp [hm], rfl, fun p hp => ?_⟩
          simp only [Option.some.injEq] at hp
          subst hp
          exact ⟨prev, hn, fun z hz => ⟨hz, le_refl _⟩, fun hne => absurd hn hne⟩
        | some candidate =>
          obtain ⟨-, hloop, -, -⟩ := (merge_ok_some_iff s prev vote candidate).1 hm
          obtain ⟨-, -, hmem, -, -, hlen, hmul⟩ := mergeLoop_props _ _ _ _ hprev.2.2.1
            hvote.2.2.1 hprev.2.2.2 hvote.2.2.2 _ _ _ hloop
          refine ⟨{ e with nextVote := some candidate },
            by simp [hm, RametronenterpriseEngine.checkMultipliesForRound], rfl, fun p hp => ?_⟩
          simp only [Option.some.injEq] at hp
          subst hp
          exact ⟨candidate, rfl, fun z hz => ⟨(hmem z).2 (Or.inl hz), hmul z⟩,
            fun _ => hlen rfl⟩

/-- C5 at the example engine holding `{[A,B],[1,1]}` and receiving `{[B,C],[1,2]}`. -/
theorem processAggregatedVote_monotone_witness :
    ∃ e2, exampleEngineVoted.processAggregatedVote bls.exampleScheme
        ⟨7, [1, 2], [20, 30], some 4⟩ = .ok e2 ∧ e2.block = exampleEngineVoted.block ∧
      ∀ prev, exampleEngineVoted.nextVote = some prev →
        ∃ next, e2.nextVote = some next ∧
          (∀ z, z ∈ prev.Addresses →
            z ∈ next.Addresses ∧ prev.multiplicity z ≤ next.multiplicity z) ∧
          (e2.nextVote ≠ exampleEngineVoted.nextVote →
            prev.Addresses.length < next.Addresses.length) :=
  processAggregatedVote_monotone bls.exampleScheme 4 exampleEngineVoted
    ⟨7, [1, 2], [20, 30], some 4⟩ exampleEngineVoted_reachable

/-- C6: in every engine state reachable through `StartNewBlock`, `StartNewRound`, `processVote`
and `processAggregatedVote`, a non-nil `nextVote` and a non-nil `currVote` are well-formed: the
block is the in-flight block, the addresses are non-empty and strictly ascending, and
`len(Addresses) == len(Multiplies)`. -/
theorem engine_votes_wellFormed (s : bls.Scheme) (queueSize : Nat)
    (e : RametronenterpriseEngine) (h : Reachable s queueSize e) :
    (∀ v, e.nextVote = some v →
      v.Block = e.block ∧ v.Addresses ≠ [] ∧ v.Addresses.Sorted (· < ·) ∧
        v.Addresses.length = v.Multiplies.length) ∧
    (∀ v, e.currVote = some v →
      v.Block = e.block ∧ v.Addresses ≠ [] ∧ v.Addresses.Sorted (· < ·) ∧
        v.Addresses.length = v.Multiplies.length) :=
  reachable_votes_wellFormed s queueSize e h

/-- C6 at the example engine after it accepted an aggregate and started a new round. -/
theorem engine_votes_wellFormed_witness :
    (∀ v, exampleEngineVoted.StartNewRound.nextVote = some v →
      v.Block = exampleEngineVoted.StartNewRound.block ∧ v.Addresses ≠ [] ∧
        v.Addresses.Sorted (· < ·) ∧ v.Addresses.length = v.Multiplies.length) ∧
    (∀ v, exampleEngineVoted.StartNewRound.currVote = some v →
      v.Block = exampleEngineVoted.StartNewRound.block ∧ v.Addresses ≠ [] ∧
        v.Addresses.Sorted (· < ·) ∧ v.Addresses.length = v.Multiplies.length) :=
  engine_votes_wellFormed bls.exampleScheme 4 exampleEngineVoted.StartNewRound
    (Reachable.startNewRound exampleEngineVoted exampleEngineVoted_reachable)

end consensus

namespace core
open common

theorem activeStake_cons (st : Stake) (rest : List Stake) :
    activeStake (st :: rest) = (if st.Withdrawn then 0 else st.Amount) + activeStake rest := by
  unfold activeStake
  cases h : st.Withdrawn <;> simp [List.filter_cons, h]

theorem depositStakeList_activeStake (cfg : StakeConfig) (source : Address) (amount : Int)
    (l l2 : List Stake) (h : depositStakeList cfg source amount l = .ok l2) :
    activeStake l2 = activeStake l + amount := by
  induction l generalizing l2 with
  | nil =>
    simp only [depositStakeList, GoResult.ok.injEq] at h
    subst h
    simp [activeStake, NewStake]
  | cons st rest ih =>
    simp only [depositStakeList] at h
    split at h
    · split at h
      · simp at h
      · rename_i hw
        simp only [GoResult.ok.injEq] at h
        subst h
        simp only [activeStake_cons, hw]
        simp only [Bool.false_eq_true, if_false]
        ring
    · rw [GoResult.map_eq_ok] at h
      obtain ⟨l3, hl3, rfl⟩ := h
      simp only [activeStake_cons, ih l3 hl3]
      ring

theorem depositStakeList_stakeOfSource (cfg : StakeConfig) (source : Address) (amount : Int)
    (l l2 : List Stake) (h : depositStakeList cfg source amount l = .ok l2) :
    stakeOfSource source l2 = stakeOfSource source l + amount := by
  induction l generalizing l2 with
  | nil =>
    simp only [depositStakeList, GoResult.ok.injEq] at h
    subst h
    simp [stakeOfSource, NewStake]
  | cons st rest ih =>
    simp only [depositStakeList] at h
    split at h
    · rename_i hs
      split at h
      · simp at h
      · simp only [GoResult.ok.injEq] at h
        subst h
        simp [stakeOfSource, hs]
    · rename_i hs
      rw [GoResult.map_eq_ok] at h
      obtain ⟨l3, hl3, rfl⟩ := h
      simp [stakeOfSource, hs, ih l3 hl3]

theorem withdrawStakeList_activeStake (cfg : StakeConfig) (source : Address) (height : Nat)
    (l l2 : List Stake) (w : Stake) (h : withdrawStakeList cfg source height l = .ok (w, l2)) :
    activeStake l2 = activeStake l - w.Amount ∧ w.Amount = stakeOfSource source l := by
  induction l generalizing l2 with
  | nil => simp [withdrawStakeList] at h
  | cons st rest ih =>
    simp only [withdrawStakeList] at h
    split at h
    · rename_i hs
      split at h
      · simp at h
      · rename_i hw
        simp only [GoResult.ok.injEq, Prod.mk.injEq] at h
        obtain ⟨rfl, rfl⟩ := h
        simp [activeStake_cons, hw, stakeOfSource, hs]
    · rename_i hs
      rw [GoResult.map_eq_ok] at h
      obtain ⟨⟨w3, l3⟩, hl3, heq⟩ := h
      simp only [Prod.mk.injEq] at heq
      obtain ⟨rfl, rfl⟩ := heq
      obtain ⟨h1, h2⟩ := ih l3 hl3
      refine ⟨?_, by simp [stakeOfSource, hs, h2]⟩
      simp only [activeStake_cons, h1]
      ring

theorem returnStakeList_activeStake (source : Address) (height : Nat)
    (l l2 : List Stake) (w : Stake) (h : returnStakeList source height l = .ok (w, l2)) :
    activeStake l2 = activeStake l := by
  induction l generalizing l2 with
  | nil => simp [returnStakeList] at h
  | cons st rest ih =>
    simp only [returnStakeList] at h
    split at h
    · rename_i hs
      simp only [GoResult.ok.injEq, Prod.mk.injEq] at h
      obtain ⟨rfl, rfl⟩ := h
      simp [activeStake_cons, hs.2.1]
    · rw [GoResult.map_eq_ok] at h
      obtain ⟨⟨w3, l3⟩, hl3, heq⟩ := h
      simp only [Prod.mk.injEq] at heq
      obtain ⟨rfl, rfl⟩ := heq
      simp only [activeStake_cons, ih l3 hl3]

end core

namespace state
open common core

theorem keys_filter_of_not_mem (l : List (Address × Rametronenterprise)) (k : Address)
    (h : k ∉ l.map (fun e => e.1)) : l.filter (fun e => e.1 != k) = l := by
  induction l with
  | nil => rfl
  | cons e rest ih =>
    simp only [List.map_cons, List.mem_cons, not_or] at h
    have hne : (e.1 != k) = true := by simpa using fun h' => h.1 h'.symm
    rw [List.filter_cons, hne, if_pos rfl, ih h.2]

theorem find_none_of_not_mem (l : List (Address × Rametronenterprise)) (k : Address)
    (h : k ∉ l.map (fun e => e.1)) : l.find? (fun e => e.1 == k) = none := by
  induction l with
  | nil => rfl
  | cons e rest ih =>
    simp only [List.map_cons, List.mem_cons, not_or] at h
    have hne : (e.1 == k) = false := by simpa using fun h' => h.1 h'.symm
    rw [List.find?_cons, hne]
    exact ih h.2

theorem activeStake_split (l : List (Address × Rametronenterprise)) (k : Address)
    (hnd : (l.map (fun e => e.1)).Nodup) :
    (l.map (fun e => core.activeStake e.2.Stakes)).sum =
      ((l.filter (fun e => e.1 != k)).map (fun e => core.activeStake e.2.Stakes)).sum +
        (match (l.find? (fun e => e.1 == k)).map (fun e => e.2) with
          | some w => core.activeStake w.Stakes
          | none => 0) := by
  induction l with
  | nil => simp
  | cons e rest ih =>
    simp only [List.map_cons, List.nodup_cons] at hnd
    by_cases hk : e.1 = k
    · subst hk
      have h1 : (e.1 != e.1) = false := by simp
      have h2 : (e.1 == e.1) = true := by simp
      rw [List.filter_cons, h1, List.find?_cons, h2, keys_filter_of_not_mem rest e.1 hnd.1]
      simp only [Bool.false_eq_true, if_false, List.map_cons, List.sum_cons, Option.map_some']
      ring
    · have h1 : (e.1 != k) = true := by simpa using hk
      have h2 : (e.1 == k) = false := by simpa using hk
      rw [List.filter_cons, h1, List.find?_cons, h2]
      simp only [if_true, List.map_cons, List.sum_cons]
      rw [ih hnd.2]
      ring

theorem filter_keys_nodup (l : List (Address × Rametronenterprise)) (k : Address)
    (hnd : (l.map (fun e => e.1)).Nodup) :
    ((l.filter (fun e => e.1 != k)).map (fun e => e.1)).Nodup ∧
      k ∉ (l.filter (fun e => e.1 != k)).map (fun e => e.1) := by
  constructor
  · exact List.Nodup.sublist (List.Sublist.map _ (List.filter_sublist _)) hnd
  · intro hmem
    obtain ⟨e, he, hek⟩ := List.mem_map.1 hmem
    have := (List.mem_filter.1 he).2
    simp [hek] at this

theorem set_activeStake (sv : StoreView) (k : Address) (w : Rametronenterprise)
    (hnd : (sv.rametronenterprises.map (fun e => e.1)).Nodup) :
    (sv.Set k w).activeStake =
      sv.activeStake + core.activeStake w.Stakes -
        (match sv.Get k with
          | some old => core.activeStake old.Stakes
          | none => 0) ∧
    ((sv.Set k w).rametronenterprises.map (fun e => e.1)).Nodup ∧
    (sv.Set k w).totalRametronenterpriseStake = sv.totalRametronenterpriseStake := by
  obtain ⟨h1, h2⟩ := filter_keys_nodup sv.rametronenterprises k hnd
  refine ⟨?_, ?_, rfl⟩
  · have := activeStake_split sv.rametronenterprises k hnd
    simp only [StoreView.activeStake, StoreView.Set, StoreView.Get, List.map_cons, List.sum_cons]
    rw [this]
    ring
  · simp only [StoreView.Set, List.map_cons, List.nodup_cons]
    exact ⟨h2, h1⟩

theorem delete_activeStake (sv : StoreView) (k : Address)
    (hnd : (sv.rametronenterprises.map (fun e => e.1)).Nodup) :
    (sv.Delete k).activeStake =
      sv.activeStake -
        (match sv.Get k with
          | some old => core.activeStake old.Stakes
          | none => 0) ∧
    ((sv.Delete k).rametronenterprises.map (fun e => e.1)).Nodup ∧
    (sv.Delete k).totalRametronenterpriseStake = sv.totalRametronenterpriseStake := by
  obtain ⟨h1, _⟩ := filter_keys_nodup sv.rametronenterprises k hnd
  refine ⟨?_, h1, rfl⟩
  have := activeStake_split sv.rametronenterprises k hnd
  simp only [StoreView.activeStake, StoreView.Delete, StoreView.Get]
  rw [this]
  ring

end state

namespace state
open common core

theorem get_mem (sv : StoreView) (k : Address) (w : Rametronenterprise)
    (h : sv.Get k = some w) : (k, w) ∈ sv.rametronenterprises := by
  unfold StoreView.Get at h
  cases hf : sv.rametronenterprises.find? (fun e => e.1 == k) with
  | none => simp [hf] at h
  | some e =>
    simp only [hf, Option.map_some', Option.some.injEq] at h
    have hk : e.1 = k := by simpa using List.find?_some hf
    have hm := List.mem_of_find?_eq_some hf
    rw [← h, ← hk]
    exact hm

theorem set_holders (sv : StoreView) (k : Address) (w : Rametronenterprise)
    (hk : w.Holder = k) (h : ∀ e ∈ sv.rametronenterprises, e.2.Holder = e.1) :
    ∀ e ∈ (sv.Set k w).rametronenterprises, e.2.Holder = e.1 := by
  intro e he
  simp only [StoreView.Set, List.mem_cons] at he
  rcases he with rfl | he
  · exact hk
  · exact h e (List.mem_filter.1 he).1

theorem delete_holders (sv : StoreView) (k : Address)
    (h : ∀ e ∈ sv.rametronenterprises, e.2.Holder = e.1) :
    ∀ e ∈ (sv.Delete k).rametronenterprises, e.2.Holder = e.1 := by
  intro e he
  simp only [StoreView.Delete] at he
  exact h e (List.mem_filter.1 he).1

/-- Writing an entry whose active stake differs by `delta` from the stored one, together with
the same change of the total, keeps the pool consistent. -/
theorem upsertAndAddTotal_consistent (p : RametronenterprisePool) (w : Rametronenterprise)
    (holder : Address) (delta : Int) (hp : p.Consistent) (hk : w.Holder = holder)
    (hd : core.activeStake w.Stakes =
      (match p.sv.Get holder with
        | some old => core.activeStake old.Stakes
        | none => 0) + delta) :
    (p.upsertAndAddTotal w delta).1.Consistent ∧ (p.upsertAndAddTotal w delta).2 = .ok () ∧
      (p.upsertAndAddTotal w delta).1.sv.totalRametronenterpriseStake =
        p.sv.totalRametronenterpriseStake + delta ∧
      (p.upsertAndAddTotal w delta).1.sv.Get holder = some w := by
  obtain ⟨hro, hh, hnd, ht⟩ := hp
  obtain ⟨h1, h2, h3⟩ := set_activeStake p.sv holder w hnd
  have hh2 := set_holders p.sv holder w hk hh
  subst hk
  have hup : p.upsertAndAddTotal w delta =
      ({ readOnly := p.readOnly,
         sv := { rametronenterprises := (p.sv.Set w.Holder w).rametronenterprises,
                 totalRametronenterpriseStake :=
                   (p.sv.Set w.Holder w).totalRametronenterpriseStake + delta } }, .ok ()) := by
    simp [RametronenterprisePool.upsertAndAddTotal, RametronenterprisePool.Upsert, hro]
  rw [hup]
  refine ⟨⟨hro, hh2, h2, ?_⟩, rfl, ?_, ?_⟩
  · show (p.sv.Set w.Holder w).totalRametronenterpriseStake + delta =
      (p.sv.Set w.Holder w).activeStake
    rw [h3, h1, hd, ht]
    ring
  · show (p.sv.Set w.Holder w).totalRametronenterpriseStake + delta = _
    rw [h3]
  · simp [StoreView.Get, StoreView.Set]

theorem depositStake_consistent (cfg : StakeConfig) (p : RametronenterprisePool)
    (source holder : Address) (amount : Int) (pubkey : Option bls.PublicKey) (height : Nat)
    (hp : p.Consistent) :
    (p.DepositStake cfg source holder amount pubkey height).1.Consistent := by
  unfold RametronenterprisePool.DepositStake
  have hro := hp.1
  simp only [hro, Bool.false_eq_true, if_false, RametronenterprisePool.Get]
  cases hg : p.sv.Get holder with
  | none =>
    refine (upsertAndAddTotal_consistent p _ holder amount hp rfl ?_).1
    simp [hg, activeStake, NewStake]
  | some w =>
    simp only
    split
    · exact hp
    · rename_i hholder
      cases hd : w.DepositStake cfg source amount with
      | error msg => exact hp
      | panic msg => exact hp
      | ok w2 =>
        simp only [Rametronenterprise.DepositStake, GoResult.map_eq_ok] at hd
        obtain ⟨l, hl, rfl⟩ := hd
        show (p.upsertAndAddTotal _ amount).1.Consistent
        refine (upsertAndAddTotal_consistent p { w with Stakes := l } holder amount hp
          (not_not.1 hholder) ?_).1
        simp [hg, depositStakeList_activeStake cfg source amount w.Stakes l hl]

theorem withdrawStake_consistent (cfg : StakeConfig) (p : RametronenterprisePool)
    (source holder : Address) (height : Nat) (hp : p.Consistent) :
    (p.WithdrawStake cfg source holder height).1.Consistent := by
  unfold RametronenterprisePool.WithdrawStake
  have hro := hp.1
  simp only [hro, Bool.false_eq_true, if_false, RametronenterprisePool.Get]
  cases hg : p.sv.Get holder with
  | none => exact hp
  | some w =>
    simp only
    split
    · exact hp
    · rename_i hholder
      cases hd : w.WithdrawStake cfg source height with
      | error msg => exact hp
      | panic msg => exact hp
      | ok r =>
        obtain ⟨st, w2⟩ := r
        simp only [Rametronenterprise.WithdrawStake, GoResult.map_eq_ok] at hd
        obtain ⟨⟨st3, l⟩, hl, heq⟩ := hd
        simp only [Prod.mk.injEq] at heq
        obtain ⟨rfl, rfl⟩ := heq
        have hu := upsertAndAddTotal_consistent p { w with Stakes := l } holder (-st3.Amount) hp
          (not_not.1 hholder)
          (by simp [hg, (withdrawStakeList_activeStake cfg source height w.Stakes l st3 hl).1]
              ring)
        simp only
        split
        · rename_i p1 u heq
          rw [heq] at hu
          exact hu.1
        · rename_i p1 msg heq
          rw [heq] at hu
          exact hu.1
        · rename_i p1 msg heq
          rw [heq] at hu
          exact hu.1

theorem returnStake_consistent (p : RametronenterprisePool) (height : Nat) (holder : Address)
    (returnedStake : Stake) (hp : p.Consistent) :
    (p.ReturnStake height holder returnedStake).1.Consistent := by
  unfold RametronenterprisePool.ReturnStake
  simp only [RametronenterprisePool.Get]
  cases hg : p.sv.Get holder with
  | none => exact hp
  | some w =>
    simp only
    split
    · exact hp
    · split
      · exact hp
      · cases hd : w.ReturnStake returnedStake.Source height with
        | error msg => exact hp
        | panic msg => exact hp
        | ok r =>
          obtain ⟨st, w2⟩ := r
          simp only [Rametronenterprise.ReturnStake, GoResult.map_eq_ok] at hd
          obtain ⟨⟨st3, l⟩, hl, heq⟩ := hd
          simp only [Prod.mk.injEq] at heq
          obtain ⟨rfl, rfl⟩ := heq
          have hact := returnStakeList_activeStake returnedStake.Source height w.Stakes l st3 hl
          obtain ⟨hro, hh, hnd, ht⟩ := hp
          have hwk : w.Holder = holder := hh (holder, w) (get_mem p.sv holder w hg)
          subst hwk
          simp only
          split
          · rename_i hlen
            have hnil : l = [] := List.length_eq_zero.1 hlen
            subst hnil
            obtain ⟨h1, h2, h3⟩ := delete_activeStake p.sv w.Holder hnd
            have hrm : (p.Remove { w with Stakes := [] }).1 =
                { readOnly := p.readOnly, sv := p.sv.Delete w.Holder } := by
              simp [RametronenterprisePool.Remove, hro]
            rw [hrm]
            refine ⟨hro, delete_holders p.sv w.Holder hh, h2, ?_⟩
            show (p.sv.Delete w.Holder).totalRametronenterpriseStake =
              (p.sv.Delete w.Holder).activeStake
            rw [h3, h1, hg, ht]
            simp only
            rw [← hact]
            simp [activeStake]
          · obtain ⟨h1, h2, h3⟩ := set_activeStake p.sv w.Holder { w with Stakes := l } hnd
            have hup : (p.Upsert { w with Stakes := l }).1 =
                { readOnly := p.readOnly, sv := p.sv.Set w.Holder { w with Stakes := l } } := by
              simp [RametronenterprisePool.Upsert, hro]
            rw [hup]
            refine ⟨hro, set_holders p.sv w.Holder _ rfl hh, h2, ?_⟩
            show (p.sv.Set w.Holder _).totalRametronenterpriseStake =
              (p.sv.Set w.Holder _).activeStake
            rw [h3, h1, hg, ht]
            simp only
            rw [hact]
            ring

theorem call_consistent (cfg : StakeConfig) (p : RametronenterprisePool) (c : PoolCall)
    (hp : p.Consistent) : (p.call cfg c).Consistent := by
  cases c with
  | deposit source holder amount pubkey height =>
    exact depositStake_consistent cfg p source holder amount pubkey height hp
  | withdraw source holder height => exact withdrawStake_consistent cfg p source holder height hp
  | returnStake height holder st => exact returnStake_consistent p height holder st hp

theorem calls_consistent (cfg : StakeConfig) (calls : List PoolCall) (p : RametronenterprisePool)
    (hp : p.Consistent) : (calls.foldl (RametronenterprisePool.call cfg) p).Consistent := by
  induction calls generalizing p with
  | nil => exact hp
  | cons c rest ih => exact ih _ (call_consistent cfg p c hp)

/-- C7: starting from the empty pool with total stake 0, after every sequence of `DepositStake`,
`WithdrawStake` and `ReturnStake` calls on the mutable pool, however each call ended, the stored
total stake equals the sum of the amounts of all non-withdrawn stakes of all workers stored in
the pool. -/
theorem totalStake_eq_activeStake (cfg : StakeConfig) (calls : List PoolCall) :
    (calls.foldl (RametronenterprisePool.call cfg) emptyPool).sv.totalRametronenterpriseStake =
      (calls.foldl (RametronenterprisePool.call cfg) emptyPool).sv.activeStake :=
  (calls_consistent cfg calls emptyPool
    ⟨rfl, by simp [emptyPool], by simp [emptyPool], by simp [emptyPool, StoreView.activeStake]⟩).2.2.2

end state

namespace state
open common core

theorem upsertAndAddTotal_eq (p : RametronenterprisePool) (w : Rametronenterprise) (delta : Int)
    (hro : p.readOnly = false) :
    p.upsertAndAddTotal w delta =
      ({ readOnly := p.readOnly,
         sv := { rametronenterprises := (p.sv.Set w.Holder w).rametronenterprises,
                 totalRametronenterpriseStake := p.sv.totalRametronenterpriseStake + delta } },
        .ok ()) := by
  simp [RametronenterprisePool.upsertAndAddTotal, RametronenterprisePool.Upsert, hro,
    StoreView.Set]

theorem returnStake_total (p : RametronenterprisePool) (height : Nat) (holder : Address)
    (returnedStake : Stake) :
    (p.ReturnStake height holder returnedStake).1.sv.totalRametronenterpriseStake =
      p.sv.totalRametronenterpriseStake := by
  unfold RametronenterprisePool.ReturnStake
  split
  · rfl
  · split
    · rfl
    · split
      · rfl
      · split
        · rfl
        · rfl
        · split
          · simp only [RametronenterprisePool.Remove]
            split <;> rfl
          · simp only [RametronenterprisePool.Upsert]
            split <;> rfl

/-- The total stake after a successful deposit followed by a successful withdrawal of the same
source and holder. -/
theorem deposit_withdraw_total (cfg : StakeConfig) (p : RametronenterprisePool)
    (source holder : Address) (amount : Int) (pubkey : Option bls.PublicKey)
    (blockHeight height : Nat) (w : Stake)
    (hdep : (p.DepositStake cfg source holder amount pubkey blockHeight).2 = .ok ())
    (hwd : ((p.DepositStake cfg source holder amount pubkey blockHeight).1.WithdrawStake cfg
      source holder height).2 = .ok w) :
    ((p.DepositStake cfg source holder amount pubkey blockHeight).1.WithdrawStake cfg
        source holder height).1.sv.totalRametronenterpriseStake =
      p.sv.totalRametronenterpriseStake - p.stakeOfSource source holder := by
  have key : ∀ (w1 : Rametronenterprise), w1.Holder = holder → p.readOnly = false →
      core.stakeOfSource source w1.Stakes = p.stakeOfSource source holder + amount →
      ((p.upsertAndAddTotal w1 amount).1.WithdrawStake cfg source holder height).2 = .ok w →
      ((p.upsertAndAddTotal w1 amount).1.WithdrawStake cfg source holder
          height).1.sv.totalRametronenterpriseStake =
        p.sv.totalRametronenterpriseStake - p.stakeOfSource source holder := by
    intro w1 hk hro hsrc
    rw [upsertAndAddTotal_eq p w1 amount hro]
    subst hk
    unfold RametronenterprisePool.WithdrawStake
    simp only [hro, Bool.false_eq_true, if_false, RametronenterprisePool.Get]
    have hget : StoreView.Get
        { rametronenterprises := (p.sv.Set w1.Holder w1).rametronenterprises,
          totalRametronenterpriseStake := p.sv.totalRametronenterpriseStake + amount }
        w1.Holder = some w1 := by
      simp [StoreView.Get, StoreView.Set]
    rw [hget]
    simp only [ne_eq, not_true_eq_false, if_false]
    cases hws : w1.WithdrawStake cfg source height with
    | error msg => simp
    | panic msg => simp
    | ok r =>
      obtain ⟨st, w2⟩ := r
      simp only [Rametronenterprise.WithdrawStake, GoResult.map_eq_ok] at hws
      obtain ⟨⟨st3, l⟩, hl, heq⟩ := hws
      simp only [Prod.mk.injEq] at heq
      obtain ⟨rfl, rfl⟩ := heq
      have hamt := (withdrawStakeList_activeStake cfg source height w1.Stakes l st3 hl).2
      simp only
      rw [upsertAndAddTotal_eq _ _ _ rfl]
      simp only [GoResult.ok.injEq]
      intro _
      rw [hamt, hsrc]
      ring
  unfold RametronenterprisePool.DepositStake at hdep hwd ⊢
  by_cases hro : p.readOnly = true
  · simp [hro] at hdep
  · have hro2 : p.readOnly = false := by simpa using hro
    simp only [hro2, Bool.false_eq_true, if_false, RametronenterprisePool.Get] at hdep hwd ⊢
    cases hg : p.sv.Get holder with
    | none =>
      simp only [hg] at hdep hwd ⊢
      refine key _ rfl hro2 ?_ hwd
      simp [RametronenterprisePool.stakeOfSource, RametronenterprisePool.Get, hg,
        core.stakeOfSource, NewStake]
    | some w0 =>
      simp only [hg] at hdep hwd ⊢
      by_cases hh : w0.Holder = holder
      · simp only [hh, ne_eq, not_true_eq_false, if_false] at hdep hwd ⊢
        cases hd : w0.DepositStake cfg source amount with
        | error msg => simp [hd] at hdep
        | panic msg => simp [hd] at hdep
        | ok w2 =>
          simp only [hd] at hwd ⊢
          simp only [Rametronenterprise.DepositStake, GoResult.map_eq_ok] at hd
          obtain ⟨l, hl, rfl⟩ := hd
          refine key _ hh hro2 ?_ hwd
          simp [RametronenterprisePool.stakeOfSource, RametronenterprisePool.Get, hg,
            depositStakeList_stakeOfSource cfg source amount w0.Stakes l hl]
      · simp [hh] at hdep

end state

namespace state
open common core

/-- C8 as stated fails: source 1 already holds 100 with holder 2 (total 100); a further deposit
of 50 succeeds, the withdrawal succeeds and withdraws the accumulated stake of 150, and after
the return at the return height the total is 0, not the pre-deposit 100. -/
theorem deposit_withdraw_return_not_restoring :
    examplePoolStaked.sv.totalRametronenterpriseStake = 100 ∧
    (examplePoolStaked.DepositStake exampleConfig 1 2 50 none 6).2 = .ok () ∧
    ((examplePoolStaked.DepositStake exampleConfig 1 2 50 none 6).1.WithdrawStake exampleConfig
      1 2 7).2 = .ok ⟨1, 150, true, 28807, 0⟩ ∧
    (((examplePoolStaked.DepositStake exampleConfig 1 2 50 none 6).1.WithdrawStake exampleConfig
      1 2 7).1.ReturnStake 28807 2 ⟨1, 150, true, 28807, 0⟩).2 = .ok () ∧
    (((examplePoolStaked.DepositStake exampleConfig 1 2 50 none 6).1.WithdrawStake exampleConfig
      1 2 7).1.ReturnStake 28807 2
        ⟨1, 150, true, 28807, 0⟩).1.sv.totalRametronenterpriseStake = 0 := by
  decide

/-- C8, amended: if `DepositStake(source, holder, amount)` succeeds, `WithdrawStake(source,
holder, h)` then succeeds and `ReturnStake` is applied to the withdrawn stake at its return
height, the pool's total stake equals its value before the deposit minus the amount that the
source already held with the holder before the deposit (the withdrawal takes the whole
accumulated stake); it is the pre-deposit value when there was no such stake. -/
theorem deposit_withdraw_return_total (cfg : StakeConfig) (p : RametronenterprisePool)
    (source holder : Address) (amount : Int) (pubkey : Option bls.PublicKey)
    (blockHeight height : Nat) (w : Stake)
    (hdep : (p.DepositStake cfg source holder amount pubkey blockHeight).2 = .ok ())
    (hwd : ((p.DepositStake cfg source holder amount pubkey blockHeight).1.WithdrawStake cfg
      source holder height).2 = .ok w) :
    (((p.DepositStake cfg source holder amount pubkey blockHeight).1.WithdrawStake cfg
        source holder height).1.ReturnStake w.ReturnHeight holder
          w).1.sv.totalRametronenterpriseStake =
      p.sv.totalRametronenterpriseStake - p.stakeOfSource source holder := by
  rw [returnStake_total]
  exact deposit_withdraw_total cfg p source holder amount pubkey blockHeight height w hdep hwd

/-- The amended C8 on the empty pool: deposit 100, withdraw at height 7, return at 28807; the
total is back at 0. -/
theorem deposit_withdraw_return_total_witness :
    (((emptyPool.DepositStake exampleConfig 1 2 100 none 5).1.WithdrawStake exampleConfig
        1 2 7).1.ReturnStake 28807 2
          ⟨1, 100, true, 28807, 0⟩).1.sv.totalRametronenterpriseStake =
      emptyPool.sv.totalRametronenterpriseStake - emptyPool.stakeOfSource 1 2 :=
  deposit_withdraw_return_total exampleConfig emptyPool 1 2 100 none 5 7
    ⟨1, 100, true, 28807, 0⟩ (by decide) (by decide)

end state

namespace state
open common core

theorem bigIntInt64_of_nonneg_lt (x : Int) (h0 : 0 ≤ x) (h1 : x < 2 ^ 63) :
    bigIntInt64 x = x := by
  unfold bigIntInt64 uint64Mod
  have hx : ((x.natAbs % 2 ^ 64 : Nat) : Int) = x := by
    omega
  simp only [hx]
  rw [if_pos h1, if_neg (not_lt.2 h0)]

theorem sampleLoop_eq (p : Int) (n : Nat) (d : List Nat) (h : n ≤ d.length) :
    sampleLoop p n d = .ok (((d.take n).filter (fun (r : Nat) => decide ((r : Int) < p))).length) := by
  induction n generalizing d with
  | zero => simp [sampleLoop]
  | succ n ih =>
    cases d with
    | nil => simp at h
    | cons r rest =>
      simp only [List.length_cons, add_le_add_iff_right] at h
      simp only [sampleLoop, ih rest h, GoResult.map, List.take_succ_cons, List.filter_cons]
      by_cases hr : (r : Int) < p <;> simp [hr]

/-- C9, the failing input: a stake of 250 * 10^18 (the minimum that the deposit check accepts
for every edge tier) with a positive total stake makes `b = floor(S / S_min) = 0`, and the
division `p.Div(p, b)` panics, whatever the reader. -/
theorem sample_weight_panics_below_minimum (reader : List Nat) :
    sampleRametronenterpriseWeight reader (250 * 10 ^ 18) (250 * 10 ^ 18) =
      .panic "division by zero" := by
  unfold sampleRametronenterpriseWeight
  rw [if_neg (by decide), if_neg (by decide)]
  simp only [MinRametronenterpriseStakeDeposit]
  rw [if_pos (by decide)]

/-- Every positive stake below `MinRametronenterpriseStakeDeposit` panics in the same way when
the total stake is positive. -/
theorem sample_weight_panics_of_small_stake (reader : List Nat) (stake totalStake : Int)
    (h0 : 0 < stake) (h1 : stake < MinRametronenterpriseStakeDeposit) (hT : 0 < totalStake) :
    sampleRametronenterpriseWeight reader stake totalStake = .panic "division by zero" := by
  unfold sampleRametronenterpriseWeight
  rw [if_neg (by omega), if_neg (by omega)]
  have hb : stake / MinRametronenterpriseStakeDeposit = 0 := Int.ediv_eq_zero_of_lt (le_of_lt h0) h1
  simp only [hb, if_true]

/-- The part of C9 that the code does satisfy: with zero stake or zero total stake the result
is 0, and from the minimum stake on (and below 2^63 stake units) the result is the number of
the first `b` draws below `p`, provided the reader supplies `b` draws. -/
theorem sample_weight_counts (reader : List Nat) (stake totalStake : Int) :
    ((stake = 0 ∨ totalStake = 0) → sampleRametronenterpriseWeight reader stake totalStake = .ok 0) ∧
    (MinRametronenterpriseStakeDeposit ≤ stake →
      stake < 2 ^ 63 * MinRametronenterpriseStakeDeposit → 0 < totalStake →
      (stake / MinRametronenterpriseStakeDeposit).toNat ≤ reader.length →
      sampleRametronenterpriseWeight reader stake totalStake =
        .ok (((reader.take (stake / MinRametronenterpriseStakeDeposit).toNat).filter
          (fun (r : Nat) => decide ((r : Int) <
            10 ^ 18 * 800 * stake / totalStake /
              (stake / MinRametronenterpriseStakeDeposit)))).length)) := by
  constructor
  · intro h
    unfold sampleRametronenterpriseWeight
    rw [if_pos h]
  · intro hS hS2 hT hlen
    have hmin : (0 : Int) < MinRametronenterpriseStakeDeposit := by
      unfold MinRametronenterpriseStakeDeposit; norm_num
    have hb1 : 1 ≤ stake / MinRametronenterpriseStakeDeposit :=
      (Int.le_ediv_iff_mul_le hmin).2 (by linarith)
    have hb2 : stake / MinRametronenterpriseStakeDeposit < 2 ^ 63 :=
      (Int.ediv_lt_iff_lt_mul hmin).2 hS2
    unfold sampleRametronenterpriseWeight
    rw [if_neg (by
      have := lt_of_lt_of_le hmin hS
      omega), if_neg (by omega)]
    simp only [rametronenterprisepRewardN]
    rw [if_neg (by omega), bigIntInt64_of_nonneg_lt _ (by omega) hb2]
    exact sampleLoop_eq _ _ _ hlen

end state

namespace state
open common core

theorem drawSequences_length_eq (base n : Nat) :
    ∀ d ∈ drawSequences base n, d.length = n := by
  induction n with
  | zero => simp [drawSequences]
  | succ n ih =>
    intro d hd
    simp only [drawSequences, List.mem_flatMap, List.mem_map] at hd
    obtain ⟨r, -, d2, hd2, rfl⟩ := hd
    simp [ih d2 hd2]

theorem extend_sum (p : Int) (n : Nat) (ds : List (List Nat)) (rs : List Nat)
    (hds : ∀ d ∈ ds, d.length = n) :
    ((rs.flatMap (fun r => ds.map (fun d => r :: d))).map
        (fun d => returnedWeight (sampleLoop p (n + 1) d))).sum =
      rs.length * (ds.map (fun d => returnedWeight (sampleLoop p n d))).sum +
        (rs.filter (fun (r : Nat) => decide ((r : Int) < p))).length * ds.length := by
  have hone : ∀ (r : Nat) (l : List (List Nat)), (∀ d ∈ l, d.length = n) →
      ((l.map (fun d => r :: d)).map (fun d => returnedWeight (sampleLoop p (n + 1) d))).sum =
        (l.map (fun d => returnedWeight (sampleLoop p n d))).sum +
          (if (r : Int) < p then 1 else 0) * l.length := by
    intro r l hl
    induction l with
    | nil => simp
    | cons d rest ih =>
      have hd : d.length = n := hl d (List.mem_cons_self _ _)
      have ih2 := ih (fun d2 hd2 => hl d2 (List.mem_cons_of_mem _ hd2))
      simp only [List.map_cons, List.sum_cons, List.length_cons, ih2]
      rw [sampleLoop, sampleLoop_eq p n d (le_of_eq hd.symm)]
      simp only [GoResult.map, returnedWeight]
      by_cases hr : (r : Int) < p
      · simp only [hr, if_true]
        ring
      · simp only [hr, if_false]
        ring
  induction rs with
  | nil => simp
  | cons r rest ih =>
    simp only [List.flatMap_cons, List.map_append, List.sum_append, hone r ds hds, ih,
      List.length_cons, List.filter_cons]
    by_cases hr : (r : Int) < p
    · simp only [hr, if_true, decide_True, List.length_cons]
      ring
    · simp only [hr, if_false, decide_False, Bool.false_eq_true]
      ring

theorem extend_length (ds : List (List Nat)) (rs : List Nat) :
    (rs.flatMap (fun r => ds.map (fun d => r :: d))).length = rs.length * ds.length := by
  induction rs with
  | nil => simp
  | cons r rest ih =>
    simp only [List.flatMap_cons, List.length_append, List.length_map, ih, List.length_cons]
    ring

theorem drawSequences_count (base n : Nat) : (drawSequences base n).length = base ^ n := by
  induction n with
  | zero => simp [drawSequences]
  | succ n ih =>
    rw [drawSequences, extend_length, List.length_range, ih, pow_succ, mul_comm]

theorem range_filter_lt (p : Int) (base : Nat) :
    ((List.range base).filter (fun (r : Nat) => decide ((r : Int) < p))).length = min p.toNat base := by
  induction base with
  | zero => simp
  | succ k ih =>
    rw [List.range_succ, List.filter_append, List.length_append, ih]
    by_cases hk : (k : Int) < p
    · simp only [List.filter_cons, hk, decide_True, if_true, List.filter_nil, List.length_cons,
        List.length_nil]
      omega
    · simp only [List.filter_cons, hk, decide_False, List.filter_nil, List.length_nil,
        Bool.false_eq_true, if_false]
      omega

/-- The sum of the weights over all draw sequences, in closed form. -/
theorem drawSequences_weight_sum (p : Int) (base n : Nat) :
    ((drawSequences base n).map (fun d => returnedWeight (sampleLoop p n d))).sum * base =
      n * min p.toNat base * base ^ n := by
  induction n with
  | zero => simp [drawSequences, sampleLoop, returnedWeight]
  | succ n ih =>
    rw [drawSequences, extend_sum p n _ _ (drawSequences_length_eq base n), List.length_range,
      range_filter_lt, drawSequences_count, add_mul, mul_assoc, ih]
    ring

/-- The expected weight from the minimum stake on: `b` trials, each a head with probability
`min(p, 10^18) / 10^18`. -/
theorem expectedSampleWeight_eq (stake totalStake : Int)
    (hS : MinRametronenterpriseStakeDeposit ≤ stake)
    (hS2 : stake < 2 ^ 63 * MinRametronenterpriseStakeDeposit) (hT : 0 < totalStake) :
    expectedSampleWeight stake totalStake =
      ((stake / MinRametronenterpriseStakeDeposit).toNat : ℚ) *
        (min (10 ^ 18 * 800 * stake / totalStake /
          (stake / MinRametronenterpriseStakeDeposit)).toNat (10 ^ 18) : Nat) / 10 ^ 18 := by
  have hmin : (0 : Int) < MinRametronenterpriseStakeDeposit := by
    unfold MinRametronenterpriseStakeDeposit; norm_num
  have hb1 : 1 ≤ stake / MinRametronenterpriseStakeDeposit :=
    (Int.le_ediv_iff_mul_le hmin).2 (by linarith)
  have hb2 : stake / MinRametronenterpriseStakeDeposit < 2 ^ 63 :=
    (Int.ediv_lt_iff_lt_mul hmin).2 hS2
  have hn : bigIntInt64 (stake / MinRametronenterpriseStakeDeposit) =
      stake / MinRametronenterpriseStakeDeposit := bigIntInt64_of_nonneg_lt _ (by omega) hb2
  have hcall : ∀ d : List Nat, sampleRametronenterpriseWeight d stake totalStake =
      sampleLoop (10 ^ 18 * 800 * stake / totalStake /
        (stake / MinRametronenterpriseStakeDeposit))
        (stake / MinRametronenterpriseStakeDeposit).toNat d := by
    intro d
    unfold sampleRametronenterpriseWeight
    rw [if_neg (by
      have := lt_of_lt_of_le hmin hS
      omega), if_neg (by omega)]
    simp only [rametronenterprisepRewardN]
    rw [if_neg (by omega), hn]
  unfold expectedSampleWeight
  simp only [hn, hcall]
  have hsum := drawSequences_weight_sum (10 ^ 18 * 800 * stake / totalStake /
    (stake / MinRametronenterpriseStakeDeposit)) (10 ^ 18)
    (stake / MinRametronenterpriseStakeDeposit).toNat
  have hq := congrArg (fun k : Nat => (k : ℚ)) hsum
  simp only [Nat.cast_mul, Nat.cast_pow, Nat.cast_ofNat] at hq
  rw [div_eq_div_iff (by positivity) (by positivity), ← hq]

end state

namespace state
open common core

/-- C10 as stated fails: for `S = 5/4 * S_min` and `T = 5 * S` there is `b = 1` trial with
`p = 160 * 10^18`, above every draw, so the expected weight is 1 and not `N / 5 = 160`. -/
theorem expected_weight_five_quarters :
    expectedSampleWeight (43750 * 10 ^ 18) (218750 * 10 ^ 18) = 1 ∧
      expectedSampleWeight (43750 * 10 ^ 18) (218750 * 10 ^ 18) ≠ 160 := by
  have h : expectedSampleWeight (43750 * 10 ^ 18) (218750 * 10 ^ 18) = 1 := by
    rw [expectedSampleWeight_eq _ _ (by unfold MinRametronenterpriseStakeDeposit; norm_num)
      (by unfold MinRametronenterpriseStakeDeposit; norm_num) (by norm_num)]
    have hb : (43750 * 10 ^ 18 : Int) / MinRametronenterpriseStakeDeposit = 1 := by
      unfold MinRametronenterpriseStakeDeposit; norm_num
    have hp : (10 ^ 18 * 800 * (43750 * 10 ^ 18) : Int) / (218750 * 10 ^ 18) / 1 =
        160000000000000000000 := by norm_num
    rw [hb, hp]
    norm_num
  exact ⟨h, by rw [h]; norm_num⟩

/-- C10, amended: for a stake `S` with `S_min ≤ S < 2^63 * S_min` and a total stake `T ≥ S`,
with draws uniform on `[0, 10^18)` the expected value of `sampleRametronenterpriseWeight(S, T)`
is `b * min(p, 10^18) / 10^18`, where `b = floor(S / S_min)` and
`p = floor(floor(10^18 * 800 * S / T) / b)`. It is at most `b`; and when `800 * S ≤ b * T`
(so that `p ≤ 10^18`) it is `N * S / T` with `N = 800` up to the truncation of `p`: at most
`N * S / T` and more than `N * S / T - b / 10^18`. -/
theorem expected_weight_capped (stake totalStake : Int)
    (hS : MinRametronenterpriseStakeDeposit ≤ stake)
    (hS2 : stake < 2 ^ 63 * MinRametronenterpriseStakeDeposit) (hT : stake ≤ totalStake) :
    expectedSampleWeight stake totalStake =
      ((stake / MinRametronenterpriseStakeDeposit : Int) : ℚ) *
        ((min (10 ^ 18 * 800 * stake / totalStake / (stake / MinRametronenterpriseStakeDeposit))
          (10 ^ 18) : Int) : ℚ) / 10 ^ 18 ∧
    expectedSampleWeight stake totalStake ≤
      ((stake / MinRametronenterpriseStakeDeposit : Int) : ℚ) ∧
    (800 * stake ≤ stake / MinRametronenterpriseStakeDeposit * totalStake →
      (800 * stake : ℚ) / totalStake -
          ((stake / MinRametronenterpriseStakeDeposit : Int) : ℚ) / 10 ^ 18 <
        expectedSampleWeight stake totalStake ∧
      expectedSampleWeight stake totalStake ≤ (800 * stake : ℚ) / totalStake) := by
  have hmin : (0 : Int) < MinRametronenterpriseStakeDeposit := by
    unfold MinRametronenterpriseStakeDeposit; norm_num
  have hS0 : 0 < stake := lt_of_lt_of_le hmin hS
  have hT0 : 0 < totalStake := lt_of_lt_of_le hS0 hT
  have hb1 : 1 ≤ stake / MinRametronenterpriseStakeDeposit :=
    (Int.le_ediv_iff_mul_le hmin).2 (by linarith)
  generalize hbdef : stake / MinRametronenterpriseStakeDeposit = b at hb1 ⊢
  have hE := expectedSampleWeight_eq stake totalStake hS hS2 hT0
  rw [hbdef] at hE
  have hp0 : 0 ≤ 10 ^ 18 * 800 * stake / totalStake / b :=
    Int.ediv_nonneg (Int.ediv_nonneg (by positivity) (le_of_lt hT0)) (by omega)
  have hb0 : 0 < b := by omega
  have hup1 : 10 ^ 18 * 800 * stake / totalStake / b * b ≤ 10 ^ 18 * 800 * stake / totalStake :=
    Int.ediv_mul_le _ (ne_of_gt hb0)
  have hup2 : 10 ^ 18 * 800 * stake / totalStake * totalStake ≤ 10 ^ 18 * 800 * stake :=
    Int.ediv_mul_le _ (ne_of_gt hT0)
  have hlo1 : 10 ^ 18 * 800 * stake / totalStake <
      (10 ^ 18 * 800 * stake / totalStake / b + 1) * b :=
    Int.lt_ediv_add_one_mul_self _ hb0
  have hlo2 : 10 ^ 18 * 800 * stake <
      (10 ^ 18 * 800 * stake / totalStake + 1) * totalStake :=
    Int.lt_ediv_add_one_mul_self _ hT0
  generalize 10 ^ 18 * 800 * stake / totalStake = p1 at hp0 hE hup1 hup2 hlo1 hlo2 ⊢
  generalize p1 / b = p at hp0 hE hup1 hlo1 ⊢
  have hbq : ((b.toNat : Nat) : ℚ) = ((b : Int) : ℚ) := by
    have : ((b.toNat : Nat) : Int) = b := Int.toNat_of_nonneg (by omega)
    exact_mod_cast this
  have hminq : ((min p.toNat (10 ^ 18) : Nat) : ℚ) = ((min p (10 ^ 18) : Int) : ℚ) := by
    have : ((min p.toNat (10 ^ 18) : Nat) : Int) = min p (10 ^ 18) := by
      omega
    exact_mod_cast this
  rw [hbq, hminq] at hE
  have hbpos : (0 : ℚ) < (b : ℚ) := by exact_mod_cast hb0
  have hTpos : (0 : ℚ) < (totalStake : ℚ) := by exact_mod_cast hT0
  have hmle : ((min p (10 ^ 18) : Int) : ℚ) ≤ 10 ^ 18 := by
    have : min p (10 ^ 18) ≤ (10 ^ 18 : Int) := min_le_right _ _
    exact_mod_cast this
  refine ⟨hE, ?_, ?_⟩
  · rw [hE, div_le_iff₀ (by positivity)]
    exact mul_le_mul_of_nonneg_left hmle (le_of_lt hbpos)
  · intro hcap
    have hup : p * (totalStake * b) ≤ 10 ^ 18 * 800 * stake := by
      have h1 : p * b * totalStake ≤ p1 * totalStake :=
        Int.mul_le_mul_of_nonneg_right hup1 (le_of_lt hT0)
      nlinarith
    have hlo : 10 ^ 18 * 800 * stake < (p + 1) * (totalStake * b) := by
      have h1 : p1 + 1 ≤ (p + 1) * b := by omega
      have h2 : (p1 + 1) * totalStake ≤ (p + 1) * b * totalStake :=
        Int.mul_le_mul_of_nonneg_right h1 (le_of_lt hT0)
      nlinarith
    have hple : p ≤ 10 ^ 18 := by
      by_contra hcon
      have h1 : (10 ^ 18 + 1) * (totalStake * b) ≤ p * (totalStake * b) :=
        Int.mul_le_mul_of_nonneg_right (by omega) (le_of_lt (Int.mul_pos hT0 hb0))
      nlinarith [Int.mul_pos hT0 hb0]
    have hupq : (p : ℚ) * ((totalStake : ℚ) * (b : ℚ)) ≤ 10 ^ 18 * 800 * (stake : ℚ) := by
      exact_mod_cast hup
    have hloq : 10 ^ 18 * 800 * (stake : ℚ) < ((p : ℚ) + 1) * ((totalStake : ℚ) * (b : ℚ)) := by
      exact_mod_cast hlo
    rw [hE, min_eq_left hple]
    constructor
    · rw [div_sub_div _ _ (ne_of_gt hTpos) (by positivity),
        div_lt_div_iff₀ (by positivity) (by positivity)]
      nlinarith
    · rw [div_le_div_iff₀ (by positivity) hTpos]
      nlinarith

/-- The amended C10 at `S = 125 * S_min`, `T = 1000 * S_min`: 125 trials with `p = 0.8 * 10^18`,
the expected weight is 100, which is `N * S / T`. -/
theorem expected_weight_capped_witness :
    expectedSampleWeight (125 * MinRametronenterpriseStakeDeposit)
        (1000 * MinRametronenterpriseStakeDeposit) = 100 :=
  (expected_weight_capped (125 * MinRametronenterpriseStakeDeposit)
    (1000 * MinRametronenterpriseStakeDeposit)
    (by unfold MinRametronenterpriseStakeDeposit; norm_num)
    (by unfold MinRametronenterpriseStakeDeposit; norm_num)
    (by unfold MinRametronenterpriseStakeDeposit; norm_num)).1.trans
    (by unfold MinRametronenterpriseStakeDeposit; norm_num)

end state

namespace state
open common core

theorem sum_map_const_nat (l : List (List Nat)) (f : List Nat → Nat) (c : Nat)
    (h : ∀ d ∈ l, f d = c) : (l.map f).sum = l.length * c := by
  induction l with
  | nil => simp
  | cons a l ih =>
    simp only [List.map_cons, List.sum_cons, List.length_cons]
    rw [h a (List.mem_cons_self _ _), ih (fun d hd => h d (List.mem_cons_of_mem _ hd))]
    ring

/-- C11: with the stake and total stake of `TestSampleRametronenterpriseWeight`
(`stake = 125 * MinRametronenterpriseStakeDeposit`, `totalStake = 5 * stake`) every call whose
reader yields at least 125 draws in `[0, 10^18)` returns 125: there are `b = 125` trials and
the threshold `10^18 * 800 * stake / totalStake / 125 = 1.28 * 10^18` is above every draw. The
mean over 10000 such calls is therefore 125, outside the interval `[79.9, 80.1]` that the test
asserts. -/
theorem test_sample_weight_is_125 (readers : List (List Nat))
    (hn : readers.length = 10000)
    (hdraws : ∀ d ∈ readers, 125 ≤ d.length ∧ ∀ r ∈ d, r < 10 ^ 18) :
    (∀ d ∈ readers,
      sampleRametronenterpriseWeight d (MinRametronenterpriseStakeDeposit * 500 / 4)
        (MinRametronenterpriseStakeDeposit * 500 / 4 * 5) = .ok 125) ∧
    averageSampleWeight readers (MinRametronenterpriseStakeDeposit * 500 / 4)
        (MinRametronenterpriseStakeDeposit * 500 / 4 * 5) = 125 ∧
    ¬ ((79.9 : ℚ) ≤ averageSampleWeight readers (MinRametronenterpriseStakeDeposit * 500 / 4)
        (MinRametronenterpriseStakeDeposit * 500 / 4 * 5) ∧
      averageSampleWeight readers (MinRametronenterpriseStakeDeposit * 500 / 4)
        (MinRametronenterpriseStakeDeposit * 500 / 4 * 5) ≤ (80.1 : ℚ)) := by
  have hS : MinRametronenterpriseStakeDeposit * 500 / 4 = 125 * (35000 * 10 ^ 18) := by
    unfold MinRametronenterpriseStakeDeposit; norm_num
  have hcall : ∀ d ∈ readers,
      sampleRametronenterpriseWeight d (MinRametronenterpriseStakeDeposit * 500 / 4)
        (MinRametronenterpriseStakeDeposit * 500 / 4 * 5) = .ok 125 := by
    intro d hd
    obtain ⟨hlen, hr⟩ := hdraws d hd
    have hb : (MinRametronenterpriseStakeDeposit * 500 / 4) / MinRametronenterpriseStakeDeposit
        = 125 := by
      unfold MinRametronenterpriseStakeDeposit; norm_num
    have hp : (10 : Int) ^ 18 * 800 * (MinRametronenterpriseStakeDeposit * 500 / 4) /
        (MinRametronenterpriseStakeDeposit * 500 / 4 * 5) /
        ((MinRametronenterpriseStakeDeposit * 500 / 4) / MinRametronenterpriseStakeDeposit)
        = 1280000000000000000 := by
      unfold MinRametronenterpriseStakeDeposit; norm_num
    have h := (sample_weight_counts d (MinRametronenterpriseStakeDeposit * 500 / 4)
      (MinRametronenterpriseStakeDeposit * 500 / 4 * 5)).2
      (by unfold MinRametronenterpriseStakeDeposit; norm_num)
      (by unfold MinRametronenterpriseStakeDeposit; norm_num)
      (by unfold MinRametronenterpriseStakeDeposit; norm_num)
      (by rw [hb]; exact hlen)
    rw [h, hp, hb]
    congr 1
    have hall : (d.take (125 : Int).toNat).filter
        (fun (r : Nat) => decide ((r : Int) < 1280000000000000000)) =
        d.take (125 : Int).toNat := by
      apply List.filter_eq_self.2
      intro r hr'
      have h1 := hr r (List.mem_of_mem_take hr')
      have h2 : (r : Int) < 10 ^ 18 := by exact_mod_cast h1
      simp only [decide_eq_true_eq]
      linarith
    rw [hall, List.length_take]
    have : (125 : Int).toNat = 125 := rfl
    rw [this]
    exact min_eq_left hlen
  have havg : averageSampleWeight readers (MinRametronenterpriseStakeDeposit * 500 / 4)
      (MinRametronenterpriseStakeDeposit * 500 / 4 * 5) = 125 := by
    unfold averageSampleWeight
    have hsum := sum_map_const_nat readers
      (fun d => returnedWeight (sampleRametronenterpriseWeight d
        (MinRametronenterpriseStakeDeposit * 500 / 4)
        (MinRametronenterpriseStakeDeposit * 500 / 4 * 5))) 125
      (fun d hd => by simp only [hcall d hd, returnedWeight])
    rw [hsum, hn]
    norm_num
  refine ⟨hcall, havg, ?_⟩
  rw [havg]
  norm_num

theorem test_sample_weight_is_125_witness :
    (List.replicate 10000 (List.replicate 125 (0 : Nat))).length = 10000 ∧
    averageSampleWeight (List.replicate 10000 (List.replicate 125 0))
        (MinRametronenterpriseStakeDeposit * 500 / 4)
        (MinRametronenterpriseStakeDeposit * 500 / 4 * 5) = 125 :=
  ⟨List.length_replicate _ _,
    (test_sample_weight_is_125 (List.replicate 10000 (List.replicate 125 0))
    (List.length_replicate _ _) (by
      intro d hd
      rw [List.eq_of_mem_replicate hd]
      refine ⟨le_of_eq (List.length_replicate _ _).symm, ?_⟩
      intro r hr
      rw [List.eq_of_mem_replicate hr]
      norm_num)).2.1⟩

end state

namespace common

theorem mapGet_nil {κ α : Type} [DecidableEq κ] (k : κ) :
    mapGet ([] : List (κ × α)) k = none := rfl

theorem mapGet_cons {κ α : Type} [DecidableEq κ] (e : κ × α) (m : List (κ × α)) (k : κ) :
    mapGet (e :: m) k = if e.1 = k then some e.2 else mapGet m k := by
  unfold mapGet
  by_cases h : e.1 = k
  · simp [List.find?, h]
  · simp [List.find?, h]

theorem mapGet_mapSet {κ α : Type} [DecidableEq κ] (m : List (κ × α)) (k : κ) (v : α) (k' : κ) :
    mapGet (mapSet m k v) k' = if k = k' then some v else mapGet m k' := by
  induction m with
  | nil =>
    simp only [mapSet, mapGet_cons, mapGet_nil]
  | cons e m ih =>
    simp only [mapSet]
    by_cases h : e.1 = k
    · rw [if_pos h, mapGet_cons, mapGet_cons]
      by_cases h' : k = k'
      · simp [h, h']
      · have : ¬ e.1 = k' := by rw [h]; exact h'
        simp [h', this]
    · rw [if_neg h, mapGet_cons, mapGet_cons, ih]
      by_cases h' : k = k'
      · have : ¬ e.1 = k' := by rw [← h']; exact h
        simp [h', this]
      · simp [h']

theorem mapGet_mapDelete {κ α : Type} [DecidableEq κ] (m : List (κ × α)) (k k' : κ) :
    mapGet (mapDelete m k) k' = if k = k' then none else mapGet m k' := by
  induction m with
  | nil => simp [mapDelete, mapGet_nil]
  | cons e m ih =>
    unfold mapDelete at ih ⊢
    by_cases h : e.1 = k
    · rw [List.filter_cons_of_neg (by simpa using h), ih, mapGet_cons]
      by_cases h' : k = k'
      · simp [h']
      · have : ¬ e.1 = k' := by rw [h]; exact h'
        simp [h', this]
    · rw [List.filter_cons_of_pos (by simpa using h), mapGet_cons, mapGet_cons, ih]
      by_cases h' : k = k'
      · have : ¬ e.1 = k' := by rw [← h']; exact h
        simp [h', this]
      · simp [h']

end common

namespace consensus
open common core

theorem removeOutdatedVotes_get (now : Int) (h : String)
    (l : List RametronenterpriseVoteRecord) :
    ∀ m : List (String × RametronenterpriseVoteRecord),
      (∀ r ∈ l, r.Hash = h → r.IsOutdated now = false) →
      mapGet (removeOutdatedVotes now m l).1 h = mapGet m h := by
  induction l with
  | nil => intro m _; rfl
  | cons r rest ih =>
    intro m hl
    unfold removeOutdatedVotes
    by_cases ho : r.IsOutdated now = true
    · rw [if_pos ho, ih _ (fun x hx => hl x (List.mem_cons_of_mem _ hx)), mapGet_mapDelete]
      have : ¬ r.Hash = h := by
        intro hh
        have := hl r (List.mem_cons_self _ _) hh
        rw [this] at ho
        exact Bool.false_ne_true ho
      rw [if_neg this]
    · rw [if_neg ho]

theorem removeOutdatedVotes_mem (now : Int) (l : List RametronenterpriseVoteRecord) :
    ∀ (m : List (String × RametronenterpriseVoteRecord)) (r : RametronenterpriseVoteRecord),
      r ∈ (removeOutdatedVotes now m l).2 → r ∈ l := by
  induction l with
  | nil => intro m r hr; exact hr
  | cons x rest ih =>
    intro m r hr
    unfold removeOutdatedVotes at hr
    by_cases ho : x.IsOutdated now = true
    · rw [if_pos ho] at hr
      exact List.mem_cons_of_mem _ (ih _ r hr)
    · rw [if_neg ho] at hr
      exact hr

theorem removeOutdatedVotesUnsafe_get (vb : RametronenterpriseVoteBookkeeper) (now : Int)
    (h : String) (hl : ∀ r ∈ vb.voteList, r.Hash = h → r.IsOutdated now = false) :
    mapGet (vb.removeOutdatedVotesUnsafe now).voteMap h = mapGet vb.voteMap h :=
  removeOutdatedVotes_get now h vb.voteList vb.voteMap hl

theorem removeOutdatedVotesUnsafe_mem (vb : RametronenterpriseVoteBookkeeper) (now : Int)
    (r : RametronenterpriseVoteRecord) (hr : r ∈ (vb.removeOutdatedVotesUnsafe now).voteList) :
    r ∈ vb.voteList :=
  removeOutdatedVotes_mem now vb.voteList vb.voteMap r hr

theorem removeOutdatedVotesUnsafe_maxNumVotes (vb : RametronenterpriseVoteBookkeeper)
    (now : Int) : (vb.removeOutdatedVotesUnsafe now).maxNumVotes = vb.maxNumVotes := rfl

/-- What `Record` leaves behind for a hash that had no record: the map holds the new record with
count 0, and the list holds it as the only record of that hash. -/
theorem record_fresh (k : VoteHashScheme) (vb : RametronenterpriseVoteBookkeeper) (now : Int)
    (vote : RametronenterpriseVote) (hno : vb.HasNoRecord (getVoteHash k vote))
    (hmax : 0 < vb.maxNumVotes) :
    ∃ vb1, vb.Record k now vote = .ok (true, vb1) ∧
      mapGet vb1.voteMap (getVoteHash k vote) =
        some { Hash := getVoteHash k vote, Count := 0, CreatedAt := now } ∧
      (∀ r ∈ vb1.voteList, r.Hash = getVoteHash k vote →
        r = { Hash := getVoteHash k vote, Count := 0, CreatedAt := now }) := by
  obtain ⟨hmap, hlist⟩ := hno
  have hget : mapGet (vb.removeOutdatedVotesUnsafe now).voteMap (getVoteHash k vote) = none := by
    rw [removeOutdatedVotesUnsafe_get vb now _ (fun r hr hh => absurd hh (hlist r hr))]
    exact hmap
  have hl1 : ∀ r ∈ (vb.removeOutdatedVotesUnsafe now).voteList, r.Hash ≠ getVoteHash k vote :=
    fun r hr => hlist r (removeOutdatedVotesUnsafe_mem vb now r hr)
  unfold RametronenterpriseVoteBookkeeper.Record
  simp only [hget]
  by_cases hcap : (vb.removeOutdatedVotesUnsafe now).voteList.length ≥
      (vb.removeOutdatedVotesUnsafe now).maxNumVotes
  · rw [if_pos hcap]
    cases hvl : (vb.removeOutdatedVotesUnsafe now).voteList with
    | nil =>
      rw [hvl] at hcap
      rw [removeOutdatedVotesUnsafe_maxNumVotes] at hcap
      simp at hcap
      omega
    | cons popped rest =>
      refine ⟨_, rfl, ?_, ?_⟩
      · simp only [mapGet_mapSet, if_true]
      · intro r hr hh
        simp only [List.mem_append, List.mem_singleton] at hr
        rcases hr with hr | hr
        · exact absurd hh (hl1 r (by rw [hvl]; exact List.mem_cons_of_mem _ hr))
        · exact hr
  · rw [if_neg hcap]
    refine ⟨_, rfl, ?_, ?_⟩
    · simp only [mapGet_mapSet, if_true]
    · intro r hr hh
      simp only [List.mem_append, List.mem_singleton] at hr
      rcases hr with hr | hr
      · exact absurd hh (hl1 r hr)
      · exact hr

end consensus

namespace consensus
open common core

theorem hasNoRecord_removeOutdated (vb : RametronenterpriseVoteBookkeeper) (now : Int)
    (h : String) (hno : vb.HasNoRecord h) : (vb.removeOutdatedVotesUnsafe now).HasNoRecord h := by
  obtain ⟨hmap, hlist⟩ := hno
  refine ⟨?_, fun r hr => hlist r (removeOutdatedVotesUnsafe_mem vb now r hr)⟩
  rw [removeOutdatedVotesUnsafe_get vb now _ (fun r hr hh => absurd hh (hlist r hr))]
  exact hmap

theorem isOutdated_false_of_le (h : String) (c : Nat) (created now : Int)
    (hle : now - created ≤ maxVoteLife) :
    RametronenterpriseVoteRecord.IsOutdated { Hash := h, Count := c, CreatedAt := created } now
      = false := by
  unfold RametronenterpriseVoteRecord.IsOutdated
  simp only [decide_eq_false_iff_not, not_lt]
  exact hle

/-- C19 as stated fails: a fresh engine with an empty bookkeeper handles the example vote twice
(clock readings 0 and 1, in nanoseconds); the second call leaves the queue with the one vote of
the first call, and `ReceiveCount` then reports 0, not 1: `Record` creates the record with
`Count: 0` and the second call returns at `HasSeen` before `Record`. -/
theorem handleVote_twice_receiveCount_zero :
    (CreateRametronenterpriseVoteBookkeeper DefaultMaxNumVotesCached).HasNoRecord
      (getVoteHash exampleVoteHashScheme exampleVote) ∧
    ∃ e1 vb1 vb2,
      (NewRametronenterpriseEngine 10).HandleVote exampleVoteHashScheme
        (CreateRametronenterpriseVoteBookkeeper DefaultMaxNumVotesCached) 0 0 exampleVote
        = .ok (e1, vb1) ∧
      e1.HandleVote exampleVoteHashScheme vb1 1 1 exampleVote = .ok (e1, vb2) ∧
      e1.evIncoming = [exampleVote] ∧
      (vb2.ReceiveCount exampleVoteHashScheme 2 exampleVote).1 = 0 ∧
      (vb2.ReceiveCount exampleVoteHashScheme 2 exampleVote).1 ≠ 1 := by
  refine ⟨⟨rfl, fun r hr => absurd hr (List.not_mem_nil r)⟩, ?_⟩
  refine ⟨_, _, _, rfl, rfl, rfl, ?_, ?_⟩ <;> decide

/-- C19, amended: for every vote `v`, every engine and every bookkeeper with room for at least
one record and no record for `v`, two calls of `HandleVote(v)` in a row return normally; when
the second call looks the vote up within the vote lifetime of the first call's `Record`, it
returns without enqueuing `v` (the engine is unchanged) and a later `ReceiveCount(v)` within
that lifetime reports 0, the count with which `Record` creates a record. -/
theorem handleVote_twice_dedup (k : VoteHashScheme) (e : RametronenterpriseEngine)
    (vb : RametronenterpriseVoteBookkeeper) (v : RametronenterpriseVote)
    (t1 t2 t3 t4 t5 : Int)
    (hno : vb.HasNoRecord (getVoteHash k v)) (hmax : 0 < vb.maxNumVotes)
    (h3 : t3 - t2 ≤ maxVoteLife) (h5 : t5 - t2 ≤ maxVoteLife) :
    ∃ e1 vb1 vb2,
      e.HandleVote k vb t1 t2 v = .ok (e1, vb1) ∧
      e1.HandleVote k vb1 t3 t4 v = .ok (e1, vb2) ∧
      (vb2.ReceiveCount k t5 v).1 = 0 := by
  have hno1 := hasNoRecord_removeOutdated vb t1 _ hno
  obtain ⟨vb1, hrec, hmap1, hlist1⟩ := record_fresh k (vb.removeOutdatedVotesUnsafe t1) t2 v
    hno1 (by rw [removeOutdatedVotesUnsafe_maxNumVotes]; exact hmax)
  have hfirst : ∃ e1, e.HandleVote k vb t1 t2 v = .ok (e1, vb1) := by
    unfold RametronenterpriseEngine.HandleVote RametronenterpriseVoteBookkeeper.HasSeen
    simp only [hno1.1, Option.isSome_none, Bool.false_eq_true, if_false, hrec, GoResult.map]
    by_cases hq : e.evIncoming.length < e.queueSize
    · rw [if_pos hq]; exact ⟨_, rfl⟩
    · rw [if_neg hq]; exact ⟨_, rfl⟩
  obtain ⟨e1, he1⟩ := hfirst
  have hfresh3 : ∀ r ∈ vb1.voteList, r.Hash = getVoteHash k v → r.IsOutdated t3 = false := by
    intro r hr hh
    rw [hlist1 r hr hh]
    exact isOutdated_false_of_le _ _ _ _ h3
  have hmap2 : mapGet (vb1.removeOutdatedVotesUnsafe t3).voteMap (getVoteHash k v) =
      some { Hash := getVoteHash k v, Count := 0, CreatedAt := t2 } := by
    rw [removeOutdatedVotesUnsafe_get vb1 t3 _ hfresh3]
    exact hmap1
  refine ⟨e1, vb1, vb1.removeOutdatedVotesUnsafe t3, he1, ?_, ?_⟩
  · unfold RametronenterpriseEngine.HandleVote RametronenterpriseVoteBookkeeper.HasSeen
    simp only [hmap2, Option.isSome_some, if_true]
  · have hfresh5 : ∀ r ∈ (vb1.removeOutdatedVotesUnsafe t3).voteList,
        r.Hash = getVoteHash k v → r.IsOutdated t5 = false := by
      intro r hr hh
      rw [hlist1 r (removeOutdatedVotesUnsafe_mem vb1 t3 r hr) hh]
      exact isOutdated_false_of_le _ _ _ _ h5
    unfold RametronenterpriseVoteBookkeeper.ReceiveCount
    simp only [removeOutdatedVotesUnsafe_get _ t5 _ hfresh5, hmap2]

theorem handleVote_twice_dedup_witness :
    ∃ e1 vb1 vb2,
      (NewRametronenterpriseEngine 10).HandleVote exampleVoteHashScheme
        (CreateRametronenterpriseVoteBookkeeper 3) 0 5 exampleVote = .ok (e1, vb1) ∧
      e1.HandleVote exampleVoteHashScheme vb1 7 8 exampleVote = .ok (e1, vb2) ∧
      (vb2.ReceiveCount exampleVoteHashScheme 9 exampleVote).1 = 0 :=
  handleVote_twice_dedup exampleVoteHashScheme (NewRametronenterpriseEngine 10)
    (CreateRametronenterpriseVoteBookkeeper 3) exampleVote 0 5 7 8 9
    ⟨rfl, fun r hr => absurd hr (List.not_mem_nil r)⟩ (by decide) (by decide) (by decide)

end consensus

namespace consensus
open common core

theorem record_returns (k : VoteHashScheme) (vb : RametronenterpriseVoteBookkeeper) (now : Int)
    (vote : RametronenterpriseVote) (hmax : 0 < vb.maxNumVotes) :
    ∃ vb1, vb.Record k now vote = .ok (true, vb1) := by
  unfold RametronenterpriseVoteBookkeeper.Record
  cases hget : mapGet (vb.removeOutdatedVotesUnsafe now).voteMap (getVoteHash k vote) with
  | some r =>
    simp only [hget]
    exact ⟨_, rfl⟩
  | none =>
    simp only [hget]
    by_cases hcap : (vb.removeOutdatedVotesUnsafe now).voteList.length ≥
        (vb.removeOutdatedVotesUnsafe now).maxNumVotes
    · rw [if_pos hcap]
      cases hvl : (vb.removeOutdatedVotesUnsafe now).voteList with
      | nil =>
        rw [hvl, removeOutdatedVotesUnsafe_maxNumVotes] at hcap
        simp at hcap
        omega
      | cons popped rest => exact ⟨_, rfl⟩
    · rw [if_neg hcap]
      exact ⟨_, rfl⟩

theorem record_map_isSome (k : VoteHashScheme) (vb vb1 : RametronenterpriseVoteBookkeeper)
    (now : Int) (vote : RametronenterpriseVote) (b : Bool)
    (h : vb.Record k now vote = .ok (b, vb1)) :
    (mapGet vb1.voteMap (getVoteHash k vote)).isSome = true := by
  unfold RametronenterpriseVoteBookkeeper.Record at h
  cases hget : mapGet (vb.removeOutdatedVotesUnsafe now).voteMap (getVoteHash k vote) with
  | some r =>
    simp only [hget, GoResult.ok.injEq, Prod.mk.injEq] at h
    rw [← h.2]
    simp only [mapGet_mapSet, if_true, Option.isSome_some]
  | none =>
    simp only [hget] at h
    by_cases hcap : (vb.removeOutdatedVotesUnsafe now).voteList.length ≥
        (vb.removeOutdatedVotesUnsafe now).maxNumVotes
    · rw [if_pos hcap] at h
      cases hvl : (vb.removeOutdatedVotesUnsafe now).voteList with
      | nil => simp [hvl] at h
      | cons popped rest =>
        simp only [hvl, GoResult.ok.injEq, Prod.mk.injEq] at h
        rw [← h.2]
        simp only [mapGet_mapSet, if_true, Option.isSome_some]
    · rw [if_neg hcap] at h
      simp only [GoResult.ok.injEq, Prod.mk.injEq] at h
      rw [← h.2]
      simp only [mapGet_mapSet, if_true, Option.isSome_some]

/-- C20: `getVoteHash` reads only the vote's `Address` and `Block`. Two votes that agree on both
have the same hash whatever their `Height`, `Timestamp` and `Signature`; `HasSeen` therefore
answers the same for both in every bookkeeper state and at every time; `Record(v1)` returns
(the bookkeeper keeping at least one record), and after it `HasSeen(v2)` is true for as long as
the record of `v1` is not outdated. -/
theorem getVoteHash_address_block_only (k : VoteHashScheme) (v1 v2 : RametronenterpriseVote)
    (ha : v1.Address = v2.Address) (hb : v1.Block = v2.Block) :
    getVoteHash k v1 = getVoteHash k v2 ∧
    (∀ (vb : RametronenterpriseVoteBookkeeper) (t : Int),
      vb.HasSeen k t v2 = vb.HasSeen k t v1) ∧
    (∀ (vb : RametronenterpriseVoteBookkeeper) (t : Int), 0 < vb.maxNumVotes →
      ∃ vb1, vb.Record k t v1 = .ok (true, vb1)) ∧
    (∀ (vb vb1 : RametronenterpriseVoteBookkeeper) (t t2 : Int) (b : Bool),
      vb.Record k t v1 = .ok (b, vb1) →
      (∀ r ∈ vb1.voteList, r.Hash = getVoteHash k v1 → r.IsOutdated t2 = false) →
      (vb1.HasSeen k t2 v2).1 = true) := by
  have hh : getVoteHash k v1 = getVoteHash k v2 := by
    unfold getVoteHash
    rw [ha, hb]
  refine ⟨hh, ?_, fun vb t hmax => record_returns k vb t v1 hmax, ?_⟩
  · intro vb t
    unfold RametronenterpriseVoteBookkeeper.HasSeen
    rw [hh]
  · intro vb vb1 t t2 b hrec hfresh
    unfold RametronenterpriseVoteBookkeeper.HasSeen
    simp only
    rw [← hh, removeOutdatedVotesUnsafe_get vb1 t2 _ hfresh]
    exact record_map_isSome k vb vb1 t v1 b hrec

theorem getVoteHash_address_block_only_witness :
    getVoteHash exampleVoteHashScheme exampleVote =
      getVoteHash exampleVoteHashScheme
        { exampleVote with Height := 7, Timestamp := 99, Signature := none } ∧
    ((CreateRametronenterpriseVoteBookkeeper 3).Record exampleVoteHashScheme 0 exampleVote).isOk
      = true :=
  ⟨(getVoteHash_address_block_only exampleVoteHashScheme exampleVote
      { exampleVote with Height := 7, Timestamp := 99, Signature := none } rfl rfl).1,
    by decide⟩

end consensus

namespace execution
open common core state types

theorem totalUtility_mapSet (m : RewardMap) (k : Address) (v : Coins) :
    totalUtility (mapSet m k v) = totalUtility m - utilityOf m k + v.PTXWei.getD 0 := by
  induction m with
  | nil => simp [mapSet, totalUtility, utilityOf, mapGet_nil]
  | cons e m ih =>
    unfold totalUtility utilityOf at ih ⊢
    simp only [mapSet, mapGet_cons]
    by_cases h : e.1 = k
    · simp only [if_pos h, List.map_cons, List.sum_cons]
      ring
    · simp only [if_neg h, List.map_cons, List.sum_cons]
      rw [ih]
      ring

theorem utilityOf_mapSet (m : RewardMap) (k : Address) (v : Coins) (a : Address) :
    utilityOf (mapSet m k v) a = if k = a then v.PTXWei.getD 0 else utilityOf m a := by
  unfold utilityOf
  rw [mapGet_mapSet]
  by_cases h : k = a
  · simp [h]
  · simp [h]

theorem totalUtility_addRewardToMap (receiver : Address) (amount : Int) (m : RewardMap) :
    totalUtility (addRewardToMap receiver amount m) = totalUtility m + amount := by
  unfold addRewardToMap
  cases hget : mapGet m receiver with
  | none =>
    simp only [hget]
    rw [totalUtility_mapSet]
    simp [utilityOf, hget, Coins.NoNil]
  | some c =>
    simp only [hget]
    rw [totalUtility_mapSet]
    simp only [utilityOf, hget, Coins.NoNil, Coins.Plus, Option.getD_some]
    ring

theorem utilityOf_addRewardToMap (receiver : Address) (amount : Int) (m : RewardMap)
    (a : Address) :
    utilityOf (addRewardToMap receiver amount m) a =
      utilityOf m a + (if receiver = a then amount else 0) := by
  unfold addRewardToMap
  cases hget : mapGet m receiver with
  | none =>
    simp only [hget]
    rw [utilityOf_mapSet]
    by_cases h : receiver = a
    · subst h
      simp [utilityOf, hget, Coins.NoNil]
    · simp [h]
  | some c =>
    simp only [hget]
    rw [utilityOf_mapSet]
    by_cases h : receiver = a
    · subst h
      simp [utilityOf, hget, Coins.NoNil, Coins.Plus]
    · simp [h]

theorem toInt64_of_lt (x : Nat) (h : x < 2 ^ 63) : toInt64 x = (x : Int) := by
  unfold toInt64 uint64Mod
  have h1 : x % 2 ^ 64 = x := Nat.mod_eq_of_lt (by omega)
  rw [h1, if_pos h]

/-- C15 as stated fails: for a holder without a rule and the reward `R = 100 * 10^18`,
`handleSplit` credits `10 * 10^18` to the fee address and the whole `R` to the source, not the
remainder `R - 10 * 10^18`; the amounts added sum to `110 * 10^18`, not to `R`. -/
theorem handleSplit_no_rule_adds_fee :
    exampleStake.Holder ≠ 0 ∧
    handleSplit exampleStake (some (fun _ => none)) (100 * 10 ^ 18) [] =
      .ok [(feeAddress, NewCoins 0 (10 * 10 ^ 18)), (7, NewCoins 0 (100 * 10 ^ 18))] ∧
    totalUtility [(feeAddress, NewCoins 0 (10 * 10 ^ 18)), (7, NewCoins 0 (100 * 10 ^ 18))]
      = 110 * 10 ^ 18 ∧
    utilityOf [(feeAddress, NewCoins 0 (10 * 10 ^ 18)), (7, NewCoins 0 (100 * 10 ^ 18))] 7
      ≠ 100 * 10 ^ 18 - 10 * 10 ^ 18 := by
  refine ⟨by decide, by decide, by decide, by decide⟩

/-- C15, amended: for every stake with a non-empty holder and every reward `R >= 0`,
`handleSplit` returns. If the holder has a rule with split basis point `bps` in `[1, 10000]`,
the beneficiary is credited `floor(R * bps / 10000)` and the source `R` minus that, so the
utility amounts added sum to exactly `R`. If the holder has no rule, the fee address is credited
`10 * 10^18` and the source the whole `R`, so the amounts added sum to `R + 10 * 10^18`. -/
theorem handleSplit_credits (stake : Stake) (rules : Address → Option StakeRewardDistribution)
    (R : Int) (m : RewardMap) (hholder : stake.Holder ≠ 0) (hR : 0 ≤ R) :
    (∀ d, rules stake.Holder = some d → 1 ≤ d.SplitBasisPoint → d.SplitBasisPoint ≤ 10000 →
      ∃ m', handleSplit stake (some rules) R m = .ok m' ∧
        totalUtility m' = totalUtility m + R ∧
        ∀ a, utilityOf m' a = utilityOf m a +
          (if d.Beneficiary = a then R * (d.SplitBasisPoint : Int) / 10000 else 0) +
          (if stake.Source = a then R - R * (d.SplitBasisPoint : Int) / 10000 else 0)) ∧
    (rules stake.Holder = none →
      ∃ m', handleSplit stake (some rules) R m = .ok m' ∧
        totalUtility m' = totalUtility m + R + 10 * 10 ^ 18 ∧
        ∀ a, utilityOf m' a = utilityOf m a +
          (if feeAddress = a then 10 * 10 ^ 18 else 0) + (if stake.Source = a then R else 0)) := by
  constructor
  · intro d hd h1 h2
    have hconv : toInt64 d.SplitBasisPoint = (d.SplitBasisPoint : Int) :=
      toInt64_of_lt _ (by omega)
    have hb0 : (0 : Int) ≤ (d.SplitBasisPoint : Int) := Int.natCast_nonneg _
    have hb1 : (d.SplitBasisPoint : Int) ≤ 10000 := by exact_mod_cast h2
    have hle : R * (d.SplitBasisPoint : Int) / 10000 ≤ R := by
      apply Int.ediv_le_of_le_mul (by norm_num)
      nlinarith
    unfold handleSplit
    simp only [hd, if_neg hholder, if_neg (show ¬ d.SplitBasisPoint = 0 by omega), hconv,
      if_neg (not_lt.2 hle)]
    refine ⟨_, rfl, ?_, ?_⟩
    · rw [totalUtility_addRewardToMap, totalUtility_addRewardToMap]
      ring
    · intro a
      rw [utilityOf_addRewardToMap, utilityOf_addRewardToMap]
      ring
  · intro hd
    unfold handleSplit
    simp only [hd, if_neg hholder]
    refine ⟨_, rfl, ?_, ?_⟩
    · rw [totalUtility_addRewardToMap, totalUtility_addRewardToMap]
      simp only [weiMultiplier]
      ring
    · intro a
      rw [utilityOf_addRewardToMap, utilityOf_addRewardToMap]
      simp only [weiMultiplier]
      norm_num

theorem handleSplit_credits_witness :
    ∃ m', handleSplit exampleStake (some exampleRules) 1001 [] = .ok m' ∧
      totalUtility m' = totalUtility [] + 1001 ∧
      ∀ a, utilityOf m' a = utilityOf [] a +
        (if (9 : Address) = a then 1001 * ((2500 : Nat) : Int) / 10000 else 0) +
        (if exampleStake.Source = a then 1001 - 1001 * ((2500 : Nat) : Int) / 10000 else 0) :=
  (handleSplit_credits exampleStake exampleRules 1001 [] (by decide) (by decide)).1
    { StakeHolder := 8, Beneficiary := 9, SplitBasisPoint := 2500 } rfl (by decide) (by decide)

end execution

namespace execution
open common core state types

theorem bind_ok {α β : Type} (v : α) (f : α → GoResult β) : (GoResult.ok v).bind f = f v := rfl

theorem fixedSplitStakes_append (srdsr : Option (Address → Option StakeRewardDistribution))
    (R T : Int) (l1 l2 : List Stake) :
    ∀ m : RewardMap, fixedSplitStakes srdsr R T (l1 ++ l2) m =
      (fixedSplitStakes srdsr R T l1 m).bind (fixedSplitStakes srdsr R T l2) := by
  induction l1 with
  | nil => intro m; rfl
  | cons s l1 ih =>
    intro m
    simp only [List.cons_append, fixedSplitStakes]
    cases h : handleSplit s srdsr (R * s.Amount / T) m with
    | ok v => simp only [GoResult.bind]; exact ih v
    | error msg => rfl
    | panic msg => rfl

theorem fixedSplitGroups_flatten (srdsr : Option (Address → Option StakeRewardDistribution))
    (R T : Int) (groups : List (List Stake)) :
    ∀ m : RewardMap, fixedSplitGroups srdsr R T groups m =
      fixedSplitStakes srdsr R T groups.flatten m := by
  induction groups with
  | nil => intro m; rfl
  | cons g groups ih =>
    intro m
    simp only [fixedSplitGroups, List.flatten_cons, fixedSplitStakes_append]
    cases h : fixedSplitStakes srdsr R T g m with
    | ok v => simp only [GoResult.bind]; exact ih v
    | error msg => rfl
    | panic msg => rfl

theorem fixedAggregateGroups_utilityOf (R T : Int) (a : Address)
    (groups : List (List Stake)) :
    ∀ m : RewardMap, utilityOf (fixedAggregateGroups R T groups m) a =
      utilityOf m a + aggregateCredit R T a groups := by
  induction groups with
  | nil => intro m; simp [fixedAggregateGroups, aggregateCredit]
  | cons g groups ih =>
    intro m
    cases g with
    | nil =>
      simp only [fixedAggregateGroups]
      rw [ih m]
      simp [aggregateCredit, groupSource]
    | cons first rest =>
      simp only [fixedAggregateGroups]
      rw [ih, utilityOf_addRewardToMap]
      unfold aggregateCredit
      simp only [List.map_cons, List.sum_cons, groupSource, List.head?_cons, Option.map_some',
        Option.some.injEq, groupAmount]
      ring

/-- C14 as stated fails without a rule set: with `totalReward = 700 * 10^18`,
`totalStake = 9` and two stakes of amount 2 of source 7 in one group, the source is credited
`floor(700 * 10^18 * 4 / 9)`, one more than the sum of the two per-stake rewards
`floor(700 * 10^18 * 2 / 9)`. -/
theorem issueFixedReward_aggregates_before_floor :
    issueFixedReward exampleGroups 9 [] (700 * 10 ^ 18) none =
      .ok [(7, NewCoins 0 311111111111111111111), (6, NewCoins 0 388888888888888888888)] ∧
    (700 * 10 ^ 18 * 2 / 9 + 700 * 10 ^ 18 * 2 / 9 : Int) = 311111111111111111110 ∧
    utilityOf [(7, NewCoins 0 311111111111111111111), (6, NewCoins 0 388888888888888888888)] 7
      ≠ 700 * 10 ^ 18 * 2 / 9 + 700 * 10 ^ 18 * 2 / 9 := by
  refine ⟨by decide, by decide, by decide⟩

/-- C14, amended: when `totalStake == 0` `issueFixedReward` credits nothing. Otherwise, with a
rule set each stake, in group order, is assigned `floor(totalReward * stake.Amount /
totalStake)` and that per-stake reward is what is handed to `handleSplit`; without a rule set
the call returns and every non-empty group is credited once, under the source of its first
stake, with `floor(totalReward * (sum of the group's amounts) / totalStake)`. -/
theorem issueFixedReward_credits (effectiveStakes : List (List Stake)) (totalStake : Int)
    (m : RewardMap) (totalReward : Int) :
    (∀ srdsr, issueFixedReward effectiveStakes 0 m totalReward srdsr = .ok m) ∧
    (totalStake ≠ 0 →
      (∀ rules, issueFixedReward effectiveStakes totalStake m totalReward (some rules) =
        fixedSplitStakes (some rules) totalReward totalStake effectiveStakes.flatten m) ∧
      ∃ m', issueFixedReward effectiveStakes totalStake m totalReward none = .ok m' ∧
        ∀ a, utilityOf m' a =
          utilityOf m a + aggregateCredit totalReward totalStake a effectiveStakes) := by
  constructor
  · intro srdsr
    unfold issueFixedReward
    rw [if_pos rfl]
  · intro hT
    constructor
    · intro rules
      unfold issueFixedReward
      rw [if_neg hT]
      exact fixedSplitGroups_flatten _ _ _ _ _
    · unfold issueFixedReward
      rw [if_neg hT]
      exact ⟨_, rfl, fun a => fixedAggregateGroups_utilityOf _ _ a _ _⟩

theorem issueFixedReward_credits_witness :
    ∃ m', issueFixedReward exampleGroups 9 [] (700 * 10 ^ 18) none = .ok m' ∧
      ∀ a, utilityOf m' a =
        utilityOf [] a + aggregateCredit (700 * 10 ^ 18) 9 a exampleGroups :=
  ((issueFixedReward_credits exampleGroups 9 [] (700 * 10 ^ 18)).2 (by decide)).2

end execution

namespace execution
open common core state types

theorem hitsIn_nil (l u : Int) : hitsIn [] l u = 0 := rfl

theorem hitsIn_cons (s : Int) (t : List Int) (l u : Int) :
    hitsIn (s :: t) l u = hitsIn t l u + (if l ≤ s ∧ s < u then 1 else 0) := by
  unfold hitsIn
  rw [List.countP_cons]
  simp only [decide_eq_true_eq]

theorem hitsIn_le_length (samples : List Int) (l u : Int) : hitsIn samples l u ≤ samples.length :=
  List.countP_le_length _

theorem hitsIn_eq_zero_of_le (samples : List Int) (l u b : Int) (hb : u ≤ b)
    (h : ∀ s ∈ samples, b ≤ s) : hitsIn samples l u = 0 := by
  unfold hitsIn
  rw [List.countP_eq_zero]
  intro s hs
  have := h s hs
  simp only [decide_eq_true_eq, not_and, not_lt]
  intro _
  omega

theorem hitsIn_split (samples : List Int) (c a b : Int) (ha : 0 ≤ a) (hb : 0 ≤ b) :
    hitsIn samples c (c + a) + hitsIn samples (c + a) (c + a + b) =
      hitsIn samples c (c + a + b) := by
  induction samples with
  | nil => rfl
  | cons s t ih =>
    rw [hitsIn_cons, hitsIn_cons, hitsIn_cons, ← ih]
    by_cases h1 : c ≤ s ∧ s < c + a
    · have h2 : ¬ (c + a ≤ s ∧ s < c + a + b) := by omega
      have h3 : c ≤ s ∧ s < c + a + b := by omega
      rw [if_pos h1, if_neg h2, if_pos h3]
      omega
    · by_cases h2 : c + a ≤ s ∧ s < c + a + b
      · have h3 : c ≤ s ∧ s < c + a + b := by omega
        rw [if_neg h1, if_pos h2, if_pos h3]
        omega
      · have h3 : ¬ (c ≤ s ∧ s < c + a + b) := by omega
        rw [if_neg h1, if_neg h2, if_neg h3]
        omega

theorem hitsIn_perm (s1 s2 : List Int) (h : s1.Perm s2) (l u : Int) :
    hitsIn s1 l u = hitsIn s2 l u :=
  h.countP_eq _

theorem hitsIn_all (samples : List Int) (l u : Int) (h : ∀ s ∈ samples, l ≤ s ∧ s < u) :
    hitsIn samples l u = samples.length := by
  unfold hitsIn
  rw [List.countP_eq_length]
  intro s hs
  simpa using h s hs

/-- The scan on sorted samples that are all at or above `lower`: it counts the hits of the
interval and leaves sorted samples at or above `upper`, with the same hits for every later
interval. -/
theorem countHits_spec (lower upper : Int) (samples : List Int)
    (hsorted : samples.Pairwise (fun a b => a ≤ b)) (hlow : ∀ s ∈ samples, lower ≤ s) :
    (countHits lower upper samples).1 = hitsIn samples lower upper ∧
    (countHits lower upper samples).2.Pairwise (fun a b => a ≤ b) ∧
    (∀ s ∈ (countHits lower upper samples).2, upper ≤ s) ∧
    (countHits lower upper samples).2.length ≤ samples.length ∧
    (∀ l u, upper ≤ l →
      hitsIn (countHits lower upper samples).2 l u = hitsIn samples l u) := by
  induction samples with
  | nil =>
    refine ⟨rfl, List.Pairwise.nil, ?_, le_refl _, fun _ _ _ => rfl⟩
    intro s hs
    exact absurd hs (List.not_mem_nil s)
  | cons s t ih =>
    have hst := List.pairwise_cons.1 hsorted
    obtain ⟨h1, h2, h3, h4, h5⟩ := ih hst.2 (fun x hx => hlow x (List.mem_cons_of_mem _ hx))
    have hls : lower ≤ s := hlow s (List.mem_cons_self _ _)
    unfold countHits
    by_cases hc : lower ≤ s ∧ s < upper
    · rw [if_pos hc]
      refine ⟨?_, h2, h3, ?_, ?_⟩
      · show (countHits lower upper t).1 + 1 = _
        rw [h1, hitsIn_cons, if_pos hc]
      · show (countHits lower upper t).2.length ≤ _
        simp only [List.length_cons]
        omega
      · intro l u hlu
        show hitsIn (countHits lower upper t).2 l u = _
        rw [h5 l u hlu, hitsIn_cons, if_neg (by omega)]
        rfl
    · rw [if_neg hc]
      have hus : upper ≤ s := by omega
      refine ⟨?_, hsorted, ?_, le_refl _, fun _ _ _ => rfl⟩
      · show 0 = _
        rw [hitsIn_eq_zero_of_le (s :: t) lower upper s hus]
        intro x hx
        rcases List.mem_cons.1 hx with hx | hx
        · rw [hx]
        · exact hst.1 x hx
      · intro x hx
        rcases List.mem_cons.1 hx with hx | hx
        · rw [hx]; exact hus
        · exact le_trans hus (hst.1 x hx)

theorem groupAmount_nonneg (g : List Stake) (h : ∀ s ∈ g, 0 ≤ s.Amount) : 0 ≤ groupAmount g := by
  unfold groupAmount
  apply List.sum_nonneg
  intro x hx
  obtain ⟨s, hs, rfl⟩ := List.mem_map.1 hx
  exact h s hs

theorem randomizedCredit_congr (R : Int) (s1 s2 : List Int) (a : Address)
    (groups : List (List Stake)) (hnn : ∀ g ∈ groups, ∀ s ∈ g, 0 ≤ s.Amount) :
    ∀ c b : Int, b ≤ c → (∀ l u, b ≤ l → hitsIn s1 l u = hitsIn s2 l u) →
      randomizedCredit R s1 a groups c = randomizedCredit R s2 a groups c := by
  induction groups with
  | nil => intro c b _ _; rfl
  | cons g groups ih =>
    intro c b hbc hh
    have hg := groupAmount_nonneg g (hnn g (List.mem_cons_self _ _))
    simp only [randomizedCredit]
    rw [hh c _ hbc, ih (fun g' hg' => hnn g' (List.mem_cons_of_mem _ hg')) (c + groupAmount g) b
      (by omega) hh]

theorem randomizedCredit_nil_samples (R : Int) (a : Address) (groups : List (List Stake)) :
    ∀ c : Int, randomizedCredit R [] a groups c = 0 := by
  induction groups with
  | nil => intro c; rfl
  | cons g groups ih =>
    intro c
    simp only [randomizedCredit, hitsIn_nil, ih]
    simp

theorem totalHits_eq (samples : List Int) (groups : List (List Stake))
    (hnn : ∀ g ∈ groups, ∀ s ∈ g, 0 ≤ s.Amount) :
    ∀ c : Int, totalHits samples groups c =
      hitsIn samples c (c + (groups.map groupAmount).sum) := by
  induction groups with
  | nil =>
    intro c
    simp only [totalHits, List.map_nil, List.sum_nil, add_zero]
    symm
    unfold hitsIn
    rw [List.countP_eq_zero]
    intro s _
    simp only [decide_eq_true_eq, not_and, not_lt]
    exact fun h => h
  | cons g groups ih =>
    intro c
    have hg := groupAmount_nonneg g (hnn g (List.mem_cons_self _ _))
    have hrest : 0 ≤ (groups.map groupAmount).sum := by
      apply List.sum_nonneg
      intro x hx
      obtain ⟨g', hg', rfl⟩ := List.mem_map.1 hx
      exact groupAmount_nonneg g' (hnn g' (List.mem_cons_of_mem _ hg'))
    simp only [totalHits, List.map_cons, List.sum_cons]
    rw [ih (fun g' hg' => hnn g' (List.mem_cons_of_mem _ hg')), ← add_assoc,
      hitsIn_split samples c _ _ hg hrest]

end execution

namespace execution
open common core state types

theorem toInt64_ptxRewardN : toInt64 ptxRewardN = 400 := by decide

theorem randomizedAggregateGroups_utilityOf (R : Int) (a : Address)
    (groups : List (List Stake)) (hnn : ∀ g ∈ groups, ∀ s ∈ g, 0 ≤ s.Amount) :
    ∀ st : ScanState, st.samples.Pairwise (fun x y => x ≤ y) →
      (∀ s ∈ st.samples, st.currSum ≤ s) → st.samples.length ≤ 400 →
      utilityOf (randomizedAggregateGroups R groups st).accountReward a =
        utilityOf st.accountReward a + randomizedCredit R st.samples a groups st.currSum := by
  induction groups with
  | nil =>
    intro st _ _ _
    simp [randomizedAggregateGroups, randomizedCredit]
  | cons g groups ih =>
    intro st hsorted hlow hlen
    have hnn' : ∀ g' ∈ groups, ∀ s ∈ g', 0 ≤ s.Amount :=
      fun g' hg' => hnn g' (List.mem_cons_of_mem _ hg')
    cases g with
    | nil =>
      simp only [randomizedAggregateGroups, randomizedCredit]
      rw [ih hnn' st hsorted hlow hlen]
      simp [groupSource, groupAmount]
    | cons first rest =>
      have hg := groupAmount_nonneg (first :: rest) (hnn _ (List.mem_cons_self _ _))
      simp only [randomizedAggregateGroups]
      by_cases hempty : st.samples = []
      · rw [if_pos hempty, hempty, randomizedCredit_nil_samples]
        simp
      · rw [if_neg hempty]
        obtain ⟨h1, h2, h3, h4, h5⟩ := countHits_spec st.currSum
          (st.currSum + groupAmount (first :: rest)) st.samples hsorted hlow
        have hamount : ((first :: rest).map (fun stake => stake.Amount)).sum =
            groupAmount (first :: rest) := rfl
        rw [hamount]
        rw [ih hnn' _ h2 h3 (le_trans h4 hlen)]
        simp only [randomizedCredit]
        rw [randomizedCredit_congr R _ st.samples a groups hnn' _ _ (le_refl _) h5, h1]
        have hsrc : groupSource (first :: rest) = some a ↔ first.Source = a := by
          simp [groupSource]
        have hcnt : hitsIn st.samples st.currSum (st.currSum + groupAmount (first :: rest))
            ≤ 400 := le_trans (hitsIn_le_length _ _ _) hlen
        have hconv : toInt64
            (hitsIn st.samples st.currSum (st.currSum + groupAmount (first :: rest))) =
            ((hitsIn st.samples st.currSum (st.currSum + groupAmount (first :: rest)) : Nat)
              : Int) := toInt64_of_lt _ (by omega)
        by_cases hpos : hitsIn st.samples st.currSum
            (st.currSum + groupAmount (first :: rest)) > 0
        · rw [if_pos hpos, utilityOf_addRewardToMap, hconv, toInt64_ptxRewardN]
          by_cases hs : first.Source = a
          · rw [if_pos hs, if_pos (hsrc.2 hs)]
            ring
          · rw [if_neg hs, if_neg (fun h => hs (hsrc.1 h))]
            ring
        · rw [if_neg hpos]
          have hzero : hitsIn st.samples st.currSum
              (st.currSum + groupAmount (first :: rest)) = 0 := by omega
          rw [hzero]
          simp

theorem randomizedCredit_perm (R : Int) (s1 s2 : List Int) (h : s1.Perm s2) (a : Address)
    (groups : List (List Stake)) :
    ∀ c : Int, randomizedCredit R s1 a groups c = randomizedCredit R s2 a groups c := by
  induction groups with
  | nil => intro c; rfl
  | cons g groups ih =>
    intro c
    simp only [randomizedCredit]
    rw [hitsIn_perm s1 s2 h, ih]

theorem rewardSamples_length (x : Externals) (height : Nat) (block : Hash) (T : Int) :
    (rewardSamples x height block T).length = 400 := by
  simp [rewardSamples, ptxRewardN]

theorem rewardSamples_mem (x : Externals) (height : Nat) (block : Hash) (T : Int) (s : Int)
    (hs : s ∈ rewardSamples x height block T) :
    ∃ i, i < 400 ∧ s = x.RandInt height i block T := by
  unfold rewardSamples at hs
  obtain ⟨i, hi, rfl⟩ := List.mem_map.1 hs
  exact ⟨i, by simpa [ptxRewardN] using hi, rfl⟩

/-- C13: `issueRandomizedReward` without a rule set, for stake groups with non-negative amounts
that sum to `totalStake > 0` and 400 samples in `[0, totalStake)`: the call returns, every
address is credited, for each group under its source, `floor(totalReward * hits / 400)` where
`hits` counts the samples in the group's interval `[cumulative, cumulative + groupAmount)` of
the running sum in group order; the hits of all groups add up to 400; and a single group
holding all the stake leaves, on an empty map, the one entry of its source with the whole
`totalReward` as utility amount and 0 as native amount. -/
theorem issueRandomizedReward_hits (x : Externals) (votes : AggregatedVotes) (view : View)
    (effectiveStakes : List (List Stake)) (totalStake : Int) (m : RewardMap)
    (totalReward : Int) (hT : 0 < totalStake)
    (hsum : (effectiveStakes.map groupAmount).sum = totalStake)
    (hnn : ∀ g ∈ effectiveStakes, ∀ s ∈ g, 0 ≤ s.Amount)
    (hsamples : ∀ i, i < 400 → 0 ≤ x.RandInt view.Height i votes.Block totalStake ∧
      x.RandInt view.Height i votes.Block totalStake < totalStake) :
    ∃ m', issueRandomizedReward x (some votes) view effectiveStakes totalStake m totalReward
        none = .ok m' ∧
      (∀ a, utilityOf m' a = utilityOf m a +
        randomizedCredit totalReward (rewardSamples x view.Height votes.Block totalStake) a
          effectiveStakes 0) ∧
      totalHits (rewardSamples x view.Height votes.Block totalStake) effectiveStakes 0 = 400 ∧
      (∀ first rest, effectiveStakes = [first :: rest] → m = [] →
        m' = [(first.Source, NewCoins 0 totalReward)]) := by
  have hperm := List.perm_insertionSort (fun a b : Int => a ≤ b)
    (rewardSamples x view.Height votes.Block totalStake)
  have hsorted : ((rewardSamples x view.Height votes.Block totalStake).insertionSort
      (fun a b => a ≤ b)).Pairwise (fun a b => a ≤ b) :=
    List.sorted_insertionSort (fun a b : Int => a ≤ b) _
  have hrange : ∀ s ∈ rewardSamples x view.Height votes.Block totalStake,
      0 ≤ s ∧ s < totalStake := by
    intro s hs
    obtain ⟨i, hi, rfl⟩ := rewardSamples_mem x _ _ _ s hs
    exact hsamples i hi
  have hrange' : ∀ s ∈ (rewardSamples x view.Height votes.Block totalStake).insertionSort
      (fun a b => a ≤ b), 0 ≤ s ∧ s < totalStake :=
    fun s hs => hrange s (hperm.mem_iff.1 hs)
  have hlen : ((rewardSamples x view.Height votes.Block totalStake).insertionSort
      (fun a b => a ≤ b)).length = 400 := by
    rw [List.length_insertionSort, rewardSamples_length]
  unfold issueRandomizedReward
  simp only [if_neg (not_le.2 hT)]
  generalize (rewardSamples x view.Height votes.Block totalStake).insertionSort
    (fun a b => a ≤ b) = S at hperm hsorted hrange' hlen ⊢
  refine ⟨_, rfl, ?_, ?_, ?_⟩
  · intro a
    rw [randomizedAggregateGroups_utilityOf totalReward a effectiveStakes hnn
      { samples := S, currSum := 0, accountReward := m } hsorted
      (fun s hs => (hrange' s hs).1) (le_of_eq hlen)]
    show utilityOf m a + randomizedCredit totalReward S a effectiveStakes 0 = _
    rw [randomizedCredit_perm totalReward _ _ hperm]
  · rw [totalHits_eq _ _ hnn, hsum, zero_add,
      hitsIn_all _ 0 totalStake hrange, rewardSamples_length]
  · intro first rest hgroups hm
    subst hgroups
    subst hm
    have hne : S ≠ [] := by
      intro h
      rw [h] at hlen
      exact absurd hlen (by decide)
    have hamt : groupAmount (first :: rest) = totalStake := by
      simpa using hsum
    obtain ⟨h1, -, -, -, -⟩ := countHits_spec 0 (0 + groupAmount (first :: rest)) S hsorted
      (fun s hs => (hrange' s hs).1)
    have hcount : (countHits 0 (0 + groupAmount (first :: rest)) S).1 = 400 := by
      rw [h1, hamt, zero_add, hitsIn_all _ 0 totalStake hrange', hlen]
    have hamount : ((first :: rest).map (fun stake => stake.Amount)).sum =
        groupAmount (first :: rest) := rfl
    simp only [randomizedAggregateGroups, if_neg hne, hamount, hcount]
    have h400 : toInt64 400 = 400 := by decide
    have hdiv : totalReward * 400 / 400 = totalReward :=
      Int.mul_ediv_cancel _ (by norm_num)
    rw [if_pos (by decide), h400, toInt64_ptxRewardN, hdiv]
    rfl

theorem issueRandomizedReward_hits_witness :
    ∃ m', issueRandomizedReward exampleExternals (some { Block := 9, Multiplies := [] })
        exampleView [[exampleValidatorStake]] (200000 * 10 ^ 18) []
        (ptxRewardPerBlock * CheckpointInterval) none = .ok m' ∧
      m' = [(1, NewCoins 0 (700 * 10 ^ 18))] := by
  obtain ⟨m', h1, -, -, h4⟩ := issueRandomizedReward_hits exampleExternals
    { Block := 9, Multiplies := [] } exampleView [[exampleValidatorStake]] (200000 * 10 ^ 18) []
    (ptxRewardPerBlock * CheckpointInterval) (by norm_num) (by decide)
    (by
      intro g hg s hs
      rw [List.mem_singleton.1 hg] at hs
      rw [List.mem_singleton.1 hs]
      decide)
    (fun i _ => ⟨le_refl _, by norm_num [exampleExternals]⟩)
  exact ⟨m', h1, h4 exampleValidatorStake [] rfl rfl⟩

end execution

namespace execution
open common core state types

theorem bind_ok_right {α : Type} (r : GoResult α) : r.bind (fun v => GoResult.ok v) = r := by
  cases r <;> rfl

theorem groupRametronenterpriseStakes_zero (workers : List Rametronenterprise)
    (acc : Int × StakeGroups) : groupRametronenterpriseStakes 0 workers acc = acc := by
  induction workers with
  | nil => rfl
  | cons w rest ih =>
    unfold groupRametronenterpriseStakes
    rw [if_pos rfl]
    exact ih

theorem isCheckPointHeight_of_rametron (h : Nat) (hr : IsCheckPointHeightForRametron h = true) :
    IsCheckPointHeight h = true := by
  unfold IsCheckPointHeightForRametron CheckpointIntervalForRametron at hr
  unfold IsCheckPointHeight CheckpointInterval
  simp only [beq_iff_eq] at hr ⊢
  have h1 : (1000 : Int).toNat = 1000 := rfl
  have h2 : (100 : Int).toNat = 100 := rfl
  rw [h1] at hr
  rw [h2]
  omega

set_option maxRecDepth 100000 in
theorem example_calculateReward :
    CalculateReward exampleChain exampleRewardView exampleValidatorSet
        (some exampleGuardianVotes) (some { SortedGuardians := [] })
        (some exampleEdgeVotes) none =
      .ok [(feeAddress, NewCoins 0 (20 * 10 ^ 18)), (1, NewCoins 0 (700 * 10 ^ 18)),
           (6, NewCoins 0 (1000 * 10 ^ 18))] := by
  decide

set_option maxRecDepth 100000 in
theorem example_validatorAndGuardianReward :
    grantValidatorAndGuardianReward exampleChain exampleRewardView exampleValidatorSet
        (some exampleGuardianVotes) (some { SortedGuardians := [] }) [] 4418001 =
      .ok [(feeAddress, NewCoins 0 (10 * 10 ^ 18)), (1, NewCoins 0 (700 * 10 ^ 18))] := by
  decide

/-- C12: the code pays the edge reward where it says it skips it. At the edge checkpoint
4418001 the edge vote is for block 8 and the guardian vote for block 9, so `RetrievePools`
takes the branch that logs `skip rewarding the rametronenterprise` and returns a nil edge pool;
`CalculateReward` still credits the edge reward of `1000 * 10^18` to source 6 (and a second
`10 * 10^18` to the fee address), so its map is not the map of the validator-and-guardian
reward alone. -/
theorem calculateReward_rewards_edge_on_block_mismatch :
    exampleEdgeVotes.Block ≠ exampleGuardianVotes.Block ∧
    RetrievePools exampleChain 4418001 (some exampleGuardianVotes) (some exampleEdgeVotes) =
      .ok (some { SortedGuardians := [] }, none) ∧
    CalculateReward exampleChain exampleRewardView exampleValidatorSet
        (some exampleGuardianVotes) (some { SortedGuardians := [] })
        (some exampleEdgeVotes) none =
      .ok [(feeAddress, NewCoins 0 (20 * 10 ^ 18)), (1, NewCoins 0 (700 * 10 ^ 18)),
           (6, NewCoins 0 (1000 * 10 ^ 18))] ∧
    grantValidatorAndGuardianReward exampleChain exampleRewardView exampleValidatorSet
        (some exampleGuardianVotes) (some { SortedGuardians := [] }) [] 4418001 =
      .ok [(feeAddress, NewCoins 0 (10 * 10 ^ 18)), (1, NewCoins 0 (700 * 10 ^ 18))] := by
  exact ⟨by decide, by decide, example_calculateReward, example_validatorAndGuardianReward⟩

/-- At an edge-checkpoint height at or after `HeightEnablePando2`, with a
guardian vote and a guardian pool, `CalculateReward` does not read the edge aggregate vote or
the edge pool that `RetrievePools` returned: for every edge vote and edge pool (also a vote for
another block than the guardians' and a nil pool) it returns the same map, the
validator-and-guardian reward followed by the fixed proportional reward of `1000 * 10^18` over
the non-withdrawn stakes of all edge workers stored in the view. That map is the
validator-and-guardian map alone when the total edge stake of the view is 0. -/
theorem calculateReward_edge_reward (x : Externals) (view : View) (validatorSet : ValidatorSet)
    (guardianVotes : AggregatedVotes) (guardianPool : GuardianCandidatePool)
    (rametronenterpriseVotes : Option AggregatedRametronenterpriseVotes)
    (rametronenterprisePool : Option state.RametronenterprisePool)
    (hcp : IsCheckPointHeightForRametron ((view.Height + 1) % uint64Mod) = true)
    (hh : HeightEnablePando2 ≤ (view.Height + 1) % uint64Mod) :
    (∀ votes pool,
      CalculateReward x view validatorSet (some guardianVotes) (some guardianPool) votes pool =
      CalculateReward x view validatorSet (some guardianVotes) (some guardianPool)
        rametronenterpriseVotes rametronenterprisePool) ∧
    CalculateReward x view validatorSet (some guardianVotes) (some guardianPool)
        rametronenterpriseVotes rametronenterprisePool =
      (grantValidatorAndGuardianReward x view validatorSet (some guardianVotes)
        (some guardianPool) [] ((view.Height + 1) % uint64Mod)).bind (fun m =>
          issueFixedReward
            (groupRametronenterpriseStakes view.GetTotalRametronenterpriseStake
              ((state.NewRametronenterprisePool view.pool true).GetAll false)
              (0, [])).2.effectiveStakes
            (groupRametronenterpriseStakes view.GetTotalRametronenterpriseStake
              ((state.NewRametronenterprisePool view.pool true).GetAll false) (0, [])).1
            m (1000 * 10 ^ 18) (some view.StakeRewardDistribution)) ∧
    (view.GetTotalRametronenterpriseStake = 0 →
      CalculateReward x view validatorSet (some guardianVotes) (some guardianPool)
        rametronenterpriseVotes rametronenterprisePool =
      grantValidatorAndGuardianReward x view validatorSet (some guardianVotes)
        (some guardianPool) [] ((view.Height + 1) % uint64Mod)) := by
  have hp2 : HeightEnablePando2 = 4417900 := rfl
  have hcp' := isCheckPointHeight_of_rametron _ hcp
  have hcalc : ∀ votes pool,
      CalculateReward x view validatorSet (some guardianVotes) (some guardianPool) votes pool =
      (grantValidatorAndGuardianReward x view validatorSet (some guardianVotes)
        (some guardianPool) [] ((view.Height + 1) % uint64Mod)).bind (fun m =>
          issueFixedReward
            (groupRametronenterpriseStakes view.GetTotalRametronenterpriseStake
              ((state.NewRametronenterprisePool view.pool true).GetAll false)
              (0, [])).2.effectiveStakes
            (groupRametronenterpriseStakes view.GetTotalRametronenterpriseStake
              ((state.NewRametronenterprisePool view.pool true).GetAll false) (0, [])).1
            m (1000 * 10 ^ 18) (some view.StakeRewardDistribution)) := by
    intro votes pool
    unfold CalculateReward
    simp only
    rw [if_neg (by unfold HeightEnableValidatorReward; omega),
      if_neg (by
        unfold HeightEnablePando1
        simp only [reduceCtorEq, or_false]
        omega),
      if_neg (by omega)]
    congr 1
    funext m
    unfold grantRametronenterpriseReward
    simp only [hcp, hcp', Bool.not_true, Bool.false_eq_true, if_false, ruleSetAt]
    rw [if_pos hh]
    have hR : 1 * rametronenterprisePTXRewardPerBlock * CheckpointIntervalForRametron =
        1000 * 10 ^ 18 := by decide
    rw [hR]
  refine ⟨fun votes pool => by rw [hcalc votes pool, hcalc], hcalc _ _, ?_⟩
  intro hzero
  rw [hcalc, hzero, groupRametronenterpriseStakes_zero]
  have : ∀ m : RewardMap, issueFixedReward (StakeGroups.effectiveStakes ((0 : Int), ([] : StakeGroups)).2)
      ((0 : Int), ([] : StakeGroups)).1 m (1000 * 10 ^ 18) (some view.StakeRewardDistribution)
      = .ok m := by
    intro m
    unfold issueFixedReward
    rw [if_pos rfl]
  simp only [this]
  exact bind_ok_right _

theorem calculateReward_edge_reward_witness :
    CalculateReward exampleChain exampleRewardView exampleValidatorSet
        (some exampleGuardianVotes) (some { SortedGuardians := [] }) none
        (some (state.NewRametronenterprisePool exampleRewardView.pool true)) =
      CalculateReward exampleChain exampleRewardView exampleValidatorSet
        (some exampleGuardianVotes) (some { SortedGuardians := [] })
        (some exampleEdgeVotes) none :=
  (calculateReward_edge_reward exampleChain exampleRewardView exampleValidatorSet
    exampleGuardianVotes { SortedGuardians := [] } (some exampleEdgeVotes) none
    (by decide) (by decide)).1 none
      (some (state.NewRametronenterprisePool exampleRewardView.pool true))

end execution

namespace execution
open common core state types

set_option maxRecDepth 100000 in
theorem example_retrievePools :
    RetrievePools exampleChain exampleMintTx.BlockHeight exampleCoinbaseExecutor.GuardianVotes
        exampleCoinbaseExecutor.RametronenterpriseVotes =
      .ok (some { SortedGuardians := [] }, none) := by
  decide

/-- C16: the reward check of `CoinbaseTxExecutor.sanityCheck` is without effect. For every
coinbase transaction that passes the proposer, validator, signature, output-account and
block-height checks, once `RetrievePools` and `CalculateReward` return, `sanityCheck` returns
`result.OK` whatever the outputs of the transaction are, also when their number differs from
the number of expected rewards. -/
theorem coinbase_sanityCheck_ignores_outputs (h : CoinbaseHelpers) (x : Externals)
    (exec : CoinbaseTxExecutor) (chainID : String) (view : View) (tx : CoinbaseTx)
    (proposerAccount : Account)
    (pools : Option GuardianCandidatePool × Option state.RametronenterprisePool)
    (expectedRewards : RewardMap)
    (hbasic : (h.ValidateBasic tx.Proposer).IsError = false)
    (hflag : view.CoinbaseTransactinProcessed = false)
    (hvalidator : (h.isAValidator tx.Proposer.Address exec.validatorSet.Validators).IsError
      = false)
    (hinput : (h.getOrMakeInput view tx.Proposer).1 = some proposerAccount)
    (hinputOk : (h.getOrMakeInput view tx.Proposer).2.IsError = false)
    (hsig : h.VerifySignature chainID tx proposerAccount.Address = true)
    (houtputs : (h.getOrMakeOutputs view [] tx.Outputs).2.IsError = false)
    (hheight : tx.BlockHeight = exec.stateHeight)
    (hpools : RetrievePools x tx.BlockHeight exec.GuardianVotes exec.RametronenterpriseVotes
      = .ok pools)
    (hrewards : CalculateReward x view exec.validatorSet exec.GuardianVotes pools.1
      exec.RametronenterpriseVotes pools.2 = .ok expectedRewards) :
    exec.sanityCheck h x chainID view tx = .ok result.OK := by
  unfold CoinbaseTxExecutor.sanityCheck
  simp only [hbasic, hflag, hvalidator, hinput, hinputOk, hsig, houtputs, hheight, hpools,
    hrewards, GoResult.bind, Bool.false_eq_true, if_false, Bool.not_true, ne_eq,
    not_true_eq_false, ite_self]
  rw [← hheight, hpools]
  simp only [hrewards]

theorem coinbase_sanityCheck_ignores_outputs_witness :
    exampleCoinbaseExecutor.sanityCheck exampleCoinbaseHelpers exampleChain "pandonet"
        exampleRewardView exampleMintTx = .ok result.OK ∧
    CalculateReward exampleChain exampleRewardView exampleCoinbaseExecutor.validatorSet
        exampleCoinbaseExecutor.GuardianVotes (some { SortedGuardians := [] })
        exampleCoinbaseExecutor.RametronenterpriseVotes none =
      .ok [(feeAddress, NewCoins 0 (20 * 10 ^ 18)), (1, NewCoins 0 (700 * 10 ^ 18)),
           (6, NewCoins 0 (1000 * 10 ^ 18))] ∧
    exampleMintTx.Outputs = [{ Address := 99, Coins := NewCoins 0 (10 ^ 30) }] :=
  ⟨coinbase_sanityCheck_ignores_outputs exampleCoinbaseHelpers exampleChain
      exampleCoinbaseExecutor "pandonet" exampleRewardView exampleMintTx
      { Address := 1, Sequence := 0, Balance := NewCoins 0 0 }
      (some { SortedGuardians := [] }, none)
      [(feeAddress, NewCoins 0 (20 * 10 ^ 18)), (1, NewCoins 0 (700 * 10 ^ 18)),
       (6, NewCoins 0 (1000 * 10 ^ 18))]
      rfl rfl rfl rfl rfl rfl rfl rfl example_retrievePools example_calculateReward,
    example_calculateReward, rfl⟩

end execution

namespace execution
open common core state types

theorem creditedBalance_nil (addr : Address) (balance : Coins) :
    creditedBalance [] addr balance = balance := rfl

theorem creditedBalance_cons_eq (output : TxOutput) (outputs : List TxOutput)
    (balance : Coins) :
    creditedBalance (output :: outputs) output.Address balance =
      creditedBalance outputs output.Address (balance.Plus output.Coins) := by
  unfold creditedBalance
  rw [List.filter_cons_of_pos (by simp)]
  rfl

theorem creditedBalance_cons_ne (output : TxOutput) (outputs : List TxOutput) (addr : Address)
    (balance : Coins) (h : output.Address ≠ addr) :
    creditedBalance (output :: outputs) addr balance = creditedBalance outputs addr balance := by
  unfold creditedBalance
  rw [List.filter_cons_of_neg (by simpa using h)]

theorem creditedBalance_of_not_mem (outputs : List TxOutput) (addr : Address) (balance : Coins)
    (h : ∀ o ∈ outputs, o.Address ≠ addr) : creditedBalance outputs addr balance = balance := by
  induction outputs with
  | nil => rfl
  | cons o rest ih =>
    rw [creditedBalance_cons_ne o rest addr balance (h o (List.mem_cons_self _ _))]
    exact ih (fun o' ho' => h o' (List.mem_cons_of_mem _ ho'))

/-- The loop of `process`: every account of the map has received the outputs that name its
address, the view holds that account for every address that an output names and the map
knows, and nothing else of the view has changed. -/
theorem creditOutputs_spec (outputs : List TxOutput) :
    ∀ (s : List (Address × Account) × View),
      (∀ a, mapGet (creditOutputs outputs s).1 a =
        (mapGet s.1 a).map (fun account =>
          { account with Balance := creditedBalance outputs a account.Balance })) ∧
      (∀ a, (creditOutputs outputs s).2.GetAccount a =
        if (∃ o ∈ outputs, o.Address = a) ∧ (mapGet s.1 a).isSome = true then
          (mapGet s.1 a).map (fun account =>
            { account with Balance := creditedBalance outputs a account.Balance })
        else s.2.GetAccount a) ∧
      (creditOutputs outputs s).2.coinbaseTransactionProcessed =
        s.2.coinbaseTransactionProcessed ∧
      (creditOutputs outputs s).2.height = s.2.height ∧
      (creditOutputs outputs s).2.pool = s.2.pool := by
  induction outputs with
  | nil =>
    intro s
    refine ⟨?_, ?_, rfl, rfl, rfl⟩
    · intro a
      cases hget : mapGet s.1 a with
      | none => simp [creditOutputs, hget]
      | some acc => simp [creditOutputs, hget, creditedBalance_nil]
    · intro a
      simp [creditOutputs]
  | cons o rest ih =>
    intro s
    cases hget : mapGet s.1 o.Address with
    | none =>
      have hstep : creditOutputs (o :: rest) s = creditOutputs rest s := by
        simp only [creditOutputs, hget]
      rw [hstep]
      obtain ⟨h1, h2, h3, h4, h5⟩ := ih s
      refine ⟨?_, ?_, h3, h4, h5⟩
      · intro a
        rw [h1 a]
        by_cases ha : o.Address = a
        · rw [← ha, hget]; rfl
        · cases hga : mapGet s.1 a with
          | none => rfl
          | some acc =>
            simp only [Option.map_some', creditedBalance_cons_ne o rest a _ ha]
      · intro a
        rw [h2 a]
        by_cases ha : o.Address = a
        · rw [← ha, hget]
          simp
        · have hex : (∃ o' ∈ o :: rest, o'.Address = a) ↔ (∃ o' ∈ rest, o'.Address = a) := by
            constructor
            · rintro ⟨o', ho', hoa⟩
              rcases List.mem_cons.1 ho' with h | h
              · rw [h] at hoa; exact absurd hoa ha
              · exact ⟨o', h, hoa⟩
            · rintro ⟨o', ho', hoa⟩
              exact ⟨o', List.mem_cons_of_mem _ ho', hoa⟩
          cases hga : mapGet s.1 a with
          | none => simp
          | some acc =>
            simp only [hex, Option.map_some', creditedBalance_cons_ne o rest a _ ha]
    | some account =>
      have hstep : creditOutputs (o :: rest) s = creditOutputs rest
          (mapSet s.1 o.Address { account with Balance := account.Balance.Plus o.Coins },
            s.2.SetAccount o.Address
              { account with Balance := account.Balance.Plus o.Coins }) := by
        simp only [creditOutputs, hget]
      rw [hstep]
      obtain ⟨h1, h2, h3, h4, h5⟩ := ih
        (mapSet s.1 o.Address { account with Balance := account.Balance.Plus o.Coins },
          s.2.SetAccount o.Address { account with Balance := account.Balance.Plus o.Coins })
      refine ⟨?_, ?_, h3, h4, h5⟩
      · intro a
        rw [h1 a]
        simp only [mapGet_mapSet]
        by_cases ha : o.Address = a
        · rw [if_pos ha, ← ha, hget]
          simp only [Option.map_some', creditedBalance_cons_eq]
        · rw [if_neg ha]
          cases hga : mapGet s.1 a with
          | none => rfl
          | some acc =>
            simp only [Option.map_some', creditedBalance_cons_ne o rest a _ ha]
      · intro a
        rw [h2 a]
        simp only [mapGet_mapSet, View.GetAccount, View.SetAccount]
        by_cases ha : o.Address = a
        · rw [if_pos ha, if_pos ha, ← ha, hget]
          have hex : ∃ o' ∈ o :: rest, o'.Address = o.Address :=
            ⟨o, List.mem_cons_self _ _, rfl⟩
          simp only [Option.isSome_some, and_true, Option.map_some', hex, if_true,
            creditedBalance_cons_eq]
          by_cases hr : ∃ o' ∈ rest, o'.Address = o.Address
          · rw [if_pos hr]
          · rw [if_neg hr]
            have hnone : ∀ o' ∈ rest, o'.Address ≠ o.Address :=
              fun o' ho' hoa => hr ⟨o', ho', hoa⟩
            rw [creditedBalance_of_not_mem rest o.Address _ hnone]
        · rw [if_neg ha, if_neg ha]
          have hex : (∃ o' ∈ o :: rest, o'.Address = a) ↔ (∃ o' ∈ rest, o'.Address = a) := by
            constructor
            · rintro ⟨o', ho', hoa⟩
              rcases List.mem_cons.1 ho' with h | h
              · rw [h] at hoa; exact absurd hoa ha
              · exact ⟨o', h, hoa⟩
            · rintro ⟨o', ho', hoa⟩
              exact ⟨o', List.mem_cons_of_mem _ ho', hoa⟩
          cases hga : mapGet s.1 a with
          | none => simp
          | some acc =>
            simp only [hex, Option.map_some', creditedBalance_cons_ne o rest a _ ha]

end execution

namespace execution
open common core state types

theorem example_process_mints :
    (CoinbaseTxExecutor.process exampleCoinbaseHelpers "pandonet" exampleRewardView
        exampleMintTx).1.GetAccount 99 =
      some { Address := 99, Sequence := 0, Balance := NewCoins 0 (10 ^ 30) } := by
  decide

/-- C17: `CoinbaseTxExecutor.process` runs at most once per view. With the coinbase-processed
flag already true it returns an error and the view is unchanged (no balance, and not the flag).
With the flag false and the output accounts loaded without error it returns `result.OK`, sets
the flag, and leaves in the view, for every address that an output names and that was loaded,
the loaded account with every such output's coins added to its balance, every other account
being unchanged. A second call on the resulting view returns an error and changes nothing, so
only the first call credits the outputs. -/
theorem coinbase_process_once (h : CoinbaseHelpers) (chainID : String) (view : View)
    (tx : CoinbaseTx) :
    (view.CoinbaseTransactinProcessed = true →
      (CoinbaseTxExecutor.process h chainID view tx).1 = view ∧
      (CoinbaseTxExecutor.process h chainID view tx).2.2.IsError = true) ∧
    (view.CoinbaseTransactinProcessed = false →
      (h.getOrMakeOutputs view [] tx.Outputs).2.IsError = false →
      (CoinbaseTxExecutor.process h chainID view tx).2.2 = result.OK ∧
      (CoinbaseTxExecutor.process h chainID view tx).1.CoinbaseTransactinProcessed = true ∧
      (∀ a, (CoinbaseTxExecutor.process h chainID view tx).1.GetAccount a =
        if (∃ o ∈ tx.Outputs, o.Address = a) ∧
            (mapGet (h.getOrMakeOutputs view [] tx.Outputs).1 a).isSome = true then
          (mapGet (h.getOrMakeOutputs view [] tx.Outputs).1 a).map (fun account =>
            { account with Balance := creditedBalance tx.Outputs a account.Balance })
        else view.GetAccount a) ∧
      (CoinbaseTxExecutor.process h chainID
          (CoinbaseTxExecutor.process h chainID view tx).1 tx).1 =
        (CoinbaseTxExecutor.process h chainID view tx).1 ∧
      (CoinbaseTxExecutor.process h chainID
          (CoinbaseTxExecutor.process h chainID view tx).1 tx).2.2.IsError = true) := by
  have hdone : ∀ v : View, v.CoinbaseTransactinProcessed = true →
      (CoinbaseTxExecutor.process h chainID v tx).1 = v ∧
      (CoinbaseTxExecutor.process h chainID v tx).2.2.IsError = true := by
    intro v hv
    unfold CoinbaseTxExecutor.process
    rw [if_pos hv]
    exact ⟨rfl, rfl⟩
  refine ⟨hdone view, ?_⟩
  intro hflag hout
  have hproc : CoinbaseTxExecutor.process h chainID view tx =
      ((creditOutputs tx.Outputs
          ((h.getOrMakeOutputs view [] tx.Outputs).1, view)).2.SetCoinbaseTransactionProcessed
        true, h.TxID chainID tx, result.OK) := by
    unfold CoinbaseTxExecutor.process
    simp only [hflag, hout, Bool.false_eq_true, if_false]
  obtain ⟨-, h2, -, -, -⟩ := creditOutputs_spec tx.Outputs
    ((h.getOrMakeOutputs view [] tx.Outputs).1, view)
  have hset : (CoinbaseTxExecutor.process h chainID view tx).1.CoinbaseTransactinProcessed
      = true := by
    rw [hproc]
    rfl
  refine ⟨by rw [hproc], hset, ?_, (hdone _ hset).1, (hdone _ hset).2⟩
  intro a
  rw [hproc]
  exact h2 a

theorem coinbase_process_once_witness :
    (CoinbaseTxExecutor.process exampleCoinbaseHelpers "pandonet" exampleRewardView
        exampleMintTx).2.2 = result.OK ∧
    (CoinbaseTxExecutor.process exampleCoinbaseHelpers "pandonet" exampleRewardView
        exampleMintTx).1.CoinbaseTransactinProcessed = true :=
  ⟨((coinbase_process_once exampleCoinbaseHelpers "pandonet" exampleRewardView
      exampleMintTx).2 rfl rfl).1,
    ((coinbase_process_once exampleCoinbaseHelpers "pandonet" exampleRewardView
      exampleMintTx).2 rfl rfl).2.1⟩

end execution

namespace execution
open common core state types

theorem edgeTierCheck_eq (tierName : String) (blockHeight : Nat) (stake : Coins)
    (hheight : HeightEnablePando2 ≤ blockHeight) (hnative : stake.PandoWei.getD 0 = 0) :
    edgeTierCheck tierName blockHeight stake =
      if stake.PTXWei.getD 0 < MinRametronmobileStakeDeposit then
        some ((result.Error "Insufficient amount of stake").WithErrorCode
          .CodeInsufficientStake)
      else none := by
  unfold edgeTierCheck
  rw [if_neg (by omega), hnative]
  simp

/-- The outcome of `sanityCheck` for an edge-tier deposit at or after `HeightEnablePando2` that
passes the source, fee, purpose and coin-validity checks. -/
theorem deposit_sanityCheck_edge (h : DepositStakeHelpers) (chainID : String) (view : View)
    (tx : DepositStakeTx) (sourceAccount : Account)
    (hheight : HeightEnablePando2 ≤ (view.Height + 1) % uint64Mod)
    (hbasic : (h.ValidateBasic tx.Source).IsError = false)
    (hinput : h.getInput view tx.Source = some sourceAccount)
    (hadv : (h.validateInputAdvanced sourceAccount chainID tx
      ((view.Height + 1) % uint64Mod)).IsError = false)
    (hfee : (h.sanityCheckForFee tx.Fee ((view.Height + 1) % uint64Mod)).2 = true)
    (hpurpose : tx.Purpose.isEdgeTier = true)
    (hvalid : tx.Source.Coins.NoNil.IsNonnegative = true)
    (hnative : tx.Source.Coins.NoNil.PandoWei.getD 0 = 0) :
    DepositStakeExecutor.sanityCheck h chainID view tx =
      if tx.Source.Coins.NoNil.PTXWei.getD 0 < MinRametronmobileStakeDeposit then
        (result.Error "Insufficient amount of stake").WithErrorCode .CodeInsufficientStake
      else if sourceAccount.Balance.IsGTE (tx.Source.Coins.NoNil.Plus tx.Fee) = false then
        (result.Error "DepositStake: Source balance is below the required minimal balance"
          ).WithErrorCode .CodeInsufficientStake
      else result.OK := by
  have hp1 : ¬ ((view.Height + 1) % uint64Mod < HeightEnablePando1) := by
    unfold HeightEnablePando1
    unfold HeightEnablePando2 at hheight
    omega
  have htier : (match tx.Purpose with
      | .StakeForRametronenterprise =>
        edgeTierCheck "Rametronenterprise" ((view.Height + 1) % uint64Mod)
          tx.Source.Coins.NoNil
      | .StakeForRametronpro =>
        edgeTierCheck "Rametronpro" ((view.Height + 1) % uint64Mod) tx.Source.Coins.NoNil
      | .StakeForRametronlite =>
        edgeTierCheck "Rametronlite" ((view.Height + 1) % uint64Mod) tx.Source.Coins.NoNil
      | .StakeForRametronmobile =>
        edgeTierCheck "Rametronmobile" ((view.Height + 1) % uint64Mod) tx.Source.Coins.NoNil
      | _ => none) =
      if tx.Source.Coins.NoNil.PTXWei.getD 0 < MinRametronmobileStakeDeposit then
        some ((result.Error "Insufficient amount of stake").WithErrorCode
          .CodeInsufficientStake)
      else none := by
    cases hP : tx.Purpose <;> rw [hP] at hpurpose <;>
      first
        | exact edgeTierCheck_eq _ _ _ hheight hnative
        | simp [StakePurpose.isEdgeTier] at hpurpose
  have hpurp : (tx.Purpose = .StakeForValidator ∨ tx.Purpose = .StakeForGuardian ∨
      tx.Purpose = .StakeForRametronenterprise ∨ tx.Purpose = .StakeForRametronpro ∨
      tx.Purpose = .StakeForRametronlite ∨ tx.Purpose = .StakeForRametronmobile) := by
    cases hP : tx.Purpose <;> rw [hP] at hpurpose <;>
      simp [StakePurpose.isEdgeTier] at hpurpose ⊢
  have hnv : ¬ tx.Purpose = .StakeForValidator := by
    intro hP; rw [hP] at hpurpose; exact absurd hpurpose (by decide)
  have hng : ¬ tx.Purpose = .StakeForGuardian := by
    intro hP; rw [hP] at hpurpose; exact absurd hpurpose (by decide)
  have hpurp4 : (tx.Purpose = .StakeForRametronenterprise ∨
      tx.Purpose = .StakeForRametronpro ∨ tx.Purpose = .StakeForRametronlite ∨
      tx.Purpose = .StakeForRametronmobile) := by
    rcases hpurp with hP | hP | hP
    · exact absurd hP hnv
    · exact absurd hP hng
    · exact hP
  unfold DepositStakeExecutor.sanityCheck
  simp only [hbasic, hinput, hadv, hfee, hvalid, Coins.IsValid, hnative, htier, hp1, hpurp4,
    hnv, hng, and_false, false_and, if_false, Bool.false_eq_true, Bool.not_true,
    Bool.not_false, decide_True, decide_False, Bool.or_self, ne_eq, not_true_eq_false,
    false_or, true_and]
  by_cases hmin : tx.Source.Coins.NoNil.PTXWei.getD 0 < MinRametronmobileStakeDeposit
  · simp only [if_pos hmin]
  · simp only [if_neg hmin]
    cases hb : sourceAccount.Balance.IsGTE (tx.Source.Coins.NoNil.Plus tx.Fee) <;> simp

end execution

namespace execution
open common core state types

theorem tierMinimum_ge_mobile (purpose : StakePurpose) :
    MinRametronmobileStakeDeposit ≤ tierMinimum purpose := by
  cases purpose <;> simp only [tierMinimum] <;> decide

/-- The tiers are not told apart by `sanityCheck`: an edge-enterprise deposit of
`250 * 10^18`, far below `MinRametronenterpriseStakeDeposit`, is accepted. -/
theorem example_enterprise_deposit_at_mobile_minimum :
    DepositStakeExecutor.sanityCheck exampleDepositHelpers "pandonet"
        (exampleDepositView (300 * 10 ^ 18))
        (exampleDepositTx .StakeForRametronenterprise (250 * 10 ^ 18)) = result.OK := by
  decide

/-- C18 as stated fails: an edge-mobile deposit of `250 * 10^18`, which is the minimum of its
tier, passes the source, fee, purpose and coin-validity checks and is still rejected with the
insufficient-stake code, because the source balance of `250 * 10^18` does not cover the amount
plus the fee. -/
theorem deposit_insufficient_stake_code_for_balance :
    tierMinimum .StakeForRametronmobile ≤ 250 * 10 ^ 18 ∧
    HeightEnablePando2 ≤ ((exampleDepositView (250 * 10 ^ 18)).Height + 1) % uint64Mod ∧
    (DepositStakeExecutor.sanityCheck exampleDepositHelpers "pandonet"
        (exampleDepositView (250 * 10 ^ 18))
        (exampleDepositTx .StakeForRametronmobile (250 * 10 ^ 18))).Code =
      .CodeInsufficientStake ∧
    DepositStakeExecutor.sanityCheck exampleDepositHelpers "pandonet"
        (exampleDepositView (251 * 10 ^ 18))
        (exampleDepositTx .StakeForRametronmobile (250 * 10 ^ 18)) = result.OK := by
  refine ⟨by decide, by decide, by decide, by decide⟩

/-- C18, amended: for every edge-tier deposit at a height at or after `HeightEnablePando2` that
passes the source, fee, purpose and coin-validity checks, `sanityCheck` rejects it with the
insufficient-stake code when its utility amount is below `250 * 10^18` and also when the source
balance does not cover the amount plus the fee; it accepts a deposit of at least the minimum of
its tier (`35000 * 10^18` edge-enterprise, `10000 * 10^18` edge-pro, `1000 * 10^18` edge-lite,
`250 * 10^18` edge-mobile) whose source balance covers the amount plus the fee; and for
edge-mobile it rejects with the insufficient-stake code if and only if the amount is below
`250 * 10^18` or the balance does not cover the amount plus the fee. -/
theorem deposit_sanityCheck_edge_minimum (h : DepositStakeHelpers) (chainID : String)
    (view : View) (tx : DepositStakeTx) (sourceAccount : Account)
    (hheight : HeightEnablePando2 ≤ (view.Height + 1) % uint64Mod)
    (hbasic : (h.ValidateBasic tx.Source).IsError = false)
    (hinput : h.getInput view tx.Source = some sourceAccount)
    (hadv : (h.validateInputAdvanced sourceAccount chainID tx
      ((view.Height + 1) % uint64Mod)).IsError = false)
    (hfee : (h.sanityCheckForFee tx.Fee ((view.Height + 1) % uint64Mod)).2 = true)
    (hpurpose : tx.Purpose.isEdgeTier = true)
    (hvalid : tx.Source.Coins.NoNil.IsNonnegative = true)
    (hnative : tx.Source.Coins.NoNil.PandoWei.getD 0 = 0) :
    (tx.Source.Coins.NoNil.PTXWei.getD 0 < 250 * 10 ^ 18 →
      (DepositStakeExecutor.sanityCheck h chainID view tx).Code = .CodeInsufficientStake) ∧
    (sourceAccount.Balance.IsGTE (tx.Source.Coins.NoNil.Plus tx.Fee) = false →
      (DepositStakeExecutor.sanityCheck h chainID view tx).Code = .CodeInsufficientStake) ∧
    (tierMinimum tx.Purpose ≤ tx.Source.Coins.NoNil.PTXWei.getD 0 →
      sourceAccount.Balance.IsGTE (tx.Source.Coins.NoNil.Plus tx.Fee) = true →
      DepositStakeExecutor.sanityCheck h chainID view tx = result.OK) ∧
    (tx.Purpose = .StakeForRametronmobile →
      ((DepositStakeExecutor.sanityCheck h chainID view tx).Code = .CodeInsufficientStake ↔
        (tx.Source.Coins.NoNil.PTXWei.getD 0 < 250 * 10 ^ 18 ∨
          sourceAccount.Balance.IsGTE (tx.Source.Coins.NoNil.Plus tx.Fee) = false))) := by
  have heq := deposit_sanityCheck_edge h chainID view tx sourceAccount hheight hbasic hinput
    hadv hfee hpurpose hvalid hnative
  have hmob : MinRametronmobileStakeDeposit = 250 * 10 ^ 18 := rfl
  have hge := tierMinimum_ge_mobile tx.Purpose
  rw [hmob] at heq hge
  refine ⟨?_, ?_, ?_, ?_⟩
  · intro hlt
    rw [heq, if_pos hlt]
    rfl
  · intro hb
    rw [heq]
    by_cases hlt : tx.Source.Coins.NoNil.PTXWei.getD 0 < 250 * 10 ^ 18
    · rw [if_pos hlt]; rfl
    · rw [if_neg hlt, if_pos hb]; rfl
  · intro hmin hb
    rw [heq, if_neg (by omega), hb, if_neg (by decide)]
  · intro _
    rw [heq]
    by_cases hlt : tx.Source.Coins.NoNil.PTXWei.getD 0 < 250 * 10 ^ 18
    · rw [if_pos hlt]
      exact ⟨fun _ => Or.inl hlt, fun _ => rfl⟩
    · rw [if_neg hlt]
      cases hb : sourceAccount.Balance.IsGTE (tx.Source.Coins.NoNil.Plus tx.Fee)
      · rw [if_pos rfl]
        exact ⟨fun _ => Or.inr rfl, fun _ => rfl⟩
      · rw [if_neg (by decide)]
        constructor
        · intro hc
          exact absurd hc (by decide)
        · rintro (h1 | h1)
          · exact absurd h1 hlt
          · exact absurd h1 (by decide)

theorem deposit_sanityCheck_edge_minimum_witness :
    DepositStakeExecutor.sanityCheck exampleDepositHelpers "pandonet"
        (exampleDepositView (50000 * 10 ^ 18))
        (exampleDepositTx .StakeForRametronenterprise (35000 * 10 ^ 18)) = result.OK :=
  (deposit_sanityCheck_edge_minimum exampleDepositHelpers "pandonet"
    (exampleDepositView (50000 * 10 ^ 18))
    (exampleDepositTx .StakeForRametronenterprise (35000 * 10 ^ 18))
    { Address := 7, Sequence := 0, Balance := NewCoins 0 (50000 * 10 ^ 18) }
    (by decide) rfl rfl rfl (by decide) rfl (by decide) rfl).2.2.1 (by decide) (by decide)

end execution

namespace types

/-- C24: for all `Coins` values `a` and `b`, nil fields counting as zero, `a.Plus(b).Minus(b)`
is equal to `a` under `IsEqual`, and field by field. -/
theorem plus_minus_isEqual (a b : Coins) :
    ((a.Plus b).Minus b).IsEqual a = true ∧
    ((a.Plus b).Minus b).PandoWei = some (a.PandoWei.getD 0) ∧
    ((a.Plus b).Minus b).PTXWei = some (a.PTXWei.getD 0) := by
  refine ⟨?_, ?_, ?_⟩
  · simp [Coins.IsEqual, Coins.Minus, Coins.Plus, Coins.Negative, Coins.NoNil]
  · simp [Coins.Minus, Coins.Plus, Coins.Negative, Coins.NoNil]
  · simp [Coins.Minus, Coins.Plus, Coins.Negative, Coins.NoNil]

end types

namespace state
open common core

/-- C26: on a pool with `readOnly = true` no operation changes the store view. `Upsert`,
`Remove`, `DepositStake` and `WithdrawStake` panic before any write and leave the pool as it
was; `ReturnStake` ends without a write, whatever way it ends, for every argument and every
store content. -/
theorem readOnly_pool_unchanged (cfg : StakeConfig) (p : RametronenterprisePool)
    (hro : p.readOnly = true) :
    (∀ w, (p.Upsert w).1 = p ∧ (p.Upsert w).2.isPanic = true) ∧
    (∀ w, (p.Remove w).1 = p ∧ (p.Remove w).2.isPanic = true) ∧
    (∀ source holder amount pubkey blockHeight,
      (p.DepositStake cfg source holder amount pubkey blockHeight).1 = p ∧
      (p.DepositStake cfg source holder amount pubkey blockHeight).2.isPanic = true) ∧
    (∀ source holder currentHeight,
      (p.WithdrawStake cfg source holder currentHeight).1 = p ∧
      (p.WithdrawStake cfg source holder currentHeight).2.isPanic = true) ∧
    (∀ currentHeight holder returnedStake,
      (p.ReturnStake currentHeight holder returnedStake).1 = p) := by
  have hup : ∀ w, (p.Upsert w).1 = p ∧ (p.Upsert w).2.isPanic = true := by
    intro w
    unfold RametronenterprisePool.Upsert
    rw [if_pos hro]
    exact ⟨rfl, rfl⟩
  have hrm : ∀ w, (p.Remove w).1 = p ∧ (p.Remove w).2.isPanic = true := by
    intro w
    unfold RametronenterprisePool.Remove
    rw [if_pos hro]
    exact ⟨rfl, rfl⟩
  refine ⟨hup, hrm, ?_, ?_, ?_⟩
  · intro source holder amount pubkey blockHeight
    unfold RametronenterprisePool.DepositStake
    rw [if_pos hro]
    exact ⟨rfl, rfl⟩
  · intro source holder currentHeight
    unfold RametronenterprisePool.WithdrawStake
    rw [if_pos hro]
    exact ⟨rfl, rfl⟩
  · intro currentHeight holder returnedStake
    unfold RametronenterprisePool.ReturnStake
    cases hget : p.Get holder with
    | none => rfl
    | some w =>
      simp only
      cases hfind : w.Stakes.reverse.find? (fun st => st.Source == returnedStake.Source) with
      | none => rfl
      | some stake =>
        simp only
        by_cases hm : stake.Withdrawn = false ∨ stake.ReturnHeight ≠ currentHeight
        · rw [if_pos hm]
        · rw [if_neg hm]
          cases hret : w.ReturnStake returnedStake.Source currentHeight with
          | error msg => rfl
          | panic msg => rfl
          | ok r =>
            simp only
            by_cases hlen : r.2.Stakes.length = 0
            · rw [if_pos hlen]
              exact (hrm r.2).1
            · rw [if_neg hlen]
              exact (hup r.2).1

theorem readOnly_pool_unchanged_witness :
    ((NewRametronenterprisePool examplePoolStaked.sv true).DepositStake exampleConfig 1 2 100
        (some 5) 7).1 = NewRametronenterprisePool examplePoolStaked.sv true ∧
    ((NewRametronenterprisePool examplePoolStaked.sv true).DepositStake exampleConfig 1 2 100
        (some 5) 7).2.isPanic = true :=
  (readOnly_pool_unchanged exampleConfig (NewRametronenterprisePool examplePoolStaked.sv true)
    rfl).2.2.1 1 2 100 (some 5) 7

end state

namespace common

/-- C28: `LastCheckPointHeight(h)` is the last checkpoint at or below `h` only when `h` is not
a multiple of 100. For every height `h >= 1` below `2^64` with `h mod 100 != 0` the result is a
checkpoint height, at most `h`, and no checkpoint lies strictly between it and `h + 1`; for
every `h` with `h mod 100 == 0` the result is `h + 1`, a height above `h`. -/
theorem lastCheckPointHeight_cases (h : Nat) (h1 : 1 ≤ h) (hlt : h < uint64Mod) :
    (h % 100 ≠ 0 →
      IsCheckPointHeight (LastCheckPointHeight h) = true ∧ LastCheckPointHeight h ≤ h ∧
      ∀ c, c ≤ h → IsCheckPointHeight c = true → c ≤ LastCheckPointHeight h) ∧
    (h % 100 = 0 → LastCheckPointHeight h = h + 1 ∧ ¬ LastCheckPointHeight h ≤ h) := by
  have hci : CheckpointInterval.toNat % uint64Mod = 100 := by decide
  have hmod : uint64Mod = 18446744073709551616 := by decide
  have hnowrap : (100 * (h / 100) + 1) % uint64Mod = 100 * (h / 100) + 1 := by
    apply Nat.mod_eq_of_lt
    rw [hmod] at hlt ⊢
    omega
  have hval : LastCheckPointHeight h = 100 * (h / 100) + 1 := by
    unfold LastCheckPointHeight
    simp only [hci]
    exact hnowrap
  have hchk : ∀ c, IsCheckPointHeight c = true ↔ c % 100 = 1 := by
    intro c
    unfold IsCheckPointHeight
    have : CheckpointInterval.toNat = 100 := by decide
    rw [this]
    simp
  constructor
  · intro hne
    refine ⟨?_, ?_, ?_⟩
    · rw [hchk, hval]
      omega
    · rw [hval]
      omega
    · intro c hc hcc
      rw [hchk] at hcc
      rw [hval]
      omega
  · intro h0
    rw [hval]
    omega

theorem lastCheckPointHeight_cases_witness :
    LastCheckPointHeight 100 = 100 + 1 ∧ ¬ LastCheckPointHeight 100 ≤ 100 :=
  (lastCheckPointHeight_cases 100 (by decide) (by decide)).2 (by decide)

end common

namespace consensus
open common core

/-- C29: `maxMultiply(r)` is a `uint32` shift. For every round `r` from 1 to 10 it equals
`2^(3*r)`; for every round from 11 to 20 the shift count is at least 33 and the result is 0,
not `2^(3*r)`. -/
theorem maxMultiply_cases (r : Nat) (h1 : 1 ≤ r) (h20 : r ≤ 20) :
    (r ≤ 10 → RametronenterpriseEngine.maxMultiply r = 2 ^ (3 * r)) ∧
    (11 ≤ r → RametronenterpriseEngine.maxMultiply r = 0 ∧
      RametronenterpriseEngine.maxMultiply r ≠ 2 ^ (3 * r)) := by
  constructor
  · intro h10
    interval_cases r <;> decide
  · intro h11
    interval_cases r <;> decide

theorem maxMultiply_cases_witness :
    RametronenterpriseEngine.maxMultiply 11 = 0 ∧
    RametronenterpriseEngine.maxMultiply 11 ≠ 2 ^ (3 * 11) :=
  (maxMultiply_cases 11 (by decide) (by decide)).2 (by decide)

end consensus

namespace core
open common

/-- C22: `Validate(pool)` returns OK if and only if the pool and the signature are non-nil,
`Addresses` is non-empty, `len(Addresses) == len(Multiplies)`, `Addresses` is strictly
ascending, every address has a non-zero `RandomRewardWeight` for the vote's block, and the
signature verifies against the public keys aggregated with the multiplicities; otherwise it
returns an error. -/
theorem validate_ok_iff (s : bls.Scheme) (a : AggregatedRametronenterpriseVotes)
    (pool : Option RametronenterprisePool) :
    (a.Validate s pool = .ok () ↔
      ∃ p sig, pool = some p ∧ a.Signature = some sig ∧ a.Addresses ≠ [] ∧
        a.Addresses.length = a.Multiplies.length ∧ a.Addresses.Sorted (· < ·) ∧
        (∀ addr ∈ a.Addresses, p.RandomRewardWeight a.Block addr ≠ 0) ∧
        s.VerifyAggregated sig a.Block (p.GetPubKeys a.Addresses) a.Multiplies = true) ∧
    (a.Validate s pool ≠ .ok () → (a.Validate s pool).isError = true) := by
  unfold AggregatedRametronenterpriseVotes.Validate
  cases pool with
  | none => simp [GoResult.isError]
  | some p =>
    cases hsig : a.Signature with
    | none => simp [GoResult.isError]
    | some sig =>
      simp only
      by_cases h0 : a.Addresses.length = 0
      · have : a.Addresses = [] := List.length_eq_zero.1 h0
        simp [h0, this, GoResult.isError]
      · have hne : a.Addresses ≠ [] := fun h => h0 (by rw [h]; rfl)
        rw [if_neg h0]
        by_cases h1 : a.Addresses.length ≠ a.Multiplies.length
        · rw [if_pos h1]
          simp [GoResult.isError, h1]
        · rw [if_neg h1]
          have h1' : a.Addresses.length = a.Multiplies.length := not_not.1 h1
          cases h2 : addressesSorted a.Addresses with
          | false =>
            have hns : ¬ a.Addresses.Sorted (· < ·) := by
              intro hs
              rw [(addressesSorted_iff _).2 hs] at h2
              exact Bool.noConfusion h2
            simp [GoResult.isError, hns]
          | true =>
            have hs : a.Addresses.Sorted (· < ·) := (addressesSorted_iff _).1 h2
            simp only [Bool.not_true, Bool.false_eq_true, if_false]
            cases h3 : a.Addresses.any (fun addr => p.RandomRewardWeight a.Block addr == 0) with
            | true =>
              have hex : ¬ ∀ addr ∈ a.Addresses, p.RandomRewardWeight a.Block addr ≠ 0 := by
                intro hall
                obtain ⟨addr, hmem, hz⟩ := List.any_eq_true.1 h3
                exact hall addr hmem (by simpa using hz)
              simp [GoResult.isError, hex]
            | false =>
              have hall : ∀ addr ∈ a.Addresses, p.RandomRewardWeight a.Block addr ≠ 0 := by
                intro addr hmem hz
                have : a.Addresses.any (fun addr => p.RandomRewardWeight a.Block addr == 0)
                    = true := List.any_eq_true.2 ⟨addr, hmem, by simpa using hz⟩
                rw [h3] at this
                exact Bool.noConfusion this
              simp only [Bool.false_eq_true, if_false]
              cases h4 : s.VerifyAggregated sig a.Block (p.GetPubKeys a.Addresses)
                  a.Multiplies with
              | false => simp [GoResult.isError, h4]
              | true =>
                simp only [Bool.not_true, Bool.false_eq_true, if_false, ne_eq,
                  not_true_eq_false, false_implies, and_true, true_iff]
                exact ⟨p, sig, rfl, rfl, hne, h1', hs, hall, h4⟩

end core

namespace consensus
open common core

theorem processAggregatedVote_keeps_round (s : bls.Scheme) (e e2 : RametronenterpriseEngine)
    (vote : AggregatedRametronenterpriseVotes) (h : e.processAggregatedVote s vote = .ok e2) :
    e2.round = e.round ∧ e2.currVote = e.currVote ∧ (e2.nextVote = none → e.nextVote = none) := by
  have hsame : e2 = e → e2.round = e.round ∧ e2.currVote = e.currVote ∧
      (e2.nextVote = none → e.nextVote = none) := by
    intro he
    rw [he]
    exact ⟨rfl, rfl, fun h => h⟩
  have hnext : ∀ v, e2 = { e with nextVote := some v } → e2.round = e.round ∧
      e2.currVote = e.currVote ∧ (e2.nextVote = none → e.nextVote = none) := by
    intro v he
    rw [he]
    exact ⟨rfl, rfl, fun h => Option.noConfusion h⟩
  unfold RametronenterpriseEngine.processAggregatedVote at h
  by_cases hv : (!e.validateAggregatedVote s vote) = true
  · rw [if_pos hv] at h
    exact hsame (GoResult.ok.inj h).symm
  · rw [if_neg hv] at h
    cases hn : e.nextVote with
    | none =>
      rw [hn] at h
      have := hnext vote (GoResult.ok.inj h).symm
      rw [hn] at this
      exact this
    | some nextVote =>
      rw [hn] at h
      rw [hn] at hsame hnext
      simp only at h
      cases hm : nextVote.Merge s vote with
      | panic msg => rw [hm] at h; exact GoResult.noConfusion h
      | error msg => rw [hm] at h; exact hsame (GoResult.ok.inj h).symm
      | ok r =>
        rw [hm] at h
        cases r with
        | none => exact hsame (GoResult.ok.inj h).symm
        | some candidate =>
          simp only at h
          by_cases hc : (!e.checkMultipliesForRound candidate ((e.round + 1) % uint32Mod)) = true
          · rw [if_pos hc] at h
            exact hsame (GoResult.ok.inj h).symm
          · rw [if_neg hc] at h
            exact hnext candidate (GoResult.ok.inj h).symm

theorem processVote_keeps_round (s : bls.Scheme) (e e2 : RametronenterpriseEngine)
    (vote : RametronenterpriseVote) (h : e.processVote s vote = .ok e2) :
    e2.round = e.round := by
  unfold RametronenterpriseEngine.processVote at h
  split at h
  · simp at h
  · simp at h
  · simp only [GoResult.ok.injEq] at h
    subst h
    rfl
  · simp only [RametronenterpriseEngine.convertVote] at h
    split at h
    · simp only [GoResult.ok.injEq] at h
      subst h
      rfl
    · simp at h

theorem reachableInBlock_round (s : bls.Scheme) (e : RametronenterpriseEngine)
    (h : ReachableInBlock s e) :
    1 ≤ e.round ∧ e.round ≤ 20 ∧ (e.nextVote = none → e.currVote = none) := by
  induction h with
  | startNewBlock e e2 block ledgerPool hstart =>
    unfold RametronenterpriseEngine.StartNewBlock at hstart
    cases ledgerPool with
    | ok pool =>
      simp only [GoResult.ok.injEq] at hstart
      subst hstart
      exact ⟨le_refl _, (by show 1 ≤ 20; decide), fun _ => rfl⟩
    | error msg => simp at hstart
    | panic msg => simp at hstart
  | startNewRound e _ ih =>
    obtain ⟨h1, h2, h3⟩ := ih
    unfold RametronenterpriseEngine.StartNewRound maxRametronenterpriseRound
    by_cases hr : e.round < 20
    · rw [if_pos hr]
      have hmod : (e.round + 1) % uint32Mod = e.round + 1 :=
        Nat.mod_eq_of_lt (by unfold uint32Mod; omega)
      cases hn : e.nextVote with
      | none =>
        simp only [hmod]
        exact ⟨by omega, by omega, fun _ => h3 hn⟩
      | some v =>
        simp only [hmod]
        exact ⟨by omega, by omega, fun h => by simp at h⟩
    · rw [if_neg hr]
      exact ⟨h1, h2, h3⟩
  | processVote e e2 vote _ hp ih =>
    obtain ⟨h1, h2, h3⟩ := ih
    obtain ⟨-, hn, hc⟩ := processVote_keeps_votes s e e2 vote hp
    rw [processVote_keeps_round s e e2 vote hp, hn, hc]
    exact ⟨h1, h2, h3⟩
  | processAggregatedVote e e2 vote _ hp ih =>
    obtain ⟨h1, h2, h3⟩ := ih
    obtain ⟨hr, hc, hn⟩ := processAggregatedVote_keeps_round s e e2 vote hp
    rw [hr, hc]
    exact ⟨h1, h2, fun h => h3 (hn h)⟩

/-- C27: after `StartNewBlock` the round is 1, and in every engine state reached inside a block
the round lies in `[1, 20]`. A `StartNewRound` call with `round < 20` increases the round by
exactly 1 and sets `currVote` to a copy of `nextVote` (same block, addresses, multiplicities and
signature; nil when `nextVote` is nil), and a call with `round == 20` changes neither the round
nor `currVote`. -/
theorem startNewRound_round (s : bls.Scheme) (e : RametronenterpriseEngine)
    (h : ReachableInBlock s e) :
    1 ≤ e.round ∧ e.round ≤ 20 ∧
    (∀ block ledgerPool e2, e.StartNewBlock block ledgerPool = .ok e2 → e2.round = 1) ∧
    (e.round < 20 →
      e.StartNewRound.round = e.round + 1 ∧
      e.StartNewRound.currVote = e.nextVote.map (fun v => v.Copy) ∧
      ∀ v, e.nextVote = some v → v.Copy = v) ∧
    (e.round = 20 → e.StartNewRound = e) := by
  obtain ⟨h1, h2, h3⟩ := reachableInBlock_round s e h
  refine ⟨h1, h2, ?_, ?_, ?_⟩
  · intro block ledgerPool e2 hstart
    unfold RametronenterpriseEngine.StartNewBlock at hstart
    cases ledgerPool with
    | ok pool =>
      simp only [GoResult.ok.injEq] at hstart
      subst hstart
      rfl
    | error msg => simp at hstart
    | panic msg => simp at hstart
  · intro hr
    have hmod : (e.round + 1) % uint32Mod = e.round + 1 :=
      Nat.mod_eq_of_lt (by unfold uint32Mod; omega)
    unfold RametronenterpriseEngine.StartNewRound maxRametronenterpriseRound
    rw [if_pos hr]
    cases hn : e.nextVote with
    | none =>
      refine ⟨hmod, ?_, fun v hv => Option.noConfusion hv⟩
      show e.currVote = none
      exact h3 hn
    | some v =>
      exact ⟨hmod, rfl, fun v _ => rfl⟩
  · intro hr
    unfold RametronenterpriseEngine.StartNewRound maxRametronenterpriseRound
    rw [if_neg (by omega)]

theorem startNewRound_round_witness :
    exampleEngineVoted.StartNewRound.round = exampleEngineVoted.round + 1 ∧
    exampleEngineVoted.StartNewRound.currVote = some ⟨7, [1, 1], [10, 20], some 3⟩ := by
  have hreach : ReachableInBlock bls.exampleScheme exampleEngineVoted := by
    have h0 : ReachableInBlock bls.exampleScheme exampleEngine :=
      ReachableInBlock.startNewBlock (NewRametronenterpriseEngine 4) exampleEngine 7
        (.ok (some examplePool)) rfl
    exact ReachableInBlock.processAggregatedVote exampleEngine exampleEngineVoted
      ⟨7, [1, 1], [10, 20], some 3⟩ h0 (by simp [RametronenterpriseEngine.processAggregatedVote,
        RametronenterpriseEngine.validateAggregatedVote, exampleEngine, exampleEngineVoted,
        HashIsEmpty, RametronenterpriseEngine.checkMultipliesForRound,
        AggregatedRametronenterpriseVotes.Validate, examplePool, bls.exampleScheme, addressesSorted,
        GoResult.isError])
  obtain ⟨h1, h2, -⟩ := (startNewRound_round bls.exampleScheme exampleEngineVoted hreach).2.2.2.1
    (by decide)
  exact ⟨h1, h2⟩

end consensus

namespace consensus
open common core

theorem handleVote_returns (k : VoteHashScheme) (e : RametronenterpriseEngine)
    (vb : RametronenterpriseVoteBookkeeper) (v : RametronenterpriseVote) (t1 t2 : Int)
    (hmax : 0 < vb.maxNumVotes) :
    ∃ e1 vb1, e.HandleVote k vb t1 t2 v = .ok (e1, vb1) ∧
      (mapGet vb1.voteMap (getVoteHash k v)).isSome = true := by
  unfold RametronenterpriseEngine.HandleVote
  by_cases hseen : (vb.HasSeen k t1 v).1 = true
  · simp only [hseen, if_true]
    exact ⟨_, _, rfl, hseen⟩
  · simp only [hseen, Bool.false_eq_true, if_false]
    obtain ⟨vb1, hrec⟩ := record_returns k (vb.HasSeen k t1 v).2 t2 v
      (by
        show (vb.removeOutdatedVotesUnsafe t1).maxNumVotes > 0
        rw [removeOutdatedVotesUnsafe_maxNumVotes]
        exact hmax)
    have hsome := record_map_isSome k _ vb1 t2 v true hrec
    rw [hrec]
    simp only [GoResult.map]
    by_cases hq : e.evIncoming.length < e.queueSize
    · simp only [if_pos hq]
      exact ⟨_, _, rfl, hsome⟩
    · simp only [if_neg hq]
      exact ⟨_, _, rfl, hsome⟩

theorem example_handleVote_thrice :
    ∃ e1 vb1 e2 vb2 e3 vb3,
      (NewRametronenterpriseEngine 10).HandleVote exampleVoteHashScheme
        (CreateRametronenterpriseVoteBookkeeper DefaultMaxNumVotesCached) 0 0 exampleVote
        = .ok (e1, vb1) ∧
      e1.HandleVote exampleVoteHashScheme vb1 (10 * minute) (10 * minute) exampleVote
        = .ok (e2, vb2) ∧
      e2.HandleVote exampleVoteHashScheme vb2 (25 * minute) (25 * minute) exampleVoteResent
        = .ok (e3, vb3) ∧
      e2.evIncoming = [exampleVote] ∧
      e3.evIncoming = [exampleVote, exampleVoteResent] := by
  refine ⟨_, _, _, _, _, _, rfl, rfl, rfl, ?_, ?_⟩ <;> decide

/-- C30 as stated fails: the example vote is handled at minute 0 (recorded and enqueued) and
again at minute 10 (seen, so not recorded anew); a vote with the same address and block handled
at minute 25, within 20 minutes of that second call, is enqueued, because the record of minute
0 has passed its lifetime and `HasSeen` has dropped it. -/
theorem handleVote_resent_after_old_record :
    exampleVoteResent.Address = exampleVote.Address ∧
    exampleVoteResent.Block = exampleVote.Block ∧
    25 * minute - 10 * minute ≤ maxVoteLife ∧
    ∃ e1 vb1 e2 vb2 e3 vb3,
      (NewRametronenterpriseEngine 10).HandleVote exampleVoteHashScheme
        (CreateRametronenterpriseVoteBookkeeper DefaultMaxNumVotesCached) 0 0 exampleVote
        = .ok (e1, vb1) ∧
      e1.HandleVote exampleVoteHashScheme vb1 (10 * minute) (10 * minute) exampleVote
        = .ok (e2, vb2) ∧
      e2.HandleVote exampleVoteHashScheme vb2 (25 * minute) (25 * minute) exampleVoteResent
        = .ok (e3, vb3) ∧
      e2.evIncoming = [exampleVote] ∧
      e3.evIncoming = [exampleVote, exampleVoteResent] :=
  ⟨rfl, rfl, by decide, example_handleVote_thrice⟩

/-- C30, amended: `HandleVote` marks a vote as seen without validating it. For every two votes
`v1` and `v2` with the same `Address` and `Block`, whatever their signatures, and a bookkeeper
with room for at least one record: `HandleVote(v1)` returns, and a following `HandleVote(v2)`
returns without enqueuing `v2` (the engine is unchanged) as long as the record of their hash
has not passed its 20-minute lifetime; the bookkeeper changes only by the removal of outdated
records, the record of the hash staying as it was. The lifetime counts from the `Record` call
that created the record: when `HandleVote(v1)` found no record, it covers every
`HandleVote(v2)` within 20 minutes of it. -/
theorem handleVote_marks_seen (k : VoteHashScheme) (e : RametronenterpriseEngine)
    (vb : RametronenterpriseVoteBookkeeper) (v1 v2 : RametronenterpriseVote)
    (t1 t2 t3 t4 : Int) (ha : v1.Address = v2.Address) (hb : v1.Block = v2.Block)
    (hmax : 0 < vb.maxNumVotes) :
    ∃ e1 vb1, e.HandleVote k vb t1 t2 v1 = .ok (e1, vb1) ∧
      ((∀ r ∈ vb1.voteList, r.Hash = getVoteHash k v1 → r.IsOutdated t3 = false) →
        e1.HandleVote k vb1 t3 t4 v2 = .ok (e1, vb1.removeOutdatedVotesUnsafe t3) ∧
        mapGet (vb1.removeOutdatedVotesUnsafe t3).voteMap (getVoteHash k v1) =
          mapGet vb1.voteMap (getVoteHash k v1)) ∧
      (vb.HasNoRecord (getVoteHash k v1) → t3 - t2 ≤ maxVoteLife →
        ∀ r ∈ vb1.voteList, r.Hash = getVoteHash k v1 → r.IsOutdated t3 = false) := by
  have hh : getVoteHash k v2 = getVoteHash k v1 := by
    unfold getVoteHash
    rw [ha, hb]
  obtain ⟨e1, vb1, hcall, hsome⟩ := handleVote_returns k e vb v1 t1 t2 hmax
  refine ⟨e1, vb1, hcall, ?_, ?_⟩
  · intro hfresh
    have hkeep := removeOutdatedVotesUnsafe_get vb1 t3 _ hfresh
    refine ⟨?_, hkeep⟩
    unfold RametronenterpriseEngine.HandleVote RametronenterpriseVoteBookkeeper.HasSeen
    simp only [hh, hkeep, hsome, if_true]
  · intro hno h3 r hr hrh
    have hno1 := hasNoRecord_removeOutdated vb t1 _ hno
    obtain ⟨vbr, hrec, -, hlist⟩ := record_fresh k (vb.removeOutdatedVotesUnsafe t1) t2 v1
      hno1 (by rw [removeOutdatedVotesUnsafe_maxNumVotes]; exact hmax)
    have hvb1 : vb1 = vbr := by
      unfold RametronenterpriseEngine.HandleVote RametronenterpriseVoteBookkeeper.HasSeen
        at hcall
      simp only [hno1.1, Option.isSome_none, Bool.false_eq_true, if_false, hrec,
        GoResult.map] at hcall
      by_cases hq : e.evIncoming.length < e.queueSize
      · rw [if_pos hq] at hcall
        exact (Prod.mk.inj (GoResult.ok.inj hcall)).2.symm
      · rw [if_neg hq] at hcall
        exact (Prod.mk.inj (GoResult.ok.inj hcall)).2.symm
    rw [hvb1] at hr
    rw [hlist r hr hrh]
    exact isOutdated_false_of_le _ _ _ _ h3

theorem handleVote_marks_seen_witness :
    ∃ e1 vb1,
      (NewRametronenterpriseEngine 10).HandleVote exampleVoteHashScheme
        (CreateRametronenterpriseVoteBookkeeper 3) 0 5 exampleVote = .ok (e1, vb1) ∧
      e1.HandleVote exampleVoteHashScheme vb1 (19 * minute) (19 * minute) exampleVoteResent =
        .ok (e1, vb1.removeOutdatedVotesUnsafe (19 * minute)) := by
  obtain ⟨e1, vb1, h1, h2, h3⟩ := handleVote_marks_seen exampleVoteHashScheme
    (NewRametronenterpriseEngine 10) (CreateRametronenterpriseVoteBookkeeper 3) exampleVote
    exampleVoteResent 0 5 (19 * minute) (19 * minute) rfl rfl (by decide)
  exact ⟨e1, vb1, h1, (h2 (h3 ⟨rfl, fun r hr => absurd hr (List.not_mem_nil r)⟩
    (by decide))).1⟩

end consensus

namespace common

theorem mapGet_eq_none_iff {κ α : Type} [DecidableEq κ] (m : List (κ × α)) (k : κ) :
    mapGet m k = none ↔ k ∉ mapKeys m := by
  induction m with
  | nil => simp [mapGet_nil, mapKeys]
  | cons e m ih =>
    rw [mapGet_cons]
    unfold mapKeys at ih ⊢
    by_cases h : e.1 = k
    · simp [h]
    · rw [if_neg h, ih]
      simp only [List.map_cons, List.mem_cons, not_or]
      exact ⟨fun hk => ⟨fun hke => h hke.symm, hk⟩, fun hk => hk.2⟩

theorem mapKeys_mapDelete {κ α : Type} [DecidableEq κ] (m : List (κ × α)) (k : κ) :
    mapKeys (mapDelete m k) = (mapKeys m).filter (fun x => decide (x ≠ k)) := by
  unfold mapKeys mapDelete
  rw [List.filter_map]
  rfl

theorem mapKeys_mapSet_of_mem {κ α : Type} [DecidableEq κ] (m : List (κ × α)) (k : κ) (v : α)
    (h : k ∈ mapKeys m) : mapKeys (mapSet m k v) = mapKeys m := by
  induction m with
  | nil => simp [mapKeys] at h
  | cons e m ih =>
    unfold mapKeys at h ih ⊢
    simp only [mapSet]
    by_cases he : e.1 = k
    · rw [if_pos he]
      simp [he]
    · rw [if_neg he]
      simp only [List.map_cons, List.mem_cons] at h ⊢
      rcases h with h | h
      · exact absurd h.symm he
      · rw [ih h]

theorem mapKeys_mapSet_of_not_mem {κ α : Type} [DecidableEq κ] (m : List (κ × α)) (k : κ)
    (v : α) (h : k ∉ mapKeys m) : mapKeys (mapSet m k v) = mapKeys m ++ [k] := by
  induction m with
  | nil => rfl
  | cons e m ih =>
    unfold mapKeys at h ih ⊢
    simp only [List.map_cons, List.mem_cons, not_or] at h
    simp only [mapSet]
    rw [if_neg (fun he => h.1 he.symm)]
    simp only [List.map_cons, List.cons_append]
    rw [ih h.2]

end common

namespace consensus
open common core

theorem sameRecords_nil : SameRecords [] [] :=
  ⟨List.nodup_nil, fun r hr => absurd hr (List.not_mem_nil r), List.Perm.refl _,
    List.Pairwise.nil⟩

/-- Dropping the front record together with its map entry keeps the map and the list in step. -/
theorem sameRecords_delete_front (m : List (String × RametronenterpriseVoteRecord))
    (r : RametronenterpriseVoteRecord) (rest : List RametronenterpriseVoteRecord)
    (h : SameRecords m (r :: rest)) : SameRecords (mapDelete m r.Hash) rest := by
  obtain ⟨hnd, hget, hperm, hsorted⟩ := h
  simp only [List.map_cons, List.nodup_cons] at hnd
  have hne : ∀ x ∈ rest, r.Hash ≠ x.Hash := by
    intro x hx heq
    exact hnd.1 (List.mem_map.2 ⟨x, hx, heq.symm⟩)
  refine ⟨hnd.2, ?_, ?_, (List.pairwise_cons.1 hsorted).2⟩
  · intro x hx
    rw [mapGet_mapDelete, if_neg (hne x hx)]
    exact hget x (List.mem_cons_of_mem _ hx)
  · rw [mapKeys_mapDelete]
    have hp := List.Perm.filter (fun x => decide (x ≠ r.Hash)) hperm
    rw [List.map_cons, List.filter_cons_of_neg (by simp)] at hp
    have hself : (rest.map (fun r => r.Hash)).filter (fun x => decide (x ≠ r.Hash)) =
        rest.map (fun r => r.Hash) := by
      apply List.filter_eq_self.2
      intro x hx
      obtain ⟨y, hy, rfl⟩ := List.mem_map.1 hx
      simpa using (hne y hy).symm
    rw [hself] at hp
    exact hp

/-- Adding a record of a new hash, created now, at the back keeps the map and the list in
step. -/
theorem sameRecords_push (m : List (String × RametronenterpriseVoteRecord))
    (l : List RametronenterpriseVoteRecord) (h : String) (now : Int)
    (hs : SameRecords m l) (hnone : mapGet m h = none)
    (hnow : ∀ r ∈ l, r.CreatedAt ≤ now) :
    SameRecords (mapSet m h { Hash := h, Count := 0, CreatedAt := now })
      (l ++ [{ Hash := h, Count := 0, CreatedAt := now }]) := by
  obtain ⟨hnd, hget, hperm, hsorted⟩ := hs
  have hkey : h ∉ mapKeys m := (mapGet_eq_none_iff m h).1 hnone
  have hnotin : h ∉ l.map (fun r => r.Hash) := fun hin => hkey (hperm.mem_iff.2 hin)
  refine ⟨?_, ?_, ?_, ?_⟩
  · rw [List.map_append, List.nodup_append]
    refine ⟨hnd, List.nodup_singleton _, ?_⟩
    intro x hx hx2
    simp only [List.map_cons, List.map_nil, List.mem_singleton] at hx2
    rw [hx2] at hx
    exact hnotin hx
  · intro r hr
    rw [mapGet_mapSet]
    rcases List.mem_append.1 hr with hr | hr
    · have : ¬ h = r.Hash := fun heq => hnotin (List.mem_map.2 ⟨r, hr, heq.symm⟩)
      rw [if_neg this]
      exact hget r hr
    · rw [List.mem_singleton.1 hr, if_pos rfl]
  · rw [mapKeys_mapSet_of_not_mem m h _ hkey, List.map_append]
    exact List.Perm.append hperm (List.Perm.refl _)
  · rw [List.pairwise_append]
    refine ⟨hsorted, List.pairwise_singleton _ _, ?_⟩
    intro a ha b hb
    rw [List.mem_singleton.1 hb]
    exact hnow a ha

theorem sameRecords_get (m : List (String × RametronenterpriseVoteRecord))
    (l : List RametronenterpriseVoteRecord) (hs : SameRecords m l) (h : String)
    (r : RametronenterpriseVoteRecord) :
    mapGet m h = some r ↔ (r ∈ l ∧ r.Hash = h) := by
  obtain ⟨hnd, hget, hperm, -⟩ := hs
  constructor
  · intro hm
    have hkey : h ∈ mapKeys m := by
      by_contra hk
      rw [(mapGet_eq_none_iff m h).2 hk] at hm
      exact Option.noConfusion hm
    obtain ⟨x, hx, hxh⟩ := List.mem_map.1 (hperm.mem_iff.1 hkey)
    have := hget x hx
    rw [hxh, hm] at this
    rw [Option.some.inj this]
    exact ⟨hx, hxh⟩
  · rintro ⟨hr, rfl⟩
    exact hget r hr

end consensus

namespace consensus
open common core

theorem isOutdated_eq_false_iff (r : RametronenterpriseVoteRecord) (now : Int) :
    r.IsOutdated now = false ↔ now - r.CreatedAt ≤ maxVoteLife := by
  unfold RametronenterpriseVoteRecord.IsOutdated
  simp only [decide_eq_false_iff_not, not_lt]

/-- The removal loop keeps the map and the list in step and leaves no outdated record. -/
theorem removeOutdatedVotes_sameRecords (now : Int) (l : List RametronenterpriseVoteRecord) :
    ∀ m : List (String × RametronenterpriseVoteRecord), SameRecords m l →
      SameRecords (removeOutdatedVotes now m l).1 (removeOutdatedVotes now m l).2 ∧
      (∀ x ∈ (removeOutdatedVotes now m l).2, x.IsOutdated now = false) ∧
      (removeOutdatedVotes now m l).2.length ≤ l.length := by
  induction l with
  | nil =>
    intro m hs
    exact ⟨hs, fun x hx => absurd hx (List.not_mem_nil x), le_refl _⟩
  | cons r rest ih =>
    intro m hs
    unfold removeOutdatedVotes
    by_cases ho : r.IsOutdated now = true
    · rw [if_pos ho]
      obtain ⟨h1, h2, h3⟩ := ih _ (sameRecords_delete_front m r rest hs)
      exact ⟨h1, h2, le_trans h3 (Nat.le_succ _)⟩
    · rw [if_neg ho]
      refine ⟨hs, ?_, le_refl _⟩
      have hr : r.IsOutdated now = false := by
        cases h : r.IsOutdated now
        · rfl
        · exact absurd h ho
      intro x hx
      rcases List.mem_cons.1 hx with hx | hx
      · rw [hx]; exact hr
      · have hle := (List.pairwise_cons.1 hs.2.2.2).1 x hx
        rw [isOutdated_eq_false_iff] at hr ⊢
        omega

theorem removeOutdatedVotesUnsafe_tidy (vb : RametronenterpriseVoteBookkeeper) (now : Int)
    (hs : SameRecords vb.voteMap vb.voteList) :
    SameRecords (vb.removeOutdatedVotesUnsafe now).voteMap
      (vb.removeOutdatedVotesUnsafe now).voteList ∧
    (∀ x ∈ (vb.removeOutdatedVotesUnsafe now).voteList, x.IsOutdated now = false) ∧
    (vb.removeOutdatedVotesUnsafe now).voteList.length ≤ vb.voteList.length :=
  removeOutdatedVotes_sameRecords now vb.voteList vb.voteMap hs

/-- Incrementing the count of the record held for a hash keeps the map and the list in step. -/
theorem sameRecords_increment (m : List (String × RametronenterpriseVoteRecord))
    (l : List RametronenterpriseVoteRecord) (h : String) (ex : RametronenterpriseVoteRecord)
    (c : Nat) (hs : SameRecords m l) (hex : mapGet m h = some ex) :
    SameRecords (mapSet m h { ex with Count := c })
      (l.map (fun r => if r = ex then { ex with Count := c } else r)) ∧
    (∀ x ∈ l.map (fun r => if r = ex then { ex with Count := c } else r),
      ∃ y ∈ l, y.CreatedAt = x.CreatedAt) := by
  have hexl := (sameRecords_get m l hs h ex).1 hex
  obtain ⟨hnd, hget, hperm, hsorted⟩ := hs
  have hhash : ∀ r : RametronenterpriseVoteRecord,
      (if r = ex then { ex with Count := c } else r).Hash = r.Hash := by
    intro r
    by_cases hr : r = ex
    · rw [if_pos hr, hr]
    · rw [if_neg hr]
  have hcreated : ∀ r : RametronenterpriseVoteRecord,
      (if r = ex then { ex with Count := c } else r).CreatedAt = r.CreatedAt := by
    intro r
    by_cases hr : r = ex
    · rw [if_pos hr, hr]
    · rw [if_neg hr]
  have hmapeq : (l.map (fun r => if r = ex then { ex with Count := c } else r)).map
      (fun r => r.Hash) = l.map (fun r => r.Hash) := by
    rw [List.map_map]
    apply List.map_congr_left
    intro r _
    exact hhash r
  refine ⟨⟨?_, ?_, ?_, ?_⟩, ?_⟩
  · rw [hmapeq]
    exact hnd
  · intro x hx
    obtain ⟨r, hr, rfl⟩ := List.mem_map.1 hx
    rw [hhash r, mapGet_mapSet]
    by_cases hre : r = ex
    · rw [if_pos hre, hre, if_pos hexl.2.symm]
    · rw [if_neg hre]
      have hne : ¬ h = r.Hash := by
        intro heq
        have := hget r hr
        rw [← heq, hex] at this
        exact hre (Option.some.inj this).symm
      rw [if_neg hne]
      exact hget r hr
  · rw [hmapeq, mapKeys_mapSet_of_mem m h _
      (by
        by_contra hk
        rw [(mapGet_eq_none_iff m h).2 hk] at hex
        exact Option.noConfusion hex)]
    exact hperm
  · rw [List.pairwise_map]
    exact hsorted.imp (fun {a b} hab => by rw [hcreated a, hcreated b]; exact hab)
  · intro x hx
    obtain ⟨r, hr, rfl⟩ := List.mem_map.1 hx
    exact ⟨r, hr, (hcreated r).symm⟩

end consensus

namespace consensus
open common core

theorem tidy_create (maxNumVotes : Nat) (t : Int) :
    (CreateRametronenterpriseVoteBookkeeper maxNumVotes).Tidy t :=
  ⟨sameRecords_nil, Nat.zero_le _, fun r hr => absurd hr (List.not_mem_nil r),
    fun r hr => absurd hr (List.not_mem_nil r)⟩

theorem tidy_removeOutdated (vb : RametronenterpriseVoteBookkeeper) (t now : Int)
    (ht : vb.Tidy t) (hle : t ≤ now) : (vb.removeOutdatedVotesUnsafe now).Tidy now := by
  obtain ⟨hs, hlen, hcreated, -⟩ := ht
  obtain ⟨h1, h2, h3⟩ := removeOutdatedVotesUnsafe_tidy vb now hs
  refine ⟨h1, le_trans h3 hlen, ?_, ?_⟩
  · intro r hr
    exact le_trans (hcreated r (removeOutdatedVotesUnsafe_mem vb now r hr)) hle
  · intro r hr
    exact (isOutdated_eq_false_iff r now).1 (h2 r hr)

/-- What `Record` does to a bookkeeper that is tidy after the removal of the outdated records. -/
theorem record_tidy (k : VoteHashScheme) (vb vb2 : RametronenterpriseVoteBookkeeper)
    (t now : Int) (vote : RametronenterpriseVote) (b : Bool) (ht : vb.Tidy t) (hle : t ≤ now)
    (hrec : vb.Record k now vote = .ok (b, vb2)) :
    vb2.Tidy now ∧ vb2.maxNumVotes = vb.maxNumVotes := by
  obtain ⟨hs1, hlen1, hcreated1, hfresh1⟩ := tidy_removeOutdated vb t now ht hle
  unfold RametronenterpriseVoteBookkeeper.Record at hrec
  cases hget : mapGet (vb.removeOutdatedVotesUnsafe now).voteMap (getVoteHash k vote) with
  | some ex =>
    simp only [hget, GoResult.ok.injEq, Prod.mk.injEq] at hrec
    obtain ⟨hinc, hsrc⟩ := sameRecords_increment _ _ (getVoteHash k vote) ex
      ((ex.Count + 1) % uint64Mod) hs1 hget
    rw [← hrec.2]
    refine ⟨⟨hinc, ?_, ?_, ?_⟩, rfl⟩
    · show (List.map _ _).length ≤ (vb.removeOutdatedVotesUnsafe now).maxNumVotes
      rw [List.length_map]
      exact hlen1
    · intro r hr
      obtain ⟨y, hy, hyc⟩ := hsrc r hr
      rw [← hyc]
      exact hcreated1 y hy
    · intro r hr
      obtain ⟨y, hy, hyc⟩ := hsrc r hr
      rw [← hyc]
      exact hfresh1 y hy
  | none =>
    simp only [hget] at hrec
    by_cases hcap : (vb.removeOutdatedVotesUnsafe now).voteList.length ≥
        (vb.removeOutdatedVotesUnsafe now).maxNumVotes
    · rw [if_pos hcap] at hrec
      cases hvl : (vb.removeOutdatedVotesUnsafe now).voteList with
      | nil => simp [hvl] at hrec
      | cons popped rest =>
        simp only [hvl, GoResult.ok.injEq, Prod.mk.injEq] at hrec
        rw [hvl] at hs1 hlen1 hcreated1 hfresh1
        have hs2 := sameRecords_delete_front _ popped rest hs1
        have hnone2 : mapGet (mapDelete (vb.removeOutdatedVotesUnsafe now).voteMap popped.Hash)
            (getVoteHash k vote) = none := by
          rw [mapGet_mapDelete]
          by_cases hp : popped.Hash = getVoteHash k vote
          · rw [if_pos hp]
          · rw [if_neg hp]; exact hget
        have hpush := sameRecords_push _ rest (getVoteHash k vote) now hs2 hnone2
          (fun r hr => hcreated1 r (List.mem_cons_of_mem _ hr))
        rw [← hrec.2]
        refine ⟨⟨hpush, ?_, ?_, ?_⟩, rfl⟩
        · show (rest ++ [_]).length ≤ (vb.removeOutdatedVotesUnsafe now).maxNumVotes
          rw [List.length_append, List.length_singleton]
          simpa using hlen1
        · intro r hr
          rcases List.mem_append.1 hr with hr | hr
          · exact hcreated1 r (List.mem_cons_of_mem _ hr)
          · rw [List.mem_singleton.1 hr]
        · intro r hr
          rcases List.mem_append.1 hr with hr | hr
          · exact hfresh1 r (List.mem_cons_of_mem _ hr)
          · rw [List.mem_singleton.1 hr]
            show now - now ≤ maxVoteLife
            rw [sub_self]
            decide
    · rw [if_neg hcap] at hrec
      simp only [GoResult.ok.injEq, Prod.mk.injEq] at hrec
      have hpush := sameRecords_push _ _ (getVoteHash k vote) now hs1 hget hcreated1
      rw [← hrec.2]
      refine ⟨⟨hpush, ?_, ?_, ?_⟩, rfl⟩
      · show ((vb.removeOutdatedVotesUnsafe now).voteList ++ [_]).length ≤
          (vb.removeOutdatedVotesUnsafe now).maxNumVotes
        rw [List.length_append, List.length_singleton]
        omega
      · intro r hr
        rcases List.mem_append.1 hr with hr | hr
        · exact hcreated1 r hr
        · rw [List.mem_singleton.1 hr]
      · intro r hr
        rcases List.mem_append.1 hr with hr | hr
        · exact hfresh1 r hr
        · rw [List.mem_singleton.1 hr]
          show now - now ≤ maxVoteLife
          rw [sub_self]
          decide

theorem receiveCount_snd (k : VoteHashScheme) (vb : RametronenterpriseVoteBookkeeper)
    (now : Int) (vote : RametronenterpriseVote) :
    (vb.ReceiveCount k now vote).2 = vb.removeOutdatedVotesUnsafe now := by
  unfold RametronenterpriseVoteBookkeeper.ReceiveCount
  cases hg : mapGet (vb.removeOutdatedVotesUnsafe now).voteMap (getVoteHash k vote) with
  | none => simp only [hg]
  | some r => simp only [hg]

theorem call_tidy (k : VoteHashScheme) (vb vb2 : RametronenterpriseVoteBookkeeper)
    (t now : Int) (c : BookkeeperCall) (ht : vb.Tidy t) (hle : t ≤ now)
    (hcall : vb.call k now c = .ok vb2) :
    vb2.Tidy now ∧ vb2.maxNumVotes = vb.maxNumVotes := by
  cases c with
  | Record vote =>
    unfold RametronenterpriseVoteBookkeeper.call at hcall
    obtain ⟨r, hr, hr2⟩ := (GoResult.map_eq_ok _ _ _).1 hcall
    rw [← hr2]
    exact record_tidy k vb r.2 t now vote r.1 ht hle hr
  | HasSeen vote =>
    unfold RametronenterpriseVoteBookkeeper.call at hcall
    rw [← GoResult.ok.inj hcall]
    exact ⟨tidy_removeOutdated vb t now ht hle, rfl⟩
  | ReceiveCount vote =>
    unfold RametronenterpriseVoteBookkeeper.call at hcall
    rw [← GoResult.ok.inj hcall, receiveCount_snd]
    exact ⟨tidy_removeOutdated vb t now ht hle, rfl⟩

theorem reachable_tidy (k : VoteHashScheme) (maxNumVotes : Nat)
    (vb : RametronenterpriseVoteBookkeeper) (now : Int)
    (h : BookkeeperReachable k maxNumVotes vb now) :
    vb.Tidy now ∧ vb.maxNumVotes = maxNumVotes := by
  induction h with
  | create t => exact ⟨tidy_create maxNumVotes t, rfl⟩
  | call vb vb2 t now c _ hle hcall ih =>
    obtain ⟨ht, hm⟩ := ih
    obtain ⟨h1, h2⟩ := call_tidy k vb vb2 t now c ht hle hcall
    exact ⟨h1, by rw [h2, hm]⟩

end consensus

namespace consensus
open common core

theorem exampleBookkeeper_reachable :
    BookkeeperReachable exampleVoteHashScheme 1 exampleBookkeeper 0 :=
  BookkeeperReachable.call (CreateRametronenterpriseVoteBookkeeper 1) exampleBookkeeper 0 0
    (.Record exampleVote) (BookkeeperReachable.create 0) (le_refl _) (by decide)

/-- C21: for a bookkeeper created with `maxNumVotes >= 1` and a non-decreasing clock, after
every `Record`, `HasSeen` or `ReceiveCount` call the vote map and the FIFO list hold exactly
the same records, one list entry per map key; their number is at most `maxNumVotes`; no held
record is older than 20 minutes at the clock reading of the call; every further call returns;
and when `Record` has to insert a new hash at full capacity, the record it evicts is the front
of the list, which no held record precedes in creation time. -/
theorem bookkeeper_invariant (k : VoteHashScheme) (maxNumVotes : Nat) (hmax : 1 ≤ maxNumVotes)
    (vb : RametronenterpriseVoteBookkeeper) (now : Int)
    (h : BookkeeperReachable k maxNumVotes vb now) :
    (∀ hash r, mapGet vb.voteMap hash = some r ↔ (r ∈ vb.voteList ∧ r.Hash = hash)) ∧
    (vb.voteList.map (fun r => r.Hash)).Nodup ∧
    (mapKeys vb.voteMap).Perm (vb.voteList.map (fun r => r.Hash)) ∧
    (mapKeys vb.voteMap).length = vb.voteList.length ∧
    vb.voteList.length ≤ maxNumVotes ∧
    (∀ r ∈ vb.voteList, now - r.CreatedAt ≤ maxVoteLife) ∧
    (∀ now2 c, now ≤ now2 → ∃ vb2, vb.call k now2 c = .ok vb2) ∧
    (∀ now2 vote popped rest, now ≤ now2 →
      mapGet (vb.removeOutdatedVotesUnsafe now2).voteMap (getVoteHash k vote) = none →
      (vb.removeOutdatedVotesUnsafe now2).voteList = popped :: rest →
      maxNumVotes ≤ (popped :: rest).length →
      ∃ vb2, vb.Record k now2 vote = .ok (true, vb2) ∧
        vb2.voteList =
          rest ++ [{ Hash := getVoteHash k vote, Count := 0, CreatedAt := now2 }] ∧
        mapGet vb2.voteMap popped.Hash = none ∧
        ∀ r ∈ rest, popped.CreatedAt ≤ r.CreatedAt) := by
  obtain ⟨ht, hm⟩ := reachable_tidy k maxNumVotes vb now h
  obtain ⟨hs, hlen, hcreated, hfresh⟩ := ht
  refine ⟨sameRecords_get _ _ hs, hs.1, hs.2.2.1, ?_, by rw [← hm]; exact hlen, hfresh, ?_, ?_⟩
  · have := hs.2.2.1.length_eq
    rw [List.length_map] at this
    exact this
  · intro now2 c _
    cases c with
    | Record vote =>
      obtain ⟨vb2, hrec⟩ := record_returns k vb now2 vote (by rw [hm]; exact hmax)
      exact ⟨vb2, by
        show GoResult.map (fun r => r.2) (vb.Record k now2 vote) = .ok vb2
        rw [hrec]
        rfl⟩
    | HasSeen vote => exact ⟨_, rfl⟩
    | ReceiveCount vote => exact ⟨_, rfl⟩
  · intro now2 vote popped rest hle hnone hlist hfull
    obtain ⟨hs1, -, -, -⟩ := tidy_removeOutdated vb now now2 ⟨hs, hlen, hcreated, hfresh⟩ hle
    rw [hlist] at hs1
    have hpop : mapGet (vb.removeOutdatedVotesUnsafe now2).voteMap popped.Hash = some popped :=
      hs1.2.1 popped (List.mem_cons_self _ _)
    have hne : ¬ getVoteHash k vote = popped.Hash := by
      intro heq
      rw [← heq, hnone] at hpop
      exact Option.noConfusion hpop
    have hcap : (vb.removeOutdatedVotesUnsafe now2).voteList.length ≥
        (vb.removeOutdatedVotesUnsafe now2).maxNumVotes := by
      rw [removeOutdatedVotesUnsafe_maxNumVotes, hm, hlist]
      exact hfull
    refine ⟨{ vb.removeOutdatedVotesUnsafe now2 with
        voteMap := mapSet (mapDelete (vb.removeOutdatedVotesUnsafe now2).voteMap popped.Hash)
          (getVoteHash k vote) { Hash := getVoteHash k vote, Count := 0, CreatedAt := now2 }
        voteList := rest ++ [{ Hash := getVoteHash k vote, Count := 0, CreatedAt := now2 }] },
      ?_, rfl, ?_, (List.pairwise_cons.1 hs1.2.2.2).1⟩
    · have hcap2 : (popped :: rest).length ≥ (vb.removeOutdatedVotesUnsafe now2).maxNumVotes := by
        rw [← hlist]
        exact hcap
      unfold RametronenterpriseVoteBookkeeper.Record
      simp only [hnone, hlist]
      rw [if_pos hcap2]
    · show mapGet (mapSet (mapDelete _ popped.Hash) _ _) popped.Hash = none
      rw [mapGet_mapSet, if_neg hne, mapGet_mapDelete, if_pos rfl]

theorem bookkeeper_invariant_witness :
    exampleBookkeeper.voteList.length ≤ 1 ∧
    ∃ vb2, exampleBookkeeper.call exampleVoteHashScheme 5 (.Record exampleVoteOther) = .ok vb2 :=
  ⟨(bookkeeper_invariant exampleVoteHashScheme 1 (le_refl _) exampleBookkeeper 0
      exampleBookkeeper_reachable).2.2.2.2.1,
    (bookkeeper_invariant exampleVoteHashScheme 1 (le_refl _) exampleBookkeeper 0
      exampleBookkeeper_reachable).2.2.2.2.2.2.1 5 (.Record exampleVoteOther) (by decide)⟩

end consensus

namespace bls

theorem exampleLinearScheme_linear : exampleLinearScheme.Linear exampleVerify where
  verifyAggregated := by
    intro sig block pubkeys multiplies
    simp [exampleLinearScheme]
  aggregate := fun x y => ⟨x + y, rfl⟩
  linear := by
    intro x y z block k1 k2 hz h1 h2
    simp only [exampleLinearScheme, Option.some.injEq] at hz
    simp only [exampleVerify, decide_eq_true_eq] at h1 h2 ⊢
    rw [← hz, h1, h2, Multiset.sum_add, Nat.add_mul]

end bls

namespace state
open common core

theorem getPubKeysLoop_eq_some (get : Address → Option bls.PublicKey) (addrs : List Address)
    (h : ∀ x ∈ addrs, (get x).isSome = true) :
    getPubKeysLoop get addrs = some (addrs.map (fun x => (get x).getD 0)) := by
  induction addrs with
  | nil => rfl
  | cons x xs ih =>
    have hx := h x (List.mem_cons_self _ _)
    obtain ⟨pk, hpk⟩ := Option.isSome_iff_exists.1 hx
    simp [getPubKeysLoop, hpk, ih (fun y hy => h y (List.mem_cons_of_mem _ hy))]

theorem getPubKeysLoop_eq_none (get : Address → Option bls.PublicKey) (addrs : List Address)
    (h : ¬ ∀ x ∈ addrs, (get x).isSome = true) : getPubKeysLoop get addrs = none := by
  induction addrs with
  | nil => exact absurd (fun x hx => absurd hx (List.not_mem_nil x)) h
  | cons x xs ih =>
    cases hx : get x with
    | none => simp [getPubKeysLoop, hx]
    | some pk =>
      have : ¬ ∀ y ∈ xs, (get y).isSome = true := by
        intro hall
        apply h
        intro y hy
        rcases List.mem_cons.1 hy with rfl | hy
        · simp [hx]
        · exact hall y hy
      simp [getPubKeysLoop, hx, ih this]

/-- The keys of a non-empty list of addresses are as many as the addresses only when no worker
is missing. -/
theorem getPubKeys_of_length (get : Address → Option bls.PublicKey) (addrs : List Address)
    (h : (GetPubKeys get addrs).length = addrs.length) :
    ∀ x ∈ addrs, (get x).isSome = true := by
  by_contra hall
  have hnone := getPubKeysLoop_eq_none get addrs hall
  simp only [GetPubKeys, hnone, Option.getD_none, List.length_nil] at h
  have : addrs = [] := List.length_eq_zero.1 h.symm
  subst this
  exact hall (fun x hx => absurd hx (List.not_mem_nil x))

theorem getPubKeys_of_all (get : Address → Option bls.PublicKey) (addrs : List Address)
    (h : ∀ x ∈ addrs, (get x).isSome = true) :
    GetPubKeys get addrs = addrs.map (fun x => (get x).getD 0) := by
  simp [GetPubKeys, getPubKeysLoop_eq_some get addrs h]

end state

namespace core
open common

theorem uint32_sum_no_wrap (m n : Nat)
    (h : ¬ ((m + n) % uint32Mod < m ∨ (m + n) % uint32Mod < n)) :
    (m + n) % uint32Mod = m + n := by
  unfold uint32Mod at *
  omega

/-- On parallel inputs the walk of `Merge` returns the overflow error or parallel slices whose
addresses come from the inputs and whose multi-public-key, for any assignment of keys to
addresses, is the sum of the multi-public-keys of the inputs. -/
theorem mergeLoop_weighted (pk : Address → bls.PublicKey) (aA : List Address) (aM : List Nat)
    (bA : List Address) (bM : List Nat) :
    aA.length = aM.length → bA.length = bM.length →
    (∃ msg, mergeLoop aA aM bA bM = .error msg) ∨
      ∃ rM rA sub, mergeLoop aA aM bA bM = .ok (rM, rA, sub) ∧ rA.length = rM.length ∧
        (∀ z ∈ rA, z ∈ aA ∨ z ∈ bA) ∧
        bls.AggregatePublicKeysVec (rA.map pk) rM =
          bls.AggregatePublicKeysVec (aA.map pk) aM +
            bls.AggregatePublicKeysVec (bA.map pk) bM := by
  induction aA, aM, bA, bM using mergeLoop.induct with
  | case1 aM bM =>
    intro _ _
    exact Or.inr ⟨[], [], true, by simp [mergeLoop], rfl, by simp,
      by simp [bls.AggregatePublicKeysVec]⟩
  | case2 x xs aM bM =>
    intro ha _
    exact Or.inr ⟨aM, x :: xs, true, by simp [mergeLoop], ha, fun z hz => Or.inl hz,
      by simp [bls.AggregatePublicKeysVec]⟩
  | case3 aM y ys bM =>
    intro _ hb
    exact Or.inr ⟨bM, y :: ys, false, by simp [mergeLoop], hb, fun z hz => Or.inr hz,
      by simp [bls.AggregatePublicKeysVec]⟩
  | case4 xs y ys m ms n ns hov =>
    intro _ _
    exact Or.inl ⟨"Signiature multipliers overflowed", by simp [mergeLoop, hov]⟩
  | case5 xs y ys m ms n ns hov ih =>
    intro ha hb
    simp only [List.length_cons, add_left_inj] at ha hb
    rcases ih ha hb with ⟨msg, hmsg⟩ | ⟨rM, rA, sub, hok, hlen, hmem, hsum⟩
    · exact Or.inl ⟨msg, by simp [mergeLoop, hov, hmsg, GoResult.map]⟩
    · refine Or.inr ⟨(m + n) % uint32Mod :: rM, y :: rA, sub,
        by simp [mergeLoop, hov, hok, GoResult.map], by simp [hlen], ?_, ?_⟩
      · intro z hz
        rcases List.mem_cons.1 hz with rfl | hz
        · exact Or.inl (List.mem_cons_self _ _)
        · rcases hmem z hz with h | h
          · exact Or.inl (List.mem_cons_of_mem _ h)
          · exact Or.inr (List.mem_cons_of_mem _ h)
      · simp only [List.map_cons, bls.AggregatePublicKeysVec, hsum, uint32_sum_no_wrap m n hov,
          Multiset.replicate_add]
        abel
  | case6 xs aM y ys bM hno =>
    intro ha hb
    cases aM with
    | nil => exact absurd ha (Nat.succ_ne_zero _)
    | cons m ms =>
      cases bM with
      | nil => exact absurd hb (Nat.succ_ne_zero _)
      | cons n ns => exact absurd rfl (fun h => hno m ms n ns h rfl)
  | case7 x xs y ys bM hne hlt m ms ih =>
    intro ha hb
    obtain ⟨n, ns, rfl⟩ : ∃ n ns, bM = n :: ns := by
      cases bM with
      | nil => exact absurd hb (Nat.succ_ne_zero _)
      | cons n ns => exact ⟨n, ns, rfl⟩
    simp only [List.length_cons, add_left_inj] at ha
    rcases ih ha hb with ⟨msg, hmsg⟩ | ⟨rM, rA, sub, hok, hlen, hmem, hsum⟩
    · exact Or.inl ⟨msg, by simp [mergeLoop, hne, hlt, hmsg, GoResult.map]⟩
    · refine Or.inr ⟨m :: rM, x :: rA, sub,
        by simp [mergeLoop, hne, hlt, hok, GoResult.map], by simp [hlen], ?_, ?_⟩
      · intro z hz
        rcases List.mem_cons.1 hz with rfl | hz
        · exact Or.inl (List.mem_cons_self _ _)
        · rcases hmem z hz with h | h
          · exact Or.inl (List.mem_cons_of_mem _ h)
          · exact Or.inr h
      · simp only [List.map_cons, bls.AggregatePublicKeysVec, hsum]
        abel
  | case8 x xs y ys bM hne hlt =>
    intro ha _
    exact absurd ha (Nat.succ_ne_zero _)
  | case9 x xs aM y ys hne hlt n ns ih =>
    intro ha hb
    obtain ⟨m, ms, rfl⟩ : ∃ m ms, aM = m :: ms := by
      cases aM with
      | nil => exact absurd ha (Nat.succ_ne_zero _)
      | cons m ms => exact ⟨m, ms, rfl⟩
    simp only [List.length_cons, add_left_inj] at hb
    rcases ih ha hb with ⟨msg, hmsg⟩ | ⟨rM, rA, sub, hok, hlen, hmem, hsum⟩
    · exact Or.inl ⟨msg, by simp [mergeLoop, hne, hlt, hmsg, GoResult.map]⟩
    · refine Or.inr ⟨n :: rM, y :: rA, false,
        by simp [mergeLoop, hne, hlt, hok, GoResult.map], by simp [hlen], ?_, ?_⟩
      · intro z hz
        rcases List.mem_cons.1 hz with rfl | hz
        · exact Or.inr (List.mem_cons_self _ _)
        · rcases hmem z hz with h | h
          · exact Or.inl h
          · exact Or.inr (List.mem_cons_of_mem _ h)
      · simp only [List.map_cons, bls.AggregatePublicKeysVec, hsum]
        abel
  | case10 x xs aM y ys hne hlt =>
    intro _ hb
    exact absurd hb (Nat.succ_ne_zero _)

end core

namespace core
open common

/-- A verifying, parallel aggregate has the key of each of its addresses in the pool, and its
signature verifies against its multi-public-key. -/
theorem signatureVerifies_keys (s : bls.Scheme)
    (verify : bls.Signature → Hash → Multiset bls.PublicKey → Bool) (hlin : s.Linear verify)
    (pool : RametronenterprisePool) (get : Address → Option bls.PublicKey)
    (hpool : ∀ addrs, pool.GetPubKeys addrs = state.GetPubKeys get addrs)
    (a : AggregatedRametronenterpriseVotes) (hla : a.Addresses.length = a.Multiplies.length)
    (hva : a.signatureVerifies s pool = true) :
    (∀ x ∈ a.Addresses, (get x).isSome = true) ∧
      ∃ sig, a.Signature = some sig ∧
        verify sig a.Block (bls.AggregatePublicKeysVec
          (a.Addresses.map (fun x => (get x).getD 0)) a.Multiplies) = true := by
  unfold AggregatedRametronenterpriseVotes.signatureVerifies at hva
  cases hsig : a.Signature with
  | none => simp [hsig] at hva
  | some sig =>
    simp only [hsig] at hva
    obtain ⟨hlen, hver⟩ := (hlin.verifyAggregated _ _ _ _).1 hva
    rw [hpool] at hlen hver
    have hall := state.getPubKeys_of_length get a.Addresses (by rw [hlen, hla])
    rw [state.getPubKeys_of_all get a.Addresses hall] at hver
    exact ⟨hall, sig, rfl, hver⟩

/-- C23: for two aggregates `a` and `b` over the same block, each with `Multiplies` parallel to
`Addresses` and with a signature that verifies against its own multi-public-key
`Σᵢ multiplies[i] · pubkey(addresses[i])` over the payload of the block, `a.Merge(b)` returns
nil (with the overflow error, or as the subset outcome) or a fresh aggregate whose signature is
`a.Signature` aggregated with `b.Signature` and verifies against the multi-public-key of the
merged addresses and multiplicities. The BLS operations are those of a scheme that is linear
as the spec describes. -/
theorem merge_signature_verifies (s : bls.Scheme)
    (verify : bls.Signature → Hash → Multiset bls.PublicKey → Bool) (hlin : s.Linear verify)
    (pool : RametronenterprisePool) (get : Address → Option bls.PublicKey)
    (hpool : ∀ addrs, pool.GetPubKeys addrs = state.GetPubKeys get addrs)
    (a b : AggregatedRametronenterpriseVotes) (hblock : a.Block = b.Block)
    (hla : a.Addresses.length = a.Multiplies.length)
    (hlb : b.Addresses.length = b.Multiplies.length)
    (hva : a.signatureVerifies s pool = true) (hvb : b.signatureVerifies s pool = true) :
    (∃ msg, a.Merge s b = .error msg) ∨ a.Merge s b = .ok none ∨
      ∃ r, a.Merge s b = .ok (some r) ∧ r.Block = a.Block ∧
        r.Signature = s.CopyAggregate a.Signature b.Signature ∧
        r.Addresses.length = r.Multiplies.length ∧
        r.signatureVerifies s pool = true := by
  obtain ⟨hka, sa, hsa, hvera⟩ := signatureVerifies_keys s verify hlin pool get hpool a hla hva
  obtain ⟨hkb, sb, hsb, hverb⟩ := signatureVerifies_keys s verify hlin pool get hpool b hlb hvb
  have hnb : ¬ a.Block ≠ b.Block := fun h => h hblock
  unfold AggregatedRametronenterpriseVotes.Merge
  rw [if_neg hnb]
  rcases mergeLoop_weighted (fun x => (get x).getD 0) a.Addresses a.Multiplies b.Addresses
    b.Multiplies hla hlb with ⟨msg, hmsg⟩ | ⟨rM, rA, sub, hok, hlen, hmem, hsum⟩
  · exact Or.inl ⟨msg, by rw [hmsg]⟩
  · right
    rw [hok]
    cases sub with
    | true => exact Or.inl rfl
    | false =>
      right
      obtain ⟨z, hz⟩ := hlin.aggregate sa sb
      refine ⟨_, rfl, rfl, rfl, hlen, ?_⟩
      have hall : ∀ x ∈ rA, (get x).isSome = true := by
        intro x hx
        rcases hmem x hx with h | h
        · exact hka x h
        · exact hkb x h
      show AggregatedRametronenterpriseVotes.signatureVerifies s
        { Block := a.Block, Multiplies := rM, Addresses := rA,
          Signature := s.CopyAggregate a.Signature b.Signature } pool = true
      unfold AggregatedRametronenterpriseVotes.signatureVerifies
      simp only [hsa, hsb, hz]
      rw [hlin.verifyAggregated, hpool, state.getPubKeys_of_all get rA hall]
      refine ⟨by rw [List.length_map]; exact hlen, ?_⟩
      rw [hsum]
      rw [← hblock] at hverb
      exact hlin.linear sa sb z a.Block _ _ hz hvera hverb

theorem merge_signature_verifies_witness :
    exampleAggregateA.signatureVerifies bls.exampleLinearScheme exampleKeyPool = true ∧
    exampleAggregateB.signatureVerifies bls.exampleLinearScheme exampleKeyPool = true ∧
    ((∃ msg, exampleAggregateA.Merge bls.exampleLinearScheme exampleAggregateB = .error msg) ∨
      exampleAggregateA.Merge bls.exampleLinearScheme exampleAggregateB = .ok none ∨
      ∃ r, exampleAggregateA.Merge bls.exampleLinearScheme exampleAggregateB = .ok (some r) ∧
        r.Block = exampleAggregateA.Block ∧
        r.Signature = bls.exampleLinearScheme.CopyAggregate exampleAggregateA.Signature
          exampleAggregateB.Signature ∧
        r.Addresses.length = r.Multiplies.length ∧
        r.signatureVerifies bls.exampleLinearScheme exampleKeyPool = true) :=
  ⟨by decide, by decide,
    merge_signature_verifies bls.exampleLinearScheme bls.exampleVerify
      bls.exampleLinearScheme_linear exampleKeyPool
      (fun x => if x < 100 then some (x + 10) else none) (fun _ => rfl)
      exampleAggregateA exampleAggregateB rfl rfl rfl (by decide) (by decide)⟩

end core

namespace big

/-- A mantissa that fits the precision is kept as it is. -/
theorem setExpAndRound_exact (prec : Nat) (neg : Bool) (m : Nat) (hm : m < 2 ^ prec)
    (hp : (prec : Int) ≤ MaxExp) : Float.setExpAndRound prec neg m 0 = .finite neg m 0 := by
  unfold Float.setExpAndRound
  by_cases h0 : m = 0
  · simp [h0]
  · have hsize : m.size ≤ prec := Nat.size_le.2 hm
    have hsz : ((m.size : Nat) : Int) ≤ MaxExp := le_trans (by exact_mod_cast hsize) hp
    have hshift : m.size - prec = 0 := Nat.sub_eq_zero_of_le hsize
    have h1 : ¬ (0 + (m.size : Int) < MinExp) := by
      unfold MinExp
      omega
    have h2 : ¬ (0 + (m.size : Int) > MaxExp) := by
      omega
    simp only [h0, if_false, h1, h2, hshift, pow_zero, Nat.div_one, Nat.mod_one, mul_zero]
    have h3 : ¬ (1 < 0 ∨ 0 = 1 ∧ m % 2 = 1) := by omega
    simp only [h3, if_false]
    simpa using hsz

theorem isDigits_iff (s : List Nat) :
    isDigits s = true ↔ s ≠ [] ∧ ∀ c ∈ s, 48 ≤ c ∧ c ≤ 57 := by
  cases s with
  | nil => simp [isDigits]
  | cons x xs => simp [isDigits]

/-- A run of digits does not start with a sign. -/
theorem isDigits_head (s : List Nat) (h : isDigits s = true) :
    ¬ (s.head? = some 45 ∨ s.head? = some 43) := by
  obtain ⟨hne, hall⟩ := (isDigits_iff s).1 h
  cases s with
  | nil => simp
  | cons x xs =>
    have := hall x (List.mem_cons_self _ _)
    simp only [List.head?_cons, Option.some.injEq]
    omega

/-- What `SetString` returns for a run of digits. -/
theorem setString_digits (prec : Nat) (other : List Nat → Option Float) (s : List Nat)
    (h : isDigits s = true) :
    SetString prec other s =
      if digitsValue s = 0 then some (.finite false 0 0)
      else if ((digitsValue s).size : Int) > MaxExp then none
      else some (Float.setExpAndRound prec false (digitsValue s) 0) := by
  have hh := isDigits_head s h
  have h45 : ¬ s.head? = some 45 := fun h => hh (Or.inl h)
  have hd : decide (s.head? = some 45) = false := by simp [h45]
  unfold SetString
  simp only [if_neg hh, h, if_true, hd]

/-- What `SetString` returns for a minus sign followed by a run of digits. -/
theorem setString_minus_digits (prec : Nat) (other : List Nat → Option Float) (s : List Nat)
    (h : isDigits s = true) :
    SetString prec other (45 :: s) =
      if digitsValue s = 0 then some (.finite true 0 0)
      else if ((digitsValue s).size : Int) > MaxExp then none
      else some (Float.setExpAndRound prec true (digitsValue s) 0) := by
  unfold SetString
  simp [h]

/-- Rounding a negative non-zero integer gives a negative value. -/
theorem setExpAndRound_sign (prec : Nat) (m : Nat) (hm : m ≠ 0) (hprec : 0 < prec) :
    (Float.setExpAndRound prec true m 0).Sign < 0 := by
  have h1 : ¬ (0 + (m.size : Int) < MinExp) := by
    unfold MinExp
    omega
  have hq : m / 2 ^ (m.size - prec) ≠ 0 := by
    intro hq
    have hlt : m < 2 ^ (m.size - prec) := (Nat.div_eq_zero_iff (by positivity)).1 hq
    have hle : m.size ≤ m.size - prec := Nat.size_le.2 hlt
    have hpos : 0 < m.size := Nat.size_pos.2 (Nat.pos_of_ne_zero hm)
    omega
  unfold Float.setExpAndRound
  dsimp only
  rw [if_neg hm]
  split_ifs <;> simp [Float.Sign, hq]

end big

namespace types
open big

theorem equalFoldWei_spec (t : List Nat) (h : equalFoldWei t = true) :
    t.length = 3 ∧ ∀ c ∈ t, 57 < c := by
  match t, h with
  | [a, b, c], h =>
    simp only [equalFoldWei, Bool.and_eq_true, Bool.or_eq_true, decide_eq_true_eq] at h
    refine ⟨rfl, ?_⟩
    intro x hx
    simp only [List.mem_cons, List.mem_singleton, List.not_mem_nil, or_false] at hx
    omega

/-- A string of signs and digits does not end in `wei`. -/
theorem suffixTest_small (s : List Nat) (h : ∀ c ∈ s, c ≤ 57) :
    (decide (s.length > 3) && equalFoldWei (s.drop (s.length - 3))) = false := by
  by_contra hne
  simp only [Bool.not_eq_false, Bool.and_eq_true, decide_eq_true_eq] at hne
  obtain ⟨hlen, hfold⟩ := hne
  obtain ⟨h3, hnot⟩ := equalFoldWei_spec _ hfold
  cases hd : s.drop (s.length - 3) with
  | nil => simp [hd] at h3
  | cons x xs =>
    have hx : x ∈ s := List.mem_of_mem_drop (by rw [hd]; exact List.mem_cons_self _ _)
    have h1 := hnot x (by rw [hd]; exact List.mem_cons_self _ _)
    have h2 := h x hx
    omega

/-- The result of `ParseCoinAmount` on a string without the suffix. -/
theorem parseCoinAmount_plain (other : List Nat → Option big.Float) (input : List Nat)
    (hno : (decide (input.length > 3) &&
      equalFoldWei (input.drop (input.length - 3))) = false) :
    ParseCoinAmount other input =
      match big.SetString 1024 other input with
      | none => (none, false)
      | some f =>
        if f.Sign < 0 then (none, false) else ((f.MulUint64 1024 (10 ^ 18)).Int, true) := by
  unfold ParseCoinAmount
  simp only [hno, Bool.false_eq_true, if_false, Bool.not_false, if_true]

/-- The result of `ParseCoinAmount` on a non-empty string followed by the suffix. -/
theorem parseCoinAmount_wei (other : List Nat → Option big.Float) (body sfx : List Nat)
    (hne : body ≠ []) (hs : equalFoldWei sfx = true) :
    ParseCoinAmount other (body ++ sfx) =
      match big.SetString 1024 other body with
      | none => (none, false)
      | some f => if f.Sign < 0 then (none, false) else (f.Int, true) := by
  have h3 := (equalFoldWei_spec sfx hs).1
  have hpos : 0 < body.length := List.length_pos.2 hne
  have hlen : (body ++ sfx).length - 3 = body.length := by
    rw [List.length_append, h3]
    omega
  have htest : (decide ((body ++ sfx).length > 3) &&
      equalFoldWei ((body ++ sfx).drop ((body ++ sfx).length - 3))) = true := by
    rw [hlen, List.drop_left, hs, Bool.and_true, decide_eq_true_eq, List.length_append, h3]
    omega
  unfold ParseCoinAmount
  simp only [htest, if_true, Bool.not_true, Bool.false_eq_true, if_false]
  rw [hlen, List.take_left]

end types

namespace types
open big

set_option maxRecDepth 100000 in
theorem exampleHugeDigits_isDigits : isDigits exampleHugeDigits = true := by decide

set_option maxRecDepth 100000 in
theorem exampleHugeDigits_value : digitsValue exampleHugeDigits = 2 ^ 1024 + 1 := by decide

/-- The integer `2^1024 + 1` of 1025 bits is rounded to `2^1023 × 2`. -/
theorem setExpAndRound_huge :
    Float.setExpAndRound 1024 false (2 ^ 1024 + 1) 0 = .finite false (2 ^ 1023) 1 := by
  have hsz : (2 ^ 1024 + 1 : Nat).size = 1025 := by
    apply le_antisymm
    · exact Nat.size_le.2 (by norm_num)
    · exact Nat.lt_size.2 (by norm_num)
  have hq : (2 ^ 1023 : Nat).size = 1024 := Nat.size_pow
  have hdiv : (2 ^ 1024 + 1) / 2 ^ (1025 - 1024) = 2 ^ 1023 := by norm_num
  have hmod : (2 ^ 1024 + 1) % 2 ^ (1025 - 1024) = 1 := by norm_num
  unfold Float.setExpAndRound
  simp only [hsz, hdiv, hmod]
  have hup : ¬ (2 ^ (1025 - 1024) < 2 * 1 ∨
      (2 * 1 = 2 ^ (1025 - 1024) ∧ 2 ^ 1023 % 2 = 1)) := by norm_num
  simp only [hup, if_false, hq]
  norm_num [MinExp, MaxExp]

/-- C25 (the claim as stated fails): the 309 decimal digits of `2^1024 + 1` followed by `wei`
denote the integer `2^1024 + 1`, and `ParseCoinAmount` returns `(2^1024, true)`: the value is
read into a `big.Float` of 1024 bits of precision and rounded. -/
theorem parseCoinAmount_rounds_above_1024_bits :
    isDigits exampleHugeDigits = true ∧ digitsValue exampleHugeDigits = 2 ^ 1024 + 1 ∧
    ParseCoinAmount (fun _ => none) (exampleHugeDigits ++ bytesOf "wei") =
      (some (2 ^ 1024), true) ∧
    ParseCoinAmount (fun _ => none) (exampleHugeDigits ++ bytesOf "wei") ≠
      (some ((2 ^ 1024 + 1 : Nat) : Int), true) := by
  have hne : exampleHugeDigits ≠ [] := ((isDigits_iff _).1 exampleHugeDigits_isDigits).1
  have hres : ParseCoinAmount (fun _ => none) (exampleHugeDigits ++ bytesOf "wei") =
      (some (2 ^ 1024), true) := by
    rw [parseCoinAmount_wei _ _ _ hne (by decide),
      setString_digits _ _ _ exampleHugeDigits_isDigits, exampleHugeDigits_value]
    have hsz : (2 ^ 1024 + 1 : Nat).size = 1025 := by
      apply le_antisymm
      · exact Nat.size_le.2 (by norm_num)
      · exact Nat.lt_size.2 (by norm_num)
    rw [hsz, setExpAndRound_huge]
    norm_num [MaxExp, Float.Sign, Float.Int]
  refine ⟨exampleHugeDigits_isDigits, exampleHugeDigits_value, hres, ?_⟩
  rw [hres]
  intro h
  simp only [Prod.mk.injEq, Option.some.injEq, and_true] at h
  norm_num at h

/-- C25 (amended): for a run of decimal digits that denotes `n`, `ParseCoinAmount` returns
`(n * 10^18, true)` for the digits alone when `n * 10^18 < 2^1024`, and `(n, true)` for the
digits followed by `wei` in any letter case when `n < 2^1024`; for the digits of `n > 0` after
a minus sign, and for every string whose numeric part `SetString` reads as a negative value, it
returns `(nil, false)`. -/
theorem parseCoinAmount_digits (other : List Nat → Option big.Float) (ds sfx : List Nat)
    (n : Nat) (hd : isDigits ds = true) (hn : digitsValue ds = n)
    (hs : equalFoldWei sfx = true) :
    (n * 10 ^ 18 < 2 ^ 1024 →
      ParseCoinAmount other ds = (some ((n * 10 ^ 18 : Nat) : Int), true)) ∧
    (n < 2 ^ 1024 → ParseCoinAmount other (ds ++ sfx) = (some (n : Int), true)) ∧
    (n ≠ 0 → ParseCoinAmount other (45 :: ds) = (none, false) ∧
      ParseCoinAmount other ((45 :: ds) ++ sfx) = (none, false)) ∧
    (∀ input f, (decide (input.length > 3) &&
        equalFoldWei (input.drop (input.length - 3))) = false →
      big.SetString 1024 other input = some f → f.Sign < 0 →
      ParseCoinAmount other input = (none, false)) ∧
    (∀ body f, body ≠ [] → big.SetString 1024 other body = some f → f.Sign < 0 →
      ParseCoinAmount other (body ++ sfx) = (none, false)) := by
  obtain ⟨hne, hall⟩ := (isDigits_iff ds).1 hd
  have hprec : ((1024 : Nat) : Int) ≤ MaxExp := by
    unfold MaxExp
    norm_num
  have hset : ∀ m, m < 2 ^ 1024 → digitsValue ds = m →
      big.SetString 1024 other ds = some (.finite false m 0) := by
    intro m hm hv
    rw [setString_digits _ _ _ hd, hv]
    by_cases h0 : m = 0
    · simp [h0]
    · have hsize : m.size ≤ 1024 := Nat.size_le.2 hm
      have hsz : ¬ ((m.size : Int) > MaxExp) := by
        unfold MaxExp
        omega
      rw [if_neg h0, if_neg hsz, setExpAndRound_exact 1024 false m hm hprec]
  have hminus : n ≠ 0 → ∀ r : big.Float → Option Int, (match big.SetString 1024 other (45 :: ds) with
      | none => ((none : Option Int), false)
      | some f => if f.Sign < 0 then (none, false) else (r f, true)) = (none, false) := by
    intro h0 r
    rw [setString_minus_digits _ _ _ hd, hn, if_neg h0]
    by_cases hsz : ((n.size : Int) > MaxExp)
    · rw [if_pos hsz]
    · rw [if_neg hsz]
      simp only [setExpAndRound_sign 1024 n h0 (by norm_num), if_true]
  refine ⟨?_, ?_, ?_, ?_, ?_⟩
  · intro hlt
    have hn1 : n < 2 ^ 1024 := lt_of_le_of_lt (Nat.le_mul_of_pos_right n (by norm_num)) hlt
    rw [parseCoinAmount_plain other ds
      (suffixTest_small ds (fun c hc => (hall c hc).2)), hset n hn1 hn]
    simp only [Float.Sign, Float.MulUint64]
    rw [setExpAndRound_exact 1024 false (n * 10 ^ 18) hlt hprec]
    by_cases h0 : n = 0
    · simp [h0, Float.Int]
    · simp [h0, Float.Int]
  · intro hlt
    rw [parseCoinAmount_wei other ds sfx hne hs, hset n hlt hn]
    by_cases h0 : n = 0
    · simp [h0, Float.Int, Float.Sign]
    · simp [h0, Float.Int, Float.Sign]
  · intro h0
    constructor
    · rw [parseCoinAmount_plain other (45 :: ds) (suffixTest_small _ (by
        intro c hc
        rcases List.mem_cons.1 hc with rfl | hc
        · norm_num
        · exact (hall c hc).2))]
      exact hminus h0 _
    · rw [parseCoinAmount_wei other (45 :: ds) sfx (List.cons_ne_nil _ _) hs]
      exact hminus h0 _
  · intro input f hno hf hsign
    rw [parseCoinAmount_plain other input hno, hf]
    simp only [hsign, if_true]
  · intro body f hb hf hsign
    rw [parseCoinAmount_wei other body sfx hb hs, hf]
    simp only [hsign, if_true]

theorem parseCoinAmount_digits_witness :
    ParseCoinAmount (fun _ => none) (bytesOf "1") = (some ((1 * 10 ^ 18 : Nat) : Int), true) ∧
    ParseCoinAmount (fun _ => none) (bytesOf "1" ++ bytesOf "Wei") =
      (some ((1 : Nat) : Int), true) ∧
    ParseCoinAmount (fun _ => none) (45 :: bytesOf "1") = (none, false) :=
  ⟨(parseCoinAmount_digits (fun _ => none) (bytesOf "1") (bytesOf "Wei") 1 (by decide)
      (by decide) (by decide)).1 (by norm_num),
    (parseCoinAmount_digits (fun _ => none) (bytesOf "1") (bytesOf "Wei") 1 (by decide)
      (by decide) (by decide)).2.1 (by norm_num),
    ((parseCoinAmount_digits (fun _ => none) (bytesOf "1") (bytesOf "Wei") 1 (by decide)
      (by decide) (by decide)).2.2.1 (by norm_num)).1⟩

end types

